import Mathlib

/-! # Jellyfish large hash array

A shallow embedding of `jellyfish/large_hash_array.hpp` (the bit-packed
open-addressing counting hash table) and theorems about it.

Machine words (`word = uint64_t`, `size_t`) are natural numbers below `2 ^ 64`;
every operation that can wrap is reduced modulo `2 ^ 64` explicitly.  The memory
block `data_` is a map from word index to word.  Compare-and-swap is executed by
a single thread, so it succeeds on its first attempt.
-/

namespace LargeHash

/-! ## Machine words -/

/-- Word size in bits (`wsize`). -/
def wsize : Nat := 64

/-- Mask full of ones (`fmask`). -/
def fmask : Nat := 2 ^ 64 - 1

/-- Truncation of an arithmetic result to a 64-bit word. -/
def wtrunc (x : Nat) : Nat := x % 2 ^ 64

/-- Left shift of a word: `x << n`. -/
def wshl (x n : Nat) : Nat := (x <<< n) % 2 ^ 64

/-- Bitwise complement of a word: `~x`. -/
def wnot (x : Nat) : Nat := fmask ^^^ x

/-- Subtraction of words with wrap-around: `x - y`. -/
def wsub (x y : Nat) : Nat := (x + (2 ^ 64 - y % 2 ^ 64)) % 2 ^ 64

/-- The memory block `data_`: word index to word content. -/
abbrev Mem := Nat → Nat

/-- Store of one word. -/
def Mem.write (m : Mem) (i v : Nat) : Mem := fun j => if j = i then v else m j

/-! ## The key type

The key type is a template parameter of the array; the array only uses
`get_bits`, `set_bits` and equality. -/

/-- Modelled from the spec: `Key::get_bits(start, len)` of the external key type
(`mer_dna.hpp` is not among the sources); returns bits `[start, start+len)` as
the low bits of a word.  A key is the natural number of its bits. -/
def get_bits (key start len : Nat) : Nat := (key >>> start) % 2 ^ len

/-- Modelled from the spec: `Key::set_bits(start, len, bits)` of the external key
type; writes the low `len` bits of `bits` into positions `[start, start+len)`
and leaves the other positions as they are. -/
def set_bits (key start len bits : Nat) : Nat :=
  (key % 2 ^ start) ||| ((bits % 2 ^ len) <<< start) |||
    ((key >>> (start + len)) <<< (start + len))

/-! ## Offsets

`Offsets<word>` (`offsets_key_value.hpp`) is not among the sources.  The records
below carry exactly the fields the array reads; the table itself is a parameter
of the array. -/

/-- Key part of an offset descriptor (`offset_t::key`). -/
structure KeyOffsets where
  woff : Nat
  boff : Nat
  shift : Nat
  cshift : Nat
  mask1 : Nat
  mask2 : Nat
  sb_mask1 : Nat
  sb_mask2 : Nat
  lb_mask : Nat
  full_words : Bool

/-- Value part of an offset descriptor (`offset_t::val`). -/
structure ValOffsets where
  woff : Nat
  boff : Nat
  shift : Nat
  cshift : Nat
  mask1 : Nat
  mask2 : Nat

/-- Offset descriptor of one cell layout (`offset_t`). -/
structure Offset where
  key : KeyOffsets
  val : ValOffsets

/-- The `Offsets<word>` object: per in-block slot index the normal and the large
descriptor, and the lengths the array asks it for. -/
structure Offsets where
  block_len : Nat
  block_word_len : Nat
  normal : Nat → Offset
  large : Nat → Offset
  reprobe_len : Nat
  reprobe_mask : Nat
  val_len : Nat
  lval_len : Nat

/-- Modelled from the spec: `Offsets::word_offset(id, &o, &lo, base)`, which is
not among the sources: slot `id` lives in block `id / block_len`, which starts
`block_word_len` words per block into the memory, and uses the descriptors of
in-block index `id % block_len`.  Returns the word index of the block, `o` and
`lo`. -/
def Offsets.word_offset (f : Offsets) (id : Nat) : Nat × Offset × Offset :=
  (f.block_word_len * (id / f.block_len), f.normal (id % f.block_len),
    f.large (id % f.block_len))

/-! ## The array -/

/-- The immutable members of `array`: everything but the memory block. The hash
matrices (`rectangular_binary_matrix.hpp`, not among the sources) appear through
their `times` functions. -/
structure Ary where
  lsize : Nat
  reprobe_limit : Nat
  key_len : Nat
  offsets : Offsets
  reprobes : Nat → Nat
  hash_times : Nat → Nat
  hash_inverse_times : Nat → Nat

/-- Member `size_ = 1 << lsize_`. -/
def Ary.size (a : Ary) : Nat := 2 ^ a.lsize

/-- Member `size_mask_ = size_ - 1`. -/
def Ary.size_mask (a : Ary) : Nat := a.size - 1

/-- Member `raw_key_len_ = key_len_ - lsize_`. -/
def Ary.raw_key_len (a : Ary) : Nat := a.key_len - a.lsize

/-- Sequential `set_key(w, nkey, free_mask, equal_mask, is_new)`: returns the
result, `*is_new` and the memory.  The compare-and-swap of a single thread
succeeds at once. -/
def set_key (m : Mem) (w nkey free_mask equal_mask : Nat) : Bool × Bool × Mem :=
  let ow := m w
  if ow &&& free_mask = 0 then
    (true, true, m.write w (ow ||| nkey))
  else
    (decide (ow &&& equal_mask = nkey), false, m)

/-- Sequential `add_val(w, val, shift, mask)`: returns the carry and the
memory. -/
def add_val (m : Mem) (w val shift mask : Nat) : Nat × Mem :=
  let ow := m w
  let nval := wtrunc (((ow &&& mask) >>> shift) + val)
  let nw := (ow &&& wnot mask) ||| (wshl nval shift &&& mask)
  (nval &&& wnot (mask >>> shift), m.write w nw)

/-- What a successful claim hands back: the slot `*id`, the word index `*_w` of
the block and the descriptor `*_ao`. -/
structure Claimed where
  id : Nat
  w : Nat
  ao : Offset

/-- The inner loop of `claim_key` that copies further full words of a long key:
`while(bits_copied + wsize - 1 <= key_len_ && key_claimed)`.  The state is
`(bits_copied, copied_full_words, key_claimed, is_new, memory)`.  Every round
adds `wsize - 1` to `bits_copied`, so the loop condition fails after at most
`key_len_` rounds, which is the count given by `claim_key_attempt`. -/
def claim_key_full_words (a : Ary) (key kw sb_mask1 : Nat) :
    Nat → Nat → Nat → Bool → Bool → Mem → Nat × Nat × Bool × Bool × Mem
  | 0, bits_copied, copied, key_claimed, is_new, m =>
      (bits_copied, copied, key_claimed, is_new, m)
  | n + 1, bits_copied, copied, key_claimed, is_new, m =>
      if bits_copied + wsize - 1 ≤ a.key_len ∧ key_claimed = true then
        let nkey := get_bits key bits_copied (wsize - 1) ||| sb_mask1
        let r := set_key m (kw + (copied + 1)) nkey fmask fmask
        claim_key_full_words a key kw sb_mask1 n (bits_copied + (wsize - 1)) (copied + 1)
          r.1 r.2.1 r.2.2
      else
        (bits_copied, copied, key_claimed, is_new, m)

/-- One round of the `do ... while(!key_claimed)` loop of `claim_key`, up to the
test `if(!key_claimed)`: the attempt to write `akey` and the remaining bits of
`key` into the cell of slot `cid`.  Returns `key_claimed`, `*is_new`, the memory,
and the `w` and `o` of the round.  The `assert` of the source is not modelled.
Differences of `unsigned`/`int` lengths use truncated subtraction. -/
def claim_key_attempt (a : Ary) (m : Mem) (key akey cid : Nat) :
    Bool × Bool × Mem × Nat × Offset :=
  let to_copy := min (wsize - a.offsets.reprobe_len) (a.key_len - a.lsize)
  let abits_copied := a.lsize + to_copy
  let wo := a.offsets.word_offset cid
  let w := wo.1
  let o := wo.2.1
  let kw := w + o.key.woff
  if o.key.sb_mask1 ≠ 0 then
    -- key split on multiple words
    let nkey := (wshl akey o.key.boff ||| o.key.sb_mask1) &&& o.key.mask1
    let r1 := set_key m kw nkey o.key.mask1 o.key.mask1
    if r1.1 = true then
      let nkey := akey >>> o.key.shift
      if o.key.full_words = true then
        let nkey := (nkey ||| wshl (get_bits key abits_copied (o.key.shift - 1))
          (wsize - o.key.shift)) ||| o.key.sb_mask1
        let bits_copied := abits_copied + (o.key.shift - 1)
        let r2 := set_key r1.2.2 (kw + 1) nkey fmask fmask
        let l := claim_key_full_words a key kw o.key.sb_mask1 a.key_len bits_copied 1
          r2.1 r2.2.1 r2.2.2
        let bits_copied := l.1
        let copied := l.2.1
        if o.key.sb_mask2 ≠ 0 ∧ l.2.2.1 = true then
          let nkey := get_bits key bits_copied (a.key_len - bits_copied) ||| o.key.sb_mask2
          let r3 := set_key l.2.2.2.2 (kw + (copied + 1)) nkey o.key.mask2 o.key.mask2
          (r3.1, r3.2.1, r3.2.2, w, o)
        else
          (l.2.2.1, l.2.2.2.1, l.2.2.2.2, w, o)
      else if o.key.sb_mask2 ≠ 0 then
        let nkey := ((nkey ||| wshl (get_bits key abits_copied (a.key_len - abits_copied))
          (wsize - o.key.shift)) ||| o.key.sb_mask2) &&& o.key.mask2
        let r2 := set_key r1.2.2 (kw + 1) nkey o.key.mask2 o.key.mask2
        (r2.1, r2.2.1, r2.2.2, w, o)
      else
        (r1.1, r1.2.1, r1.2.2, w, o)
    else
      (r1.1, r1.2.1, r1.2.2, w, o)
  else
    -- key on one word
    let nkey := wshl akey o.key.boff &&& o.key.mask1
    let r := set_key m kw nkey o.key.mask1 o.key.mask1
    (r.1, r.2.1, r.2.2, w, o)

/-- The `do ... while(!key_claimed)` loop of `claim_key`, `id0` being the `*id`
on entry.  The first argument counts the reprobes still allowed,
`reprobe_limit - reprobe`: when it is `0` the test `++reprobe > reprobe_limit`
succeeds and the function returns false. -/
def claim_key_loop (a : Ary) (key id0 : Nat) :
    Nat → Nat → Nat → Nat → Mem → Option Claimed × Bool × Mem
  | left, reprobe, cid, akey, m =>
    let r := claim_key_attempt a m key akey cid
    if r.1 = true then
      (some ⟨cid, r.2.2.2.1, r.2.2.2.2⟩, r.2.1, r.2.2.1)
    else
      match left with
      | 0 => (none, r.2.1, r.2.2.1)
      | left + 1 =>
        claim_key_loop a key id0 left (reprobe + 1)
          (wtrunc (id0 + a.reprobes (reprobe + 1)) &&& a.size_mask)
          ((akey &&& wnot a.offsets.reprobe_mask) ||| (reprobe + 1 + 1)) r.2.2.1

/-- Method `claim_key(key, is_new, id, _ao, _w)`: `some` of the outputs when it
returns true, `none` when it returns false; then `*is_new` and the memory. -/
def claim_key (a : Ary) (m : Mem) (key id : Nat) : Option Claimed × Bool × Mem :=
  let to_copy := min (wsize - a.offsets.reprobe_len) (a.key_len - a.lsize)
  let akey := 1 ||| wshl (get_bits key a.lsize to_copy) a.offsets.reprobe_len
  claim_key_loop a key id a.reprobe_limit 0 id akey m

/-- One round of the `do ... while(!key_claimed)` loop of `claim_large_key`, up
to the test `if(!key_claimed)`.  Returns `key_claimed`, the memory, and the `w`
and `lo` of the round.  `uint_t` is taken to be as wide as `word`. -/
def claim_large_key_attempt (a : Ary) (m : Mem) (reprobe cid : Nat) :
    Bool × Mem × Nat × Offset :=
  let wo := a.offsets.word_offset cid
  let w := wo.1
  let o := wo.2.1
  let lo := wo.2.2
  let kw := w + lo.key.woff
  if lo.key.sb_mask1 ≠ 0 then
    -- key split on multiple words
    let nkey := ((wshl reprobe lo.key.boff ||| lo.key.sb_mask1) ||| lo.key.lb_mask)
      &&& lo.key.mask1
    let r1 := set_key m kw nkey o.key.mask1 lo.key.mask1
    if r1.1 = true then
      let nkey := ((reprobe >>> lo.key.shift) ||| lo.key.sb_mask2) &&& lo.key.mask2
      let r2 := set_key r1.2.2 (kw + 1) nkey
        (if o.key.full_words = true then fmask else o.key.mask2) lo.key.mask2
      (r2.1, r2.2.2, w, lo)
    else
      (r1.1, r1.2.2, w, lo)
  else
    -- key on 1 word
    let nkey := (wshl reprobe lo.key.boff ||| lo.key.lb_mask) &&& lo.key.mask1
    let r := set_key m kw nkey o.key.mask1 lo.key.mask1
    (r.1, r.2.2, w, lo)

/-- The `do ... while(!key_claimed)` loop of `claim_large_key`, `id0` being the
`*id` on entry.  The first argument counts the reprobes still allowed,
`reprobe_limit - reprobe`. -/
def claim_large_key_loop (a : Ary) (id0 : Nat) :
    Nat → Nat → Nat → Mem → Option Claimed × Mem
  | left, reprobe, cid, m =>
    let r := claim_large_key_attempt a m reprobe cid
    if r.1 = true then
      (some ⟨cid, r.2.2.1, r.2.2.2⟩, r.2.1)
    else
      match left with
      | 0 => (none, r.2.1)
      | left + 1 =>
        claim_large_key_loop a id0 left (reprobe + 1)
          (wtrunc (id0 + a.reprobes (reprobe + 1)) &&& a.size_mask) r.2.1

/-- Method `claim_large_key(id, _ao, _w)`: `some` of the outputs when it returns
true, `none` when it returns false; then the memory. -/
def claim_large_key (a : Ary) (m : Mem) (id : Nat) : Option Claimed × Mem :=
  claim_large_key_loop a id a.reprobe_limit 0 id m

/-- Result of `add_rec`, `add` and `set`: the returned flag, `*is_new`, `*eid`
and the memory.  `eid` is written by the source only after a successful claim;
when the claim fails the field repeats the slot given on entry. -/
structure AddResult where
  ok : Bool
  is_new : Bool
  eid : Nat
  mem : Mem

/-- The increment of a value field in `add_rec`: `add_val` on the first word and,
when there is a carry and the field is split, on the second word.  Returns the
carry out of the field and the memory. -/
def add_val_field (m : Mem) (vw val : Nat) (v : ValOffsets) : Nat × Mem :=
  let r1 := add_val m vw val v.boff v.mask1
  let cary := r1.1 >>> v.shift
  if cary ≠ 0 ∧ v.mask2 ≠ 0 then
    let r2 := add_val r1.2 (vw + 1) cary 0 v.mask2
    (r2.1 >>> v.cshift, r2.2)
  else
    (cary, r1.2)

/-- The back-tracking of `add_rec` after a failed recursive call: `add_val` of
`((word)1 << val_len) - val` on the first word, its carry forwarded to the second
word of a split field and the carry of that dropped. -/
def sub_val_field (a : Ary) (m : Mem) (vw val : Nat) (v : ValOffsets) : Mem :=
  let r1 := add_val m vw (wsub (wshl 1 a.offsets.val_len) val) v.boff v.mask1
  let cary := r1.1 >>> v.shift
  if cary ≠ 0 ∧ v.mask2 ≠ 0 then
    (add_val r1.2 (vw + 1) cary 0 v.mask2).2
  else
    r1.2

/-- Method `add_rec(id, key, val, large, is_new, eid)`.  The recursion on the
overflow level is bounded by the first argument; `none` means that the bound was
reached before the source returned. -/
def add_rec (a : Ary) : Nat → Mem → Nat → Nat → Nat → Bool → Option AddResult
  | 0, _, _, _, _, _ => none
  | fuel + 1, m, id, key, val, large =>
    let c : Option Claimed × Bool × Mem :=
      if large = true then
        let r := claim_large_key a m id
        (r.1, false, r.2)
      else
        claim_key a m key id
    match c.1 with
    | none => some ⟨false, c.2.1, id, c.2.2⟩
    | some cl =>
      -- Increment value
      let vw := cl.w + cl.ao.val.woff
      let r := add_val_field c.2.2 vw val cl.ao.val
      if r.1 ≠ 0 then
        let id2 := wtrunc (cl.id + a.reprobes 0) &&& a.size_mask
        match add_rec a fuel r.2 id2 key r.1 true with
        | none => none
        | some sub =>
          if sub.ok = true then
            some ⟨true, c.2.1, cl.id, sub.mem⟩
          else
            -- Adding failed, table is full: back-track and subtract val
            some ⟨false, c.2.1, cl.id, sub_val_field a sub.mem vw val cl.ao.val⟩
      else
        some ⟨true, c.2.1, cl.id, r.2⟩

/-- Method `add(key, val, is_new, id)`. -/
def add (a : Ary) (fuel : Nat) (m : Mem) (key val : Nat) : Option AddResult :=
  add_rec a fuel m (a.hash_times key &&& a.size_mask) key val false

/-- Method `set(key, is_new, id)`. -/
def set (a : Ary) (m : Mem) (key : Nat) : AddResult :=
  let id := a.hash_times key &&& a.size_mask
  let c := claim_key a m key id
  match c.1 with
  | none => ⟨false, c.2.1, id, c.2.2⟩
  | some cl => ⟨true, c.2.1, cl.id, c.2.2⟩

/-- The `enum key_status`. -/
inductive key_status where
  | FILLED
  | EMPTY
  | LBSET
  deriving DecidableEq, Repr

/-- The loop of `get_key_at_id` that reads further full words of a long key:
`while(bits_copied + wsize - 1 <= key_len_)`.  The state is
`(bits_copied, word_copied, key)`.  Every round adds `wsize - 1` to
`bits_copied`, so at most `key_len_` rounds run, which is the count given by
`get_key_at_id`. -/
def get_key_full_words (a : Ary) (m : Mem) (kvw : Nat) :
    Nat → Nat → Nat → Nat → Nat × Nat × Nat
  | 0, bits_copied, word_copied, key => (bits_copied, word_copied, key)
  | n + 1, bits_copied, word_copied, key =>
      if bits_copied + wsize - 1 ≤ a.key_len then
        get_key_full_words a m kvw n (bits_copied + (wsize - 1)) (word_copied + 1)
          (set_bits key bits_copied (wsize - 1) (m (kvw + word_copied) &&& (fmask >>> 1)))
      else
        (bits_copied, word_copied, key)

/-- Method `get_key_at_id(id, key, w_, o_)`: the status, the key (the argument
`key` with the bits written by the source), and the `w` and `o` of the slot,
which the source stores in `*w_` and `*o_` only when it returns FILLED.
Differences of `unsigned`/`int` lengths use truncated subtraction. -/
def get_key_at_id (a : Ary) (m : Mem) (id key : Nat) : key_status × Nat × Nat × Offset :=
  let wo := a.offsets.word_offset id
  let w := wo.1
  let o := wo.2.1
  let kvw := w + o.key.woff
  let key_word := m kvw
  let key_o := o.key
  let rlen := a.offsets.reprobe_len
  -- the end of the function, from `size_t oid = id`
  let finish (kreprobe key : Nat) : key_status × Nat × Nat × Offset :=
    let oid := if kreprobe > 1 then wsub id (a.reprobes (kreprobe - 1)) else id
    let oid := oid &&& a.size_mask
    (key_status.FILLED, set_bits key 0 a.lsize oid, w, o)
  if key_word &&& key_o.lb_mask ≠ 0 then
    (key_status.LBSET, key, w, o)
  else
    let bits_copied := a.lsize
    if key_o.sb_mask1 ≠ 0 then
      if key_word &&& key_o.sb_mask1 = 0 then
        (key_status.EMPTY, key, w, o)
      else
        let kreprobe := ((key_word &&& key_o.mask1) &&& wnot key_o.sb_mask1) >>> key_o.boff
        if key_o.full_words = true then
          -- Copy full words. First one is special
          let key_word := m (kvw + 1)
          let st : Nat × Nat × Nat :=
            if rlen < key_o.shift then
              let key := set_bits key bits_copied (key_o.shift - rlen) (kreprobe >>> rlen)
              let bits_copied := bits_copied + (key_o.shift - rlen)
              let key := set_bits key bits_copied (wsize - 1) (key_word &&& wnot key_o.sb_mask1)
              (kreprobe &&& a.offsets.reprobe_mask, key, bits_copied + (wsize - 1))
            else
              let reprobe_left := rlen - key_o.shift
              let kreprobe := kreprobe |||
                wshl (key_word &&& (wshl 1 reprobe_left - 1)) key_o.shift
              let key := set_bits key bits_copied (wsize - 1 - reprobe_left)
                ((key_word &&& wnot key_o.sb_mask1) >>> reprobe_left)
              (kreprobe, key, bits_copied + (wsize - 1 - reprobe_left))
          let l := get_key_full_words a m kvw a.key_len st.2.2 2 st.2.1
          let key :=
            if key_o.sb_mask2 ≠ 0 then
              set_bits l.2.2 l.1 (a.key_len - l.1)
                ((m (kvw + l.2.1) &&& key_o.mask2) &&& wnot key_o.sb_mask2)
            else l.2.2
          finish st.1 key
        else if key_o.sb_mask2 ≠ 0 then
          -- Two words but no full words
          let key_word := (m (kvw + 1) &&& key_o.mask2) &&& wnot key_o.sb_mask2
          if rlen < key_o.shift then
            let key := set_bits key bits_copied (key_o.shift - rlen) (kreprobe >>> rlen)
            let bits_copied := bits_copied + (key_o.shift - rlen)
            let key := set_bits key bits_copied (a.key_len - bits_copied) key_word
            finish (kreprobe &&& a.offsets.reprobe_mask) key
          else
            let reprobe_left := rlen - key_o.shift
            let kreprobe := kreprobe |||
              wshl (key_word &&& (wshl 1 reprobe_left - 1)) key_o.shift
            let key := set_bits key bits_copied (a.key_len - bits_copied)
              (key_word >>> reprobe_left)
            finish kreprobe key
        else
          finish kreprobe key
    else
      -- Everything in 1 word
      let key_word := (key_word &&& key_o.mask1) >>> key_o.boff
      if key_word = 0 then
        (key_status.EMPTY, key, w, o)
      else
        let kreprobe := key_word &&& a.offsets.reprobe_mask
        finish kreprobe (set_bits key bits_copied a.raw_key_len (key_word >>> rlen))

/-- The `for` loop of `get_key_id`, `oid` being the hashed slot.  The first
argument counts the rounds still to run, `reprobe_limit - reprobe`: when it is
`0` the test `reprobe < reprobe_limit_.val()` fails and the function returns
false.  Returns `some (id, w, o)` when the source returns true, and the last
content of `tmp_key`. -/
def get_key_id_loop (a : Ary) (m : Mem) (key oid : Nat) :
    Nat → Nat → Nat → Nat → Option (Nat × Nat × Offset) × Nat
  | 0, _, _, tmp_key => (none, tmp_key)
  | left + 1, reprobe, cid, tmp_key =>
    let next (tmp : Nat) :=
      get_key_id_loop a m key oid left (reprobe + 1)
        (wtrunc (oid + a.reprobes (reprobe + 1)) &&& a.size_mask) tmp
    let r := get_key_at_id a m cid tmp_key
    match r.1 with
    | key_status.EMPTY => (none, r.2.1)
    | key_status.FILLED =>
      if oid ≠ get_bits r.2.1 0 a.lsize then
        next r.2.1
      else
        let tmp := set_bits r.2.1 0 a.lsize (get_bits key 0 a.lsize)
        if tmp ≠ key then
          next tmp
        else
          (some (cid, r.2.2.1, r.2.2.2), tmp)
    | key_status.LBSET => next r.2.1

/-- Method `get_key_id(key, id, tmp_key, w, o)`, with `tmp_key` as given by the
caller. -/
def get_key_id_tmp (a : Ary) (m : Mem) (key tmp_key : Nat) :
    Option (Nat × Nat × Offset) × Nat :=
  let oid := a.hash_times key &&& a.size_mask
  get_key_id_loop a m key oid a.reprobe_limit 0 oid tmp_key

/-- Method `get_key_id(key, id)`: `some id` when it returns true.  The local
`tmp_key` is default-constructed, all bits zero. -/
def get_key_id (a : Ary) (m : Mem) (key : Nat) : Option Nat :=
  (get_key_id_tmp a m key 0).1.map (fun r => r.1)

/-- The `while(reprobe <= reprobe_limit_.val())` loop of `resolve_val_rec`; `id`,
`val`, `overflows` are the arguments of the call and `next` stands for the
recursive call `resolve_val_rec(id, val, carry_bit, overflows)`.  The first
argument of the loop counts the rounds still to run,
`reprobe_limit + 1 - reprobe`: when it is `0` the loop test fails and `val` is
returned.  Shifts by `val_len` and by `lval_len * overflows` are word shifts. -/
def resolve_val_loop (a : Ary) (m : Mem) (carry_bit : Bool)
    (next : Nat → Nat → Nat → Option Nat) (id val overflows : Nat) :
    Nat → Nat → Nat → Option Nat
  | 0, _, _ => some val
  | left + 1, reprobe, cid =>
    let continue_ :=
      resolve_val_loop a m carry_bit next id val overflows left (reprobe + 1)
        (wtrunc (id + a.reprobes (reprobe + 1)) &&& a.size_mask)
    let wo := a.offsets.word_offset cid
    let w := wo.1
    let o := wo.2.1
    let lo := wo.2.2
    let kw := w + o.key.woff
    let nkey := m kw
    let lkey := lo.key
    if nkey &&& lkey.lb_mask ≠ 0 then
      let nkey :=
        if lkey.sb_mask1 ≠ 0 then
          (((nkey &&& lkey.mask1) &&& wnot lkey.sb_mask1) >>> lkey.boff) |||
            wshl ((m (kw + 1) &&& lkey.mask2) &&& wnot lkey.sb_mask2) lkey.shift
        else
          (nkey &&& lkey.mask1) >>> lkey.boff
      if nkey = reprobe then
        let lval := lo.val
        let vw := w + lval.woff
        let nval := (m vw &&& lval.mask1) >>> lval.boff
        let nval :=
          if lval.mask2 ≠ 0 then nval ||| wshl (m (vw + 1) &&& lval.mask2) lval.shift
          else nval
        let do_reprobe := if carry_bit = true then decide (nval &&& 1 ≠ 0) else true
        let nval := if carry_bit = true then nval >>> 1 else nval
        let nval := wshl nval a.offsets.val_len
        let nval := wshl nval (a.offsets.lval_len * overflows)
        let val := wtrunc (val + nval)
        if do_reprobe = false then
          some val
        else
          next (wtrunc (cid + a.reprobes 0) &&& a.size_mask) val (overflows + 1)
      else
        continue_
    else if nkey &&& o.key.mask1 = 0 then
      some val
    else
      continue_

/-- Method `resolve_val_rec(id, val, carry_bit, overflows)`.  The recursion on the
overflow level is bounded by the first argument; `none` means that the bound was
reached before the source returned. -/
def resolve_val_rec (a : Ary) (m : Mem) (carry_bit : Bool) :
    Nat → Nat → Nat → Nat → Option Nat
  | 0, _, _, _ => none
  | fuel + 1, id, val, overflows =>
    resolve_val_loop a m carry_bit (fun i v f => resolve_val_rec a m carry_bit fuel i v f)
      id val overflows (a.reprobe_limit + 1) 0 id

/-- Method `get_val_at_id(id, w, o, reprobe, carry_bit)`; `none` when the bound
on the recursion of `resolve_val_rec` was reached. -/
def get_val_at_id (a : Ary) (fuel : Nat) (m : Mem) (id w : Nat) (o : Offset)
    (reprobe carry_bit : Bool) : Option Nat :=
  let kvw := w + o.val.woff
  let val := (m kvw &&& o.val.mask1) >>> o.val.boff
  let val := if o.val.mask2 ≠ 0 then val ||| wshl (m (kvw + 1) &&& o.val.mask2) o.val.shift
    else val
  let do_reprobe := if carry_bit = true ∧ reprobe = true then
      (reprobe && decide (val &&& 1 ≠ 0)) else reprobe
  let val := if carry_bit = true ∧ reprobe = true then val >>> 1 else val
  if do_reprobe = false then
    some val
  else
    resolve_val_rec a m carry_bit fuel (wtrunc (id + a.reprobes 0) &&& a.size_mask) val 0

/-- Method `get_val_for_key(key, val, carry_bit)`: `none` when the bound on the
recursion of `resolve_val_rec` was reached, `some none` when the source returns
false, `some (some v)` when it returns true with `*val = v`. -/
def get_val_for_key (a : Ary) (fuel : Nat) (m : Mem) (key : Nat) (carry_bit : Bool) :
    Option (Option Nat) :=
  match (get_key_id_tmp a m key 0).1 with
  | none => some none
  | some r => (get_val_at_id a fuel m r.1 r.2.1 r.2.2 true carry_bit).map some

/-- Method `get_key_val_at_id(id, key, val, carry_bit)`: `none` when the bound on
the recursion of `resolve_val_rec` was reached; else the status, the key and,
when FILLED, the value. -/
def get_key_val_at_id (a : Ary) (fuel : Nat) (m : Mem) (id key : Nat) (carry_bit : Bool) :
    Option (key_status × Nat × Option Nat) :=
  let r := get_key_at_id a m id key
  if r.1 ≠ key_status.FILLED then
    some (r.1, r.2.1, none)
  else
    (get_val_at_id a fuel m id r.2.2.1 r.2.2.2 true carry_bit).map
      (fun v => (key_status.FILLED, r.2.1, some v))

/-! ## A small instance

Capacity 4, keys of 5 bits, counters of 2 bits, reprobe limit 1, and the
quadratic schedule of the specification.  A cell takes 8 bits: the large bit,
2 bits of reprobe, 3 bits of key, 2 bits of value; 8 cells fill one word. -/

/-- Offsets of the small instance: cell `j` of a block occupies bits
`[8 j, 8 j + 8)` of the only word of the block. -/
def small_offsets : Offsets where
  block_len := 8
  block_word_len := 1
  normal := fun j =>
    ⟨⟨0, 8 * j + 1, 0, 0, 63 <<< (8 * j), 0, 0, 0, 1 <<< (8 * j), false⟩,
     ⟨0, 8 * j + 6, 2, 0, 3 <<< (8 * j + 6), 0⟩⟩
  large := fun j =>
    ⟨⟨0, 8 * j + 1, 0, 0, 7 <<< (8 * j), 0, 0, 0, 1 <<< (8 * j), false⟩,
     ⟨0, 8 * j + 3, 5, 0, 31 <<< (8 * j + 3), 0⟩⟩
  reprobe_len := 2
  reprobe_mask := 3
  val_len := 2
  lval_len := 5

/-- The small instance.  The hash matrix is the identity on the two low bits of
the key. -/
def small_ary : Ary where
  lsize := 2
  reprobe_limit := 1
  key_len := 5
  offsets := small_offsets
  reprobes := fun i => i * (i + 1) / 2 + 1
  hash_times := fun k => k % 4
  hash_inverse_times := fun k => k % 4

/-- The memory block after construction or `clear()`: all words zero. -/
def clear_mem : Mem := fun _ => 0


/-! ## Construction -/

/-- Class `reprobe_limit_t`: the loop of the constructor,
`while(_reprobes[limit] >= _size && limit >= 1) limit--;`, and `val()`.  The
recursion is on `limit`, which the loop only decreases. -/
def reprobe_limit_t (reprobes : Nat → Nat) (size : Nat) : Nat → Nat
  | 0 => 0
  | limit + 1 =>
    if reprobes (limit + 1) ≥ size then reprobe_limit_t reprobes size limit else limit + 1

/-- The search of `ceilLog2`: the least `l2` from `l` on with `n ≤ 2 ^ l2`, looking
at no more than `left` exponents. -/
def ceilLog2_from (n : Nat) : Nat → Nat → Nat
  | 0, l => l
  | left + 1, l => if n ≤ 2 ^ l then l else ceilLog2_from n left (l + 1)

/-- Modelled from the spec: `ceilLog2` of `misc.hpp`, which is not among the
sources.  The constructor "rounds size up to a power of two": the least `l`
with `n ≤ 2 ^ l`, for a 64-bit word `n`. -/
def ceilLog2 (n : Nat) : Nat := ceilLog2_from n 64 0

/-- Member `lsize_(ceilLog2(size))` as the constructor sets it: `size` is a
`size_t`, a 64-bit word, and `lsize_` a `uint16_t`. -/
def new_lsize (size : Nat) : Nat := ceilLog2 (size % 2 ^ 64) % 2 ^ 16

/-- Member `size_((size_t)1 << lsize_)` as the constructor sets it, a 64-bit
word.  C++ defines the shift for `lsize_ < 64`.  For `lsize_ = 64`, which every
request above `2 ^ 63` gives, the shift is undefined; the value taken here is
the one of the 64-bit shift instruction, which uses the count modulo 64, so
that `size_` is `1`. -/
def new_size (size : Nat) : Nat := wshl 1 (new_lsize size % 64)

/-- Member `size_mask_(size_ - 1)` as the constructor sets it. -/
def new_size_mask (size : Nat) : Nat := wsub (new_size size) 1

/-- The exception `ErrorAllocation` that the body of the constructor throws when
`data_` is null. -/
inductive ErrorAllocation where
  | failed_to_allocate
  deriving DecidableEq, Repr

/-- The constructor `array(size, key_len, val_len, reprobe_limit, reprobes)`.
The parameters `key_len` and `reprobe_limit` are `uint16_t`: the values used
are the arguments modulo `2 ^ 16`.  The offsets table that `Offsets` builds from
the lengths (`val_len` goes there only), and the hash matrix with its
pseudo-inverse, which are drawn at random, are given; `data_ok` tells whether
the memory block was allocated (`data_` is not null), and the constructor
throws when it was not.  The record `Ary` keeps `lsize_`, `reprobe_limit_` and
`key_len_`; its `size`, `size_mask` and `raw_key_len` are the members `size_`,
`size_mask_` and `raw_key_len_` when `lsize_ < 64` and `lsize_ <= key_len_`. -/
def array_new (size key_len reprobe_limit : Nat) (reprobes : Nat → Nat) (offsets : Offsets)
    (hash_times hash_inverse_times : Nat → Nat) (data_ok : Bool) : Except ErrorAllocation Ary :=
  if data_ok = false then
    Except.error ErrorAllocation.failed_to_allocate
  else
    Except.ok
      { lsize := new_lsize size
        reprobe_limit := reprobe_limit_t reprobes (new_size size) (reprobe_limit % 2 ^ 16)
        key_len := key_len % 2 ^ 16
        offsets := offsets
        reprobes := reprobes
        hash_times := hash_times
        hash_inverse_times := hash_inverse_times }

/-- Method `max_reprobe()`. -/
def Ary.max_reprobe (a : Ary) : Nat := a.reprobe_limit

/-! ## The iterator -/

/-- Class `array::iterator`: the members `start_id_`, `id_`, `end_id_`, `key_` and
`val_`. -/
structure iterator where
  start_id_ : Nat
  id_ : Nat
  end_id_ : Nat
  key_ : Nat
  val_ : Nat

/-- The constructor `iterator(ary, start, end)`.  `key_` is default-constructed,
all bits zero; `val_` is not initialised by the source and is `0` here. -/
def iterator_new (a : Ary) (start end_id : Nat) : iterator where
  start_id_ := if start > a.size then a.size else start
  id_ := start
  end_id_ := if end_id > a.size then a.size else end_id
  key_ := 0
  val_ := 0

/-- Method `iterator::id()`: `id_ - 1`. -/
def iterator.id (it : iterator) : Nat := wsub it.id_ 1

/-- The loop of `iterator::next()`,
`while(success != FILLED && id_ < end_id_) success = get_key_val_at_id(id_++, key_, val_);`
on the state `(success, id_, key_, val_)`.  The first argument counts the slots
still to scan, `end_id_ - id_`: when it is `0` the test `id_ < end_id_` fails.
`none` when the bound on the recursion of `resolve_val_rec` was reached. -/
def iterator.next_loop (a : Ary) (fuel : Nat) (m : Mem) :
    Nat → key_status → Nat → Nat → Nat → Option (key_status × Nat × Nat × Nat)
  | 0, success, id, key, val => some (success, id, key, val)
  | left + 1, success, id, key, val =>
    if success = key_status.FILLED then
      some (success, id, key, val)
    else
      match get_key_val_at_id a fuel m id key false with
      | none => none
      | some r =>
        iterator.next_loop a fuel m left r.1 (wtrunc (id + 1)) r.2.1
          (match r.2.2 with
            | none => val
            | some v => v)

/-- Method `iterator::next()`: the returned flag and the iterator after the
call. -/
def iterator.next (a : Ary) (fuel : Nat) (m : Mem) (it : iterator) : Option (Bool × iterator) :=
  match iterator.next_loop a fuel m (it.end_id_ - it.id_) key_status.EMPTY it.id_ it.key_
      it.val_ with
  | none => none
  | some r =>
    if r.1 = key_status.FILLED then
      some (true, { it with
        id_ := r.2.1
        key_ := set_bits r.2.2.1 0 a.lsize (a.hash_inverse_times r.2.2.1)
        val_ := r.2.2.2 })
    else
      some (false, { it with id_ := r.2.1, key_ := r.2.2.1, val_ := r.2.2.2 })

/-- Method `iterator_all()`: `iterator(this, 0, size())`. -/
def iterator_all (a : Ary) : iterator := iterator_new a 0 a.size

/-! ## Layouts -/

/-- Mask of the `n` bits from bit `b` up: `mask(n, b)`. -/
def field_mask (n b : Nat) : Nat := (2 ^ n - 1) <<< b

/-- Number of bits of a value field that lie in its second word. -/
def ValOffsets.len2 (v : ValOffsets) : Nat := if v.mask2 = 0 then 0 else v.cshift

/-- The value descriptor `v` describes a field of `n` bits: `shift` bits at bit
`boff` of the first word and, when `mask2` is not zero, the other `cshift` bits
at the bottom of the next word, the first word being used up to its top. -/
def ValShape (v : ValOffsets) (n : Nat) : Prop :=
  v.mask1 = field_mask v.shift v.boff ∧ v.boff + v.shift ≤ 64 ∧
    v.mask2 = field_mask v.len2 0 ∧ (v.mask2 ≠ 0 → v.boff + v.shift = 64) ∧
    v.shift + v.len2 = n ∧ n ≤ 64

instance (v : ValOffsets) (n : Nat) : Decidable (ValShape v n) := by
  unfold ValShape; infer_instance

/-- Every word of the memory block is a 64-bit word. -/
def MemOK (m : Mem) : Prop := ∀ i, m i < 2 ^ 64

/-- Length of the key field of the offsets, as passed by the constructor of the
array: `key_len_ - lsize_ + bitsize(reprobe_limit + 1)`. -/
def Ary.klen (a : Ary) : Nat := a.offsets.reprobe_len + a.raw_key_len

/-- A bit field of the memory block: word index, first bit, number of bits. -/
abbrev Field := Nat × Nat × Nat

/-- Two bit fields share no bit. -/
def Apart (f g : Field) : Prop :=
  f.1 ≠ g.1 ∨ f.2.1 + f.2.2 ≤ g.2.1 ∨ g.2.1 + g.2.2 ≤ f.2.1

instance (f g : Field) : Decidable (Apart f g) := by
  unfold Apart; infer_instance

/-- Word index of the key field of slot `id`. -/
def cell_kw (a : Ary) (id : Nat) : Nat :=
  (a.offsets.word_offset id).1 + (a.offsets.word_offset id).2.1.key.woff

/-- Bit of the large bit of slot `id`, the bit below the key bits. -/
def cell_kb (a : Ary) (id : Nat) : Nat := (a.offsets.word_offset id).2.1.key.boff - 1

/-- Key field of slot `id` in the normal layout, large bit included. -/
def key_fld (a : Ary) (id : Nat) : Field := (cell_kw a id, cell_kb a id, a.klen + 1)

/-- Key field of slot `id` in the large layout: large bit and reprobe distance. -/
def lkey_fld (a : Ary) (id : Nat) : Field :=
  (cell_kw a id, cell_kb a id, a.offsets.reprobe_len + 1)

/-- First-word part of a value field described by `v` in the block at word `w`. -/
def val_fld1 (w : Nat) (v : ValOffsets) : Field := (w + v.woff, v.boff, v.shift)

/-- Second-word part of a value field (empty when the field is not split). -/
def val_fld2 (w : Nat) (v : ValOffsets) : Field := (w + v.woff + 1, 0, v.len2)

/-- The bit fields through which slot `id` is written: normal key, normal value
and large value. -/
def cell_flds (a : Ary) (id : Nat) : List Field :=
  let wo := a.offsets.word_offset id
  [key_fld a id, val_fld1 wo.1 wo.2.1.val, val_fld2 wo.1 wo.2.1.val,
    val_fld1 wo.1 wo.2.2.val, val_fld2 wo.1 wo.2.2.val]

/-- The descriptors of slot `id` describe a cell whose key field lies in one
word: large bit at bit `boff - 1`, the key bits above it, the large layout
with the same large bit and the reprobe distance in the low key bits; value
fields of `val_len` and `lval_len` bits, apart from the key fields. -/
def CellShape (a : Ary) (id : Nat) : Prop :=
  let wo := a.offsets.word_offset id
  let o := wo.2.1
  let lo := wo.2.2
  o.key.sb_mask1 = 0 ∧ lo.key.sb_mask1 = 0 ∧ 1 ≤ o.key.boff ∧ o.key.boff + a.klen ≤ 64 ∧
    o.key.mask1 = field_mask (a.klen + 1) (o.key.boff - 1) ∧
    o.key.lb_mask = field_mask 1 (o.key.boff - 1) ∧
    lo.key.woff = o.key.woff ∧ lo.key.boff = o.key.boff ∧
    lo.key.mask1 = field_mask (a.offsets.reprobe_len + 1) (o.key.boff - 1) ∧
    lo.key.lb_mask = o.key.lb_mask ∧
    ValShape o.val a.offsets.val_len ∧ ValShape lo.val a.offsets.lval_len ∧
    Apart (key_fld a id) (val_fld1 wo.1 o.val) ∧ Apart (key_fld a id) (val_fld2 wo.1 o.val) ∧
    Apart (lkey_fld a id) (val_fld1 wo.1 lo.val) ∧ Apart (lkey_fld a id) (val_fld2 wo.1 lo.val)

instance (a : Ary) (id : Nat) : Decidable (CellShape a id) := by
  unfold CellShape; infer_instance

/-- Well-formed array with one-word key fields: the lengths fit, the reprobe
field holds `reprobe_limit + 1`, every slot has the shape `CellShape`, and the
fields of two different slots share no bit. -/
def Ary.WF (a : Ary) : Prop :=
  a.lsize ≤ 63 ∧ a.lsize ≤ a.key_len ∧ a.offsets.reprobe_mask = 2 ^ a.offsets.reprobe_len - 1 ∧
    a.reprobe_limit + 1 < 2 ^ a.offsets.reprobe_len ∧
    ∀ id < a.size, CellShape a id ∧
      ∀ id2 < a.size, id ≠ id2 → ∀ f ∈ cell_flds a id, ∀ g ∈ cell_flds a id2, Apart f g

instance (a : Ary) : Decidable a.WF := by
  unfold Ary.WF; infer_instance

/-- Content of the key field of slot `id`, the large bit being bit 0: `0` for a
free cell, odd for a continuation cell, `2 * akey` for a primary cell. -/
def cell_key (a : Ary) (m : Mem) (id : Nat) : Nat :=
  get_bits (m (cell_kw a id)) (cell_kb a id) (a.klen + 1)

/-- The word `akey` of `claim_key` at reprobe index `r`: the bits
`[lsize, key_len)` of the key above the reprobe field, which holds `r + 1`. -/
def akey_of (a : Ary) (key r : Nat) : Nat :=
  (get_bits key a.lsize a.raw_key_len <<< a.offsets.reprobe_len) ||| (r + 1)

/-- Candidate slot of reprobe index `r` in `claim_key`, `claim_large_key`,
`get_key_id` and `resolve_val_rec`, for the start slot `id0`: `id0` itself for
`r = 0`, then `(id0 + reprobes_[r]) & size_mask_`. -/
def cand (a : Ary) (id0 r : Nat) : Nat :=
  if r = 0 then id0 else wtrunc (id0 + a.reprobes r) &&& a.size_mask

/-- First index `k` in `[r, r + left]` with `p k`, scanning upwards: the shape of
every reprobe loop of the array. -/
def first_fit (p : Nat → Bool) : Nat → Nat → Option Nat
  | left, r =>
    if p r = true then some r
    else
      match left with
      | 0 => none
      | left + 1 => first_fit p left (r + 1)

/-- The primary cell of slot `c` holds the bits `[lsize, key_len)` of `key` with
reprobe index `r`. -/
def holds_key (a : Ary) (m : Mem) (c key r : Nat) : Prop :=
  cell_key a m c = 2 * akey_of a key r

instance (a : Ary) (m : Mem) (c key r : Nat) : Decidable (holds_key a m c key r) := by
  unfold holds_key; infer_instance

/-- The round of `claim_key` at reprobe index `r` succeeds: the candidate is free
or holds this key at this reprobe index. -/
def claims_at (a : Ary) (m : Mem) (key id0 r : Nat) : Bool :=
  decide (cell_key a m (cand a id0 r) = 0 ∨ holds_key a m (cand a id0 r) key r)

/-- What `claim_key` returns when its first successful round is `r` (`none`: no
round succeeds). -/
def claim_key_result_one (a : Ary) (m : Mem) (key id0 : Nat) :
    Option Nat → Option Claimed × Bool × Mem
  | none => (none, false, m)
  | some r =>
    (some ⟨cand a id0 r, (a.offsets.word_offset (cand a id0 r)).1,
        (a.offsets.word_offset (cand a id0 r)).2.1⟩,
      decide (cell_key a m (cand a id0 r) = 0),
      if cell_key a m (cand a id0 r) = 0 then
        m.write (cell_kw a (cand a id0 r))
          (set_bits (m (cell_kw a (cand a id0 r))) (cell_kb a (cand a id0 r)) (a.klen + 1)
            (2 * akey_of a key r))
      else m)

/-! ## Key fields over several words -/

/-- Number of bits of the key field of slot `id` (reprobe index and key bits, the
large bit excluded) that lie in the first word of the field: all of them when
the field is in one word, `shift` of them when it is split. -/
def key_n1 (a : Ary) (id : Nat) : Nat :=
  if (a.offsets.word_offset id).2.1.key.sb_mask1 = 0 then a.klen
  else (a.offsets.word_offset id).2.1.key.shift

/-- Number of bits of the key field of slot `id` after its first word. -/
def key_rem (a : Ary) (id : Nat) : Nat := a.klen - key_n1 a id

/-- Number of bits of the reprobe distance of slot `id` in the large layout that
lie in the first word. -/
def lkey_n1 (a : Ary) (id : Nat) : Nat :=
  if (a.offsets.word_offset id).2.2.key.sb_mask1 = 0 then a.offsets.reprobe_len
  else (a.offsets.word_offset id).2.2.key.shift

/-- Number of bits of the reprobe distance of slot `id` in the large layout that
lie in the second word. -/
def lkey_rem (a : Ary) (id : Nat) : Nat := a.offsets.reprobe_len - lkey_n1 a id

/-- The `n` bits stored from word `w` on, 63 bits to a word (bit 63 of a word is
its set bit), read from at most `k` words. -/
def data63 (m : Mem) : Nat → Nat → Nat → Nat
  | 0, _, _ => 0
  | k + 1, w, n => get_bits (m w) 0 (min n 63) ||| (data63 m k (w + 1) (n - 63)) <<< 63

/-- Content of the key field of slot `id` in the normal layout, set bits left
out, the large bit being bit 0: `0` for a free cell, odd for a continuation
cell, `2 * akey` for a primary cell. -/
def key_at (a : Ary) (m : Mem) (id : Nat) : Nat :=
  get_bits (m (cell_kw a id)) (cell_kb a id) (key_n1 a id + 1) |||
    (data63 m (key_rem a id / 63 + 1) (cell_kw a id + 1) (key_rem a id)) <<< (key_n1 a id + 1)

/-- Content of the key field of slot `id` in the large layout, set bits left out:
large bit and reprobe distance. -/
def lkey_at (a : Ary) (m : Mem) (id : Nat) : Nat :=
  get_bits (m (cell_kw a id)) (cell_kb a id) (lkey_n1 a id + 1) |||
    (get_bits (m (cell_kw a id + 1)) 0 (lkey_rem a id)) <<< (lkey_n1 a id + 1)

/-- Number of key bits in the `j`-th word after the first word of a split key
field holding `n` bits after its first word: 63 in a full word, the rest in the
last word. -/
def tail_len (n j : Nat) : Nat := min 63 (n - 63 * j)

/-- Number of words after the first that a split key field with `n` bits after
its first word takes. -/
def tail_words (n : Nat) : Nat := (n + 62) / 63

/-- The bit fields that hold the key field of slot `id` in the normal layout, set
bits included: one field when the key field is in one word; else the first
word from the large bit to its top, and of every further word the key bits
with the set bit above them. -/
def key_flds (a : Ary) (id : Nat) : List Field :=
  if (a.offsets.word_offset id).2.1.key.sb_mask1 = 0 then
    [(cell_kw a id, cell_kb a id, a.klen + 1)]
  else
    (cell_kw a id, cell_kb a id, 64 - cell_kb a id) ::
      (List.range (tail_words (key_rem a id))).map
        (fun j => (cell_kw a id + 1 + j, 0, tail_len (key_rem a id) j + 1))

/-- The bit fields that hold the key field of slot `id` in the large layout, set
bits included. -/
def lkey_flds (a : Ary) (id : Nat) : List Field :=
  if (a.offsets.word_offset id).2.2.key.sb_mask1 = 0 then
    [(cell_kw a id, cell_kb a id, a.offsets.reprobe_len + 1)]
  else
    [(cell_kw a id, cell_kb a id, 64 - cell_kb a id), (cell_kw a id + 1, 0, lkey_rem a id + 1)]

/-- All bit fields through which slot `id` is written. -/
def slot_flds (a : Ary) (id : Nat) : List Field :=
  let wo := a.offsets.word_offset id
  key_flds a id ++ lkey_flds a id ++
    [val_fld1 wo.1 wo.2.1.val, val_fld2 wo.1 wo.2.1.val,
      val_fld1 wo.1 wo.2.2.val, val_fld2 wo.1 wo.2.2.val]

/-- The descriptors of slot `id` describe a cell in one of the layouts of the
offsets table.  Normal key field: in one word (`sb_mask1 = 0`), or split: the
large bit and `shift` bits in the first word up to bit 62, bit 63 being the set
bit, the other bits 63 to a word with bit 63 as set bit, the last word holding
fewer bits with the set bit above them; `full_words` tells whether a word is
wholly used.  Large key field: in one word, or split in the same first word
and a second word.  Value fields of `val_len` and `lval_len` bits, apart from
the key fields of their layout. -/
def SlotShape (a : Ary) (id : Nat) : Prop :=
  let wo := a.offsets.word_offset id
  let o := wo.2.1
  let lo := wo.2.2
  1 ≤ o.key.boff ∧ o.key.lb_mask = field_mask 1 (o.key.boff - 1) ∧
    lo.key.woff = o.key.woff ∧ lo.key.boff = o.key.boff ∧ lo.key.lb_mask = o.key.lb_mask ∧
    (if o.key.sb_mask1 = 0 then
      o.key.boff + a.klen ≤ 64 ∧ o.key.mask1 = field_mask (a.klen + 1) (o.key.boff - 1)
    else
      o.key.sb_mask1 = 2 ^ 63 ∧ o.key.boff + o.key.shift = 63 ∧ o.key.shift < a.klen ∧
      o.key.mask1 = field_mask (64 - (o.key.boff - 1)) (o.key.boff - 1) ∧
      (if o.key.full_words = true then
        1 ≤ o.key.shift ∧ 63 ≤ a.klen - o.key.shift ∧
        (if (a.klen - o.key.shift) % 63 = 0 then o.key.sb_mask2 = 0
          else o.key.sb_mask2 = 2 ^ ((a.klen - o.key.shift) % 63) ∧
            o.key.mask2 = field_mask ((a.klen - o.key.shift) % 63 + 1) 0)
      else
        a.klen - o.key.shift ≤ 63 ∧ o.key.sb_mask2 = 2 ^ (a.klen - o.key.shift) ∧
        o.key.mask2 = field_mask (a.klen - o.key.shift + 1) 0)) ∧
    (if lo.key.sb_mask1 = 0 then
      o.key.boff + a.offsets.reprobe_len ≤ 64 ∧
      lo.key.mask1 = field_mask (a.offsets.reprobe_len + 1) (o.key.boff - 1)
    else
      o.key.sb_mask1 ≠ 0 ∧ lo.key.sb_mask1 = 2 ^ 63 ∧ lo.key.shift = o.key.shift ∧
      lo.key.shift < a.offsets.reprobe_len ∧
      lo.key.mask1 = field_mask (64 - (o.key.boff - 1)) (o.key.boff - 1) ∧
      lo.key.sb_mask2 = 2 ^ (a.offsets.reprobe_len - lo.key.shift) ∧
      lo.key.mask2 = field_mask (a.offsets.reprobe_len - lo.key.shift + 1) 0) ∧
    ValShape o.val a.offsets.val_len ∧ ValShape lo.val a.offsets.lval_len ∧
    (∀ f ∈ key_flds a id, Apart f (val_fld1 wo.1 o.val) ∧ Apart f (val_fld2 wo.1 o.val)) ∧
    (∀ f ∈ lkey_flds a id, Apart f (val_fld1 wo.1 lo.val) ∧ Apart f (val_fld2 wo.1 lo.val))

instance (a : Ary) (id : Nat) : Decidable (SlotShape a id) := by
  unfold SlotShape; infer_instance

/-- Well-formed array: the lengths fit, the reprobe field holds
`reprobe_limit + 1`, every slot has a shape `SlotShape`, and the fields of two
different slots share no bit. -/
def Ary.Valid (a : Ary) : Prop :=
  a.lsize ≤ 63 ∧ a.lsize ≤ a.key_len ∧ a.offsets.reprobe_len ≤ 63 ∧
    a.offsets.reprobe_mask = 2 ^ a.offsets.reprobe_len - 1 ∧
    a.reprobe_limit + 1 < 2 ^ a.offsets.reprobe_len ∧
    ∀ id < a.size, SlotShape a id ∧
      ∀ id2 < a.size, id ≠ id2 → ∀ f ∈ slot_flds a id, ∀ g ∈ slot_flds a id2, Apart f g

instance (a : Ary) : Decidable a.Valid := by
  unfold Ary.Valid; infer_instance

/-- What the field of the `j`-th word after the first holds when the key field
with `n1` bits in its first word and `n` bits after it has the content `v`
(large bit included): the key bits of that word with the set bit above
them. -/
def enc_tail (v n1 n j : Nat) : Nat :=
  (v >>> (n1 + 1 + 63 * j)) % 2 ^ tail_len n j ||| 2 ^ tail_len n j

/-- Memory after the store of the content `v` (large bit included) into the key
field of slot `id` in the normal layout, with the set bits of a split field. -/
def key_store (a : Ary) (m : Mem) (id v : Nat) : Mem :=
  if (a.offsets.word_offset id).2.1.key.sb_mask1 = 0 then
    m.write (cell_kw a id) (set_bits (m (cell_kw a id)) (cell_kb a id) (a.klen + 1) v)
  else fun x =>
    if x = cell_kw a id then
      set_bits (m x) (cell_kb a id) (64 - cell_kb a id)
        (v % 2 ^ (key_n1 a id + 1) ||| 2 ^ (key_n1 a id + 1))
    else if cell_kw a id < x ∧ x ≤ cell_kw a id + tail_words (key_rem a id) then
      set_bits (m x) 0 (tail_len (key_rem a id) (x - cell_kw a id - 1) + 1)
        (enc_tail v (key_n1 a id) (key_rem a id) (x - cell_kw a id - 1))
    else m x

/-- Memory after the store of the content `v` (large bit and reprobe distance)
into the key field of slot `id` in the large layout, with the set bits of a
split field. -/
def lkey_store (a : Ary) (m : Mem) (id v : Nat) : Mem :=
  if (a.offsets.word_offset id).2.2.key.sb_mask1 = 0 then
    m.write (cell_kw a id)
      (set_bits (m (cell_kw a id)) (cell_kb a id) (a.offsets.reprobe_len + 1) v)
  else fun x =>
    if x = cell_kw a id then
      set_bits (m x) (cell_kb a id) (64 - cell_kb a id)
        (v % 2 ^ (lkey_n1 a id + 1) ||| 2 ^ (lkey_n1 a id + 1))
    else if x = cell_kw a id + 1 then
      set_bits (m x) 0 (lkey_rem a id + 1)
        ((v >>> (lkey_n1 a id + 1)) % 2 ^ lkey_rem a id ||| 2 ^ lkey_rem a id)
    else m x

/-- The set bits of the key field of slot `id` in the normal layout are set (no
condition when the field is in one word). -/
def sbits (a : Ary) (m : Mem) (id : Nat) : Prop :=
  (a.offsets.word_offset id).2.1.key.sb_mask1 ≠ 0 →
    (m (cell_kw a id)).testBit 63 = true ∧
    ∀ j, j < tail_words (key_rem a id) →
      (m (cell_kw a id + 1 + j)).testBit (tail_len (key_rem a id) j) = true

/-- The set bits of the key field of slot `id` in the large layout are set (no
condition when the field is in one word). -/
def lsbits (a : Ary) (m : Mem) (id : Nat) : Prop :=
  (a.offsets.word_offset id).2.2.key.sb_mask1 ≠ 0 →
    (m (cell_kw a id)).testBit 63 = true ∧
    (m (cell_kw a id + 1)).testBit (lkey_rem a id) = true

/-- The cell of slot `id` is whole: a free cell has no bit set in its key field,
a primary cell has the set bits of the normal layout, a continuation cell
those of the large layout.  This is what word-by-word stores by one thread
leave behind. -/
def Coh (a : Ary) (m : Mem) (id : Nat) : Prop :=
  (key_at a m id = 0 → ∀ f ∈ key_flds a id, get_bits (m f.1) f.2.1 f.2.2 = 0) ∧
  (key_at a m id ≠ 0 → key_at a m id % 2 = 0 → sbits a m id) ∧
  (key_at a m id % 2 = 1 → lsbits a m id)

instance (a : Ary) (m : Mem) (id : Nat) : Decidable (sbits a m id) := by
  unfold sbits; infer_instance

instance (a : Ary) (m : Mem) (id : Nat) : Decidable (lsbits a m id) := by
  unfold lsbits; infer_instance

instance (a : Ary) (m : Mem) (id : Nat) : Decidable (Coh a m id) := by
  unfold Coh; infer_instance

/-- The memory block is sound: its words are 64-bit words and every cell is
whole. -/
def TableOK (a : Ary) (m : Mem) : Prop := MemOK m ∧ ∀ c, c < a.size → Coh a m c

/-! ## Cells and claims in every layout -/

/-- The primary cell of slot `c` holds the bits `[lsize, key_len)` of `key` with
reprobe index `r`. -/
def holds (a : Ary) (m : Mem) (c key r : Nat) : Prop :=
  key_at a m c = 2 * akey_of a key r

instance (a : Ary) (m : Mem) (c key r : Nat) : Decidable (holds a m c key r) := by
  unfold holds; infer_instance

/-- The round of `claim_key` at reprobe index `r` succeeds: the candidate is free
or holds this key at this reprobe index. -/
def fits_at (a : Ary) (m : Mem) (key id0 r : Nat) : Bool :=
  decide (key_at a m (cand a id0 r) = 0 ∨ holds a m (cand a id0 r) key r)

/-- What `claim_key` returns when its first successful round is `r` (`none`: no
round succeeds). -/
def claim_key_result (a : Ary) (m : Mem) (key id0 : Nat) :
    Option Nat → Option Claimed × Bool × Mem
  | none => (none, false, m)
  | some r =>
    (some ⟨cand a id0 r, (a.offsets.word_offset (cand a id0 r)).1,
        (a.offsets.word_offset (cand a id0 r)).2.1⟩,
      decide (key_at a m (cand a id0 r) = 0),
      if key_at a m (cand a id0 r) = 0 then
        key_store a m (cand a id0 r) (2 * akey_of a key r)
      else m)

/-- From `m` to `m2` no occupied cell changes its key: a primary cell keeps its
whole key field, a continuation cell keeps its large bit and reprobe distance. -/
def Keeps (a : Ary) (m m2 : Mem) : Prop :=
  ∀ c, c < a.size →
    (key_at a m c ≠ 0 → key_at a m c % 2 = 0 → key_at a m2 c = key_at a m c) ∧
    (key_at a m c % 2 = 1 → lkey_at a m2 c = lkey_at a m c)

/-- Store into the two parts of a value field. -/
def write2 (m : Mem) (w : Nat) (v : ValOffsets) (x1 x2 : Nat) : Mem :=
  (m.write (w + v.woff) (set_bits (m (w + v.woff)) v.boff v.shift x1)).write (w + v.woff + 1)
    (set_bits (m (w + v.woff + 1)) 0 v.len2 x2)

/-- The round of `claim_large_key` at reprobe index `r` succeeds: the candidate
is free or is a continuation cell with reprobe distance `r`. -/
def lfits_at (a : Ary) (m : Mem) (id0 r : Nat) : Bool :=
  decide (key_at a m (cand a id0 r) = 0 ∨ lkey_at a m (cand a id0 r) = 1 + 2 * r)

/-- What `claim_large_key` returns when its first successful round is `r`
(`none`: no round succeeds). -/
def claim_large_key_result (a : Ary) (m : Mem) (id0 : Nat) : Option Nat → Option Claimed × Mem
  | none => (none, m)
  | some r =>
    (some ⟨cand a id0 r, (a.offsets.word_offset (cand a id0 r)).1,
        (a.offsets.word_offset (cand a id0 r)).2.2⟩,
      if key_at a m (cand a id0 r) = 0 then lkey_store a m (cand a id0 r) (1 + 2 * r)
      else m)

/-- Start slot of the search for the continuation cell of the cell in slot `q`:
`(q + reprobes_[0]) & size_mask_`. -/
def nxt (a : Ary) (q : Nat) : Nat := wtrunc (q + a.reprobes 0) &&& a.size_mask

/-- Memory after a successful `claim_large_key` started at `nxt q` whose first
successful round is `r`. -/
def lclaim_mem (a : Ary) (m : Mem) (q r : Nat) : Mem :=
  (claim_large_key_result a m (nxt a q) (some r)).2

/-- Word index of the large value field of slot `p`. -/
def lval_w (a : Ary) (p : Nat) : Nat :=
  (a.offsets.word_offset p).1 + (a.offsets.word_offset p).2.2.val.woff

/-- Word index of the normal value field of slot `c`. -/
def val_w (a : Ary) (c : Nat) : Nat :=
  (a.offsets.word_offset c).1 + (a.offsets.word_offset c).2.1.val.woff

/-- The runs of `add_rec` with `large = true` on a sound table, for the
cell in slot `q` whose overflow `val` is to be stored: initial memory, final
memory and returned flag.  `full`: no continuation cell can be claimed.
`done`: the continuation cell takes `val` without a carry.  `more`: the carry
goes to the next level; when that fails the value is back-tracked. -/
inductive LRun (a : Ary) : Nat → Nat → Mem → Mem → Bool → Prop
  | full {q val : Nat} {m : Mem} (hq : q < a.size)
      (hff : first_fit (lfits_at a m (nxt a q)) a.reprobe_limit 0 = none) :
      LRun a q val m m false
  | done {q val r : Nat} {m : Mem} (hq : q < a.size)
      (hff : first_fit (lfits_at a m (nxt a q)) a.reprobe_limit 0 = some r)
      (hc : (add_val_field (lclaim_mem a m q r) (lval_w a (cand a (nxt a q) r)) val
        (a.offsets.word_offset (cand a (nxt a q) r)).2.2.val).1 = 0) :
      LRun a q val m
        (add_val_field (lclaim_mem a m q r) (lval_w a (cand a (nxt a q) r)) val
          (a.offsets.word_offset (cand a (nxt a q) r)).2.2.val).2 true
  | more {q val r : Nat} {m m3 : Mem} {ok : Bool} (hq : q < a.size)
      (hff : first_fit (lfits_at a m (nxt a q)) a.reprobe_limit 0 = some r)
      (hc : (add_val_field (lclaim_mem a m q r) (lval_w a (cand a (nxt a q) r)) val
        (a.offsets.word_offset (cand a (nxt a q) r)).2.2.val).1 ≠ 0)
      (hsub : LRun a (cand a (nxt a q) r)
        (add_val_field (lclaim_mem a m q r) (lval_w a (cand a (nxt a q) r)) val
          (a.offsets.word_offset (cand a (nxt a q) r)).2.2.val).1
        (add_val_field (lclaim_mem a m q r) (lval_w a (cand a (nxt a q) r)) val
          (a.offsets.word_offset (cand a (nxt a q) r)).2.2.val).2 m3 ok) :
      LRun a q val m
        (if ok = true then m3
          else sub_val_field a m3 (lval_w a (cand a (nxt a q) r)) val
            (a.offsets.word_offset (cand a (nxt a q) r)).2.2.val) ok

/-- Hashed slot of a key: `hash_matrix_.times(key) & size_mask_`. -/
def slot_of (a : Ary) (key : Nat) : Nat := a.hash_times key &&& a.size_mask

/-- Memory after a successful `claim_key` for `key` whose first successful round
is `r`. -/
def claim_mem (a : Ary) (m : Mem) (key r : Nat) : Mem :=
  (claim_key_result a m key (slot_of a key) (some r)).2.2

/-- The runs of `add(key, val)` on a sound table: initial memory and
result.  `full`: the primary claim fails.  `done`: the primary value field takes
`val` without a carry.  `more`: the carry goes to the overflow chain; when that
fails the primary value is back-tracked. -/
inductive Run (a : Ary) (key val : Nat) : Mem → AddResult → Prop
  | full {m : Mem}
      (hff : first_fit (fits_at a m key (slot_of a key)) a.reprobe_limit 0 = none) :
      Run a key val m ⟨false, false, slot_of a key, m⟩
  | done {m : Mem} {r : Nat}
      (hff : first_fit (fits_at a m key (slot_of a key)) a.reprobe_limit 0 = some r)
      (hc : (add_val_field (claim_mem a m key r) (val_w a (cand a (slot_of a key) r)) val
        (a.offsets.word_offset (cand a (slot_of a key) r)).2.1.val).1 = 0) :
      Run a key val m ⟨true, decide (key_at a m (cand a (slot_of a key) r) = 0),
        cand a (slot_of a key) r,
        (add_val_field (claim_mem a m key r) (val_w a (cand a (slot_of a key) r)) val
          (a.offsets.word_offset (cand a (slot_of a key) r)).2.1.val).2⟩
  | more {m m3 : Mem} {r : Nat} {ok : Bool}
      (hff : first_fit (fits_at a m key (slot_of a key)) a.reprobe_limit 0 = some r)
      (hc : (add_val_field (claim_mem a m key r) (val_w a (cand a (slot_of a key) r)) val
        (a.offsets.word_offset (cand a (slot_of a key) r)).2.1.val).1 ≠ 0)
      (hsub : LRun a (cand a (slot_of a key) r)
        (add_val_field (claim_mem a m key r) (val_w a (cand a (slot_of a key) r)) val
          (a.offsets.word_offset (cand a (slot_of a key) r)).2.1.val).1
        (add_val_field (claim_mem a m key r) (val_w a (cand a (slot_of a key) r)) val
          (a.offsets.word_offset (cand a (slot_of a key) r)).2.1.val).2 m3 ok) :
      Run a key val m ⟨ok, decide (key_at a m (cand a (slot_of a key) r) = 0),
        cand a (slot_of a key) r,
        if ok = true then m3
          else sub_val_field a m3 (val_w a (cand a (slot_of a key) r)) val
            (a.offsets.word_offset (cand a (slot_of a key) r)).2.1.val⟩

/-- The states reachable from the cleared table by calls of `add` and `set` with
keys of `key_len` bits, together with the keys for which some call claimed a
primary cell (its `claim_key` returned true). -/
inductive Reach (a : Ary) : List Nat → Mem → Prop
  | clear : Reach a [] clear_mem
  | add {ks : List Nat} {m : Mem} {fuel key val : Nat} {res : AddResult} :
      Reach a ks m → key < 2 ^ a.key_len → add a fuel m key val = some res →
      Reach a (if (claim_key a m key (slot_of a key)).1.isSome = true then key :: ks else ks)
        res.mem
  | set {ks : List Nat} {m : Mem} {key : Nat} :
      Reach a ks m → key < 2 ^ a.key_len →
      Reach a (if (claim_key a m key (slot_of a key)).1.isSome = true then key :: ks else ks)
        (set a m key).mem

/-- Invariant of the reachable states: the table is sound (64-bit words, whole
cells); every primary cell holds a key of `ks` at the reprobe index of its slot,
all earlier candidates of that key being occupied; every continuation cell
with reprobe distance `r` from a start slot `s` has all earlier candidates of
`s` occupied. -/
def Inv (a : Ary) (ks : List Nat) (m : Mem) : Prop :=
  TableOK a m ∧
  (∀ c, c < a.size → key_at a m c ≠ 0 → key_at a m c % 2 = 0 →
    ∃ key, key ∈ ks ∧ ∃ r, r ≤ a.reprobe_limit ∧ c = cand a (slot_of a key) r ∧
      holds a m c key r ∧ ∀ j, j < r → key_at a m (cand a (slot_of a key) j) ≠ 0) ∧
  (∀ s, s < a.size → ∀ r, r ≤ a.reprobe_limit → lkey_at a m (cand a s r) = 1 + 2 * r →
    ∀ j, j < r → key_at a m (cand a s j) ≠ 0)

/-- The hash is invertible on keys of `key_len` bits: two keys with the same
bits `[lsize, key_len)` and the same hashed slot are equal. -/
def HashInj (a : Ary) : Prop :=
  ∀ k1, k1 < 2 ^ a.key_len → ∀ k2, k2 < 2 ^ a.key_len →
    get_bits k1 a.lsize a.raw_key_len = get_bits k2 a.lsize a.raw_key_len →
    slot_of a k1 = slot_of a k2 → k1 = k2

/-- Some primary cell holds `key`: `get_key_at_id` classifies a slot as FILLED and
decodes the bits `[lsize, key_len)` of `key` and its hashed slot. -/
def HeldBy (a : Ary) (m : Mem) (key : Nat) : Prop :=
  ∃ c, c < a.size ∧ (get_key_at_id a m c 0).1 = key_status.FILLED ∧
    get_bits (get_key_at_id a m c 0).2.1 a.lsize a.raw_key_len
      = get_bits key a.lsize a.raw_key_len ∧
    get_bits (get_key_at_id a m c 0).2.1 0 a.lsize = slot_of a key

/-- From `m` to `m2` no key field changes its key part: occupancy, large key and
primary key fields are the same (the stores into value fields). -/
def KeyEq (a : Ary) (m m2 : Mem) : Prop :=
  ∀ d, d < a.size → lkey_at a m2 d = lkey_at a m d ∧
    (key_at a m2 d = 0 ↔ key_at a m d = 0) ∧
    (key_at a m d % 2 = 0 → key_at a m2 d = key_at a m d)

instance (a : Ary) : Decidable (HashInj a) := by
  unfold HashInj; infer_instance


/-- From `m` to `m2` slot `y` is untouched: each of its bit fields has the same
content. -/
def SameCell (a : Ary) (m m2 : Mem) (y : Nat) : Prop :=
  ∀ f ∈ slot_flds a y, get_bits (m2 f.1) f.2.1 f.2.2 = get_bits (m f.1) f.2.1 f.2.2

/-- The overflow chain of slot `c` in the memory `m`: `c` itself and, for every
slot `q` of the chain, the continuation cells that `resolve_val_rec` started
at `nxt q` can match, the candidate of round `r` holding the reprobe
distance `r`. -/
inductive Chain (a : Ary) (m : Mem) (c : Nat) : Nat → Prop
  | root : Chain a m c c
  | child {q r : Nat} : Chain a m c q → r ≤ a.reprobe_limit →
      lkey_at a m (cand a (nxt a q) r) = 1 + 2 * r → Chain a m c (cand a (nxt a q) r)

/-- Content of the value field described by `v` in the block at word `w`: the
bits of the first word and, above them, the bits of the second word. -/
def val_read (m : Mem) (w : Nat) (v : ValOffsets) : Nat :=
  get_bits (m (w + v.woff)) v.boff v.shift |||
    wshl (get_bits (m (w + v.woff + 1)) 0 v.len2) v.shift

/-- The branch of `resolve_val_rec` taken on the continuation cell of slot `cid`
that matches the reprobe distance, as a function of the content `nval` of its
large value field: the carry bit is split off, the content is shifted to its
weight and added, and the walk goes on from `(cid + reprobes_[0]) & size_mask_`. -/
def resolve_hit (a : Ary) (carry_bit : Bool) (next : Nat → Nat → Nat → Option Nat)
    (cid val overflows nval : Nat) : Option Nat :=
  let do_reprobe := if carry_bit = true then decide (nval &&& 1 ≠ 0) else true
  let nval := if carry_bit = true then nval >>> 1 else nval
  let nval := wshl nval a.offsets.val_len
  let nval := wshl nval (a.offsets.lval_len * overflows)
  let val := wtrunc (val + nval)
  if do_reprobe = false then
    some val
  else
    next (wtrunc (cid + a.reprobes 0) &&& a.size_mask) val (overflows + 1)

/-! ## Iteration -/

/-- The first `n` successive calls of `next()` from the iterator `it`: for every
call that returns true the triple `(id(), key(), val())` read after it, and
`none` for a call that returns false. -/
def nexts (a : Ary) (fuel : Nat) (m : Mem) : Nat → iterator → Option (List (Option (Nat × Nat × Nat)))
  | 0, _ => some []
  | n + 1, it =>
    match iterator.next a fuel m it with
    | none => none
    | some r =>
      (nexts a fuel m n r.2).map
        (fun l => (if r.1 = true then some (r.2.id, r.2.key_, r.2.val_) else none) :: l)

/-- The slots of `[lo, hi)` that `get_key_at_id` classifies as FILLED, in
increasing order. -/
def filled_slots (a : Ary) (m : Mem) (lo hi : Nat) : List Nat :=
  (List.range' lo (hi - lo)).filter (fun i => decide ((get_key_at_id a m i 0).1 = key_status.FILLED))

/-! ## Values of cells -/

/-- Content of the value field of slot `c` in the normal layout: the counter bits
of a primary cell. -/
def val_at (a : Ary) (m : Mem) (c : Nat) : Nat :=
  val_read m (a.offsets.word_offset c).1 (a.offsets.word_offset c).2.1.val

/-- Content of the value field of slot `x` in the large layout: the counter bits
of a continuation cell. -/
def lval_at (a : Ary) (m : Mem) (x : Nat) : Nat :=
  val_read m (a.offsets.word_offset x).1 (a.offsets.word_offset x).2.2.val

/-- Memory after the increment of the primary value field by `val` in `add_rec`,
the primary claim having succeeded at round `r`. -/
def incr_mem (a : Ary) (m : Mem) (key r val : Nat) : Mem :=
  (add_val_field (claim_mem a m key r) (val_w a (cand a (slot_of a key) r)) val
    (a.offsets.word_offset (cand a (slot_of a key) r)).2.1.val).2

/-! ## Overflow chains and uniqueness in reachable states -/

/-- Slot `x` is a continuation cell of slot `q`: the candidate of some round `r`
of the walk from `nxt q` that holds the reprobe distance `r`. -/
def Child (a : Ary) (m : Mem) (q x : Nat) : Prop :=
  ∃ r, r ≤ a.reprobe_limit ∧ x = cand a (nxt a q) r ∧ lkey_at a m x = 1 + 2 * r

/-- Further invariant of the reachable states: the cell
of which a continuation cell continues the counter is occupied; the walk down
the continuation cells ends from every slot; and a primary cell that holds a key
at reprobe index `r` has no earlier candidate that holds the same key at its
index. -/
def Inv2 (a : Ary) (m : Mem) : Prop :=
  (∀ q, q < a.size → ∀ x, Child a m q x → key_at a m q ≠ 0) ∧
  (∀ q, q < a.size → Acc (fun x y => Child a m y x) q) ∧
  (∀ key r j, r ≤ a.reprobe_limit → j < r → holds a m (cand a (slot_of a key) r) key r →
    ¬ holds a m (cand a (slot_of a key) j) key j)

/-- What a call of `next()` that stops on the FILLED slot `c` leaves in the
iterator, as the triple `(id(), key(), val())`: the slot, the key decoded by
`get_key_at_id` with its bits `[0, lsize)` replaced by those of
`hash_inverse_matrix_.times`, and the value of `get_val_at_id` (`0` when the
bound `fuel` on the recursion of `resolve_val_rec` is too small). -/
def yield_at (a : Ary) (fuel : Nat) (m : Mem) (c : Nat) : Nat × Nat × Nat :=
  let r := get_key_at_id a m c 0
  (c, set_bits r.2.1 0 a.lsize (a.hash_inverse_times r.2.1),
    (get_val_at_id a fuel m c r.2.2.1 r.2.2.2 true false).getD 0)

/-- The memory of the small instance after `add(4, 1)` and `add(8, 1)` on the
cleared table: key 4 in slot 0, key 8 in slot 2. -/
def small_two_keys : Mem :=
  ((add small_ary 2 ((add small_ary 2 clear_mem 4 1).get rfl).mem 8 1).get rfl).mem

/-! ## Candidate cells inspected by the claims -/

/-- The slots `cid` on which the `do ... while(!key_claimed)` loop of `claim_key`
runs a round, in order: the loop of `claim_key_loop` with the slot of every
round recorded. -/
def claim_key_probes_loop (a : Ary) (key id0 : Nat) :
    Nat → Nat → Nat → Nat → Mem → List Nat
  | left, reprobe, cid, akey, m =>
    let r := claim_key_attempt a m key akey cid
    if r.1 = true then
      [cid]
    else
      match left with
      | 0 => [cid]
      | left + 1 =>
        cid :: claim_key_probes_loop a key id0 left (reprobe + 1)
          (wtrunc (id0 + a.reprobes (reprobe + 1)) &&& a.size_mask)
          ((akey &&& wnot a.offsets.reprobe_mask) ||| (reprobe + 1 + 1)) r.2.2.1

/-- The slots that a call `claim_key(key, is_new, id, ...)` inspects, in order. -/
def claim_key_probes (a : Ary) (m : Mem) (key id : Nat) : List Nat :=
  let to_copy := min (wsize - a.offsets.reprobe_len) (a.key_len - a.lsize)
  let akey := 1 ||| wshl (get_bits key a.lsize to_copy) a.offsets.reprobe_len
  claim_key_probes_loop a key id a.reprobe_limit 0 id akey m

/-- The slots `cid` on which the loop of `claim_large_key` runs a round, in
order: the loop of `claim_large_key_loop` with the slot of every round
recorded. -/
def claim_large_key_probes_loop (a : Ary) (id0 : Nat) : Nat → Nat → Nat → Mem → List Nat
  | left, reprobe, cid, m =>
    let r := claim_large_key_attempt a m reprobe cid
    if r.1 = true then
      [cid]
    else
      match left with
      | 0 => [cid]
      | left + 1 =>
        cid :: claim_large_key_probes_loop a id0 left (reprobe + 1)
          (wtrunc (id0 + a.reprobes (reprobe + 1)) &&& a.size_mask) r.2.1

/-- The slots that a call `claim_large_key(id, ...)` inspects, in order. -/
def claim_large_key_probes (a : Ary) (m : Mem) (id : Nat) : List Nat :=
  claim_large_key_probes_loop a id a.reprobe_limit 0 id m

/-! ## Overflow chains as lists -/

/-- The continuation cell that the walk of `resolve_val_rec` from the start slot
`s` accepts, scanning `left` candidates from the round `r` on: the first
candidate that is a continuation cell holding the reprobe distance of its
round, no earlier candidate being free; `none` when a free cell comes first or
no round is left. -/
def cont_cell (a : Ary) (m : Mem) (s : Nat) : Nat → Nat → Option Nat
  | 0, _ => none
  | left + 1, r =>
    if key_at a m (cand a s r) % 2 = 1 then
      if lkey_at a m (cand a s r) = 1 + 2 * r then some (cand a s r)
      else cont_cell a m s left (r + 1)
    else if key_at a m (cand a s r) = 0 then none
    else cont_cell a m s left (r + 1)

/-- The slots `cid` that the `for` loop of `get_key_id` hands to `get_key_at_id`,
in order: the loop of `get_key_id_loop` with the slot of every round recorded. -/
def get_key_id_probes_loop (a : Ary) (m : Mem) (key oid : Nat) :
    Nat → Nat → Nat → Nat → List Nat
  | 0, _, _, _ => []
  | left + 1, reprobe, cid, tmp_key =>
    let next (tmp : Nat) :=
      get_key_id_probes_loop a m key oid left (reprobe + 1)
        (wtrunc (oid + a.reprobes (reprobe + 1)) &&& a.size_mask) tmp
    let r := get_key_at_id a m cid tmp_key
    match r.1 with
    | key_status.EMPTY => [cid]
    | key_status.FILLED =>
      if oid ≠ get_bits r.2.1 0 a.lsize then
        cid :: next r.2.1
      else
        let tmp := set_bits r.2.1 0 a.lsize (get_bits key 0 a.lsize)
        if tmp ≠ key then
          cid :: next tmp
        else
          [cid]
    | key_status.LBSET => cid :: next r.2.1

/-- The slots that a call `get_key_id(key, id)` examines, in order. -/
def get_key_id_probes (a : Ary) (m : Mem) (key : Nat) : List Nat :=
  let oid := a.hash_times key &&& a.size_mask
  get_key_id_probes_loop a m key oid a.reprobe_limit 0 oid 0

/-- The indices at which one call of `resolve_val_rec(id, ...)` reads the schedule
in `cid = (id + reprobes_[++reprobe]) & size_mask_`, in order: the loop of
`resolve_val_loop` with the index of every such read recorded.  The read of
`reprobes_[0]` for the recursive call is not listed. -/
def resolve_val_reads (a : Ary) (m : Mem) (id : Nat) : Nat → Nat → Nat → List Nat
  | 0, _, _ => []
  | left + 1, reprobe, cid =>
    let continue_ :=
      (reprobe + 1) :: resolve_val_reads a m id left (reprobe + 1)
        (wtrunc (id + a.reprobes (reprobe + 1)) &&& a.size_mask)
    let wo := a.offsets.word_offset cid
    let w := wo.1
    let o := wo.2.1
    let lo := wo.2.2
    let kw := w + o.key.woff
    let nkey := m kw
    let lkey := lo.key
    if nkey &&& lkey.lb_mask ≠ 0 then
      let nkey :=
        if lkey.sb_mask1 ≠ 0 then
          (((nkey &&& lkey.mask1) &&& wnot lkey.sb_mask1) >>> lkey.boff) |||
            wshl ((m (kw + 1) &&& lkey.mask2) &&& wnot lkey.sb_mask2) lkey.shift
        else
          (nkey &&& lkey.mask1) >>> lkey.boff
      if nkey = reprobe then
        []
      else
        continue_
    else if nkey &&& o.key.mask1 = 0 then
      []
    else
      continue_

/-- The memory of the small instance after `add(4, 1)`, `add(8, 1)` and
`add(1, 1)`: keys 4, 8 and 1 in the slots 0, 2 and 1. -/
def small_three_keys : Mem := ((add small_ary 2 small_two_keys 1 1).get rfl).mem

/-- Offsets of the split instance. -/
def split_offsets : Offsets where
  block_len := 4
  block_word_len := 4
  normal := fun j =>
    if j = 0 then ⟨⟨0, 1, 0, 0, field_mask 7 0, 0, 0, 0, 2 ^ 0, false⟩,
      ⟨0, 7, 2, 0, field_mask 2 7, 0⟩⟩
    else if j = 1 then ⟨⟨0, 60, 3, 0, field_mask 5 59, field_mask 4 0, 2 ^ 63, 2 ^ 3, 2 ^ 59, false⟩,
      ⟨1, 4, 2, 0, field_mask 2 4, 0⟩⟩
    else if j = 2 then ⟨⟨1, 62, 1, 0, field_mask 3 61, field_mask 6 0, 2 ^ 63, 2 ^ 5, 2 ^ 61, false⟩,
      ⟨2, 6, 2, 0, field_mask 2 6, 0⟩⟩
    else ⟨⟨2, 63, 0, 0, field_mask 2 62, field_mask 7 0, 2 ^ 63, 2 ^ 6, 2 ^ 62, false⟩,
      ⟨3, 7, 2, 0, field_mask 2 7, 0⟩⟩
  large := fun j =>
    if j = 0 then ⟨⟨0, 1, 0, 0, field_mask 3 0, 0, 0, 0, 2 ^ 0, false⟩,
      ⟨0, 3, 5, 0, field_mask 5 3, 0⟩⟩
    else if j = 1 then ⟨⟨0, 60, 0, 0, field_mask 3 59, 0, 0, 0, 2 ^ 59, false⟩,
      ⟨0, 62, 2, 3, field_mask 2 62, field_mask 3 0⟩⟩
    else if j = 2 then ⟨⟨1, 62, 1, 0, field_mask 3 61, field_mask 2 0, 2 ^ 63, 2 ^ 1, 2 ^ 61, false⟩,
      ⟨2, 2, 5, 0, field_mask 5 2, 0⟩⟩
    else ⟨⟨2, 63, 0, 0, field_mask 2 62, field_mask 3 0, 2 ^ 63, 2 ^ 2, 2 ^ 62, false⟩,
      ⟨3, 3, 5, 0, field_mask 5 3, 0⟩⟩
  reprobe_len := 2
  reprobe_mask := 3
  val_len := 2
  lval_len := 5

/-- Offsets of the long instance. -/
def long_offsets : Offsets where
  block_len := 4
  block_word_len := 15
  normal := fun j =>
    if j = 0 then ⟨⟨0, 1, 62, 0, field_mask 64 0, field_mask 6 0, 2 ^ 63, 2 ^ 5, 2 ^ 0, true⟩,
      ⟨2, 6, 3, 0, field_mask 3 6, 0⟩⟩
    else if j = 1 then ⟨⟨3, 62, 1, 0, field_mask 3 61, field_mask 4 0, 2 ^ 63, 2 ^ 3, 2 ^ 61, true⟩,
      ⟨6, 4, 3, 0, field_mask 3 4, 0⟩⟩
    else if j = 2 then ⟨⟨7, 59, 4, 0, field_mask 6 58, 0, 2 ^ 63, 0, 2 ^ 58, true⟩,
      ⟨10, 0, 3, 0, field_mask 3 0, 0⟩⟩
    else ⟨⟨11, 57, 6, 0, field_mask 8 56, field_mask 62 0, 2 ^ 63, 2 ^ 61, 2 ^ 56, true⟩,
      ⟨13, 62, 2, 1, field_mask 2 62, 2 ^ 0⟩⟩
  large := fun j =>
    if j = 0 then ⟨⟨0, 1, 0, 0, field_mask 3 0, 0, 0, 0, 2 ^ 0, false⟩,
      ⟨0, 3, 7, 0, field_mask 7 3, 0⟩⟩
    else if j = 1 then ⟨⟨3, 62, 1, 0, field_mask 3 61, field_mask 2 0, 2 ^ 63, 2 ^ 1, 2 ^ 61, false⟩,
      ⟨4, 2, 7, 0, field_mask 7 2, 0⟩⟩
    else if j = 2 then ⟨⟨7, 59, 0, 0, field_mask 3 58, 0, 0, 0, 2 ^ 58, false⟩,
      ⟨7, 61, 3, 4, field_mask 3 61, field_mask 4 0⟩⟩
    else ⟨⟨11, 57, 0, 0, field_mask 3 56, 0, 0, 0, 2 ^ 56, false⟩,
      ⟨11, 59, 5, 2, field_mask 5 59, field_mask 2 0⟩⟩
  reprobe_len := 2
  reprobe_mask := 3
  val_len := 3
  lval_len := 7

/-- The split instance. -/
def split_ary : Ary where
  lsize := 2
  reprobe_limit := 1
  key_len := 6
  offsets := split_offsets
  reprobes := fun i => i * (i + 1) / 2 + 1
  hash_times := fun k => k % 4
  hash_inverse_times := fun k => k % 4

/-- The long instance. -/
def long_ary : Ary where
  lsize := 2
  reprobe_limit := 1
  key_len := 130
  offsets := long_offsets
  reprobes := fun i => i * (i + 1) / 2 + 1
  hash_times := fun k => k % 4
  hash_inverse_times := fun k => k % 4

/-- The memory of the split instance after `add(5, 1)` and `add(9, 1)` on the
cleared table: key 5 in slot 1, key 9 in slot 3, both with a key field split
over two words. -/
def split_two_keys : Mem :=
  ((add split_ary 2 ((add split_ary 2 clear_mem 5 1).get rfl).mem 9 1).get rfl).mem

/-! ## Theorems -/

/-! ## Bit fields -/

theorem testBit_get_bits (k s n i : Nat) :
    (get_bits k s n).testBit i = (decide (i < n) && k.testBit (s + i)) := by
  simp [get_bits]

theorem testBit_set_bits (k s n x i : Nat) :
    (set_bits k s n x).testBit i =
      if i < s then k.testBit i else if i < s + n then x.testBit (i - s) else k.testBit i := by
  simp only [set_bits, Nat.testBit_or, Nat.testBit_mod_two_pow, Nat.testBit_shiftLeft,
    Nat.testBit_shiftRight]
  by_cases h1 : i < s
  · have a1 : ¬ i ≥ s := by omega
    have a2 : ¬ i ≥ s + n := by omega
    simp [h1, a1, a2]
  · by_cases h2 : i < s + n
    · have a0 : i - s < n := by omega
      have a1 : i ≥ s := by omega
      have a2 : ¬ i ≥ s + n := by omega
      simp [h1, h2, a0, a1, a2]
    · have a0 : ¬ i - s < n := by omega
      have a1 : i ≥ s := by omega
      have a2 : i ≥ s + n := by omega
      have e : s + n + (i - (s + n)) = i := by omega
      simp [h1, h2, a0, a1, a2, e]

theorem testBit_field_mask (n b i : Nat) :
    (field_mask n b).testBit i = decide (b ≤ i ∧ i < b + n) := by
  simp only [field_mask, Nat.testBit_shiftLeft, Nat.testBit_two_pow_sub_one]
  by_cases h1 : b ≤ i <;> by_cases h2 : i < b + n <;> simp [h1, h2] <;> omega

theorem testBit_fmask (i : Nat) : fmask.testBit i = decide (i < 64) :=
  Nat.testBit_two_pow_sub_one 64 i

theorem testBit_wnot (x i : Nat) :
    (wnot x).testBit i = (decide (i < 64) ^^ x.testBit i) := by
  rw [wnot, Nat.testBit_xor, testBit_fmask]

theorem testBit_wshl (x n i : Nat) :
    (wshl x n).testBit i = (decide (i < 64) && (decide (n ≤ i) && x.testBit (i - n))) := by
  rw [wshl, Nat.testBit_mod_two_pow, Nat.testBit_shiftLeft]

theorem testBit_wtrunc (x i : Nat) :
    (wtrunc x).testBit i = (decide (i < 64) && x.testBit i) := by
  rw [wtrunc, Nat.testBit_mod_two_pow]

theorem testBit_of_lt_word {w : Nat} (h : w < 2 ^ 64) {i : Nat} (hi : 64 ≤ i) :
    w.testBit i = false :=
  Nat.testBit_lt_two_pow (lt_of_lt_of_le h (Nat.pow_le_pow_right (by decide) hi))

/-- Reading a field through its mask. -/
theorem and_field_mask_shiftRight (w n b : Nat) :
    (w &&& field_mask n b) >>> b = get_bits w b n := by
  apply Nat.eq_of_testBit_eq
  intro i
  simp only [Nat.testBit_shiftRight, Nat.testBit_and, testBit_field_mask, testBit_get_bits]
  by_cases h : i < n <;> simp [h]

/-- Writing a field through its mask. -/
theorem write_field_mask (w x n b : Nat) (hw : w < 2 ^ 64) (hb : b + n ≤ 64) :
    (w &&& wnot (field_mask n b)) ||| (wshl x b &&& field_mask n b) = set_bits w b n x := by
  apply Nat.eq_of_testBit_eq
  intro i
  simp only [Nat.testBit_or, Nat.testBit_and, testBit_wnot, testBit_field_mask, testBit_wshl,
    testBit_set_bits]
  by_cases h64 : i < 64
  · by_cases h1 : i < b
    · have : ¬ b ≤ i := by omega
      simp [h1, h64, this]
    · by_cases h2 : i < b + n
      · have : b ≤ i := by omega
        simp [h1, h2, h64, this]
      · have : b ≤ i := by omega
        simp [h1, h2, h64, this]
  · have hz := testBit_of_lt_word hw (Nat.le_of_not_lt h64)
    have h1 : ¬ i < b := by omega
    have h2 : ¬ i < b + n := by omega
    simp [h1, h2, h64, hz]

theorem field_mask_shiftRight (n b : Nat) : field_mask n b >>> b = 2 ^ n - 1 := by
  simp [field_mask, Nat.shiftLeft_shiftRight]

theorem get_bits_lt (k s n : Nat) : get_bits k s n < 2 ^ n :=
  Nat.mod_lt _ (Nat.two_pow_pos n)

theorem wtrunc_lt (x : Nat) : wtrunc x < 2 ^ 64 :=
  Nat.mod_lt _ (Nat.two_pow_pos 64)

theorem set_bits_lt_word {w : Nat} (hw : w < 2 ^ 64) {b n : Nat} (hb : b + n ≤ 64) (x : Nat) :
    set_bits w b n x < 2 ^ 64 := by
  apply Nat.lt_pow_two_of_testBit
  intro i hi
  rw [testBit_set_bits]
  have h1 : ¬ i < b := by omega
  have h2 : ¬ i < b + n := by omega
  simp [h1, h2, testBit_of_lt_word hw hi]

theorem get_bits_set_bits_same (w b n x : Nat) :
    get_bits (set_bits w b n x) b n = x % 2 ^ n := by
  apply Nat.eq_of_testBit_eq
  intro i
  simp only [testBit_get_bits, testBit_set_bits, Nat.testBit_mod_two_pow]
  by_cases h : i < n
  · have h1 : ¬ b + i < b := by omega
    have h2 : b + i < b + n := by omega
    simp [h, h1, h2]
  · simp [h]

theorem set_bits_set_bits (w b n x y : Nat) :
    set_bits (set_bits w b n x) b n y = set_bits w b n y := by
  apply Nat.eq_of_testBit_eq
  intro i
  simp only [testBit_set_bits]
  split_ifs <;> rfl

theorem set_bits_congr (w b n : Nat) {x y : Nat} (h : x % 2 ^ n = y % 2 ^ n) :
    set_bits w b n x = set_bits w b n y := by
  simp only [set_bits, h]

theorem set_bits_get_bits (w b n : Nat) : set_bits w b n (get_bits w b n) = w := by
  apply Nat.eq_of_testBit_eq
  intro i
  simp only [testBit_set_bits, testBit_get_bits]
  by_cases h1 : i < b
  · simp [h1]
  · by_cases h2 : i < b + n
    · have h3 : i - b < n := by omega
      have h4 : b + (i - b) = i := by omega
      simp [h1, h2, h3, h4]
    · simp [h1, h2]

/-- The carry of `add_val`, shifted down, is the part of the sum above the
field. -/
theorem and_wnot_low_shiftRight {x : Nat} (hx : x < 2 ^ 64) (n : Nat) :
    (x &&& wnot (2 ^ n - 1)) >>> n = x >>> n := by
  apply Nat.eq_of_testBit_eq
  intro i
  simp only [Nat.testBit_shiftRight, Nat.testBit_and, testBit_wnot,
    Nat.testBit_two_pow_sub_one]
  by_cases h : n + i < 64
  · have : ¬ n + i < n := by omega
    simp [h, this]
  · simp [h, testBit_of_lt_word hx (Nat.le_of_not_lt h)]

/-- What `add_val` does on a field `[b, b + n)` of a word. -/
theorem add_val_field_mask (m : Mem) (w val b n : Nat) (hw : m w < 2 ^ 64) (hb : b + n ≤ 64) :
    add_val m w val b (field_mask n b) =
      (wtrunc (get_bits (m w) b n + val) &&& wnot (2 ^ n - 1),
        m.write w (set_bits (m w) b n (wtrunc (get_bits (m w) b n + val)))) := by
  simp only [add_val, and_field_mask_shiftRight, field_mask_shiftRight,
    write_field_mask _ _ _ _ hw hb]

theorem Mem.write_same (m : Mem) (i v : Nat) : (m.write i v) i = v := by
  simp [Mem.write]

theorem Mem.write_other (m : Mem) {i j : Nat} (v : Nat) (h : j ≠ i) : (m.write i v) j = m j := by
  simp [Mem.write, h]

theorem Mem.write_self (m : Mem) (i : Nat) : m.write i (m i) = m := by
  funext j
  by_cases h : j = i <;> simp [Mem.write, h]

theorem Mem.write_write (m : Mem) (i v v2 : Nat) : (m.write i v).write i v2 = m.write i v2 := by
  funext j
  by_cases h : j = i <;> simp [Mem.write, h]

theorem wtrunc_modEq (x : Nat) {k : Nat} (hk : k ≤ 64) : wtrunc x ≡ x [MOD 2 ^ k] :=
  Nat.ModEq.of_dvd (pow_dvd_pow 2 hk) (Nat.mod_modEq x (2 ^ 64))

/-- The amount `wsub (wshl 1 n) d` added by the back-tracking cancels `d` modulo
`2 ^ 64` up to `2 ^ n`. -/
theorem add_wsub_modEq (n d : Nat) : d + wsub (wshl 1 n) d ≡ 2 ^ n [MOD 2 ^ 64] := by
  have h1 : wsub (wshl 1 n) d ≡ wshl 1 n + (2 ^ 64 - d % 2 ^ 64) [MOD 2 ^ 64] :=
    Nat.mod_modEq _ _
  have h2 : wshl 1 n ≡ 2 ^ n [MOD 2 ^ 64] := by
    unfold wshl
    rw [Nat.one_shiftLeft]
    exact Nat.mod_modEq _ _
  have h3 : d + (2 ^ 64 - d % 2 ^ 64) ≡ 0 [MOD 2 ^ 64] := by
    have hlt : d % 2 ^ 64 < 2 ^ 64 := Nat.mod_lt _ (Nat.two_pow_pos 64)
    have hd : d = 2 ^ 64 * (d / 2 ^ 64) + d % 2 ^ 64 := (Nat.div_add_mod d (2 ^ 64)).symm
    have : d + (2 ^ 64 - d % 2 ^ 64) = 2 ^ 64 * (d / 2 ^ 64 + 1) := by
      rw [Nat.mul_add, Nat.mul_one]; omega
    rw [this]
    exact (Nat.modEq_zero_iff_dvd).2 (Dvd.intro _ rfl)
  calc d + wsub (wshl 1 n) d
      ≡ d + (wshl 1 n + (2 ^ 64 - d % 2 ^ 64)) [MOD 2 ^ 64] := Nat.ModEq.add_left d h1
    _ = wshl 1 n + (d + (2 ^ 64 - d % 2 ^ 64)) := by omega
    _ ≡ 2 ^ n + 0 [MOD 2 ^ 64] := Nat.ModEq.add h2 h3
    _ = 2 ^ n := by simp

theorem two_pow_modEq_zero {k n : Nat} (h : k ≤ n) : 2 ^ n ≡ 0 [MOD 2 ^ k] :=
  (Nat.modEq_zero_iff_dvd).2 (pow_dvd_pow 2 h)

/-- Low part of the first word after increment and back-tracking. -/
theorem rollback_low (f d : Nat) {k n : Nat} (hk : k ≤ n) (hn : n ≤ 64) :
    wtrunc (wtrunc (f + d) % 2 ^ k + wsub (wshl 1 n) d) ≡ f [MOD 2 ^ k] := by
  have hk64 : k ≤ 64 := le_trans hk hn
  have h1 : wtrunc (f + d) % 2 ^ k ≡ f + d [MOD 2 ^ k] :=
    (Nat.mod_modEq _ _).trans (wtrunc_modEq _ hk64)
  have h2 : d + wsub (wshl 1 n) d ≡ 0 [MOD 2 ^ k] :=
    ((add_wsub_modEq n d).of_dvd (pow_dvd_pow 2 hk64)).trans (two_pow_modEq_zero hk)
  calc wtrunc (wtrunc (f + d) % 2 ^ k + wsub (wshl 1 n) d)
      ≡ wtrunc (f + d) % 2 ^ k + wsub (wshl 1 n) d [MOD 2 ^ k] := wtrunc_modEq _ hk64
    _ ≡ (f + d) + wsub (wshl 1 n) d [MOD 2 ^ k] := Nat.ModEq.add_right _ h1
    _ = f + (d + wsub (wshl 1 n) d) := by omega
    _ ≡ f + 0 [MOD 2 ^ k] := Nat.ModEq.add_left f h2
    _ = f := by simp

/-- The carries into the second word of a split field cancel. -/
theorem rollback_carries (f d : Nat) {s cs n : Nat} (hf : f < 2 ^ s) (hs : s + cs = n)
    (hn : n ≤ 64) :
    wtrunc (f + d) >>> s + wtrunc (wtrunc (f + d) % 2 ^ s + wsub (wshl 1 n) d) >>> s
      ≡ 0 [MOD 2 ^ cs] := by
  have hs64 : s ≤ 64 := by omega
  set a := wtrunc (f + d) with ha
  set b := wtrunc (a % 2 ^ s + wsub (wshl 1 n) d) with hb
  have hb_low : b % 2 ^ s = f := by
    have := rollback_low f d (by omega : s ≤ n) hn
    rw [← ha, ← hb] at this
    rw [this, Nat.mod_eq_of_lt hf]
  have hsum : a + b ≡ (f + a % 2 ^ s) + 2 ^ n [MOD 2 ^ 64] := by
    have h1 : a ≡ f + d [MOD 2 ^ 64] := Nat.mod_modEq _ _
    have h2 : b ≡ a % 2 ^ s + wsub (wshl 1 n) d [MOD 2 ^ 64] := Nat.mod_modEq _ _
    calc a + b ≡ (f + d) + (a % 2 ^ s + wsub (wshl 1 n) d) [MOD 2 ^ 64] := Nat.ModEq.add h1 h2
      _ = (f + a % 2 ^ s) + (d + wsub (wshl 1 n) d) := by omega
      _ ≡ (f + a % 2 ^ s) + 2 ^ n [MOD 2 ^ 64] := Nat.ModEq.add_left _ (add_wsub_modEq n d)
  have hda : a = 2 ^ s * (a / 2 ^ s) + a % 2 ^ s := (Nat.div_add_mod a (2 ^ s)).symm
  have hdb : b = 2 ^ s * (b / 2 ^ s) + f := by
    have := (Nat.div_add_mod b (2 ^ s)).symm
    rwa [hb_low] at this
  have h3 : 2 ^ s * (a / 2 ^ s + b / 2 ^ s) + (f + a % 2 ^ s)
      ≡ 2 ^ s * 2 ^ cs + (f + a % 2 ^ s) [MOD 2 ^ s * 2 ^ (64 - s)] := by
    have e1 : 2 ^ s * (a / 2 ^ s + b / 2 ^ s) + (f + a % 2 ^ s) = a + b := by
      rw [Nat.mul_add]; omega
    have e2 : (2:Nat) ^ s * 2 ^ cs = 2 ^ n := by rw [← pow_add, hs]
    have e3 : (2:Nat) ^ s * 2 ^ (64 - s) = 2 ^ 64 := by
      rw [← pow_add]; congr 1; omega
    rw [e1, e2, e3, Nat.add_comm (2 ^ n)]
    exact hsum
  have h4 := Nat.ModEq.mul_left_cancel' (by positivity : (2:Nat) ^ s ≠ 0)
    (Nat.ModEq.add_right_cancel' _ h3)
  have h5 : a / 2 ^ s + b / 2 ^ s ≡ 2 ^ cs [MOD 2 ^ cs] :=
    h4.of_dvd (pow_dvd_pow 2 (by omega))
  rw [Nat.shiftRight_eq_div_pow, Nat.shiftRight_eq_div_pow]
  exact h5.trans (two_pow_modEq_zero (le_refl cs))

theorem set_bits_zero_len (w b x : Nat) : set_bits w b 0 x = w := by
  apply Nat.eq_of_testBit_eq
  intro i
  rw [testBit_set_bits]
  split_ifs <;> first | rfl | omega

theorem field_mask_zero_len (b : Nat) : field_mask 0 b = 0 := by
  simp [field_mask]

theorem len2_pos_of_mask2 {v : ValOffsets} {n : Nat} (h : ValShape v n) (h2 : v.mask2 ≠ 0) :
    0 < v.len2 := by
  rcases Nat.eq_zero_or_pos v.len2 with h0 | h0
  · exact absurd (by rw [h.2.2.1, h0, field_mask_zero_len]) h2
  · exact h0

/-- The second step of the increment of a value field, as one store whether it is
executed or not. -/
theorem add_val_second (m : Mem) (vw cary : Nat) {v : ValOffsets} {n : Nat}
    (hv : ValShape v n) (h2 : m (vw + 1) < 2 ^ 64) :
    (if cary ≠ 0 ∧ v.mask2 ≠ 0 then (add_val m (vw + 1) cary 0 v.mask2).2 else m) =
      m.write (vw + 1)
        (set_bits (m (vw + 1)) 0 v.len2 (wtrunc (get_bits (m (vw + 1)) 0 v.len2 + cary))) := by
  have hl : 0 + v.len2 ≤ 64 := by have := hv.2.2.2.2.1; have := hv.2.2.2.2.2; omega
  by_cases hc : cary ≠ 0 ∧ v.mask2 ≠ 0
  · rw [if_pos hc, hv.2.2.1, add_val_field_mask m (vw + 1) cary 0 v.len2 h2 hl]
  · rw [if_neg hc]
    by_cases hm : v.mask2 = 0
    · have : v.len2 = 0 := by simp [ValOffsets.len2, hm]
      rw [this, set_bits_zero_len, Mem.write_self]
    · have hc0 : cary = 0 := by
        by_contra h
        exact hc ⟨h, hm⟩
      have hlt : get_bits (m (vw + 1)) 0 v.len2 < 2 ^ 64 :=
        lt_of_lt_of_le (get_bits_lt _ _ _) (Nat.pow_le_pow_right (by decide) (by omega))
      simp only [hc0, Nat.add_zero, wtrunc, Nat.mod_eq_of_lt hlt, set_bits_get_bits,
        Mem.write_self]

/-- Memory after the increment of a value field. -/
theorem add_val_field_mem (m : Mem) (vw d : Nat) {v : ValOffsets} {n : Nat}
    (hv : ValShape v n) (h1 : m vw < 2 ^ 64) (h2 : m (vw + 1) < 2 ^ 64) :
    (add_val_field m vw d v).2 =
      (m.write vw (set_bits (m vw) v.boff v.shift
          (wtrunc (get_bits (m vw) v.boff v.shift + d)))).write (vw + 1)
        (set_bits (m (vw + 1)) 0 v.len2 (wtrunc (get_bits (m (vw + 1)) 0 v.len2 +
          wtrunc (get_bits (m vw) v.boff v.shift + d) >>> v.shift))) := by
  have hr := add_val_field_mask m vw d v.boff v.shift h1 hv.2.1
  have hne : vw + 1 ≠ vw := by omega
  have h2' : (m.write vw (set_bits (m vw) v.boff v.shift
      (wtrunc (get_bits (m vw) v.boff v.shift + d)))) (vw + 1) < 2 ^ 64 := by
    rw [Mem.write_other _ _ hne]; exact h2
  have hs := add_val_second (m.write vw (set_bits (m vw) v.boff v.shift
      (wtrunc (get_bits (m vw) v.boff v.shift + d)))) vw
      (wtrunc (get_bits (m vw) v.boff v.shift + d) >>> v.shift) hv h2'
  rw [Mem.write_other _ _ hne] at hs
  rw [← hs]
  unfold add_val_field
  simp only [← hv.1] at hr
  simp only [hr, and_wnot_low_shiftRight (wtrunc_lt _)]
  split_ifs <;> rfl

/-- Memory after the back-tracking of a value field. -/
theorem sub_val_field_mem (a : Ary) (m : Mem) (vw d : Nat) {v : ValOffsets} {n : Nat}
    (hv : ValShape v n) (h1 : m vw < 2 ^ 64) (h2 : m (vw + 1) < 2 ^ 64) :
    sub_val_field a m vw d v =
      (m.write vw (set_bits (m vw) v.boff v.shift
          (wtrunc (get_bits (m vw) v.boff v.shift + wsub (wshl 1 a.offsets.val_len) d)))).write
        (vw + 1)
        (set_bits (m (vw + 1)) 0 v.len2 (wtrunc (get_bits (m (vw + 1)) 0 v.len2 +
          wtrunc (get_bits (m vw) v.boff v.shift + wsub (wshl 1 a.offsets.val_len) d)
            >>> v.shift))) := by
  have hr := add_val_field_mask m vw (wsub (wshl 1 a.offsets.val_len) d) v.boff v.shift h1 hv.2.1
  have hne : vw + 1 ≠ vw := by omega
  have h2' : (m.write vw (set_bits (m vw) v.boff v.shift
      (wtrunc (get_bits (m vw) v.boff v.shift + wsub (wshl 1 a.offsets.val_len) d))))
      (vw + 1) < 2 ^ 64 := by
    rw [Mem.write_other _ _ hne]; exact h2
  have hs := add_val_second (m.write vw (set_bits (m vw) v.boff v.shift
      (wtrunc (get_bits (m vw) v.boff v.shift + wsub (wshl 1 a.offsets.val_len) d)))) vw
      (wtrunc (get_bits (m vw) v.boff v.shift + wsub (wshl 1 a.offsets.val_len) d) >>> v.shift)
      hv h2'
  rw [Mem.write_other _ _ hne] at hs
  rw [← hs]
  unfold sub_val_field
  simp only [← hv.1] at hr
  simp only [hr, and_wnot_low_shiftRight (wtrunc_lt _)]

/-! ### Bit fields, candidates, the word `akey` -/

theorem and_field_mask (w n b : Nat) : w &&& field_mask n b = get_bits w b n <<< b := by
  apply Nat.eq_of_testBit_eq
  intro i
  simp only [Nat.testBit_and, testBit_field_mask, Nat.testBit_shiftLeft, testBit_get_bits]
  by_cases h1 : b ≤ i
  · by_cases h2 : i < b + n
    · have h3 : i - b < n := by omega
      have h4 : b + (i - b) = i := by omega
      simp [h1, h2, h3, h4]
    · have h3 : ¬ i - b < n := by omega
      simp [h1, h2, h3]
  · simp [h1]

theorem shiftLeft_eq_zero_iff (x b : Nat) : x <<< b = 0 ↔ x = 0 := by
  rw [Nat.shiftLeft_eq]
  constructor
  · intro h
    rcases Nat.mul_eq_zero.1 h with h | h
    · exact h
    · exact absurd h (by positivity)
  · intro h; simp [h]

theorem shiftLeft_inj (x y b : Nat) : x <<< b = y <<< b ↔ x = y := by
  rw [Nat.shiftLeft_eq, Nat.shiftLeft_eq]
  constructor
  · intro h
    exact Nat.eq_of_mul_eq_mul_right (by positivity) h
  · intro h; rw [h]

theorem and_field_mask_eq_zero (w n b : Nat) : w &&& field_mask n b = 0 ↔ get_bits w b n = 0 := by
  rw [and_field_mask, shiftLeft_eq_zero_iff]

theorem and_field_mask_eq (w n b y : Nat) :
    w &&& field_mask n b = y <<< b ↔ get_bits w b n = y := by
  rw [and_field_mask, shiftLeft_inj]

theorem and_field_mask_shiftRight_add (w n b j : Nat) :
    (w &&& field_mask n b) >>> (b + j) = get_bits w b n >>> j := by
  rw [and_field_mask, Nat.shiftRight_add, Nat.shiftLeft_shiftRight]

theorem get_bits_mod (w b n j : Nat) (h : j ≤ n) : get_bits w b n % 2 ^ j = get_bits w b j := by
  unfold get_bits
  rw [Nat.mod_mod_of_dvd _ (pow_dvd_pow 2 h)]

/-- A field that is zero takes a value by `|`. -/
theorem or_shiftLeft_of_field_zero {w b n y : Nat} (h0 : get_bits w b n = 0) (hy : y < 2 ^ n) :
    w ||| (y <<< b) = set_bits w b n y := by
  apply Nat.eq_of_testBit_eq
  intro i
  have hbit : ∀ j, j < n → w.testBit (b + j) = false := by
    intro j hj
    have := congrArg (fun t => t.testBit j) h0
    simpa [testBit_get_bits, hj] using this
  simp only [Nat.testBit_or, Nat.testBit_shiftLeft, testBit_set_bits]
  by_cases h1 : i < b
  · have : ¬ i ≥ b := by omega
    simp [h1, this]
  · by_cases h2 : i < b + n
    · have h3 := hbit (i - b) (by omega)
      have h4 : b + (i - b) = i := by omega
      rw [h4] at h3
      have : i ≥ b := by omega
      simp [h1, h2, h3, this]
    · have h3 : y.testBit (i - b) = false :=
        Nat.testBit_lt_two_pow (lt_of_lt_of_le hy (Nat.pow_le_pow_right (by decide) (by omega)))
      simp [h1, h2, h3]

/-- The word `nkey` that `claim_key` builds for a one-word key field. -/
theorem claim_nkey {akey cb klen : Nat} (hk : akey < 2 ^ klen) (hb : cb + 1 + klen ≤ 64) :
    wshl akey (cb + 1) &&& field_mask (klen + 1) cb = (2 * akey) <<< cb := by
  apply Nat.eq_of_testBit_eq
  intro i
  simp only [Nat.testBit_and, testBit_field_mask, Nat.testBit_shiftLeft, testBit_wshl]
  by_cases h1 : cb + 1 ≤ i
  · have e : (2 * akey).testBit (i - cb) = akey.testBit (i - (cb + 1)) := by
      have : i - cb = (i - (cb + 1)) + 1 := by omega
      rw [this, Nat.testBit_add_one]
      congr 1; omega
    by_cases h2 : i < cb + (klen + 1)
    · have : i < 64 := by omega
      have : cb ≤ i := by omega
      simp [*]
    · have h3 : akey.testBit (i - (cb + 1)) = false :=
        Nat.testBit_lt_two_pow (lt_of_lt_of_le hk (Nat.pow_le_pow_right (by decide) (by omega)))
      simp [h2, h3, e]
  · by_cases h0 : cb ≤ i
    · have hi : i = cb := by omega
      subst hi
      simp [h1]
    · simp [h1, h0]

/-- The word `nkey` that `claim_large_key` builds for a one-word key field. -/
theorem claim_large_nkey {r cb rlen : Nat} (hr : r < 2 ^ rlen) (hb : cb + 1 + rlen ≤ 64) :
    (wshl r (cb + 1) ||| field_mask 1 cb) &&& field_mask (rlen + 1) cb = (1 + 2 * r) <<< cb := by
  apply Nat.eq_of_testBit_eq
  intro i
  simp only [Nat.testBit_and, Nat.testBit_or, testBit_field_mask, Nat.testBit_shiftLeft,
    testBit_wshl]
  by_cases h1 : cb + 1 ≤ i
  · have e : (1 + 2 * r).testBit (i - cb) = r.testBit (i - (cb + 1)) := by
      have : i - cb = (i - (cb + 1)) + 1 := by omega
      rw [this, Nat.testBit_add_one]
      congr 1; omega
    by_cases h2 : i < cb + (rlen + 1)
    · have : i < 64 := by omega
      have : cb ≤ i := by omega
      have : ¬ i < cb + 1 := by omega
      simp [*]
    · have h3 : r.testBit (i - (cb + 1)) = false :=
        Nat.testBit_lt_two_pow (lt_of_lt_of_le hr (Nat.pow_le_pow_right (by decide) (by omega)))
      simp [h2, h3, e]
  · by_cases h0 : cb ≤ i
    · have hi : i = cb := by omega
      subst hi
      have : (1 + 2 * r) % 2 = 1 := by omega
      simp [h1, this]
    · simp [h1, h0]

theorem and_two_pow_sub_one (x n : Nat) : x &&& (2 ^ n - 1) = x % 2 ^ n :=
  Nat.and_pow_two_sub_one_eq_mod x n

theorem get_bits_set_bits_apart (w b n x b2 n2 : Nat) (h : b + n ≤ b2 ∨ b2 + n2 ≤ b) :
    get_bits (set_bits w b n x) b2 n2 = get_bits w b2 n2 := by
  apply Nat.eq_of_testBit_eq
  intro i
  simp only [testBit_get_bits, testBit_set_bits]
  by_cases hi : i < n2
  · by_cases h1 : b2 + i < b
    · simp [hi, h1]
    · by_cases h2 : b2 + i < b + n
      · omega
      · simp [hi, h1, h2]
  · simp [hi]

/-- A store into one bit field leaves a field apart from it as it was. -/
theorem get_bits_write_apart (m : Mem) {f g : Field} (h : Apart f g) (v : Nat) :
    get_bits ((m.write f.1 (set_bits (m f.1) f.2.1 f.2.2 v)) g.1) g.2.1 g.2.2
      = get_bits (m g.1) g.2.1 g.2.2 := by
  by_cases hx : g.1 = f.1
  · rw [hx, Mem.write_same]
    rcases h with h | h
    · exact absurd hx.symm h
    · exact get_bits_set_bits_apart _ _ _ _ _ _ h
  · rw [Mem.write_other _ _ hx]

theorem MemOK.write {m : Mem} (hm : MemOK m) (x : Nat) {v : Nat} (hv : v < 2 ^ 64) :
    MemOK (m.write x v) := by
  intro i
  by_cases h : i = x
  · rw [h, Mem.write_same]; exact hv
  · rw [Mem.write_other _ _ h]; exact hm i

theorem MemOK.write_field {m : Mem} (hm : MemOK m) (x : Nat) {b n : Nat} (hb : b + n ≤ 64)
    (v : Nat) : MemOK (m.write x (set_bits (m x) b n v)) :=
  hm.write x (set_bits_lt_word (hm x) hb v)

theorem clear_mem_ok : MemOK clear_mem := fun _ => by
  show (0 : Nat) < 2 ^ 64
  positivity

theorem Apart.symm {f g : Field} (h : Apart f g) : Apart g f := by
  unfold Apart at *
  rcases h with h | h | h
  · exact Or.inl (Ne.symm h)
  · exact Or.inr (Or.inr h)
  · exact Or.inr (Or.inl h)

theorem first_fit_some {p : Nat → Bool} : ∀ {left r k : Nat}, first_fit p left r = some k →
    r ≤ k ∧ k ≤ r + left ∧ p k = true ∧ ∀ j, r ≤ j → j < k → p j = false := by
  intro left
  induction left with
  | zero =>
    intro r k h
    unfold first_fit at h
    by_cases hp : p r = true
    · simp only [hp, if_true, Option.some.injEq] at h
      subst h
      exact ⟨le_refl _, by omega, hp, fun j h1 h2 => by omega⟩
    · simp [hp] at h
  | succ n ih =>
    intro r k h
    unfold first_fit at h
    by_cases hp : p r = true
    · simp only [hp, if_true, Option.some.injEq] at h
      subst h
      exact ⟨le_refl _, by omega, hp, fun j h1 h2 => by omega⟩
    · simp only [hp, if_false] at h
      obtain ⟨h1, h2, h3, h4⟩ := ih h
      refine ⟨by omega, by omega, h3, fun j hj1 hj2 => ?_⟩
      by_cases hj : j = r
      · subst hj; simpa using hp
      · exact h4 j (by omega) hj2

theorem first_fit_none {p : Nat → Bool} : ∀ {left r : Nat}, first_fit p left r = none →
    ∀ j, r ≤ j → j ≤ r + left → p j = false := by
  intro left
  induction left with
  | zero =>
    intro r h j h1 h2
    unfold first_fit at h
    by_cases hp : p r = true
    · simp [hp] at h
    · have : j = r := by omega
      subst this; simpa using hp
  | succ n ih =>
    intro r h j h1 h2
    unfold first_fit at h
    by_cases hp : p r = true
    · simp [hp] at h
    · simp only [hp, if_false] at h
      by_cases hj : j = r
      · subst hj; simpa using hp
      · exact ih h j (by omega) (by omega)

theorem first_fit_of_first {p : Nat → Bool} : ∀ {left r k : Nat}, r ≤ k → k ≤ r + left →
    p k = true → (∀ j, r ≤ j → j < k → p j = false) → first_fit p left r = some k := by
  intro left
  induction left with
  | zero =>
    intro r k h1 h2 h3 _
    have : k = r := by omega
    subst this
    unfold first_fit
    simp [h3]
  | succ n ih =>
    intro r k h1 h2 h3 h4
    unfold first_fit
    by_cases hk : k = r
    · subst hk; simp [h3]
    · have hp : p r = false := h4 r (le_refl _) (by omega)
      simp only [hp, Bool.false_eq_true, if_false]
      exact ih (by omega) (by omega) h3 (fun j hj1 hj2 => h4 j (by omega) hj2)

theorem Ary.size_pos (a : Ary) : 0 < a.size := Nat.two_pow_pos _

theorem cand_lt (a : Ary) {id0 : Nat} (h : id0 < a.size) (r : Nat) : cand a id0 r < a.size := by
  unfold cand
  split_ifs
  · exact h
  · have h1 : wtrunc (id0 + a.reprobes r) &&& a.size_mask ≤ a.size_mask := Nat.and_le_right
    have h2 := a.size_pos
    unfold Ary.size_mask at *
    omega

theorem cand_zero (a : Ary) (id0 : Nat) : cand a id0 0 = id0 := by simp [cand]

theorem cand_succ (a : Ary) (id0 r : Nat) :
    cand a id0 (r + 1) = wtrunc (id0 + a.reprobes (r + 1)) &&& a.size_mask := by simp [cand]

theorem testBit_small {x n i : Nat} (hx : x < 2 ^ n) (hi : n ≤ i) : x.testBit i = false :=
  Nat.testBit_lt_two_pow (lt_of_lt_of_le hx (Nat.pow_le_pow_right (by decide) hi))

theorem testBit_akey_of (a : Ary) (key r i : Nat) (hr : r + 1 < 2 ^ a.offsets.reprobe_len) :
    (akey_of a key r).testBit i =
      if i < a.offsets.reprobe_len then (r + 1).testBit i
      else (decide (i - a.offsets.reprobe_len < a.raw_key_len) &&
        key.testBit (a.lsize + (i - a.offsets.reprobe_len))) := by
  unfold akey_of
  simp only [Nat.testBit_or, Nat.testBit_shiftLeft, testBit_get_bits]
  by_cases h : i < a.offsets.reprobe_len
  · have : ¬ i ≥ a.offsets.reprobe_len := by omega
    simp [h, this]
  · have h1 : i ≥ a.offsets.reprobe_len := by omega
    simp [h, h1, testBit_small hr h1]

theorem akey_of_lt {a : Ary} (key : Nat) {r : Nat} (hr : r + 1 < 2 ^ a.offsets.reprobe_len) :
    akey_of a key r < 2 ^ a.klen := by
  apply Nat.lt_pow_two_of_testBit
  intro i hi
  rw [testBit_akey_of a key r i hr]
  unfold Ary.klen at hi
  have h1 : ¬ i < a.offsets.reprobe_len := by omega
  have h2 : ¬ i - a.offsets.reprobe_len < a.raw_key_len := by omega
  simp [h1, h2]

theorem akey_of_mod {a : Ary} (key : Nat) {r : Nat} (hr : r + 1 < 2 ^ a.offsets.reprobe_len) :
    akey_of a key r % 2 ^ a.offsets.reprobe_len = r + 1 := by
  apply Nat.eq_of_testBit_eq
  intro i
  rw [Nat.testBit_mod_two_pow, testBit_akey_of a key r i hr]
  by_cases h : i < a.offsets.reprobe_len
  · simp [h]
  · simp [h, testBit_small hr (Nat.le_of_not_lt h)]

theorem akey_of_shiftRight {a : Ary} (key : Nat) {r : Nat}
    (hr : r + 1 < 2 ^ a.offsets.reprobe_len) :
    akey_of a key r >>> a.offsets.reprobe_len = get_bits key a.lsize a.raw_key_len := by
  apply Nat.eq_of_testBit_eq
  intro i
  rw [Nat.testBit_shiftRight, testBit_akey_of a key _ _ hr, testBit_get_bits]
  have h : ¬ a.offsets.reprobe_len + i < a.offsets.reprobe_len := by omega
  have e : a.offsets.reprobe_len + i - a.offsets.reprobe_len = i := by omega
  simp [h, e]

theorem hash_slot_lt (a : Ary) (key : Nat) : a.hash_times key &&& a.size_mask < a.size := by
  have h1 : a.hash_times key &&& a.size_mask ≤ a.size_mask := Nat.and_le_right
  have h2 := a.size_pos
  unfold Ary.size_mask at *
  omega

theorem akey_of_pos {a : Ary} (key : Nat) {r : Nat} (hr : r + 1 < 2 ^ a.offsets.reprobe_len) :
    0 < akey_of a key r := by
  have := akey_of_mod key hr
  rcases Nat.eq_zero_or_pos (akey_of a key r) with h | h
  · rw [h] at this; simp at this
  · exact h

theorem two_mul_akey_lt {a : Ary} (key : Nat) {r : Nat} (hr : r + 1 < 2 ^ a.offsets.reprobe_len) :
    2 * akey_of a key r < 2 ^ (a.klen + 1) := by
  have := akey_of_lt (a := a) key hr
  rw [pow_succ]; omega

theorem add_compl_modEq (d : Nat) : d + (2 ^ 64 - d % 2 ^ 64) ≡ 0 [MOD 2 ^ 64] := by
  have hlt : d % 2 ^ 64 < 2 ^ 64 := Nat.mod_lt _ (Nat.two_pow_pos 64)
  have hd : d = 2 ^ 64 * (d / 2 ^ 64) + d % 2 ^ 64 := (Nat.div_add_mod d (2 ^ 64)).symm
  have : d + (2 ^ 64 - d % 2 ^ 64) = 2 ^ 64 * (d / 2 ^ 64 + 1) := by
    rw [Nat.mul_add, Nat.mul_one]; omega
  rw [this]
  exact (Nat.modEq_zero_iff_dvd).2 (Dvd.intro _ rfl)

theorem Ary.size_mask_eq (a : Ary) : a.size_mask = 2 ^ a.lsize - 1 := rfl

theorem and_size_mask (a : Ary) (x : Nat) : x &&& a.size_mask = x % 2 ^ a.lsize := by
  rw [Ary.size_mask_eq, Nat.and_pow_two_sub_one_eq_mod]

theorem and_size_mask_of_lt (a : Ary) {x : Nat} (h : x < a.size) : x &&& a.size_mask = x := by
  rw [and_size_mask]; exact Nat.mod_eq_of_lt h

/-- Going back from the candidate of reprobe index `r ≥ 1` by `reprobes_[r]`
gives the start slot. -/
theorem wsub_cand {a : Ary} (hl : a.lsize ≤ 63) {id0 : Nat} (hid : id0 < a.size) (R : Nat) :
    wsub (wtrunc (id0 + R) &&& a.size_mask) R &&& a.size_mask = id0 := by
  have hL : a.lsize ≤ 64 := by omega
  rw [and_size_mask, and_size_mask]
  have h1 : wsub (wtrunc (id0 + R) % 2 ^ a.lsize) R ≡ id0 [MOD 2 ^ a.lsize] := by
    have e1 : wsub (wtrunc (id0 + R) % 2 ^ a.lsize) R ≡
        wtrunc (id0 + R) % 2 ^ a.lsize + (2 ^ 64 - R % 2 ^ 64) [MOD 2 ^ a.lsize] :=
      wtrunc_modEq _ hL
    have e2 : wtrunc (id0 + R) % 2 ^ a.lsize ≡ id0 + R [MOD 2 ^ a.lsize] :=
      (Nat.mod_modEq _ _).trans (wtrunc_modEq _ hL)
    have e3 : R + (2 ^ 64 - R % 2 ^ 64) ≡ 0 [MOD 2 ^ a.lsize] :=
      (add_compl_modEq R).of_dvd (pow_dvd_pow 2 hL)
    calc wsub (wtrunc (id0 + R) % 2 ^ a.lsize) R
        ≡ wtrunc (id0 + R) % 2 ^ a.lsize + (2 ^ 64 - R % 2 ^ 64) [MOD 2 ^ a.lsize] := e1
      _ ≡ (id0 + R) + (2 ^ 64 - R % 2 ^ 64) [MOD 2 ^ a.lsize] := Nat.ModEq.add_right _ e2
      _ = id0 + (R + (2 ^ 64 - R % 2 ^ 64)) := by omega
      _ ≡ id0 + 0 [MOD 2 ^ a.lsize] := Nat.ModEq.add_left _ e3
      _ = id0 := by simp
  rw [h1]
  exact Nat.mod_eq_of_lt hid

/-- The original slot computed by `get_key_at_id` for a cell claimed at reprobe
index `r` from the start slot `id0`. -/
theorem orig_slot {a : Ary} (hl : a.lsize ≤ 63) {id0 : Nat} (hid : id0 < a.size) (r : Nat) :
    (if r + 1 > 1 then wsub (cand a id0 r) (a.reprobes (r + 1 - 1)) else cand a id0 r)
      &&& a.size_mask = id0 := by
  rcases Nat.eq_zero_or_pos r with h0 | h0
  · subst h0
    simp only [gt_iff_lt, lt_self_iff_false, if_false, cand_zero]
    exact and_size_mask_of_lt a hid
  · have h1 : r + 1 > 1 := by omega
    have h2 : r ≠ 0 := by omega
    simp only [h1, if_true, cand, h2, if_false, Nat.add_sub_cancel]
    exact wsub_cand hl hid _

theorem get_bits_decoded_high (tmp L n hi x : Nat) (hhi : hi < 2 ^ n) :
    get_bits (set_bits (set_bits tmp L n hi) 0 L x) L n = hi := by
  rw [get_bits_set_bits_apart _ _ _ _ _ _ (Or.inl (by omega)), get_bits_set_bits_same,
    Nat.mod_eq_of_lt hhi]

theorem get_bits_decoded_low (k L x : Nat) (hx : x < 2 ^ L) :
    get_bits (set_bits k 0 L x) 0 L = x := by
  rw [get_bits_set_bits_same, Nat.mod_eq_of_lt hx]

theorem slot_of_lt (a : Ary) (key : Nat) : slot_of a key < a.size := hash_slot_lt a key

theorem nxt_lt (a : Ary) (q : Nat) : nxt a q < a.size := by
  have h1 : nxt a q ≤ a.size_mask := Nat.and_le_right
  have h2 := a.size_pos
  unfold Ary.size_mask at *
  omega

theorem one_add_two_mul_lt {r n : Nat} (h : r < 2 ^ n) : 1 + 2 * r < 2 ^ (n + 1) := by
  rw [pow_succ]; omega

/-! ## Key fields in one word

The claims on key fields that lie in one word (`Ary.WF`). -/

theorem CellShape.kb_succ {a : Ary} {id : Nat} (hs : CellShape a id) :
    (a.offsets.word_offset id).2.1.key.boff = cell_kb a id + 1 := by
  have := hs.2.2.1
  unfold cell_kb
  omega

theorem CellShape.kb_le {a : Ary} {id : Nat} (hs : CellShape a id) :
    cell_kb a id + 1 + a.klen ≤ 64 := by
  have h1 := hs.2.2.1
  have h2 := hs.2.2.2.1
  unfold cell_kb
  omega

/-- One round of `claim_key` on a one-word key field. -/
theorem claim_key_attempt_eq_one {a : Ary} {id : Nat} (hs : CellShape a id) (m : Mem)
    (key : Nat) {akey : Nat} (hk : akey < 2 ^ a.klen) :
    claim_key_attempt a m key akey id =
      if cell_key a m id = 0 then
        (true, true, m.write (cell_kw a id)
          (set_bits (m (cell_kw a id)) (cell_kb a id) (a.klen + 1) (2 * akey)),
          (a.offsets.word_offset id).1, (a.offsets.word_offset id).2.1)
      else
        (decide (cell_key a m id = 2 * akey), false, m,
          (a.offsets.word_offset id).1, (a.offsets.word_offset id).2.1) := by
  have hsb : (a.offsets.word_offset id).2.1.key.sb_mask1 = 0 := hs.1
  have hm1 : (a.offsets.word_offset id).2.1.key.mask1
      = field_mask (a.klen + 1) (cell_kb a id) := hs.2.2.2.2.1
  have hnk := claim_nkey hk hs.kb_le
  have h2lt : 2 * akey < 2 ^ (a.klen + 1) := by rw [pow_succ]; omega
  unfold claim_key_attempt
  simp only [hsb, ne_eq, not_true_eq_false, if_false, set_key, hm1, hs.kb_succ, hnk]
  by_cases h0 : cell_key a m id = 0
  · have hz : m (cell_kw a id) &&& field_mask (a.klen + 1) (cell_kb a id) = 0 :=
      (and_field_mask_eq_zero _ _ _).2 h0
    have hw := or_shiftLeft_of_field_zero h0 h2lt
    simp only [cell_key] at h0
    simp only [cell_kw] at hz hw h0 ⊢
    simp only [hz, if_true, h0, hw, cell_key, cell_kw]
  · have hz : ¬ m (cell_kw a id) &&& field_mask (a.klen + 1) (cell_kb a id) = 0 :=
      fun h => h0 ((and_field_mask_eq_zero _ _ _).1 h)
    have he := and_field_mask_eq (m (cell_kw a id)) (a.klen + 1) (cell_kb a id) (2 * akey)
    simp only [cell_kw] at hz he
    simp only [hz, if_false, h0, cell_key, cell_kw, he]
    simp only [cell_key, cell_kw] at h0
    simp only [h0, if_false]

/-- Decoding of slot `id` by `get_key_at_id` on a one-word key field. -/
theorem get_key_at_id_eq_one {a : Ary} {id : Nat} (hs : CellShape a id)
    (hrm : a.offsets.reprobe_mask = 2 ^ a.offsets.reprobe_len - 1) (m : Mem) (key : Nat) :
    get_key_at_id a m id key =
      if cell_key a m id % 2 = 1 then
        (key_status.LBSET, key, (a.offsets.word_offset id).1, (a.offsets.word_offset id).2.1)
      else if cell_key a m id = 0 then
        (key_status.EMPTY, key, (a.offsets.word_offset id).1, (a.offsets.word_offset id).2.1)
      else
        (key_status.FILLED,
          set_bits (set_bits key a.lsize a.raw_key_len
            ((cell_key a m id / 2) >>> a.offsets.reprobe_len)) 0 a.lsize
            ((if (cell_key a m id / 2) % 2 ^ a.offsets.reprobe_len > 1 then
                wsub id (a.reprobes ((cell_key a m id / 2) % 2 ^ a.offsets.reprobe_len - 1))
              else id) &&& a.size_mask),
          (a.offsets.word_offset id).1, (a.offsets.word_offset id).2.1) := by
  have hsb : (a.offsets.word_offset id).2.1.key.sb_mask1 = 0 := hs.1
  have hm1 : (a.offsets.word_offset id).2.1.key.mask1
      = field_mask (a.klen + 1) (cell_kb a id) := hs.2.2.2.2.1
  have hlb : (a.offsets.word_offset id).2.1.key.lb_mask = field_mask 1 (cell_kb a id) :=
    hs.2.2.2.2.2.1
  have e1 : get_bits (m (cell_kw a id)) (cell_kb a id) 1 = cell_key a m id % 2 := by
    have := get_bits_mod (m (cell_kw a id)) (cell_kb a id) (a.klen + 1) 1 (by omega)
    simpa [cell_key] using this.symm
  have e2 : (m (cell_kw a id) &&& field_mask (a.klen + 1) (cell_kb a id)) >>> (cell_kb a id + 1)
      = cell_key a m id / 2 := by
    rw [and_field_mask_shiftRight_add, Nat.shiftRight_eq_div_pow, pow_one]; rfl
  have hlt2 : cell_key a m id % 2 < 2 := Nat.mod_lt _ (by decide)
  unfold get_key_at_id
  simp only [hsb, ne_eq, not_true_eq_false, if_false, hm1, hlb, hs.kb_succ, hrm,
    and_two_pow_sub_one]
  simp only [cell_kw] at e1 e2
  by_cases hodd : cell_key a m id % 2 = 1
  · have : ¬ m ((a.offsets.word_offset id).1 + (a.offsets.word_offset id).2.1.key.woff) &&&
        field_mask 1 (cell_kb a id) = 0 := by
      rw [and_field_mask_eq_zero, e1, hodd]; decide
    simp only [this, not_false_eq_true, if_true, hodd]
  · have : m ((a.offsets.word_offset id).1 + (a.offsets.word_offset id).2.1.key.woff) &&&
        field_mask 1 (cell_kb a id) = 0 := by
      rw [and_field_mask_eq_zero, e1]; omega
    simp only [this, not_true_eq_false, if_false, hodd, e2]
    by_cases h0 : cell_key a m id = 0
    · simp [h0]
    · have : ¬ cell_key a m id / 2 = 0 := by omega
      simp only [this, if_false, h0, Ary.raw_key_len]

/-- The key field of slot `c` after a store into the key field of slot `c`. -/
theorem cell_key_write_same (a : Ary) (m : Mem) (c v : Nat) :
    cell_key a (m.write (cell_kw a c)
      (set_bits (m (cell_kw a c)) (cell_kb a c) (a.klen + 1) v)) c = v % 2 ^ (a.klen + 1) := by
  unfold cell_key
  rw [Mem.write_same, get_bits_set_bits_same]

theorem Ary.WF.cell {a : Ary} (h : a.WF) {c : Nat} (hc : c < a.size) : CellShape a c :=
  (h.2.2.2.2 c hc).1

theorem Ary.WF.klen_le {a : Ary} (h : a.WF) : a.klen ≤ 63 := by
  have := (h.cell a.size_pos).kb_le
  omega

theorem Ary.WF.raw_le {a : Ary} (h : a.WF) : a.raw_key_len + a.offsets.reprobe_len ≤ 63 := by
  have := h.klen_le
  unfold Ary.klen at this
  omega

/-- The initial `akey` of `claim_key`. -/
theorem akey_init_one {a : Ary} (h : a.WF) (key : Nat) :
    1 ||| wshl (get_bits key a.lsize
      (min (wsize - a.offsets.reprobe_len) (a.key_len - a.lsize))) a.offsets.reprobe_len
      = akey_of a key 0 := by
  have hraw := h.raw_le
  have hmin : min (wsize - a.offsets.reprobe_len) (a.key_len - a.lsize) = a.raw_key_len := by
    unfold Ary.raw_key_len wsize at *
    omega
  rw [hmin, Nat.lor_comm]
  unfold akey_of
  congr 1
  unfold wshl
  apply Nat.mod_eq_of_lt
  apply Nat.lt_pow_two_of_testBit
  intro i hi
  simp only [Nat.testBit_shiftLeft, testBit_get_bits]
  have : ¬ i - a.offsets.reprobe_len < a.raw_key_len := by omega
  simp [this]

/-- The update of `akey` in `claim_key` after a failed round. -/
theorem akey_step_one {a : Ary} (h : a.WF) (key : Nat) {r : Nat}
    (hr : r + 1 + 1 < 2 ^ a.offsets.reprobe_len) :
    (akey_of a key r &&& wnot a.offsets.reprobe_mask) ||| (r + 1 + 1) = akey_of a key (r + 1) := by
  have hr0 : r + 1 < 2 ^ a.offsets.reprobe_len := by omega
  have hraw := h.raw_le
  rw [h.2.2.1]
  apply Nat.eq_of_testBit_eq
  intro i
  simp only [Nat.testBit_or, Nat.testBit_and, testBit_wnot, Nat.testBit_two_pow_sub_one,
    testBit_akey_of a key _ i hr, testBit_akey_of a key _ i hr0]
  by_cases h1 : i < a.offsets.reprobe_len
  · have : i < 64 := by omega
    simp [h1, this]
  · have h2 := testBit_small hr (Nat.le_of_not_lt h1)
    by_cases h3 : i < 64
    · simp [h1, h2, h3]
    · have : ¬ i - a.offsets.reprobe_len < a.raw_key_len := by omega
      simp [h1, h2, h3, this]

theorem claims_at_of_free {a : Ary} {m : Mem} {key id0 r : Nat}
    (h : cell_key a m (cand a id0 r) = 0) : claims_at a m key id0 r = true := by
  simp [claims_at, h]

theorem claims_at_of_holds {a : Ary} {m : Mem} {key id0 r : Nat}
    (h : cell_key a m (cand a id0 r) = 2 * akey_of a key r) : claims_at a m key id0 r = true := by
  simp [claims_at, holds_key, h]

theorem claims_at_false {a : Ary} {m : Mem} {key id0 r : Nat}
    (h0 : cell_key a m (cand a id0 r) ≠ 0)
    (h1 : cell_key a m (cand a id0 r) ≠ 2 * akey_of a key r) :
    claims_at a m key id0 r = false := by
  simp [claims_at, holds_key, h0, h1]

theorem claim_key_loop_eq_one {a : Ary} (hwf : a.WF) (m : Mem) (key : Nat) {id0 : Nat}
    (hid : id0 < a.size) : ∀ left reprobe, reprobe + left = a.reprobe_limit →
    claim_key_loop a key id0 left reprobe (cand a id0 reprobe) (akey_of a key reprobe) m =
      claim_key_result_one a m key id0 (first_fit (claims_at a m key id0) left reprobe) := by
  intro left
  induction left with
  | zero =>
    intro reprobe hrl
    have hr : reprobe + 1 < 2 ^ a.offsets.reprobe_len := by have := hwf.2.2.2.1; omega
    have hat := claim_key_attempt_eq_one (hwf.cell (cand_lt a hid reprobe)) m key
      (akey_of_lt key hr)
    unfold claim_key_loop first_fit
    by_cases h0 : cell_key a m (cand a id0 reprobe) = 0
    · rw [if_pos h0] at hat
      rw [hat, claims_at_of_free h0]
      simp only [if_true, claim_key_result_one, h0, decide_True]
    · rw [if_neg h0] at hat
      by_cases h1 : cell_key a m (cand a id0 reprobe) = 2 * akey_of a key reprobe
      · rw [decide_eq_true h1] at hat
        rw [hat, claims_at_of_holds h1]
        simp only [if_true, claim_key_result_one, h0, decide_False, if_false]
      · rw [decide_eq_false h1] at hat
        rw [hat, claims_at_false h0 h1]
        simp only [Bool.false_eq_true, if_false, claim_key_result_one]
  | succ n ih =>
    intro reprobe hrl
    have hr : reprobe + 1 < 2 ^ a.offsets.reprobe_len := by have := hwf.2.2.2.1; omega
    have hr1 : reprobe + 1 + 1 < 2 ^ a.offsets.reprobe_len := by have := hwf.2.2.2.1; omega
    have hat := claim_key_attempt_eq_one (hwf.cell (cand_lt a hid reprobe)) m key
      (akey_of_lt key hr)
    unfold claim_key_loop first_fit
    by_cases h0 : cell_key a m (cand a id0 reprobe) = 0
    · rw [if_pos h0] at hat
      rw [hat, claims_at_of_free h0]
      simp only [if_true, claim_key_result_one, h0, decide_True]
    · rw [if_neg h0] at hat
      by_cases h1 : cell_key a m (cand a id0 reprobe) = 2 * akey_of a key reprobe
      · rw [decide_eq_true h1] at hat
        rw [hat, claims_at_of_holds h1]
        simp only [if_true, claim_key_result_one, h0, decide_False, if_false]
      · rw [decide_eq_false h1] at hat
        have hih := ih (reprobe + 1) (by omega)
        rw [cand_succ, ← akey_step_one hwf key hr1] at hih
        rw [hat, claims_at_false h0 h1]
        simp only [Bool.false_eq_true, if_false]
        exact hih

/-- Method `claim_key` on one-word key fields: the first round that finds its
candidate free or holding this key at this reprobe index decides. -/
theorem claim_key_eq_one {a : Ary} (hwf : a.WF) (m : Mem) (key : Nat) {id0 : Nat}
    (hid : id0 < a.size) :
    claim_key a m key id0 =
      claim_key_result_one a m key id0 (first_fit (claims_at a m key id0) a.reprobe_limit 0) := by
  have := claim_key_loop_eq_one hwf m key hid a.reprobe_limit 0 (by omega)
  rw [cand_zero] at this
  unfold claim_key
  simp only []
  rw [akey_init_one hwf key]
  exact this

theorem status_eq_one {a : Ary} (hwf : a.WF) (m : Mem) {c : Nat} (hc : c < a.size) (key : Nat) :
    (get_key_at_id a m c key).1 =
      if cell_key a m c % 2 = 1 then key_status.LBSET
      else if cell_key a m c = 0 then key_status.EMPTY else key_status.FILLED := by
  rw [get_key_at_id_eq_one (hwf.cell hc) hwf.2.2.1]
  by_cases h1 : cell_key a m c % 2 = 1
  · simp only [if_pos h1]
  · by_cases h2 : cell_key a m c = 0
    · simp only [if_neg h1, if_pos h2]
    · simp only [if_neg h1, if_neg h2]

theorem status_empty_iff_one {a : Ary} (hwf : a.WF) (m : Mem) {c : Nat} (hc : c < a.size)
    (key : Nat) :
    (get_key_at_id a m c key).1 = key_status.EMPTY ↔ cell_key a m c = 0 := by
  rw [status_eq_one hwf m hc]
  by_cases h1 : cell_key a m c % 2 = 1
  · have : cell_key a m c ≠ 0 := by omega
    simp [h1, this]
  · by_cases h2 : cell_key a m c = 0 <;> simp [h1, h2]

theorem Ary.WF.reprobe_fits_one {a : Ary} (h : a.WF) {r : Nat} (hr : r ≤ a.reprobe_limit) :
    r + 1 < 2 ^ a.offsets.reprobe_len := by
  have := h.2.2.2.1
  omega

theorem holds_key_even {a : Ary} {m : Mem} {c key r : Nat} (h : holds_key a m c key r) :
    cell_key a m c % 2 = 0 := by
  unfold holds_key at h
  omega

theorem holds_key_ne_zero {a : Ary} (hwf : a.WF) {m : Mem} {c key r : Nat}
    (hr : r ≤ a.reprobe_limit) (h : holds_key a m c key r) : cell_key a m c ≠ 0 := by
  unfold holds_key at h
  have := akey_of_pos (a := a) key (hwf.reprobe_fits_one hr)
  omega

/-- Decoding by `get_key_at_id` of a primary cell that holds `key` at reprobe
index `r` from the start slot `id0`. -/
theorem get_key_at_id_holds_one {a : Ary} (hwf : a.WF) {m : Mem} {key id0 r : Nat}
    (hid : id0 < a.size) (hr : r ≤ a.reprobe_limit) (h : holds_key a m (cand a id0 r) key r)
    (tmp : Nat) :
    get_key_at_id a m (cand a id0 r) tmp =
      (key_status.FILLED,
        set_bits (set_bits tmp a.lsize a.raw_key_len (get_bits key a.lsize a.raw_key_len))
          0 a.lsize id0,
        (a.offsets.word_offset (cand a id0 r)).1, (a.offsets.word_offset (cand a id0 r)).2.1) := by
  have hfit := hwf.reprobe_fits_one hr
  have hc := cand_lt a hid r
  have h0 := holds_key_ne_zero hwf hr h
  have he := holds_key_even h
  unfold holds_key at h
  have hdiv : cell_key a m (cand a id0 r) / 2 = akey_of a key r := by omega
  rw [get_key_at_id_eq_one (hwf.cell hc) hwf.2.2.1]
  have hne : ¬ cell_key a m (cand a id0 r) % 2 = 1 := by omega
  simp only [if_neg hne, if_neg h0, hdiv, akey_of_mod key hfit, akey_of_shiftRight key hfit]
  rw [orig_slot hwf.1 hid r]

/-- The key word of `get_key_at_id` on a one-word key field: the bits of the key
field above the large bit. -/
theorem key_field_eq_one {a : Ary} {id : Nat} (hs : CellShape a id) (m : Mem) :
    (m ((a.offsets.word_offset id).1 + (a.offsets.word_offset id).2.1.key.woff) &&&
        (a.offsets.word_offset id).2.1.key.mask1) >>> (a.offsets.word_offset id).2.1.key.boff
      = cell_key a m id / 2 := by
  have hm1 : (a.offsets.word_offset id).2.1.key.mask1
      = field_mask (a.klen + 1) (cell_kb a id) := hs.2.2.2.2.1
  have hb : (a.offsets.word_offset id).2.1.key.boff = cell_kb a id + 1 := hs.kb_succ
  rw [hm1, hb, and_field_mask_shiftRight_add, Nat.shiftRight_eq_div_pow, pow_one]
  rfl

/-- A successful `claim_key` on one-word key fields: the round `r` of its first
success, the slot reported and the key field of that slot afterwards. -/
theorem claim_key_some_one {a : Ary} (hwf : a.WF) {m : Mem} {key id0 : Nat} (hid : id0 < a.size)
    {cl : Claimed} {is_new : Bool} {m2 : Mem}
    (h : claim_key a m key id0 = (some cl, is_new, m2)) :
    ∃ r, r ≤ a.reprobe_limit ∧ first_fit (claims_at a m key id0) a.reprobe_limit 0 = some r ∧
      cl = ⟨cand a id0 r, (a.offsets.word_offset (cand a id0 r)).1,
        (a.offsets.word_offset (cand a id0 r)).2.1⟩ ∧
      holds_key a m2 (cand a id0 r) key r := by
  rw [claim_key_eq_one hwf m key hid] at h
  cases hff : first_fit (claims_at a m key id0) a.reprobe_limit 0 with
  | none => rw [hff] at h; simp [claim_key_result_one] at h
  | some r =>
    rw [hff] at h
    obtain ⟨-, hr, hp, -⟩ := first_fit_some hff
    have hr2 : r ≤ a.reprobe_limit := by omega
    have hc := cand_lt a hid r
    simp only [claim_key_result_one, Prod.mk.injEq, Option.some.injEq] at h
    obtain ⟨h1, -, h3⟩ := h
    refine ⟨r, hr2, rfl, h1.symm, ?_⟩
    rw [← h3]
    unfold holds_key
    split_ifs with h0
    · rw [cell_key_write_same, Nat.mod_eq_of_lt (two_mul_akey_lt key (hwf.reprobe_fits_one hr2))]
    · have : claims_at a m key id0 r = true := hp
      simp only [claims_at, decide_eq_true_eq, holds_key] at this
      rcases this with h | h
      · exact absurd h h0
      · exact h

/-! ### Key fields over several words -/

theorem testBit_data63 (m : Mem) : ∀ (k w n i : Nat),
    (data63 m k w n).testBit i =
      (decide (i < n) && decide (i < 63 * k) && (m (w + i / 63)).testBit (i % 63)) := by
  intro k
  induction k with
  | zero => intro w n i; simp [data63]
  | succ k ih =>
    intro w n i
    rw [data63, Nat.testBit_or, testBit_get_bits, Nat.testBit_shiftLeft, ih]
    by_cases h : i < 63
    · have e1 : i / 63 = 0 := Nat.div_eq_of_lt h
      have e2 : i % 63 = i := Nat.mod_eq_of_lt h
      have e3 : ¬ 63 ≤ i := by omega
      have e4 : i < 63 * (k + 1) := by omega
      by_cases h2 : i < n
      · have : i < min n 63 := by omega
        simp [e1, e2, e3, e4, h2, this]
      · have : ¬ i < min n 63 := by omega
        simp [e3, h2, this]
    · have e1 : i / 63 = (i - 63) / 63 + 1 := by omega
      have e2 : i % 63 = (i - 63) % 63 := by omega
      have e3 : 63 ≤ i := by omega
      have e5 : ¬ i < min n 63 := by omega
      have e6 : w + 1 + (i - 63) / 63 = w + i / 63 := by omega
      by_cases h2 : i < n
      · have h3 : i - 63 < n - 63 := by omega
        by_cases h4 : i < 63 * (k + 1)
        · have h5 : i - 63 < 63 * k := by omega
          simp [e2, e3, e5, e6, h2, h3, h4, h5]
        · have h5 : ¬ i - 63 < 63 * k := by omega
          simp [e3, e5, h2, h4, h5]
      · have h3 : ¬ i - 63 < n - 63 := by omega
        simp [e3, e5, h2, h3]

theorem testBit_key_at (a : Ary) (m : Mem) (id j : Nat) :
    (key_at a m id).testBit j =
      if j ≤ key_n1 a id then (m (cell_kw a id)).testBit (cell_kb a id + j)
      else (decide (j - (key_n1 a id + 1) < key_rem a id) &&
        (m (cell_kw a id + 1 + (j - (key_n1 a id + 1)) / 63)).testBit
          ((j - (key_n1 a id + 1)) % 63)) := by
  unfold key_at
  rw [Nat.testBit_or, testBit_get_bits, Nat.testBit_shiftLeft, testBit_data63]
  by_cases h : j ≤ key_n1 a id
  · have h1 : j < key_n1 a id + 1 := by omega
    have h2 : ¬ key_n1 a id + 1 ≤ j := by omega
    simp [h, h1, h2]
  · have h1 : ¬ j < key_n1 a id + 1 := by omega
    have h2 : key_n1 a id + 1 ≤ j := by omega
    by_cases h3 : j - (key_n1 a id + 1) < key_rem a id
    · have h4 : j - (key_n1 a id + 1) < 63 * (key_rem a id / 63 + 1) := by omega
      simp [h, h1, h2, h3, h4]
    · simp [h, h1, h2, h3]

theorem testBit_lkey_at (a : Ary) (m : Mem) (id j : Nat) :
    (lkey_at a m id).testBit j =
      if j ≤ lkey_n1 a id then (m (cell_kw a id)).testBit (cell_kb a id + j)
      else (decide (j - (lkey_n1 a id + 1) < lkey_rem a id) &&
        (m (cell_kw a id + 1)).testBit (j - (lkey_n1 a id + 1))) := by
  unfold lkey_at
  rw [Nat.testBit_or, testBit_get_bits, Nat.testBit_shiftLeft, testBit_get_bits]
  by_cases h : j ≤ lkey_n1 a id
  · have h1 : j < lkey_n1 a id + 1 := by omega
    have h2 : ¬ lkey_n1 a id + 1 ≤ j := by omega
    simp [h, h1, h2]
  · have h1 : ¬ j < lkey_n1 a id + 1 := by omega
    have h2 : lkey_n1 a id + 1 ≤ j := by omega
    simp [h, h1, h2]

theorem tail_len_le (n j : Nat) : tail_len n j ≤ 63 := by
  unfold tail_len; omega

theorem tail_len_pos {n j : Nat} (h : j < tail_words n) : 0 < tail_len n j := by
  unfold tail_len tail_words at *; omega

theorem tail_len_eq {n j : Nat} (h : j < n / 63) : tail_len n j = 63 := by
  unfold tail_len
  have : 63 * (n / 63) ≤ n := Nat.mul_div_le n 63
  have : 63 * (j + 1) ≤ 63 * (n / 63) := Nat.mul_le_mul_left 63 h
  omega

theorem tail_len_last (n : Nat) : tail_len n (n / 63) = n % 63 := by
  unfold tail_len
  have := Nat.div_add_mod n 63
  have := Nat.mod_lt n (by decide : 63 > 0)
  omega

theorem Ary.Valid.shape {a : Ary} (h : a.Valid) {c : Nat} (hc : c < a.size) : SlotShape a c :=
  (h.2.2.2.2.2 c hc).1

theorem Ary.Valid.apart {a : Ary} (h : a.Valid) {c d : Nat} (hc : c < a.size) (hd : d < a.size)
    (hne : c ≠ d) {f g : Field} (hf : f ∈ slot_flds a c) (hg : g ∈ slot_flds a d) : Apart f g :=
  (h.2.2.2.2.2 c hc).2 d hd hne f hf g hg

theorem SlotShape.kb_add_one {a : Ary} {id : Nat} (hs : SlotShape a id) :
    (a.offsets.word_offset id).2.1.key.boff = cell_kb a id + 1 := by
  have := hs.1
  unfold cell_kb
  omega

theorem SlotShape.one {a : Ary} {id : Nat} (hs : SlotShape a id)
    (h0 : (a.offsets.word_offset id).2.1.key.sb_mask1 = 0) :
    cell_kb a id + 1 + a.klen ≤ 64 ∧
      (a.offsets.word_offset id).2.1.key.mask1 = field_mask (a.klen + 1) (cell_kb a id) ∧
      key_n1 a id = a.klen ∧ key_rem a id = 0 := by
  have h1 := hs.1
  have h := hs.2.2.2.2.2.1
  simp only [h0, if_true] at h
  refine ⟨?_, h.2, ?_, ?_⟩
  · unfold cell_kb; omega
  · simp [key_n1, h0]
  · simp [key_rem, key_n1, h0]

theorem SlotShape.split {a : Ary} {id : Nat} (hs : SlotShape a id)
    (h0 : (a.offsets.word_offset id).2.1.key.sb_mask1 ≠ 0) :
    (a.offsets.word_offset id).2.1.key.sb_mask1 = 2 ^ 63 ∧
      cell_kb a id + key_n1 a id = 62 ∧ key_n1 a id < a.klen ∧
      (a.offsets.word_offset id).2.1.key.mask1 = field_mask (64 - cell_kb a id) (cell_kb a id) ∧
      (a.offsets.word_offset id).2.1.key.shift = key_n1 a id ∧
      0 < key_rem a id ∧ key_n1 a id + key_rem a id = a.klen := by
  have h1 := hs.1
  have h := hs.2.2.2.2.2.1
  simp only [h0, if_false] at h
  have e : key_n1 a id = (a.offsets.word_offset id).2.1.key.shift := by simp [key_n1, h0]
  refine ⟨h.1, ?_, ?_, h.2.2.2.1, e.symm, ?_, ?_⟩
  · rw [e]; unfold cell_kb; omega
  · rw [e]; exact h.2.2.1
  · unfold key_rem; rw [e]; omega
  · unfold key_rem; rw [e]; omega

theorem SlotShape.split2 {a : Ary} {id : Nat} (hs : SlotShape a id)
    (h0 : (a.offsets.word_offset id).2.1.key.sb_mask1 ≠ 0)
    (hf : (a.offsets.word_offset id).2.1.key.full_words = false) :
    key_rem a id ≤ 63 ∧ (a.offsets.word_offset id).2.1.key.sb_mask2 = 2 ^ key_rem a id ∧
      (a.offsets.word_offset id).2.1.key.mask2 = field_mask (key_rem a id + 1) 0 := by
  have h := hs.2.2.2.2.2.1
  simp only [h0, if_false, hf, Bool.false_eq_true] at h
  have e : key_rem a id = a.klen - (a.offsets.word_offset id).2.1.key.shift := by
    simp [key_rem, key_n1, h0]
  rw [e]
  exact h.2.2.2.2

theorem SlotShape.split3 {a : Ary} {id : Nat} (hs : SlotShape a id)
    (h0 : (a.offsets.word_offset id).2.1.key.sb_mask1 ≠ 0)
    (hf : (a.offsets.word_offset id).2.1.key.full_words = true) :
    1 ≤ key_n1 a id ∧ 63 ≤ key_rem a id ∧
      (key_rem a id % 63 = 0 → (a.offsets.word_offset id).2.1.key.sb_mask2 = 0) ∧
      (key_rem a id % 63 ≠ 0 →
        (a.offsets.word_offset id).2.1.key.sb_mask2 = 2 ^ (key_rem a id % 63) ∧
        (a.offsets.word_offset id).2.1.key.mask2 = field_mask (key_rem a id % 63 + 1) 0) := by
  have h := hs.2.2.2.2.2.1
  simp only [h0, if_false, hf, if_true] at h
  have e : key_rem a id = a.klen - (a.offsets.word_offset id).2.1.key.shift := by
    simp [key_rem, key_n1, h0]
  have e1 : key_n1 a id = (a.offsets.word_offset id).2.1.key.shift := by simp [key_n1, h0]
  rw [e, e1]
  refine ⟨h.2.2.2.2.1, h.2.2.2.2.2.1, fun h3 => ?_, fun h3 => ?_⟩
  · have := h.2.2.2.2.2.2
    simpa [h3] using this
  · have := h.2.2.2.2.2.2
    simpa [h3] using this

theorem SlotShape.lone {a : Ary} {id : Nat} (hs : SlotShape a id)
    (h0 : (a.offsets.word_offset id).2.2.key.sb_mask1 = 0) :
    cell_kb a id + 1 + a.offsets.reprobe_len ≤ 64 ∧
      (a.offsets.word_offset id).2.2.key.mask1
        = field_mask (a.offsets.reprobe_len + 1) (cell_kb a id) ∧
      lkey_n1 a id = a.offsets.reprobe_len ∧ lkey_rem a id = 0 := by
  have h1 := hs.1
  have h := hs.2.2.2.2.2.2.1
  simp only [h0, if_true] at h
  refine ⟨?_, h.2, ?_, ?_⟩
  · unfold cell_kb; omega
  · simp [lkey_n1, h0]
  · simp [lkey_rem, lkey_n1, h0]

theorem SlotShape.lsplit {a : Ary} {id : Nat} (hs : SlotShape a id)
    (h0 : (a.offsets.word_offset id).2.2.key.sb_mask1 ≠ 0) :
    (a.offsets.word_offset id).2.1.key.sb_mask1 ≠ 0 ∧
      (a.offsets.word_offset id).2.2.key.sb_mask1 = 2 ^ 63 ∧
      lkey_n1 a id = key_n1 a id ∧ (a.offsets.word_offset id).2.2.key.shift = lkey_n1 a id ∧
      0 < lkey_rem a id ∧ lkey_n1 a id + lkey_rem a id = a.offsets.reprobe_len ∧
      (a.offsets.word_offset id).2.2.key.mask1
        = field_mask (64 - cell_kb a id) (cell_kb a id) ∧
      (a.offsets.word_offset id).2.2.key.sb_mask2 = 2 ^ lkey_rem a id ∧
      (a.offsets.word_offset id).2.2.key.mask2 = field_mask (lkey_rem a id + 1) 0 := by
  have h := hs.2.2.2.2.2.2.1
  simp only [h0, if_false] at h
  have e : lkey_n1 a id = (a.offsets.word_offset id).2.2.key.shift := by simp [lkey_n1, h0]
  have e2 : key_n1 a id = (a.offsets.word_offset id).2.1.key.shift := by simp [key_n1, h.1]
  have e3 : lkey_rem a id
      = a.offsets.reprobe_len - (a.offsets.word_offset id).2.2.key.shift := by
    simp [lkey_rem, lkey_n1, h0]
  refine ⟨h.1, h.2.1, ?_, e.symm, ?_, ?_, h.2.2.2.2.1, ?_, ?_⟩
  · rw [e, e2]; exact h.2.2.1
  · rw [e3]; have := h.2.2.2.1; omega
  · rw [e3, e]; have := h.2.2.2.1; omega
  · rw [e3]; exact h.2.2.2.2.2.1
  · rw [e3]; exact h.2.2.2.2.2.2

theorem SlotShape.lkw {a : Ary} {id : Nat} (hs : SlotShape a id) :
    (a.offsets.word_offset id).1 + (a.offsets.word_offset id).2.2.key.woff = cell_kw a id := by
  unfold cell_kw; rw [hs.2.2.1]

theorem SlotShape.lboff {a : Ary} {id : Nat} (hs : SlotShape a id) :
    (a.offsets.word_offset id).2.2.key.boff = cell_kb a id + 1 := by
  rw [hs.2.2.2.1]; exact hs.kb_add_one

theorem SlotShape.lb {a : Ary} {id : Nat} (hs : SlotShape a id) :
    (a.offsets.word_offset id).2.1.key.lb_mask = field_mask 1 (cell_kb a id) := hs.2.1

theorem SlotShape.llb {a : Ary} {id : Nat} (hs : SlotShape a id) :
    (a.offsets.word_offset id).2.2.key.lb_mask = field_mask 1 (cell_kb a id) := by
  rw [hs.2.2.2.2.1]; exact hs.2.1

theorem key_n1_le {a : Ary} {id : Nat} (hs : SlotShape a id) : key_n1 a id ≤ a.klen := by
  by_cases h0 : (a.offsets.word_offset id).2.1.key.sb_mask1 = 0
  · rw [(hs.one h0).2.2.1]
  · exact Nat.le_of_lt (hs.split h0).2.2.1

theorem key_n1_add_rem {a : Ary} {id : Nat} (hs : SlotShape a id) :
    key_n1 a id + key_rem a id = a.klen := by
  have := key_n1_le hs
  unfold key_rem; omega

theorem key_at_lt {a : Ary} {id : Nat} (hs : SlotShape a id) (m : Mem) :
    key_at a m id < 2 ^ (a.klen + 1) := by
  apply Nat.lt_pow_two_of_testBit
  intro j hj
  rw [testBit_key_at]
  have h1 := key_n1_add_rem hs
  have h2 : ¬ j ≤ key_n1 a id := by omega
  have h3 : ¬ j - (key_n1 a id + 1) < key_rem a id := by omega
  simp [h2, h3]

/-- `set_key` on a bit field: the field is written when it is zero, compared
otherwise. -/
theorem set_key_field (m : Mem) (w s L : Nat) {v : Nat} (hv : v < 2 ^ L) :
    set_key m w (v <<< s) (field_mask L s) (field_mask L s) =
      if get_bits (m w) s L = 0 then (true, true, m.write w (set_bits (m w) s L v))
      else (decide (get_bits (m w) s L = v), false, m) := by
  unfold set_key
  by_cases h0 : get_bits (m w) s L = 0
  · have hz : m w &&& field_mask L s = 0 := (and_field_mask_eq_zero _ _ _).2 h0
    simp only [hz, if_true, h0, or_shiftLeft_of_field_zero h0 hv]
  · have hz : ¬ m w &&& field_mask L s = 0 := fun h => h0 ((and_field_mask_eq_zero _ _ _).1 h)
    simp only [hz, if_false, h0, and_field_mask_eq]

/-- `set_key` with a free mask wider than the mask that is compared. -/
theorem set_key_field2 (m : Mem) (w s L L2 : Nat) (hL : L2 ≤ L) {v : Nat} (hv : v < 2 ^ L2) :
    set_key m w (v <<< s) (field_mask L s) (field_mask L2 s) =
      if get_bits (m w) s L = 0 then (true, true, m.write w (set_bits (m w) s L v))
      else (decide (get_bits (m w) s L2 = v), false, m) := by
  unfold set_key
  have hv2 : v < 2 ^ L := lt_of_lt_of_le hv (Nat.pow_le_pow_right (by decide) hL)
  by_cases h0 : get_bits (m w) s L = 0
  · have hz : m w &&& field_mask L s = 0 := (and_field_mask_eq_zero _ _ _).2 h0
    simp only [hz, if_true, h0, or_shiftLeft_of_field_zero h0 hv2]
  · have hz : ¬ m w &&& field_mask L s = 0 := fun h => h0 ((and_field_mask_eq_zero _ _ _).1 h)
    simp only [hz, if_false, h0, and_field_mask_eq]

theorem fmask_eq : fmask = field_mask 64 0 := by decide

theorem two_mul_shiftRight_succ (x k : Nat) : (2 * x) >>> (k + 1) = x >>> k := by
  rw [Nat.shiftRight_succ_inside]
  congr 1
  omega

theorem testBit_two_mul (x i : Nat) : (2 * x).testBit i = (decide (1 ≤ i) && x.testBit (i - 1)) := by
  cases i with
  | zero => simp [Nat.testBit_zero]
  | succ i =>
    rw [Nat.testBit_add_one]
    have : 2 * x / 2 = x := by omega
    simp [this]

theorem testBit_one_add_two_mul (x i : Nat) :
    (1 + 2 * x).testBit i = (decide (i = 0) || x.testBit (i - 1) && decide (1 ≤ i)) := by
  cases i with
  | zero => simp [Nat.testBit_zero]
  | succ i =>
    rw [Nat.testBit_add_one]
    have : (1 + 2 * x) / 2 = x := by omega
    simp [this]

/-- The first word of a split key field as `claim_key` builds it. -/
theorem split_nkey1 (x : Nat) {kb : Nat} (hk : kb ≤ 62) :
    (wshl (x % 2 ^ 64) (kb + 1) ||| 2 ^ 63) &&& field_mask (64 - kb) kb
      = ((2 * x) % 2 ^ (63 - kb) ||| 2 ^ (63 - kb)) <<< kb := by
  apply Nat.eq_of_testBit_eq
  intro i
  simp only [Nat.testBit_and, Nat.testBit_or, testBit_field_mask, Nat.testBit_shiftLeft,
    testBit_wshl, Nat.testBit_mod_two_pow, Nat.testBit_two_pow, testBit_two_mul]
  by_cases h1 : kb ≤ i
  · by_cases h2 : i < 63
    · have e1 : i - kb < 63 - kb := by omega
      have e2 : ¬ 63 = i := by omega
      have e3 : ¬ 63 - kb = i - kb := by omega
      have e4 : i < kb + (64 - kb) := by omega
      have e5 : i < 64 := by omega
      have e6 : i - (kb + 1) < 64 := by omega
      by_cases h3 : kb + 1 ≤ i
      · have e7 : 1 ≤ i - kb := by omega
        have e8 : i - kb - 1 = i - (kb + 1) := by omega
        simp [h1, e1, e2, e3, e4, e5, e6, h3, e7, e8]
      · have e7 : ¬ 1 ≤ i - kb := by omega
        simp [h1, e1, e2, e3, e4, e5, h3, e7]
    · by_cases h3 : i = 63
      · subst h3
        have e3 : 63 - kb = 63 - kb := rfl
        have e4 : 63 < kb + (64 - kb) := by omega
        simp [h1, e4]
      · have e2 : ¬ 63 = i := by omega
        have e3 : ¬ 63 - kb = i - kb := by omega
        have e4 : ¬ i < kb + (64 - kb) := by omega
        have e5 : ¬ i < 64 := by omega
        have e1 : ¬ i - kb < 63 - kb := by omega
        simp [h1, e1, e2, e3, e4, e5]
  · simp [h1]

/-- The first word of a split large key field as `claim_large_key` builds it. -/
theorem split_lnkey1 (r : Nat) {kb : Nat} (hk : kb ≤ 62) :
    ((wshl r (kb + 1) ||| 2 ^ 63) ||| field_mask 1 kb) &&& field_mask (64 - kb) kb
      = ((1 + 2 * r) % 2 ^ (63 - kb) ||| 2 ^ (63 - kb)) <<< kb := by
  apply Nat.eq_of_testBit_eq
  intro i
  simp only [Nat.testBit_and, Nat.testBit_or, testBit_field_mask, Nat.testBit_shiftLeft,
    testBit_wshl, Nat.testBit_mod_two_pow, Nat.testBit_two_pow, testBit_one_add_two_mul]
  by_cases h1 : kb ≤ i
  · by_cases h2 : i < 63
    · have e1 : i - kb < 63 - kb := by omega
      have e2 : ¬ 63 = i := by omega
      have e3 : ¬ 63 - kb = i - kb := by omega
      have e4 : i < kb + (64 - kb) := by omega
      have e5 : i < 64 := by omega
      by_cases h3 : kb + 1 ≤ i
      · have e7 : 1 ≤ i - kb := by omega
        have e8 : i - kb - 1 = i - (kb + 1) := by omega
        have e9 : ¬ i - kb = 0 := by omega
        have e10 : ¬ i < kb + 1 := by omega
        simp [h1, e1, e2, e3, e4, e5, h3, e7, e8, e9, e10]
      · have e7 : ¬ 1 ≤ i - kb := by omega
        have e9 : i - kb = 0 := by omega
        have e10 : i < kb + 1 := by omega
        simp [h1, e1, e2, e3, e4, e5, h3, e7, e9, e10]
        omega
    · by_cases h3 : i = 63
      · subst h3
        have e4 : 63 < kb + (64 - kb) := by omega
        simp [h1, e4]
      · have e2 : ¬ 63 = i := by omega
        have e3 : ¬ 63 - kb = i - kb := by omega
        have e4 : ¬ i < kb + (64 - kb) := by omega
        have e5 : ¬ i < 64 := by omega
        have e1 : ¬ i - kb < 63 - kb := by omega
        simp [h1, e1, e2, e3, e4, e5]
  · simp [h1]

/-- The second word of a split large key field as `claim_large_key` builds it. -/
theorem split_lnkey2 (r s lr : Nat) :
    ((r >>> s) ||| 2 ^ lr) &&& field_mask (lr + 1) 0
      = (((1 + 2 * r) >>> (s + 1)) % 2 ^ lr ||| 2 ^ lr) <<< 0 := by
  apply Nat.eq_of_testBit_eq
  intro i
  simp only [Nat.testBit_and, Nat.testBit_or, testBit_field_mask, Nat.shiftLeft_zero,
    Nat.testBit_shiftRight, Nat.testBit_mod_two_pow, Nat.testBit_two_pow,
    testBit_one_add_two_mul]
  have e0 : s + 1 + i - 1 = s + i := by omega
  have e1 : ¬ s + 1 + i = 0 := by omega
  have e2 : 1 ≤ s + 1 + i := by omega
  by_cases h : i < lr
  · have h3 : i < lr + 1 := by omega
    have : ¬ lr = i := by omega
    simp [*]
  · by_cases h2 : i = lr
    · subst h2
      simp
    · have h3 : ¬ i < lr + 1 := by omega
      have : ¬ lr = i := by omega
      simp [*]

/-- The bits of `akey` from bit `p` on, `p` past the reprobe field, are bits of
the key. -/
theorem key_bits_akey (a : Ary) (key : Nat) {r : Nat} (hr : r + 1 < 2 ^ a.offsets.reprobe_len)
    {p L : Nat} (hp : a.offsets.reprobe_len ≤ p) (hL : p + L ≤ a.klen) :
    get_bits key (a.lsize + p - a.offsets.reprobe_len) L = (akey_of a key r >>> p) % 2 ^ L := by
  apply Nat.eq_of_testBit_eq
  intro i
  rw [testBit_get_bits, Nat.testBit_mod_two_pow, Nat.testBit_shiftRight, testBit_akey_of a key r _ hr]
  by_cases h : i < L
  · have h1 : ¬ p + i < a.offsets.reprobe_len := by omega
    have h2 : p + i - a.offsets.reprobe_len < a.raw_key_len := by unfold Ary.klen at hL; omega
    have h3 : a.lsize + p - a.offsets.reprobe_len + i = a.lsize + (p + i - a.offsets.reprobe_len) := by
      omega
    simp [h, h1, h2, h3]
  · simp [h]

/-- The word that follows the first word of a split key field, as `claim_key`
puts it together from `akey` and from further bits of the key: its bits below
`N` are the bits of `akey_of` from bit `n1` on. -/
theorem tail_word_bit (a : Ary) (key : Nat) {r : Nat} (hr : r + 1 < 2 ^ a.offsets.reprobe_len)
    (hrl : a.offsets.reprobe_len ≤ 63) {n1 N L : Nat} (hn1 : n1 ≤ 64) (hN : n1 + N ≤ a.klen)
    (hL : ∀ i, i < N → 64 ≤ n1 + i → n1 + i - 64 < L) {i : Nat} (hi : i < N) (hi2 : i < 64) :
    ((akey_of a key r % 2 ^ 64) >>> n1 |||
      wshl (get_bits key (a.lsize + min (wsize - a.offsets.reprobe_len) (a.key_len - a.lsize)) L)
        (64 - n1)).testBit i = (akey_of a key r).testBit (n1 + i) := by
  rw [Nat.testBit_or, Nat.testBit_shiftRight, Nat.testBit_mod_two_pow, testBit_wshl,
    testBit_get_bits]
  by_cases h : n1 + i < 64
  · have h1 : ¬ 64 - n1 ≤ i := by omega
    simp [h, h1]
  · have h1 : 64 - n1 ≤ i := by omega
    have h2 := hL i hi (by omega)
    have h3 : i - (64 - n1) < L := by omega
    have hk : 64 < a.klen := by omega
    have h4 : min (wsize - a.offsets.reprobe_len) (a.key_len - a.lsize)
        = 64 - a.offsets.reprobe_len := by
      unfold Ary.klen Ary.raw_key_len at hk
      unfold wsize
      omega
    rw [h4, testBit_akey_of a key r _ hr]
    have h5 : ¬ n1 + i < a.offsets.reprobe_len := by omega
    have h6 : n1 + i - a.offsets.reprobe_len < a.raw_key_len := by unfold Ary.klen at hN; omega
    have h7 : a.lsize + (64 - a.offsets.reprobe_len) + (i - (64 - n1))
        = a.lsize + (n1 + i - a.offsets.reprobe_len) := by omega
    simp [h, h1, h3, h5, h6, h7, hi2]

/-- The second word of a key field split over two words. -/
theorem split_nkey2 (a : Ary) (key : Nat) {r : Nat} (hr : r + 1 < 2 ^ a.offsets.reprobe_len)
    (hrl : a.offsets.reprobe_len ≤ 63) {n1 n : Nat} (hN : n1 + n = a.klen) (hn : n ≤ 63)
    (hn1 : n1 ≤ 64) :
    ((((akey_of a key r % 2 ^ 64) >>> n1 |||
      wshl (get_bits key (a.lsize + min (wsize - a.offsets.reprobe_len) (a.key_len - a.lsize))
        (a.key_len - (a.lsize + min (wsize - a.offsets.reprobe_len) (a.key_len - a.lsize))))
        (wsize - n1)) ||| 2 ^ n) &&& field_mask (n + 1) 0)
      = enc_tail (2 * akey_of a key r) n1 n 0 <<< 0 := by
  have htl : tail_len n 0 = n := by unfold tail_len; omega
  apply Nat.eq_of_testBit_eq
  intro i
  unfold enc_tail
  rw [htl, Nat.mul_zero, Nat.add_zero, two_mul_shiftRight_succ, Nat.shiftLeft_zero]
  have e : wsize - n1 = 64 - n1 := rfl
  rw [e, Nat.testBit_and, testBit_field_mask, Nat.testBit_or, Nat.testBit_or (_ % _),
    Nat.testBit_two_pow, Nat.testBit_mod_two_pow, Nat.testBit_shiftRight]
  by_cases h : i < n
  · have hb := @tail_word_bit a key r hr hrl n1 n
      (a.key_len - (a.lsize + min (wsize - a.offsets.reprobe_len) (a.key_len - a.lsize)))
      hn1 (Nat.le_of_eq hN)
      (fun j hj h64 => by
        have hw : wsize = 64 := rfl
        rw [hw]
        simp only [Ary.klen, Ary.raw_key_len] at hN
        omega) i h (by omega)
    rw [hb]
    have h1 : ¬ n = i := by omega
    have h2 : i < n + 1 := by omega
    simp [h, h1, h2]
  · by_cases h2 : i = n
    · subst h2
      simp
    · have h1 : ¬ n = i := by omega
      have h3 : ¬ i < n + 1 := by omega
      simp [h, h1, h3]

/-- The first full word of a long key field. -/
theorem full_nkey1 (a : Ary) (key : Nat) {r : Nat} (hr : r + 1 < 2 ^ a.offsets.reprobe_len)
    (hrl : a.offsets.reprobe_len ≤ 63) {n1 n : Nat} (hN : n1 + n = a.klen) (h1 : 1 ≤ n1)
    (hn1 : n1 ≤ 62) (hn : 63 ≤ n) :
    (((akey_of a key r % 2 ^ 64) >>> n1 |||
      wshl (get_bits key (a.lsize + min (wsize - a.offsets.reprobe_len) (a.key_len - a.lsize))
        (n1 - 1)) (wsize - n1)) ||| 2 ^ 63)
      = enc_tail (2 * akey_of a key r) n1 n 0 := by
  have htl : tail_len n 0 = 63 := by unfold tail_len; omega
  apply Nat.eq_of_testBit_eq
  intro i
  unfold enc_tail
  rw [htl, Nat.mul_zero, Nat.add_zero, two_mul_shiftRight_succ]
  rw [Nat.testBit_or, Nat.testBit_or (_ % _), Nat.testBit_two_pow, Nat.testBit_mod_two_pow,
    Nat.testBit_shiftRight]
  by_cases h : i < 63
  · have hb := @tail_word_bit a key r hr hrl n1 63 (n1 - 1) (by omega) (by omega)
      (fun j hj h64 => by omega) i h (by omega)
    have e : wsize - n1 = 64 - n1 := rfl
    rw [e, hb]
    simp [h]
  · have e : wsize - n1 = 64 - n1 := rfl
    rw [e, Nat.testBit_or, Nat.testBit_shiftRight, Nat.testBit_mod_two_pow, testBit_wshl,
      testBit_get_bits]
    have h2 : ¬ n1 + i < 64 := by omega
    have h3 : ¬ i - (64 - n1) < n1 - 1 := by omega
    simp [h, h2, h3]

/-- A further full word of a long key field. -/
theorem full_nkey (a : Ary) (key : Nat) {r : Nat} (hr : r + 1 < 2 ^ a.offsets.reprobe_len)
    (hrl : a.offsets.reprobe_len ≤ 63) {n1 n j : Nat} (hN : n1 + n = a.klen) (h1 : 1 ≤ n1)
    (hj : 1 ≤ j) (hn : 63 * (j + 1) ≤ n) :
    get_bits key (a.lsize + (n1 + 63 * j) - a.offsets.reprobe_len) 63 ||| 2 ^ 63
      = enc_tail (2 * akey_of a key r) n1 n j := by
  have htl : tail_len n j = 63 := by unfold tail_len; omega
  have e : n1 + 1 + 63 * j = (n1 + 63 * j) + 1 := by omega
  unfold enc_tail
  rw [htl, e, two_mul_shiftRight_succ, key_bits_akey a key hr (by omega) (by omega)]

/-- The last word of a long key field. -/
theorem last_nkey (a : Ary) (key : Nat) {r : Nat} (hr : r + 1 < 2 ^ a.offsets.reprobe_len)
    (hrl : a.offsets.reprobe_len ≤ 63) {n1 n j : Nat} (hN : n1 + n = a.klen) (h1 : 1 ≤ n1)
    (hj : 1 ≤ j) (hn : 63 * j ≤ n) :
    get_bits key (a.lsize + (n1 + 63 * j) - a.offsets.reprobe_len) (tail_len n j)
        ||| 2 ^ tail_len n j
      = enc_tail (2 * akey_of a key r) n1 n j := by
  have e : n1 + 1 + 63 * j = (n1 + 63 * j) + 1 := by omega
  unfold enc_tail
  rw [e, two_mul_shiftRight_succ, key_bits_akey a key hr (by omega)
    (by unfold tail_len; omega)]

theorem enc_tail_lt (v n1 n j : Nat) : enc_tail v n1 n j < 2 ^ (tail_len n j + 1) := by
  unfold enc_tail
  apply Nat.or_lt_two_pow
  · exact lt_of_lt_of_le (Nat.mod_lt _ (Nat.two_pow_pos _))
      (Nat.pow_le_pow_right (by decide) (Nat.le_succ _))
  · exact Nat.pow_lt_pow_right (by decide) (Nat.lt_succ_self _)

theorem testBit_enc_tail (v n1 n j i : Nat) :
    (enc_tail v n1 n j).testBit i =
      if i < tail_len n j then v.testBit (n1 + 1 + 63 * j + i) else decide (i = tail_len n j) := by
  unfold enc_tail
  rw [Nat.testBit_or, Nat.testBit_mod_two_pow, Nat.testBit_two_pow, Nat.testBit_shiftRight]
  by_cases h : i < tail_len n j
  · have : ¬ tail_len n j = i := by omega
    simp [h, this]
  · simp [h, eq_comm]

/-- The loop of `claim_key` over the full words of a long key field, on words
that are zero: every word takes its part of the key and the set bit. -/
theorem claim_key_full_words_free (a : Ary) (key kw : Nat) {r : Nat}
    (hr : r + 1 < 2 ^ a.offsets.reprobe_len) (hrl : a.offsets.reprobe_len ≤ 63)
    (hls : a.lsize ≤ a.key_len) {n1 n : Nat} (hN : n1 + n = a.klen) (h1 : 1 ≤ n1) :
    ∀ (fuel j : Nat) (m : Mem), 1 ≤ j → j ≤ n / 63 → n / 63 - j ≤ fuel →
      (∀ t, j ≤ t → t < n / 63 → get_bits (m (kw + 1 + t)) 0 64 = 0) →
      claim_key_full_words a key kw (2 ^ 63) fuel
          (a.lsize + (n1 + 63 * j) - a.offsets.reprobe_len) j true true m =
        (a.lsize + (n1 + 63 * (n / 63)) - a.offsets.reprobe_len, n / 63, true, true,
          fun x => if kw + 1 + j ≤ x ∧ x < kw + 1 + n / 63 then
              set_bits (m x) 0 64 (enc_tail (2 * akey_of a key r) n1 n (x - kw - 1))
            else m x) := by
  have hdm := Nat.div_add_mod n 63
  have hkl : a.klen = a.offsets.reprobe_len + (a.key_len - a.lsize) := rfl
  intro fuel
  induction fuel with
  | zero =>
    intro j m hj1 hj2 hf _
    have e : j = n / 63 := by omega
    subst e
    rw [claim_key_full_words]
    refine Prod.ext rfl (Prod.ext rfl (Prod.ext rfl (Prod.ext rfl ?_)))
    funext x
    have : ¬ (kw + 1 + n / 63 ≤ x ∧ x < kw + 1 + n / 63) := by omega
    simp [this]
  | succ fuel ih =>
    intro j m hj1 hj2 hf hz
    rw [claim_key_full_words]
    by_cases hlt : j < n / 63
    · have hc : a.lsize + (n1 + 63 * j) - a.offsets.reprobe_len + wsize - 1 ≤ a.key_len ∧
          true = true := by
        refine ⟨?_, rfl⟩
        have hw : wsize = 64 := rfl
        rw [hw]
        omega
      rw [if_pos hc]
      have hw : wsize - 1 = 63 := rfl
      have hnk := full_nkey a key hr hrl hN h1 hj1 (by omega : 63 * (j + 1) ≤ n)
      have hlt2 := enc_tail_lt (2 * akey_of a key r) n1 n j
      have htl : tail_len n j = 63 := by unfold tail_len; omega
      rw [htl] at hlt2
      have hsk := set_key_field m (kw + (j + 1)) 0 64 hlt2
      rw [Nat.shiftLeft_zero, ← fmask_eq] at hsk
      have hz0 : get_bits (m (kw + (j + 1))) 0 64 = 0 := by
        have := hz j (Nat.le_refl _) hlt
        rwa [show kw + 1 + j = kw + (j + 1) by omega] at this
      rw [hz0] at hsk
      simp only [if_true] at hsk
      simp only [hw, hnk, hsk]
      have e2 : a.lsize + (n1 + 63 * j) - a.offsets.reprobe_len + 63
          = a.lsize + (n1 + 63 * (j + 1)) - a.offsets.reprobe_len := by omega
      rw [e2, ih (j + 1) _ (by omega) (by omega) (by omega) (fun t ht1 ht2 => by
        rw [Mem.write_other _ _ (by omega)]
        exact hz t (by omega) ht2)]
      refine Prod.ext rfl (Prod.ext rfl (Prod.ext rfl (Prod.ext rfl ?_)))
      funext x
      dsimp only
      by_cases hx : x = kw + (j + 1)
      · subst hx
        have c1 : ¬ (kw + 1 + (j + 1) ≤ kw + (j + 1) ∧ kw + (j + 1) < kw + 1 + n / 63) := by omega
        have c2 : kw + 1 + j ≤ kw + (j + 1) ∧ kw + (j + 1) < kw + 1 + n / 63 := by omega
        have c3 : kw + (j + 1) - kw - 1 = j := by omega
        rw [if_neg c1, if_pos c2, Mem.write_same, c3]
      · rw [Mem.write_other _ _ hx]
        by_cases hx2 : kw + 1 + (j + 1) ≤ x ∧ x < kw + 1 + n / 63
        · have c2 : kw + 1 + j ≤ x ∧ x < kw + 1 + n / 63 := by omega
          rw [if_pos hx2, if_pos c2]
        · have c2 : ¬ (kw + 1 + j ≤ x ∧ x < kw + 1 + n / 63) := by omega
          rw [if_neg hx2, if_neg c2]
    · have e : j = n / 63 := by omega
      have hc : ¬ (a.lsize + (n1 + 63 * j) - a.offsets.reprobe_len + wsize - 1 ≤ a.key_len ∧
          true = true) := by
        have hw : wsize = 64 := rfl
        rw [hw]
        intro h
        have := h.1
        omega
      rw [if_neg hc]
      subst e
      refine Prod.ext rfl (Prod.ext rfl (Prod.ext rfl (Prod.ext rfl ?_)))
      funext x
      have : ¬ (kw + 1 + n / 63 ≤ x ∧ x < kw + 1 + n / 63) := by omega
      simp [this]

theorem get_bits_ne_zero_of_testBit {w s L i : Nat} (hi : i < L)
    (h : w.testBit (s + i) = true) : get_bits w s L ≠ 0 := by
  intro h0
  have := testBit_get_bits w s L i
  rw [h0, Nat.zero_testBit] at this
  simp [hi, h] at this

/-- The loop of `claim_key` over the full words of a long key field, on words
whose set bit is set: every word is compared, nothing is stored. -/
theorem claim_key_full_words_held (a : Ary) (key kw : Nat) (m : Mem) {r : Nat}
    (hr : r + 1 < 2 ^ a.offsets.reprobe_len) (hrl : a.offsets.reprobe_len ≤ 63)
    (hls : a.lsize ≤ a.key_len) {n1 n : Nat} (hN : n1 + n = a.klen) (h1 : 1 ≤ n1) :
    ∀ (fuel j : Nat) (kc : Bool), 1 ≤ j → j ≤ n / 63 → n / 63 - j ≤ fuel →
      (∀ t, j ≤ t → t < n / 63 → (m (kw + 1 + t)).testBit 63 = true) →
      ∃ b c kc2, claim_key_full_words a key kw (2 ^ 63) fuel
          (a.lsize + (n1 + 63 * j) - a.offsets.reprobe_len) j kc false m
          = (b, c, kc2, false, m) ∧
        (kc2 = true ↔ kc = true ∧ ∀ t, j ≤ t → t < n / 63 →
          get_bits (m (kw + 1 + t)) 0 64 = enc_tail (2 * akey_of a key r) n1 n t) ∧
        (kc2 = true → b = a.lsize + (n1 + 63 * (n / 63)) - a.offsets.reprobe_len ∧
          c = n / 63) := by
  have hdm := Nat.div_add_mod n 63
  have hkl : a.klen = a.offsets.reprobe_len + (a.key_len - a.lsize) := rfl
  intro fuel
  induction fuel with
  | zero =>
    intro j kc hj1 hj2 hf _
    have e : j = n / 63 := by omega
    subst e
    rw [claim_key_full_words]
    refine ⟨_, _, kc, rfl, ⟨fun h => ⟨h, fun t h1 h2 => by omega⟩, fun h => h.1⟩, fun _ => ⟨rfl, rfl⟩⟩
  | succ fuel ih =>
    intro j kc hj1 hj2 hf hs
    rw [claim_key_full_words]
    by_cases hlt : j < n / 63
    · cases kc with
      | false =>
        rw [if_neg (by simp)]
        exact ⟨_, _, false, rfl, ⟨fun h => Bool.noConfusion h, fun h => Bool.noConfusion h.1⟩,
          fun h => Bool.noConfusion h⟩
      | true =>
        have hc : a.lsize + (n1 + 63 * j) - a.offsets.reprobe_len + wsize - 1 ≤ a.key_len ∧
            true = true := by
          refine ⟨?_, rfl⟩
          have hw : wsize = 64 := rfl
          rw [hw]
          omega
        rw [if_pos hc]
        have hw : wsize - 1 = 63 := rfl
        have hnk := full_nkey a key hr hrl hN h1 hj1 (by omega : 63 * (j + 1) ≤ n)
        have hlt2 := enc_tail_lt (2 * akey_of a key r) n1 n j
        have htl : tail_len n j = 63 := by unfold tail_len; omega
        rw [htl] at hlt2
        have hsk := set_key_field m (kw + (j + 1)) 0 64 hlt2
        rw [Nat.shiftLeft_zero, ← fmask_eq] at hsk
        have hz0 : get_bits (m (kw + (j + 1))) 0 64 ≠ 0 := by
          have := hs j (Nat.le_refl _) hlt
          rw [show kw + 1 + j = kw + (j + 1) by omega] at this
          exact get_bits_ne_zero_of_testBit (by decide : 63 < 64) (by rwa [Nat.zero_add])
        rw [if_neg hz0] at hsk
        simp only [hw, hnk, hsk]
        have e2 : a.lsize + (n1 + 63 * j) - a.offsets.reprobe_len + 63
            = a.lsize + (n1 + 63 * (j + 1)) - a.offsets.reprobe_len := by omega
        rw [e2]
        obtain ⟨b, c, kc2, he, hiff, hbc⟩ := ih (j + 1)
          (decide (get_bits (m (kw + (j + 1))) 0 64 = enc_tail (2 * akey_of a key r) n1 n j))
          (by omega) (by omega) (by omega) (fun t ht1 ht2 => hs t (by omega) ht2)
        refine ⟨b, c, kc2, he, ?_, hbc⟩
        rw [hiff]
        constructor
        · rintro ⟨h1, h2⟩
          refine ⟨trivial, fun t ht1 ht2 => ?_⟩
          by_cases ht : t = j
          · subst ht
            rw [show kw + 1 + t = kw + (t + 1) by omega]
            exact of_decide_eq_true h1
          · exact h2 t (by omega) ht2
        · rintro ⟨-, h2⟩
          refine ⟨decide_eq_true ?_, fun t ht1 ht2 => h2 t (by omega) ht2⟩
          have := h2 j (Nat.le_refl _) hlt
          rwa [show kw + 1 + j = kw + (j + 1) by omega] at this
    · have e : j = n / 63 := by omega
      have hc : ¬ (a.lsize + (n1 + 63 * j) - a.offsets.reprobe_len + wsize - 1 ≤ a.key_len ∧
          kc = true) := by
        have hw : wsize = 64 := rfl
        rw [hw]
        intro h
        have := h.1
        omega
      rw [if_neg hc]
      subst e
      exact ⟨_, _, kc, rfl, ⟨fun h => ⟨h, fun t h1 h2 => by omega⟩, fun h => h.1⟩,
        fun _ => ⟨rfl, rfl⟩⟩

theorem testBit_of_get_bits_eq {w s L x i : Nat} (h : get_bits w s L = x) (hi : i < L) :
    w.testBit (s + i) = x.testBit i := by
  rw [← h, testBit_get_bits]
  simp [hi]

theorem key_at_one {a : Ary} {id : Nat} (hs : SlotShape a id)
    (h0 : (a.offsets.word_offset id).2.1.key.sb_mask1 = 0) (m : Mem) :
    key_at a m id = get_bits (m (cell_kw a id)) (cell_kb a id) (a.klen + 1) := by
  obtain ⟨-, -, e1, e2⟩ := hs.one h0
  unfold key_at
  rw [e1, e2]
  have : get_bits (m (cell_kw a id + 1)) 0 0 = 0 := by
    unfold get_bits; simp [Nat.mod_one]
  simp [data63, this]

/-- The content of a split key field with its set bits set, word by word. -/
theorem key_at_eq_iff {a : Ary} {id : Nat} (hs : SlotShape a id)
    (h0 : (a.offsets.word_offset id).2.1.key.sb_mask1 ≠ 0) (m : Mem) (hsb : sbits a m id)
    {v : Nat} (hv : v < 2 ^ (a.klen + 1)) :
    key_at a m id = v ↔
      get_bits (m (cell_kw a id)) (cell_kb a id) (64 - cell_kb a id)
          = v % 2 ^ (key_n1 a id + 1) ||| 2 ^ (key_n1 a id + 1) ∧
        ∀ j, j < tail_words (key_rem a id) →
          get_bits (m (cell_kw a id + 1 + j)) 0 (tail_len (key_rem a id) j + 1)
            = enc_tail v (key_n1 a id) (key_rem a id) j := by
  obtain ⟨-, hkb, -, -, -, hrem, hsum⟩ := hs.split h0
  obtain ⟨hs1, hs2⟩ := hsb h0
  constructor
  · intro h
    subst h
    constructor
    · apply Nat.eq_of_testBit_eq
      intro i
      rw [testBit_get_bits, Nat.testBit_or, Nat.testBit_mod_two_pow, Nat.testBit_two_pow,
        testBit_key_at]
      by_cases h1 : i ≤ key_n1 a id
      · have c1 : i < 64 - cell_kb a id := by omega
        have c2 : i < key_n1 a id + 1 := by omega
        have c3 : ¬ key_n1 a id + 1 = i := by omega
        simp [h1, c1, c2, c3]
      · by_cases h2 : i = key_n1 a id + 1
        · subst h2
          have c1 : key_n1 a id + 1 < 64 - cell_kb a id := by omega
          have c2 : cell_kb a id + (key_n1 a id + 1) = 63 := by omega
          simp [c1, c2, hs1]
        · have c1 : ¬ i < 64 - cell_kb a id := by omega
          have c2 : ¬ i < key_n1 a id + 1 := by omega
          have c3 : ¬ key_n1 a id + 1 = i := by omega
          simp [c1, c2, c3]
    · intro j hj
      apply Nat.eq_of_testBit_eq
      intro i
      rw [testBit_get_bits, testBit_enc_tail, testBit_key_at, Nat.zero_add]
      have htl := tail_len_le (key_rem a id) j
      by_cases h1 : i < tail_len (key_rem a id) j
      · have c1 : i < tail_len (key_rem a id) j + 1 := by omega
        have c2 : ¬ key_n1 a id + 1 + 63 * j + i ≤ key_n1 a id := by omega
        have c3 : key_n1 a id + 1 + 63 * j + i - (key_n1 a id + 1) = 63 * j + i := by omega
        have c4 : (63 * j + i) / 63 = j := by omega
        have c5 : (63 * j + i) % 63 = i := by omega
        have c6 : 63 * j + i < key_rem a id := by unfold tail_len at h1; omega
        simp [h1, c1, c2, c3, c4, c5, c6]
      · by_cases h2 : i = tail_len (key_rem a id) j
        · subst h2
          simp [hs2 j hj]
        · have c1 : ¬ i < tail_len (key_rem a id) j + 1 := by omega
          simp [h1, h2, c1]
  · rintro ⟨hf, ht⟩
    apply Nat.eq_of_testBit_eq
    intro i
    rw [testBit_key_at]
    by_cases h1 : i ≤ key_n1 a id
    · rw [if_pos h1, testBit_of_get_bits_eq hf (by omega : i < 64 - cell_kb a id),
        Nat.testBit_or, Nat.testBit_mod_two_pow, Nat.testBit_two_pow]
      have c2 : i < key_n1 a id + 1 := by omega
      have c3 : ¬ key_n1 a id + 1 = i := by omega
      simp [c2, c3]
    · rw [if_neg h1]
      by_cases h2 : i - (key_n1 a id + 1) < key_rem a id
      · have hj : (i - (key_n1 a id + 1)) / 63 < tail_words (key_rem a id) := by
          unfold tail_words; omega
        have hi : (i - (key_n1 a id + 1)) % 63
            < tail_len (key_rem a id) ((i - (key_n1 a id + 1)) / 63) := by
          unfold tail_len; omega
        have := testBit_of_get_bits_eq (ht _ hj) (Nat.lt_succ_of_lt hi)
        rw [Nat.zero_add] at this
        rw [this, testBit_enc_tail, if_pos hi]
        have c : key_n1 a id + 1 + 63 * ((i - (key_n1 a id + 1)) / 63)
            + (i - (key_n1 a id + 1)) % 63 = i := by omega
        simp [h2, c]
      · have : v.testBit i = false :=
          Nat.testBit_lt_two_pow (lt_of_lt_of_le hv (Nat.pow_le_pow_right (by decide) (by omega)))
        simp [h2, this]

theorem key_at_testBit_zero (a : Ary) (m : Mem) (id : Nat) :
    (key_at a m id).testBit 0 = (m (cell_kw a id)).testBit (cell_kb a id) := by
  rw [testBit_key_at, if_pos (Nat.zero_le _), Nat.add_zero]

theorem key_at_mod_two (a : Ary) (m : Mem) (id : Nat) :
    key_at a m id % 2 = get_bits (m (cell_kw a id)) (cell_kb a id) 1 := by
  have h := key_at_testBit_zero a m id
  have h2 := testBit_get_bits (m (cell_kw a id)) (cell_kb a id) 1 0
  have h3 : get_bits (m (cell_kw a id)) (cell_kb a id) 1 < 2 := get_bits_lt _ _ 1
  rw [Nat.add_zero] at h2
  rw [Nat.testBit_zero] at h h2
  rcases Nat.mod_two_eq_zero_or_one (key_at a m id) with e | e
  · rw [e]
    simp [e] at h
    rw [h] at h2
    simp at h2
    omega
  · rw [e]
    simp [e] at h
    rw [h] at h2
    simp at h2
    omega

theorem first_fld_mem {a : Ary} {id : Nat}
    (h0 : (a.offsets.word_offset id).2.1.key.sb_mask1 ≠ 0) :
    (cell_kw a id, cell_kb a id, 64 - cell_kb a id) ∈ key_flds a id := by
  unfold key_flds
  rw [if_neg h0]
  exact List.mem_cons_self _ _

theorem tail_fld_mem {a : Ary} {id : Nat}
    (h0 : (a.offsets.word_offset id).2.1.key.sb_mask1 ≠ 0) {j : Nat}
    (hj : j < tail_words (key_rem a id)) :
    (cell_kw a id + 1 + j, 0, tail_len (key_rem a id) j + 1) ∈ key_flds a id := by
  unfold key_flds
  rw [if_neg h0]
  exact List.mem_cons_of_mem _ (List.mem_map.2 ⟨j, List.mem_range.2 hj, rfl⟩)

theorem mem_key_flds_split {a : Ary} {id : Nat}
    (h0 : (a.offsets.word_offset id).2.1.key.sb_mask1 ≠ 0) {f : Field} (hf : f ∈ key_flds a id) :
    f = (cell_kw a id, cell_kb a id, 64 - cell_kb a id) ∨
      ∃ j, j < tail_words (key_rem a id) ∧
        f = (cell_kw a id + 1 + j, 0, tail_len (key_rem a id) j + 1) := by
  unfold key_flds at hf
  rw [if_neg h0] at hf
  rcases List.mem_cons.1 hf with h | h
  · exact Or.inl h
  · obtain ⟨j, hj, e⟩ := List.mem_map.1 h
    exact Or.inr ⟨j, List.mem_range.1 hj, e.symm⟩

theorem mem_key_flds_one {a : Ary} {id : Nat}
    (h0 : (a.offsets.word_offset id).2.1.key.sb_mask1 = 0) {f : Field} (hf : f ∈ key_flds a id) :
    f = (cell_kw a id, cell_kb a id, a.klen + 1) := by
  unfold key_flds at hf
  rw [if_pos h0] at hf
  exact List.mem_singleton.1 hf

/-- In a whole cell with a split key field the first word tells whether the cell
is free. -/
theorem first_ne_zero {a : Ary} {id : Nat} (hs : SlotShape a id)
    (h0 : (a.offsets.word_offset id).2.1.key.sb_mask1 ≠ 0) {m : Mem} (hc : Coh a m id)
    (hk : key_at a m id ≠ 0) :
    get_bits (m (cell_kw a id)) (cell_kb a id) (64 - cell_kb a id) ≠ 0 := by
  obtain ⟨-, hkb, -, -, -, -, -⟩ := hs.split h0
  rcases Nat.mod_two_eq_zero_or_one (key_at a m id) with e | e
  · have := (hc.2.1 hk e h0).1
    exact get_bits_ne_zero_of_testBit (i := 63 - cell_kb a id) (by omega)
      (by rwa [show cell_kb a id + (63 - cell_kb a id) = 63 by omega])
  · have h1 : (key_at a m id).testBit 0 = true := by
      rw [Nat.testBit_zero]; simp [e]
    rw [key_at_testBit_zero] at h1
    exact get_bits_ne_zero_of_testBit (i := 0) (by omega) (by rwa [Nat.add_zero])

theorem enc_first_lt (v n : Nat) : v % 2 ^ n ||| 2 ^ n < 2 ^ (n + 1) := by
  apply Nat.or_lt_two_pow
  · exact lt_of_lt_of_le (Nat.mod_lt _ (Nat.two_pow_pos _))
      (Nat.pow_le_pow_right (by decide) (Nat.le_succ _))
  · exact Nat.pow_lt_pow_right (by decide) (Nat.lt_succ_self _)

theorem akey_word_one {a : Ary} {id : Nat} (hs : SlotShape a id)
    (h0 : (a.offsets.word_offset id).2.1.key.sb_mask1 = 0) (key : Nat) {r : Nat}
    (hr : r + 1 < 2 ^ a.offsets.reprobe_len) : akey_of a key r % 2 ^ 64 = akey_of a key r := by
  apply Nat.mod_eq_of_lt
  have h1 := (hs.one h0).1
  exact lt_of_lt_of_le (akey_of_lt key hr) (Nat.pow_le_pow_right (by decide) (by omega))

/-- One round of `claim_key` on a key field in one word. -/
theorem claim_key_attempt_one {a : Ary} {id : Nat} (hs : SlotShape a id)
    (h0 : (a.offsets.word_offset id).2.1.key.sb_mask1 = 0) (m : Mem) (key : Nat) {r : Nat}
    (hr : r + 1 < 2 ^ a.offsets.reprobe_len) :
    claim_key_attempt a m key (akey_of a key r % 2 ^ 64) id =
      if key_at a m id = 0 then
        (true, true, key_store a m id (2 * akey_of a key r),
          (a.offsets.word_offset id).1, (a.offsets.word_offset id).2.1)
      else
        (decide (key_at a m id = 2 * akey_of a key r), false, m,
          (a.offsets.word_offset id).1, (a.offsets.word_offset id).2.1) := by
  obtain ⟨hkb, hm1, -, -⟩ := hs.one h0
  have hk := akey_of_lt (a := a) key hr
  have hnk := claim_nkey hk hkb
  have h2lt := two_mul_akey_lt (a := a) key hr
  have hsk := set_key_field m (cell_kw a id) (cell_kb a id) (a.klen + 1) h2lt
  rw [key_at_one hs h0, akey_word_one hs h0 key hr]
  unfold claim_key_attempt key_store
  simp only [h0, ne_eq, not_true_eq_false, if_false, if_true, hm1, hs.kb_add_one, hnk]
  simp only [cell_kw] at hsk ⊢
  rw [hsk]
  split_ifs <;> rfl

theorem mod_two_of_testBit_zero {x : Nat} (h : x.testBit 0 = false) : x % 2 = 0 := by
  rw [Nat.testBit_zero] at h
  have := Nat.mod_two_eq_zero_or_one x
  rcases this with e | e
  · exact e
  · simp [e] at h

theorem enc_first_even (v n : Nat) : (2 * v % 2 ^ (n + 1) ||| 2 ^ (n + 1)) % 2 = 0 := by
  apply mod_two_of_testBit_zero
  rw [Nat.testBit_or, Nat.testBit_mod_two_pow, Nat.testBit_two_pow, testBit_two_mul]
  simp

/-- A split key field whose first word is that of a primary cell has its large
bit clear. -/
theorem even_of_first_eq {a : Ary} {id : Nat} {m : Mem} {v : Nat}
    (hk : cell_kb a id + key_n1 a id = 62)
    (he : get_bits (m (cell_kw a id)) (cell_kb a id) (64 - cell_kb a id)
      = 2 * v % 2 ^ (key_n1 a id + 1) ||| 2 ^ (key_n1 a id + 1)) :
    key_at a m id % 2 = 0 := by
  rw [key_at_mod_two, ← get_bits_mod _ _ (64 - cell_kb a id) 1 (by omega), he, pow_one]
  exact enc_first_even v _

/-- One round of `claim_key` on a key field split over two words, in a whole
cell. -/
theorem claim_key_attempt_two {a : Ary} {id : Nat} (hs : SlotShape a id)
    (hrl : a.offsets.reprobe_len ≤ 63)
    (h0 : (a.offsets.word_offset id).2.1.key.sb_mask1 ≠ 0)
    (hf : (a.offsets.word_offset id).2.1.key.full_words = false)
    {m : Mem} (hc : Coh a m id) (key : Nat) {r : Nat}
    (hr : r + 1 < 2 ^ a.offsets.reprobe_len) :
    claim_key_attempt a m key (akey_of a key r % 2 ^ 64) id =
      if key_at a m id = 0 then
        (true, true, key_store a m id (2 * akey_of a key r),
          (a.offsets.word_offset id).1, (a.offsets.word_offset id).2.1)
      else
        (decide (key_at a m id = 2 * akey_of a key r), false, m,
          (a.offsets.word_offset id).1, (a.offsets.word_offset id).2.1) := by
  obtain ⟨hsb1, hkb, hn1, hm1, hsh, hrem, hsum⟩ := hs.split h0
  obtain ⟨hrem2, hsb2, hm2⟩ := hs.split2 h0 hf
  have h2lt := two_mul_akey_lt (a := a) key hr
  have hnk1 := split_nkey1 (akey_of a key r) (by omega : cell_kb a id ≤ 62)
  have e63 : 63 - cell_kb a id = key_n1 a id + 1 := by omega
  rw [e63] at hnk1
  have hlt1 : 2 * akey_of a key r % 2 ^ (key_n1 a id + 1) ||| 2 ^ (key_n1 a id + 1)
      < 2 ^ (64 - cell_kb a id) := by
    rw [show 64 - cell_kb a id = key_n1 a id + 1 + 1 by omega]
    exact enc_first_lt _ _
  have hsk1 := set_key_field m (cell_kw a id) (cell_kb a id) (64 - cell_kb a id) hlt1
  have hnk2 := split_nkey2 a key hr hrl hsum hrem2 (by omega)
  have htl : tail_len (key_rem a id) 0 = key_rem a id := by unfold tail_len; omega
  have htw : tail_words (key_rem a id) = 1 := by unfold tail_words; omega
  have hlt2 := enc_tail_lt (2 * akey_of a key r) (key_n1 a id) (key_rem a id) 0
  rw [htl] at hlt2
  have hsb2' : (a.offsets.word_offset id).2.1.key.sb_mask2 ≠ 0 := by
    rw [hsb2]; exact Nat.pos_iff_ne_zero.1 (Nat.two_pow_pos _)
  unfold claim_key_attempt
  simp only [h0, ne_eq, not_false_eq_true, if_true, hf, Bool.false_eq_true, if_false, hsb2']
  simp only [hsb1, hm1, hs.kb_add_one, hnk1, hsh, hm2, hsb2, hnk2]
  simp only [cell_kw] at hsk1 ⊢
  rw [hsk1]
  by_cases hk : key_at a m id = 0
  · -- the cell is free: both words are stored
    have hz := hc.1 hk
    have hz1 := hz _ (first_fld_mem h0)
    have hz2 := hz _ (tail_fld_mem h0 (by omega : 0 < tail_words (key_rem a id)))
    simp only [htl, Nat.add_zero, cell_kw] at hz1 hz2
    rw [if_pos hk, if_pos hz1]
    simp only [if_true]
    have hsk2 := set_key_field
      (m.write ((a.offsets.word_offset id).1 + (a.offsets.word_offset id).2.1.key.woff)
        (set_bits (m ((a.offsets.word_offset id).1 + (a.offsets.word_offset id).2.1.key.woff))
          (cell_kb a id) (64 - cell_kb a id)
          (2 * akey_of a key r % 2 ^ (key_n1 a id + 1) ||| 2 ^ (key_n1 a id + 1))))
      ((a.offsets.word_offset id).1 + (a.offsets.word_offset id).2.1.key.woff + 1) 0
      (key_rem a id + 1) hlt2
    rw [hsk2, Mem.write_other _ _ (by omega), if_pos hz2]
    refine Prod.ext rfl (Prod.ext rfl (Prod.ext ?_ rfl))
    funext x
    unfold key_store
    rw [if_neg h0]
    simp only [cell_kw, htw]
    by_cases hx : x = (a.offsets.word_offset id).1 + (a.offsets.word_offset id).2.1.key.woff
    · subst hx
      rw [Mem.write_other _ _ (by omega), Mem.write_same, if_pos rfl]
    · by_cases hx2 : x = (a.offsets.word_offset id).1
          + (a.offsets.word_offset id).2.1.key.woff + 1
      · subst hx2
        rw [Mem.write_same, if_neg hx, if_pos (by omega)]
        simp only [Nat.add_sub_cancel_left, Nat.sub_self, htl]
      · rw [Mem.write_other _ _ hx2, Mem.write_other _ _ hx, if_neg hx, if_neg (by omega)]
  · -- the cell is taken: the words are compared
    have hnz := first_ne_zero hs h0 hc hk
    simp only [cell_kw] at hnz
    rw [if_neg hk, if_neg hnz]
    by_cases he : get_bits
        (m ((a.offsets.word_offset id).1 + (a.offsets.word_offset id).2.1.key.woff))
        (cell_kb a id) (64 - cell_kb a id)
        = 2 * akey_of a key r % 2 ^ (key_n1 a id + 1) ||| 2 ^ (key_n1 a id + 1)
    · have hev : key_at a m id % 2 = 0 := even_of_first_eq hkb he
      have hsb := hc.2.1 hk hev
      have hs2 := (hsb h0).2 0 (by omega)
      rw [htl] at hs2
      have hnz2 : get_bits (m (cell_kw a id + 1 + 0)) 0 (key_rem a id + 1) ≠ 0 :=
        get_bits_ne_zero_of_testBit (i := key_rem a id) (by omega) (by rwa [Nat.zero_add])
      simp only [cell_kw, Nat.add_zero] at hnz2
      have hsk2 := set_key_field m
        ((a.offsets.word_offset id).1 + (a.offsets.word_offset id).2.1.key.woff + 1) 0
        (key_rem a id + 1) hlt2
      simp only [he, decide_True, if_true, hsk2, if_neg hnz2]
      refine Prod.ext ?_ rfl
      have hiff := key_at_eq_iff hs h0 m hsb h2lt
      simp only [htw, cell_kw] at hiff
      apply Bool.eq_iff_iff.2
      rw [decide_eq_true_iff, decide_eq_true_iff, hiff]
      constructor
      · intro h
        refine ⟨he, fun j hj => ?_⟩
        have : j = 0 := by omega
        subst this
        rw [htl, Nat.add_zero]
        exact h
      · intro h
        have := h.2 0 (by omega)
        rwa [htl, Nat.add_zero] at this
    · simp only [he, decide_False, if_false, Bool.false_eq_true]
      refine Prod.ext ?_ rfl
      symm
      apply decide_eq_false
      intro h
      have hev : key_at a m id % 2 = 0 := by rw [h]; omega
      have hsb := hc.2.1 hk hev
      have hiff := (key_at_eq_iff hs h0 m hsb h2lt).1 h
      simp only [cell_kw] at hiff
      exact he hiff.1

theorem tail_words_eq (n : Nat) :
    tail_words n = n / 63 + (if n % 63 = 0 then 0 else 1) := by
  unfold tail_words
  split_ifs <;> omega

/-- One round of `claim_key` on a long key field (with full words), in a whole
cell. -/
theorem claim_key_attempt_full {a : Ary} {id : Nat} (hs : SlotShape a id)
    (hrl : a.offsets.reprobe_len ≤ 63) (hls : a.lsize ≤ a.key_len)
    (h0 : (a.offsets.word_offset id).2.1.key.sb_mask1 ≠ 0)
    (hf : (a.offsets.word_offset id).2.1.key.full_words = true)
    {m : Mem} (hc : Coh a m id) (key : Nat) {r : Nat}
    (hr : r + 1 < 2 ^ a.offsets.reprobe_len) :
    claim_key_attempt a m key (akey_of a key r % 2 ^ 64) id =
      if key_at a m id = 0 then
        (true, true, key_store a m id (2 * akey_of a key r),
          (a.offsets.word_offset id).1, (a.offsets.word_offset id).2.1)
      else
        (decide (key_at a m id = 2 * akey_of a key r), false, m,
          (a.offsets.word_offset id).1, (a.offsets.word_offset id).2.1) := by
  obtain ⟨hsb1, hkb, hn1, hm1, hsh, hrem, hsum⟩ := hs.split h0
  obtain ⟨h1n, hrem3, hsb20, hsb2n⟩ := hs.split3 h0 hf
  have hdm := Nat.div_add_mod (key_rem a id) 63
  have hF : 1 ≤ key_rem a id / 63 := by omega
  have hkl : a.klen = a.offsets.reprobe_len + (a.key_len - a.lsize) := rfl
  have h2lt := two_mul_akey_lt (a := a) key hr
  have hnk1 := split_nkey1 (akey_of a key r) (by omega : cell_kb a id ≤ 62)
  have e63 : 63 - cell_kb a id = key_n1 a id + 1 := by omega
  rw [e63] at hnk1
  have hlt1 : 2 * akey_of a key r % 2 ^ (key_n1 a id + 1) ||| 2 ^ (key_n1 a id + 1)
      < 2 ^ (64 - cell_kb a id) := by
    rw [show 64 - cell_kb a id = key_n1 a id + 1 + 1 by omega]
    exact enc_first_lt _ _
  have hsk1 := set_key_field m (cell_kw a id) (cell_kb a id) (64 - cell_kb a id) hlt1
  have hnk2 := full_nkey1 a key hr hrl hsum h1n (by omega) hrem3
  have htl0 : tail_len (key_rem a id) 0 = 63 := by unfold tail_len; omega
  have hlt2 := enc_tail_lt (2 * akey_of a key r) (key_n1 a id) (key_rem a id) 0
  rw [htl0] at hlt2
  have htw := tail_words_eq (key_rem a id)
  have hbc1 : a.lsize + min (wsize - a.offsets.reprobe_len) (a.key_len - a.lsize)
      + (key_n1 a id - 1) = a.lsize + (key_n1 a id + 63 * 1) - a.offsets.reprobe_len := by
    have hw : wsize = 64 := rfl
    rw [hw]
    omega
  have hfuel : key_rem a id / 63 - 1 ≤ a.key_len := by omega
  have hlast := last_nkey a key hr hrl hsum h1n hF (Nat.mul_div_le (key_rem a id) 63)
  have htlF := tail_len_last (key_rem a id)
  rw [htlF] at hlast
  have hkl2 : a.key_len - (a.lsize + (key_n1 a id + 63 * (key_rem a id / 63))
      - a.offsets.reprobe_len) = key_rem a id % 63 := by omega
  have hltF := enc_tail_lt (2 * akey_of a key r) (key_n1 a id) (key_rem a id)
    (key_rem a id / 63)
  rw [htlF] at hltF
  unfold claim_key_attempt
  simp only [h0, ne_eq, not_false_eq_true, if_true, hf]
  simp only [hsb1, hm1, hs.kb_add_one, hnk1, hsh, hnk2, hbc1]
  simp only [cell_kw] at hsk1 ⊢
  rw [hsk1]
  by_cases hk : key_at a m id = 0
  · -- the cell is free: every word is stored
    have hz := hc.1 hk
    have hz1 := hz _ (first_fld_mem h0)
    have hzt : ∀ j, j < tail_words (key_rem a id) →
        get_bits (m (cell_kw a id + 1 + j)) 0 (tail_len (key_rem a id) j + 1) = 0 :=
      fun j hj => hz _ (tail_fld_mem h0 hj)
    simp only [cell_kw] at hz1 hzt
    rw [if_pos hk, if_pos hz1]
    simp only [if_true]
    obtain ⟨kw, ekw⟩ : ∃ kw, kw = (a.offsets.word_offset id).1
        + (a.offsets.word_offset id).2.1.key.woff := ⟨_, rfl⟩
    rw [← ekw] at hz1 hzt ⊢
    obtain ⟨m1, e1⟩ : ∃ m1, m1 = m.write kw (set_bits (m kw) (cell_kb a id) (64 - cell_kb a id)
        (2 * akey_of a key r % 2 ^ (key_n1 a id + 1) ||| 2 ^ (key_n1 a id + 1))) := ⟨_, rfl⟩
    rw [← e1]
    have hm1x : ∀ x, x ≠ kw → m1 x = m x := fun x hx => by rw [e1, Mem.write_other _ _ hx]
    have hsk2 := set_key_field m1 (kw + 1) 0 64 hlt2
    rw [Nat.shiftLeft_zero, ← fmask_eq] at hsk2
    have hz20 : get_bits (m1 (kw + 1)) 0 64 = 0 := by
      have := hzt 0 (by omega)
      rw [htl0, Nat.add_zero] at this
      rwa [hm1x _ (by omega)]
    rw [hsk2, if_pos hz20]
    simp only []
    obtain ⟨m2, e2⟩ : ∃ m2, m2 = m1.write (kw + 1) (set_bits (m1 (kw + 1)) 0 64
        (enc_tail (2 * akey_of a key r) (key_n1 a id) (key_rem a id) 0)) := ⟨_, rfl⟩
    rw [← e2]
    have hm2x : ∀ x, x ≠ kw → x ≠ kw + 1 → m2 x = m x := fun x hx hx2 => by
      rw [e2, Mem.write_other _ _ hx2, hm1x x hx]
    rw [claim_key_full_words_free a key kw hr hrl hls hsum h1n a.key_len 1 m2 (Nat.le_refl 1) hF
      hfuel (fun t ht1 ht2 => by
        rw [hm2x _ (by omega) (by omega)]
        have := hzt t (by omega)
        rwa [tail_len_eq ht2] at this)]
    simp only []
    obtain ⟨m3, e3⟩ : ∃ m3, m3 = (fun x => if kw + 1 + 1 ≤ x ∧ x < kw + 1 + key_rem a id / 63 then
        set_bits (m2 x) 0 64
          (enc_tail (2 * akey_of a key r) (key_n1 a id) (key_rem a id) (x - kw - 1))
        else m2 x) := ⟨_, rfl⟩
    rw [← e3]
    -- the memory after the full words
    have hm3 : ∀ x, m3 x =
        if x = kw then set_bits (m x) (cell_kb a id) (64 - cell_kb a id)
          (2 * akey_of a key r % 2 ^ (key_n1 a id + 1) ||| 2 ^ (key_n1 a id + 1))
        else if kw < x ∧ x ≤ kw + key_rem a id / 63 then
          set_bits (m x) 0 (tail_len (key_rem a id) (x - kw - 1) + 1)
            (enc_tail (2 * akey_of a key r) (key_n1 a id) (key_rem a id) (x - kw - 1))
        else m x := by
      intro x
      rw [e3]
      dsimp only
      by_cases hx : x = kw
      · subst hx
        rw [if_neg (by omega), if_pos rfl, e2, Mem.write_other _ _ (by omega), e1,
          Mem.write_same]
      · rw [if_neg hx]
        by_cases hx2 : x = kw + 1
        · subst hx2
          rw [if_neg (by omega), if_pos (by omega), e2, Mem.write_same, hm1x _ (by omega)]
          simp only [Nat.add_sub_cancel_left, Nat.sub_self, htl0]
        · by_cases hx3 : kw + 1 + 1 ≤ x ∧ x < kw + 1 + key_rem a id / 63
          · rw [if_pos hx3, if_pos (by omega), hm2x x hx hx2,
              tail_len_eq (by omega : x - kw - 1 < key_rem a id / 63)]
          · rw [if_neg hx3, if_neg (by omega), hm2x x hx hx2]
    by_cases hl : key_rem a id % 63 = 0
    · have hsb2 := hsb20 hl
      have hnw : tail_words (key_rem a id) = key_rem a id / 63 := by rw [htw, if_pos hl]; rfl
      simp only [hsb2, not_true_eq_false, false_and, if_false]
      refine Prod.ext rfl (Prod.ext rfl (Prod.ext ?_ rfl))
      dsimp only
      funext x
      rw [hm3 x]
      unfold key_store
      rw [if_neg h0]
      simp only [cell_kw, hnw, ← ekw]
    · obtain ⟨hsb2, hm2⟩ := hsb2n hl
      have hnw : tail_words (key_rem a id) = key_rem a id / 63 + 1 := by rw [htw, if_neg hl]
      have hsb2' : ¬ (2:Nat) ^ (key_rem a id % 63) = 0 :=
        Nat.pos_iff_ne_zero.1 (Nat.two_pow_pos _)
      simp only [hsb2, hm2, hsb2', not_false_eq_true, true_and, if_true, hkl2, hlast]
      have hzF := hzt (key_rem a id / 63) (by omega)
      rw [htlF] at hzF
      have hsk3 := set_key_field m3 (kw + (key_rem a id / 63 + 1)) 0 (key_rem a id % 63 + 1) hltF
      rw [Nat.shiftLeft_zero] at hsk3
      have hm3F : m3 (kw + (key_rem a id / 63 + 1)) = m (kw + 1 + key_rem a id / 63) := by
        rw [hm3, if_neg (by omega), if_neg (by omega)]
        congr 1; omega
      rw [hsk3, hm3F, if_pos hzF]
      refine Prod.ext rfl (Prod.ext rfl (Prod.ext ?_ rfl))
      dsimp only
      funext x
      unfold key_store
      rw [if_neg h0]
      simp only [cell_kw, hnw, ← ekw]
      by_cases hx4 : x = kw + (key_rem a id / 63 + 1)
      · subst hx4
        rw [Mem.write_same, if_neg (by omega), if_pos (by omega)]
        have e : kw + (key_rem a id / 63 + 1) - kw - 1 = key_rem a id / 63 := by omega
        rw [e, htlF]
        congr 2; omega
      · rw [Mem.write_other _ _ hx4, hm3 x]
        by_cases hx : x = kw
        · rw [if_pos hx, if_pos hx]
        · rw [if_neg hx, if_neg hx]
          by_cases hx5 : kw < x ∧ x ≤ kw + key_rem a id / 63
          · rw [if_pos hx5, if_pos (by omega)]
          · rw [if_neg hx5, if_neg (by omega)]
  · -- the cell is taken: the words are compared
    have hnz := first_ne_zero hs h0 hc hk
    simp only [cell_kw] at hnz
    rw [if_neg hk, if_neg hnz]
    obtain ⟨kw, ekw⟩ : ∃ kw, kw = (a.offsets.word_offset id).1
        + (a.offsets.word_offset id).2.1.key.woff := ⟨_, rfl⟩
    simp only [← ekw] at hnz ⊢
    by_cases he : get_bits (m kw) (cell_kb a id) (64 - cell_kb a id)
        = 2 * akey_of a key r % 2 ^ (key_n1 a id + 1) ||| 2 ^ (key_n1 a id + 1)
    · have hev : key_at a m id % 2 = 0 :=
        even_of_first_eq hkb (by simp only [cell_kw, ← ekw]; exact he)
      have hsb := hc.2.1 hk hev
      have hst : ∀ j, j < tail_words (key_rem a id) →
          (m (kw + 1 + j)).testBit (tail_len (key_rem a id) j) = true := by
        intro j hj
        have := (hsb h0).2 j hj
        simpa only [cell_kw, ← ekw] using this
      have hiff := key_at_eq_iff hs h0 m hsb h2lt
      simp only [cell_kw, ← ekw] at hiff
      have hs0 := hst 0 (by omega)
      rw [htl0] at hs0
      have hnz2 : get_bits (m (kw + 1)) 0 64 ≠ 0 :=
        get_bits_ne_zero_of_testBit (i := 63) (by omega) (by rwa [Nat.zero_add])
      have hsk2 := set_key_field m (kw + 1) 0 64 hlt2
      rw [Nat.shiftLeft_zero, ← fmask_eq, if_neg hnz2] at hsk2
      simp only [he, decide_True, if_true, hsk2]
      obtain ⟨b, c, kc2, hloop, hkc, hbc⟩ := claim_key_full_words_held a key kw m hr hrl hls hsum
        h1n a.key_len 1 (decide (get_bits (m (kw + 1)) 0 64
          = enc_tail (2 * akey_of a key r) (key_n1 a id) (key_rem a id) 0))
        (Nat.le_refl 1) hF hfuel (fun t ht1 ht2 => by
          have := hst t (by omega)
          rwa [tail_len_eq ht2] at this)
      rw [hloop]
      simp only []
      by_cases hl : key_rem a id % 63 = 0
      · have hsb2 := hsb20 hl
        have hnw : tail_words (key_rem a id) = key_rem a id / 63 := by rw [htw, if_pos hl]; rfl
        simp only [hsb2, not_true_eq_false, false_and, if_false]
        refine Prod.ext ?_ rfl
        apply Bool.eq_iff_iff.2
        rw [hkc, decide_eq_true_iff, decide_eq_true_iff, hiff, hnw]
        constructor
        · rintro ⟨h1, h2⟩
          refine ⟨he, fun j hj => ?_⟩
          by_cases hj0 : j = 0
          · subst hj0
            rw [htl0, Nat.add_zero]
            exact h1
          · rw [tail_len_eq hj]
            exact h2 j (by omega) hj
        · rintro ⟨-, h2⟩
          refine ⟨?_, fun t ht1 ht2 => ?_⟩
          · have := h2 0 (by omega)
            rwa [htl0, Nat.add_zero] at this
          · have := h2 t ht2
            rwa [tail_len_eq ht2] at this
      · obtain ⟨hsb2, hm2⟩ := hsb2n hl
        have hnw : tail_words (key_rem a id) = key_rem a id / 63 + 1 := by rw [htw, if_neg hl]
        have hsb2' : ¬ (2:Nat) ^ (key_rem a id % 63) = 0 :=
          Nat.pos_iff_ne_zero.1 (Nat.two_pow_pos _)
        simp only [hsb2, hm2, hsb2', not_false_eq_true, true_and]
        have hsF := hst (key_rem a id / 63) (by omega)
        rw [htlF] at hsF
        have hnzF : get_bits (m (kw + 1 + key_rem a id / 63)) 0 (key_rem a id % 63 + 1) ≠ 0 :=
          get_bits_ne_zero_of_testBit (i := key_rem a id % 63) (by omega)
            (by rwa [Nat.zero_add])
        cases hkc2 : kc2 with
        | false =>
          simp only [Bool.false_eq_true, if_false]
          refine Prod.ext ?_ rfl
          symm
          apply decide_eq_false
          intro h
          have h2 := (hiff.1 h).2
          rw [hkc2] at hkc
          refine Bool.noConfusion (hkc.2 ⟨decide_eq_true ?_, fun t ht1 ht2 => ?_⟩)
          · have := h2 0 (by omega)
            rwa [htl0, Nat.add_zero] at this
          · have := h2 t (by omega)
            rwa [tail_len_eq ht2] at this
        | true =>
          rw [hkc2] at hkc hbc
          obtain ⟨hb, hcc⟩ := hbc rfl
          subst hb hcc
          simp only [if_true, hkl2, hlast]
          have hsk3 := set_key_field m (kw + (key_rem a id / 63 + 1)) 0 (key_rem a id % 63 + 1)
            hltF
          rw [Nat.shiftLeft_zero,
            show kw + (key_rem a id / 63 + 1) = kw + 1 + key_rem a id / 63 by omega,
            if_neg hnzF] at hsk3
          rw [show kw + (key_rem a id / 63 + 1) = kw + 1 + key_rem a id / 63 by omega, hsk3]
          refine Prod.ext ?_ rfl
          apply Bool.eq_iff_iff.2
          rw [decide_eq_true_iff, decide_eq_true_iff, hiff, hnw]
          obtain ⟨h1, h2⟩ := hkc.1 rfl
          constructor
          · intro h3
            refine ⟨he, fun j hj => ?_⟩
            by_cases hj0 : j = 0
            · subst hj0
              rw [htl0, Nat.add_zero]
              exact of_decide_eq_true h1
            · by_cases hjF : j = key_rem a id / 63
              · subst hjF
                rw [htlF]
                exact h3
              · rw [tail_len_eq (by omega)]
                exact h2 j (by omega) (by omega)
          · rintro ⟨-, h3⟩
            have := h3 (key_rem a id / 63) (by omega)
            rwa [htlF] at this
    · simp only [he, decide_False, if_false, Bool.false_eq_true]
      refine Prod.ext ?_ rfl
      symm
      apply decide_eq_false
      intro h
      have hev : key_at a m id % 2 = 0 := by rw [h]; omega
      have hsb := hc.2.1 hk hev
      have hiff := (key_at_eq_iff hs h0 m hsb h2lt).1 h
      simp only [cell_kw, ← ekw] at hiff
      exact he hiff.1

/-- One round of `claim_key` in a whole cell: a free cell takes the key field of
the key at reprobe index `r`, set bits included; a taken cell is compared with
it and nothing is stored. -/
theorem claim_key_attempt_eq {a : Ary} (hv : a.Valid) {id : Nat} (hid : id < a.size) {m : Mem}
    (hc : Coh a m id) (key : Nat) {r : Nat} (hr : r + 1 < 2 ^ a.offsets.reprobe_len) :
    claim_key_attempt a m key (akey_of a key r % 2 ^ 64) id =
      if key_at a m id = 0 then
        (true, true, key_store a m id (2 * akey_of a key r),
          (a.offsets.word_offset id).1, (a.offsets.word_offset id).2.1)
      else
        (decide (key_at a m id = 2 * akey_of a key r), false, m,
          (a.offsets.word_offset id).1, (a.offsets.word_offset id).2.1) := by
  have hs := hv.shape hid
  by_cases h0 : (a.offsets.word_offset id).2.1.key.sb_mask1 = 0
  · exact claim_key_attempt_one hs h0 m key hr
  · cases hf : (a.offsets.word_offset id).2.1.key.full_words with
    | false => exact claim_key_attempt_two hs hv.2.2.1 h0 hf hc key hr
    | true => exact claim_key_attempt_full hs hv.2.2.1 hv.2.1 h0 hf hc key hr

theorem lkey_at_testBit_zero (a : Ary) (m : Mem) (id : Nat) :
    (lkey_at a m id).testBit 0 = (m (cell_kw a id)).testBit (cell_kb a id) := by
  rw [testBit_lkey_at, if_pos (Nat.zero_le _), Nat.add_zero]

theorem mod_two_eq_of_testBit_zero {x y : Nat} (h : x.testBit 0 = y.testBit 0) :
    x % 2 = y % 2 := by
  rw [Nat.testBit_zero, Nat.testBit_zero] at h
  rcases Nat.mod_two_eq_zero_or_one x with e | e <;>
    rcases Nat.mod_two_eq_zero_or_one y with e2 | e2 <;> simp [e, e2] at h ⊢

theorem lkey_at_mod_two (a : Ary) (m : Mem) (id : Nat) :
    lkey_at a m id % 2 = key_at a m id % 2 :=
  mod_two_eq_of_testBit_zero (by rw [lkey_at_testBit_zero, key_at_testBit_zero])

theorem lkey_at_one {a : Ary} {id : Nat} (hs : SlotShape a id)
    (h0 : (a.offsets.word_offset id).2.2.key.sb_mask1 = 0) (m : Mem) :
    lkey_at a m id = get_bits (m (cell_kw a id)) (cell_kb a id) (a.offsets.reprobe_len + 1) := by
  obtain ⟨-, -, e1, e2⟩ := hs.lone h0
  unfold lkey_at
  rw [e1, e2]
  have : get_bits (m (cell_kw a id + 1)) 0 0 = 0 := by
    unfold get_bits; simp [Nat.mod_one]
  simp [this]

theorem lkey_at_lt {a : Ary} {id : Nat} (hs : SlotShape a id) (m : Mem) :
    lkey_at a m id < 2 ^ (a.offsets.reprobe_len + 1) := by
  apply Nat.lt_pow_two_of_testBit
  intro j hj
  rw [testBit_lkey_at]
  have h1 : lkey_n1 a id + lkey_rem a id = a.offsets.reprobe_len := by
    by_cases h0 : (a.offsets.word_offset id).2.2.key.sb_mask1 = 0
    · obtain ⟨-, -, e1, e2⟩ := hs.lone h0
      omega
    · exact (hs.lsplit h0).2.2.2.2.2.1
  have h2 : ¬ j ≤ lkey_n1 a id := by omega
  have h3 : ¬ j - (lkey_n1 a id + 1) < lkey_rem a id := by omega
  simp [h2, h3]

/-- The content of a split large key field with its set bits set, word by
word. -/
theorem lkey_at_eq_iff {a : Ary} {id : Nat} (hs : SlotShape a id)
    (h0 : (a.offsets.word_offset id).2.2.key.sb_mask1 ≠ 0) (m : Mem) (hsb : lsbits a m id)
    {v : Nat} (hv : v < 2 ^ (a.offsets.reprobe_len + 1)) :
    lkey_at a m id = v ↔
      get_bits (m (cell_kw a id)) (cell_kb a id) (64 - cell_kb a id)
          = v % 2 ^ (lkey_n1 a id + 1) ||| 2 ^ (lkey_n1 a id + 1) ∧
        get_bits (m (cell_kw a id + 1)) 0 (lkey_rem a id + 1)
          = (v >>> (lkey_n1 a id + 1)) % 2 ^ lkey_rem a id ||| 2 ^ lkey_rem a id := by
  obtain ⟨hns, -, hn1, -, hrem, hsum, -, -, -⟩ := hs.lsplit h0
  obtain ⟨-, hkb, -, -, -, -, -⟩ := hs.split hns
  rw [← hn1] at hkb
  obtain ⟨hs1, hs2⟩ := hsb h0
  constructor
  · intro h
    subst h
    constructor
    · apply Nat.eq_of_testBit_eq
      intro i
      rw [testBit_get_bits, Nat.testBit_or, Nat.testBit_mod_two_pow, Nat.testBit_two_pow,
        testBit_lkey_at]
      by_cases h1 : i ≤ lkey_n1 a id
      · have c1 : i < 64 - cell_kb a id := by omega
        have c2 : i < lkey_n1 a id + 1 := by omega
        have c3 : ¬ lkey_n1 a id + 1 = i := by omega
        simp [h1, c1, c2, c3]
      · by_cases h2 : i = lkey_n1 a id + 1
        · subst h2
          have c1 : lkey_n1 a id + 1 < 64 - cell_kb a id := by omega
          have c2 : cell_kb a id + (lkey_n1 a id + 1) = 63 := by omega
          simp [c1, c2, hs1]
        · have c1 : ¬ i < 64 - cell_kb a id := by omega
          have c2 : ¬ i < lkey_n1 a id + 1 := by omega
          have c3 : ¬ lkey_n1 a id + 1 = i := by omega
          simp [c1, c2, c3]
    · apply Nat.eq_of_testBit_eq
      intro i
      rw [testBit_get_bits, Nat.testBit_or, Nat.testBit_mod_two_pow, Nat.testBit_two_pow,
        Nat.testBit_shiftRight, testBit_lkey_at, Nat.zero_add]
      by_cases h1 : i < lkey_rem a id
      · have c1 : i < lkey_rem a id + 1 := by omega
        have c2 : ¬ lkey_n1 a id + 1 + i ≤ lkey_n1 a id := by omega
        have c3 : lkey_n1 a id + 1 + i - (lkey_n1 a id + 1) = i := by omega
        have c4 : ¬ lkey_rem a id = i := by omega
        simp [h1, c1, c2, c3, c4]
      · by_cases h2 : i = lkey_rem a id
        · subst h2
          simp [hs2]
        · have c1 : ¬ i < lkey_rem a id + 1 := by omega
          have c4 : ¬ lkey_rem a id = i := by omega
          simp [h1, c1, c4]
  · rintro ⟨hf, ht⟩
    apply Nat.eq_of_testBit_eq
    intro i
    rw [testBit_lkey_at]
    by_cases h1 : i ≤ lkey_n1 a id
    · rw [if_pos h1, testBit_of_get_bits_eq hf (by omega : i < 64 - cell_kb a id),
        Nat.testBit_or, Nat.testBit_mod_two_pow, Nat.testBit_two_pow]
      have c2 : i < lkey_n1 a id + 1 := by omega
      have c3 : ¬ lkey_n1 a id + 1 = i := by omega
      simp [c2, c3]
    · rw [if_neg h1]
      by_cases h2 : i - (lkey_n1 a id + 1) < lkey_rem a id
      · have := testBit_of_get_bits_eq ht (Nat.lt_succ_of_lt h2)
        rw [Nat.zero_add] at this
        rw [this, Nat.testBit_or, Nat.testBit_mod_two_pow, Nat.testBit_two_pow,
          Nat.testBit_shiftRight]
        have c : lkey_n1 a id + 1 + (i - (lkey_n1 a id + 1)) = i := by omega
        have c4 : ¬ lkey_rem a id = i - (lkey_n1 a id + 1) := by omega
        simp [h2, c, c4]
      · have : v.testBit i = false :=
          Nat.testBit_lt_two_pow (lt_of_lt_of_le hv (Nat.pow_le_pow_right (by decide) (by omega)))
        simp [h2, this]

theorem set_bits_of_field_zero {w s L L2 v : Nat} (h0 : get_bits w s L = 0) (hL : L2 ≤ L)
    (hv : v < 2 ^ L2) : set_bits w s L v = set_bits w s L2 v := by
  have hv2 : v < 2 ^ L := lt_of_lt_of_le hv (Nat.pow_le_pow_right (by decide) hL)
  have h02 : get_bits w s L2 = 0 := by rw [← get_bits_mod w s L L2 hL, h0]; rfl
  rw [← or_shiftLeft_of_field_zero h0 hv2, ← or_shiftLeft_of_field_zero h02 hv]

/-- In a whole cell the first word of the key field tells whether the cell is
free. -/
theorem first_eq_zero_iff {a : Ary} {id : Nat} (hs : SlotShape a id)
    (h0 : (a.offsets.word_offset id).2.1.key.sb_mask1 ≠ 0) {m : Mem} (hc : Coh a m id) :
    get_bits (m (cell_kw a id)) (cell_kb a id) (64 - cell_kb a id) = 0 ↔ key_at a m id = 0 := by
  constructor
  · intro h
    by_contra hk
    exact first_ne_zero hs h0 hc hk h
  · intro h
    exact hc.1 h _ (first_fld_mem h0)

/-- One round of `claim_large_key` in a whole cell: a free cell takes the large
bit and the reprobe distance `r`, set bits included; a taken cell is compared
with them and nothing is stored. -/
theorem claim_large_key_attempt_eq {a : Ary} (hv : a.Valid) {id : Nat} (hid : id < a.size)
    {m : Mem} (hc : Coh a m id) {r : Nat} (hr : r < 2 ^ a.offsets.reprobe_len) :
    claim_large_key_attempt a m r id =
      if key_at a m id = 0 then
        (true, lkey_store a m id (1 + 2 * r),
          (a.offsets.word_offset id).1, (a.offsets.word_offset id).2.2)
      else
        (decide (lkey_at a m id = 1 + 2 * r), m,
          (a.offsets.word_offset id).1, (a.offsets.word_offset id).2.2) := by
  have hs := hv.shape hid
  have hlt := one_add_two_mul_lt hr
  have hrl : a.offsets.reprobe_len ≤ 63 := hv.2.2.1
  have hrk : a.offsets.reprobe_len ≤ a.klen := by unfold Ary.klen; omega
  by_cases hl0 : (a.offsets.word_offset id).2.2.key.sb_mask1 = 0
  · -- large key field in one word
    obtain ⟨hkb, hlm1, hln1, hlrem⟩ := hs.lone hl0
    have hnk := claim_large_nkey hr hkb
    unfold claim_large_key_attempt lkey_store
    simp only [hl0, ne_eq, not_true_eq_false, if_false, if_true, hs.lkw, hs.lboff, hs.llb, hlm1,
      hnk]
    rw [lkey_at_one hs hl0]
    by_cases h0 : (a.offsets.word_offset id).2.1.key.sb_mask1 = 0
    · obtain ⟨hkb1, hm1, -, -⟩ := hs.one h0
      rw [hm1, set_key_field2 m (cell_kw a id) (cell_kb a id) (a.klen + 1)
        (a.offsets.reprobe_len + 1) (by omega) hlt, key_at_one hs h0]
      by_cases hk : get_bits (m (cell_kw a id)) (cell_kb a id) (a.klen + 1) = 0
      · rw [if_pos hk, if_pos hk, set_bits_of_field_zero hk (by omega) hlt]
      · rw [if_neg hk, if_neg hk]
    · obtain ⟨-, hkb1, -, hm1, -, -, -⟩ := hs.split h0
      rw [hm1, set_key_field2 m (cell_kw a id) (cell_kb a id) (64 - cell_kb a id)
        (a.offsets.reprobe_len + 1) (by omega) hlt]
      by_cases hk : key_at a m id = 0
      · have hz := (first_eq_zero_iff hs h0 hc).2 hk
        rw [if_pos hk, if_pos hz, set_bits_of_field_zero hz (by omega) hlt]
      · have hz : ¬ get_bits (m (cell_kw a id)) (cell_kb a id) (64 - cell_kb a id) = 0 :=
          fun h => hk ((first_eq_zero_iff hs h0 hc).1 h)
        rw [if_neg hk, if_neg hz]
  · -- large key field split over two words
    obtain ⟨h0, hlsb1, hn1, hlsh, hlrem, hlsum, hlm1, hlsb2, hlm2⟩ := hs.lsplit hl0
    obtain ⟨-, hkb, hn1k, hm1, -, hrem, hsum⟩ := hs.split h0
    have hnk1 := split_lnkey1 r (by omega : cell_kb a id ≤ 62)
    have e63 : 63 - cell_kb a id = lkey_n1 a id + 1 := by omega
    rw [e63] at hnk1
    have hlt1 : (1 + 2 * r) % 2 ^ (lkey_n1 a id + 1) ||| 2 ^ (lkey_n1 a id + 1)
        < 2 ^ (64 - cell_kb a id) := by
      rw [show 64 - cell_kb a id = lkey_n1 a id + 1 + 1 by omega]
      exact enc_first_lt _ _
    have hsk1 := set_key_field m (cell_kw a id) (cell_kb a id) (64 - cell_kb a id) hlt1
    have hnk2 := split_lnkey2 r (lkey_n1 a id) (lkey_rem a id)
    have hlt2 : ((1 + 2 * r) >>> (lkey_n1 a id + 1)) % 2 ^ lkey_rem a id ||| 2 ^ lkey_rem a id
        < 2 ^ (lkey_rem a id + 1) := enc_first_lt _ _
    -- the mask on which the second word has to be free
    have hfree : ∃ L, (if (a.offsets.word_offset id).2.1.key.full_words = true then fmask
          else (a.offsets.word_offset id).2.1.key.mask2) = field_mask L 0 ∧
        L = tail_len (key_rem a id) 0 + 1 ∧ lkey_rem a id + 1 ≤ L := by
      cases hf : (a.offsets.word_offset id).2.1.key.full_words with
      | false =>
        obtain ⟨hrem2, -, hm2⟩ := hs.split2 h0 hf
        refine ⟨key_rem a id + 1, by simp [hm2], ?_, by omega⟩
        unfold tail_len; omega
      | true =>
        obtain ⟨-, hrem3, -, -⟩ := hs.split3 h0 hf
        refine ⟨64, by simp [fmask_eq], ?_, by omega⟩
        unfold tail_len; omega
    obtain ⟨L, hL, hLt, hLr⟩ := hfree
    unfold claim_large_key_attempt
    simp only [hl0, ne_eq, not_false_eq_true, if_true]
    simp only [hs.lkw, hs.lboff, hs.llb, hlsb1, hlm1, hm1, hnk1, hlsh, hlsb2, hlm2, hnk2, hL]
    rw [hsk1]
    by_cases hk : key_at a m id = 0
    · have hz1 := (first_eq_zero_iff hs h0 hc).2 hk
      have hz2 := hc.1 hk _ (tail_fld_mem h0 (by unfold tail_words; omega :
        0 < tail_words (key_rem a id)))
      simp only [Nat.add_zero] at hz2
      rw [← hLt] at hz2
      rw [if_pos hk, if_pos hz1]
      simp only [if_true]
      rw [set_key_field2 _ (cell_kw a id + 1) 0 L (lkey_rem a id + 1) hLr hlt2,
        Mem.write_other _ _ (by omega), if_pos hz2]
      refine Prod.ext rfl (Prod.ext ?_ rfl)
      dsimp only
      funext x
      unfold lkey_store
      rw [if_neg hl0]
      by_cases hx : x = cell_kw a id
      · subst hx
        rw [Mem.write_other _ _ (by omega), Mem.write_same, if_pos rfl]
      · rw [if_neg hx]
        by_cases hx2 : x = cell_kw a id + 1
        · subst hx2
          rw [Mem.write_same, if_pos rfl, set_bits_of_field_zero hz2 hLr hlt2]
        · rw [Mem.write_other _ _ hx2, Mem.write_other _ _ hx, if_neg hx2]
    · have hz1 : ¬ get_bits (m (cell_kw a id)) (cell_kb a id) (64 - cell_kb a id) = 0 :=
        fun h => hk ((first_eq_zero_iff hs h0 hc).1 h)
      rw [if_neg hk, if_neg hz1]
      by_cases he : get_bits (m (cell_kw a id)) (cell_kb a id) (64 - cell_kb a id)
          = (1 + 2 * r) % 2 ^ (lkey_n1 a id + 1) ||| 2 ^ (lkey_n1 a id + 1)
      · have hodd : key_at a m id % 2 = 1 := by
          rw [key_at_mod_two, ← get_bits_mod _ _ (64 - cell_kb a id) 1 (by omega), he, pow_one]
          have : ((1 + 2 * r) % 2 ^ (lkey_n1 a id + 1) ||| 2 ^ (lkey_n1 a id + 1)).testBit 0
              = true := by
            rw [Nat.testBit_or, Nat.testBit_mod_two_pow, testBit_one_add_two_mul]
            simp
          rw [Nat.testBit_zero] at this
          exact of_decide_eq_true this
        have hsb := hc.2.2 hodd
        have hs2 := (hsb hl0).2
        have hnz2 : get_bits (m (cell_kw a id + 1)) 0 L ≠ 0 :=
          get_bits_ne_zero_of_testBit (i := lkey_rem a id) (by omega) (by rwa [Nat.zero_add])
        simp only [he, decide_True, if_true]
        rw [set_key_field2 _ (cell_kw a id + 1) 0 L (lkey_rem a id + 1) hLr hlt2, if_neg hnz2]
        refine Prod.ext ?_ rfl
        dsimp only
        apply Bool.eq_iff_iff.2
        rw [decide_eq_true_iff, decide_eq_true_iff, lkey_at_eq_iff hs hl0 m hsb hlt]
        exact ⟨fun h => ⟨he, h⟩, fun h => h.2⟩
      · simp only [he, decide_False, if_false, Bool.false_eq_true]
        refine Prod.ext ?_ rfl
        dsimp only
        symm
        apply decide_eq_false
        intro h
        have hodd : key_at a m id % 2 = 1 := by rw [← lkey_at_mod_two, h]; omega
        exact he ((lkey_at_eq_iff hs hl0 m (hc.2.2 hodd) hlt).1 h).1

/-- The loop of `get_key_at_id` over the full words of a long key: it runs
`(key_len - bits_copied) / 63` rounds, each of which copies the 63 low bits of
one word. -/
theorem get_key_full_words_spec (a : Ary) (m : Mem) (kvw : Nat) :
    ∀ (n bc wc key : Nat), bc ≤ a.key_len → (a.key_len - bc) / 63 ≤ n →
      (get_key_full_words a m kvw n bc wc key).1 = bc + 63 * ((a.key_len - bc) / 63) ∧
      (get_key_full_words a m kvw n bc wc key).2.1 = wc + (a.key_len - bc) / 63 ∧
      ∀ i, (get_key_full_words a m kvw n bc wc key).2.2.testBit i =
        if bc ≤ i ∧ i < bc + 63 * ((a.key_len - bc) / 63) then
          (m (kvw + wc + (i - bc) / 63)).testBit ((i - bc) % 63)
        else key.testBit i := by
  intro n
  induction n with
  | zero =>
    intro bc wc key hbc hn
    have h0 : (a.key_len - bc) / 63 = 0 := by omega
    unfold get_key_full_words
    simp only [h0, Nat.mul_zero, Nat.add_zero, true_and]
    intro i
    rw [if_neg (by omega)]
  | succ n ih =>
    intro bc wc key hbc hn
    unfold get_key_full_words
    have hw : wsize = 64 := rfl
    by_cases hc : bc + wsize - 1 ≤ a.key_len
    · rw [if_pos hc]
      rw [hw] at hc ⊢
      have hd : (a.key_len - bc) / 63 = (a.key_len - (bc + (64 - 1))) / 63 + 1 := by omega
      obtain ⟨e1, e2, e3⟩ := ih (bc + (64 - 1)) (wc + 1)
        (set_bits key bc (64 - 1) (m (kvw + wc) &&& (fmask >>> 1))) (by omega) (by omega)
      refine ⟨by rw [e1]; omega, by rw [e2]; omega, ?_⟩
      intro i
      rw [e3, testBit_set_bits]
      have hfm : ∀ j, j < 63 → (m (kvw + wc) &&& (fmask >>> 1)).testBit j
          = (m (kvw + wc)).testBit j := by
        intro j hj
        rw [Nat.testBit_and, Nat.testBit_shiftRight, testBit_fmask]
        simp; intro; omega
      by_cases h1 : bc + (64 - 1) ≤ i ∧ i < bc + (64 - 1) + 63 * ((a.key_len - (bc + (64 - 1))) / 63)
      · rw [if_pos h1, if_pos (by omega)]
        have ea : kvw + (wc + 1) + (i - (bc + (64 - 1))) / 63 = kvw + wc + (i - bc) / 63 := by
          omega
        have eb : (i - (bc + (64 - 1))) % 63 = (i - bc) % 63 := by omega
        rw [ea, eb]
      · rw [if_neg h1]
        by_cases h2 : i < bc
        · rw [if_pos h2, if_neg (by omega)]
        · rw [if_neg h2]
          by_cases h3 : i < bc + (64 - 1)
          · rw [if_pos h3, if_pos (by omega), hfm _ (by omega)]
            have ea : (i - bc) / 63 = 0 := by omega
            have eb : (i - bc) % 63 = i - bc := by omega
            rw [ea, eb, Nat.add_zero]
          · rw [if_neg h3, if_neg (by omega)]
    · rw [if_neg hc]
      rw [hw] at hc
      have h0 : (a.key_len - bc) / 63 = 0 := by omega
      simp only [h0, Nat.mul_zero, Nat.add_zero, true_and]
      intro i
      rw [if_neg (by omega)]

theorem and_two_pow_eq_zero (w k : Nat) : w &&& 2 ^ k = 0 ↔ w.testBit k = false := by
  constructor
  · intro h
    have := congrArg (fun x => x.testBit k) h
    simpa [Nat.testBit_and, Nat.testBit_two_pow] using this
  · intro h
    apply Nat.eq_of_testBit_eq
    intro i
    rw [Nat.testBit_and, Nat.testBit_two_pow, Nat.zero_testBit]
    by_cases hi : k = i
    · subst hi; simp [h]
    · simp [hi]

/-- The bits of the first word of a split key above the large bit, the set bit
left out: `((key_word & mask1) & ~sb_mask1) >> boff`. -/
theorem testBit_kreprobe0 {kb n1 : Nat} (hkb : kb + n1 = 62) (W1 i : Nat) :
    ((W1 &&& field_mask (64 - kb) kb &&& wnot (2 ^ 63)) >>> (kb + 1)).testBit i
      = (decide (i < n1) && W1.testBit (kb + 1 + i)) := by
  simp only [Nat.testBit_shiftRight, Nat.testBit_and, testBit_field_mask, testBit_wnot,
    Nat.testBit_two_pow]
  by_cases h : i < n1
  · have h1 : kb ≤ kb + 1 + i ∧ kb + 1 + i < kb + (64 - kb) := by omega
    have h2 : kb + 1 + i < 64 := by omega
    have h3 : ¬ 63 = kb + 1 + i := by omega
    simp [h, h1, h2, h3]
  · by_cases h4 : kb + 1 + i < 64
    · have h3 : 63 = kb + 1 + i := by omega
      simp [h, h3]
      intros; omega
    · have h1 : ¬ (kb ≤ kb + 1 + i ∧ kb + 1 + i < kb + (64 - kb)) := by omega
      simp [h, h1]

theorem kreprobe_low {A kr0 W1 n1 kb rl rem : Nat} (T : Nat → Nat)
    (hA : ∀ j, A.testBit j = if j < n1 then W1.testBit (kb + 1 + j)
      else (decide (j - n1 < rem) && (T ((j - n1) / 63)).testBit ((j - n1) % 63)))
    (hkr0 : ∀ i, kr0.testBit i = (decide (i < n1) && W1.testBit (kb + 1 + i)))
    (hlt : rl < n1) : kr0 % 2 ^ rl = A % 2 ^ rl := by
  apply Nat.eq_of_testBit_eq
  intro i
  rw [Nat.testBit_mod_two_pow, Nat.testBit_mod_two_pow, hkr0, hA]
  by_cases h : i < rl
  · have : i < n1 := by omega
    simp [h, this]
  · simp [h]

theorem kreprobe_high {A kr0 W1 n1 kb rl rem X : Nat} (T : Nat → Nat)
    (hA : ∀ j, A.testBit j = if j < n1 then W1.testBit (kb + 1 + j)
      else (decide (j - n1 < rem) && (T ((j - n1) / 63)).testBit ((j - n1) % 63)))
    (hkr0 : ∀ i, kr0.testBit i = (decide (i < n1) && W1.testBit (kb + 1 + i)))
    (hX : ∀ i, i < rl - n1 → X.testBit i = (T 0).testBit i)
    (hge : n1 ≤ rl) (hrl : rl ≤ 63) (hrem : rl - n1 ≤ rem) :
    kr0 ||| wshl (X &&& (wshl 1 (rl - n1) - 1)) n1 = A % 2 ^ rl := by
  have e1 : wshl 1 (rl - n1) = 2 ^ (rl - n1) := by
    unfold wshl
    rw [Nat.one_shiftLeft]
    exact Nat.mod_eq_of_lt (Nat.pow_lt_pow_right (by decide) (by omega))
  apply Nat.eq_of_testBit_eq
  intro i
  rw [e1, Nat.testBit_or, testBit_wshl, Nat.testBit_and, Nat.testBit_two_pow_sub_one,
    Nat.testBit_mod_two_pow, hkr0, hA]
  by_cases h : i < n1
  · have h1 : i < rl := by omega
    have h2 : ¬ n1 ≤ i := by omega
    simp [h, h1, h2]
  · by_cases h1 : i < rl
    · have h2 : n1 ≤ i := by omega
      have h3 : i < 64 := by omega
      have h4 : i - n1 < rl - n1 := by omega
      have h5 : i - n1 < rem := by omega
      have h6 : (i - n1) / 63 = 0 := by omega
      have h7 : (i - n1) % 63 = i - n1 := by omega
      simp [h, h1, h2, h3, h4, h5, h6, h7, hX _ h4]
    · have h4 : ¬ i - n1 < rl - n1 := by omega
      simp [h, h1, h4]

/-- Key bits of a key field in two words, the reprobe field inside the first. -/
theorem key_two_low {A kr0 W1 n1 kb rl rem X key ls : Nat} (T : Nat → Nat)
    (hA : ∀ j, A.testBit j = if j < n1 then W1.testBit (kb + 1 + j)
      else (decide (j - n1 < rem) && (T ((j - n1) / 63)).testBit ((j - n1) % 63)))
    (hkr0 : ∀ i, kr0.testBit i = (decide (i < n1) && W1.testBit (kb + 1 + i)))
    (hX : ∀ i, i < rem → X.testBit i = (T 0).testBit i)
    (hlt : rl < n1) (hrem : rem ≤ 63) :
    set_bits (set_bits key ls (n1 - rl) (kr0 >>> rl)) (ls + (n1 - rl)) rem X
      = set_bits key ls (n1 - rl + rem) (A >>> rl) := by
  apply Nat.eq_of_testBit_eq
  intro i
  simp only [testBit_set_bits, Nat.testBit_shiftRight, hkr0, hA]
  by_cases h1 : i < ls
  · have : i < ls + (n1 - rl) := by omega
    simp [h1, this]
  · by_cases h2 : i < ls + (n1 - rl)
    · have h3 : rl + (i - ls) < n1 := by omega
      have h4 : i < ls + (n1 - rl + rem) := by omega
      simp [h1, h2, h3, h4]
    · by_cases h4 : i < ls + (n1 - rl + rem)
      · have h3 : ¬ rl + (i - ls) < n1 := by omega
        have h5 : i < ls + (n1 - rl) + rem := by omega
        have h6 : i - (ls + (n1 - rl)) < rem := by omega
        have h7 : rl + (i - ls) - n1 = i - (ls + (n1 - rl)) := by omega
        have h8 : (i - (ls + (n1 - rl))) / 63 = 0 := by omega
        have h9 : (i - (ls + (n1 - rl))) % 63 = i - (ls + (n1 - rl)) := by omega
        simp [h1, h2, h3, h4, h5, h6, h7, h8, h9, hX _ h6]
      · have h5 : ¬ i < ls + (n1 - rl) + rem := by omega
        simp [h1, h2, h4, h5]

/-- Key bits of a key field in two words, the reprobe field reaching into the
second. -/
theorem key_two_high {A W1 n1 kb rl rem X key ls raw : Nat} (T : Nat → Nat)
    (hA : ∀ j, A.testBit j = if j < n1 then W1.testBit (kb + 1 + j)
      else (decide (j - n1 < rem) && (T ((j - n1) / 63)).testBit ((j - n1) % 63)))
    (hX : ∀ i, i < rem → X.testBit i = (T 0).testBit i)
    (hge : n1 ≤ rl) (hrem : rem ≤ 63) (hraw : raw + rl = n1 + rem) :
    set_bits key ls raw (X >>> (rl - n1)) = set_bits key ls raw (A >>> rl) := by
  apply Nat.eq_of_testBit_eq
  intro i
  simp only [testBit_set_bits, Nat.testBit_shiftRight, hA]
  by_cases h1 : i < ls
  · simp [h1]
  · by_cases h2 : i < ls + raw
    · have h3 : ¬ rl + (i - ls) < n1 := by omega
      have h6 : rl + (i - ls) - n1 < rem := by omega
      have h7 : rl - n1 + (i - ls) = rl + (i - ls) - n1 := by omega
      have h8 : (rl + (i - ls) - n1) / 63 = 0 := by omega
      have h9 : (rl + (i - ls) - n1) % 63 = rl + (i - ls) - n1 := by omega
      simp [h1, h2, h3, h6, h7, h8, h9, hX _ h6]
    · simp [h1, h2]

/-- First two words of a long key, the reprobe field inside the first word. -/
theorem key_full_low {A kr0 W1 n1 kb rl rem X : Nat} (T : Nat → Nat) (key ls : Nat)
    (hA : ∀ j, A.testBit j = if j < n1 then W1.testBit (kb + 1 + j)
      else (decide (j - n1 < rem) && (T ((j - n1) / 63)).testBit ((j - n1) % 63)))
    (hkr0 : ∀ i, kr0.testBit i = (decide (i < n1) && W1.testBit (kb + 1 + i)))
    (hX : ∀ i, i < 63 → X.testBit i = (T 0).testBit i)
    (hlt : rl < n1) (hrem : 63 ≤ rem) (i : Nat) :
    (set_bits (set_bits key ls (n1 - rl) (kr0 >>> rl)) (ls + (n1 - rl)) 63 X).testBit i
      = if ls ≤ i ∧ i < ls + (n1 - rl) + 63 then A.testBit (rl + (i - ls))
        else key.testBit i := by
  simp only [testBit_set_bits, Nat.testBit_shiftRight, hkr0, hA]
  by_cases h1 : i < ls
  · have : i < ls + (n1 - rl) := by omega
    have h2 : ¬ (ls ≤ i ∧ i < ls + (n1 - rl) + 63) := by omega
    simp [h1, this, h2]
  · by_cases h2 : i < ls + (n1 - rl)
    · have h3 : rl + (i - ls) < n1 := by omega
      have h4 : ls ≤ i ∧ i < ls + (n1 - rl) + 63 := by omega
      simp [h1, h2, h3, h4]
    · by_cases h4 : i < ls + (n1 - rl) + 63
      · have h3 : ¬ rl + (i - ls) < n1 := by omega
        have h5 : ls ≤ i ∧ i < ls + (n1 - rl) + 63 := by omega
        have h6 : i - (ls + (n1 - rl)) < 63 := by omega
        have h6b : rl + (i - ls) - n1 < rem := by omega
        have h7 : rl + (i - ls) - n1 = i - (ls + (n1 - rl)) := by omega
        have h8 : (i - (ls + (n1 - rl))) / 63 = 0 := by omega
        have h9 : (i - (ls + (n1 - rl))) % 63 = i - (ls + (n1 - rl)) := by omega
        rw [h7] at h6b
        simp [h1, h2, h3, h4, h5, h6b, h7, h8, h9, hX _ h6]
      · have h5 : ¬ (ls ≤ i ∧ i < ls + (n1 - rl) + 63) := by omega
        simp [h1, h2, h4, h5]

/-- First two words of a long key, the reprobe field reaching into the second
word. -/
theorem key_full_high {A W1 n1 kb rl rem X : Nat} (T : Nat → Nat) (key ls : Nat)
    (hA : ∀ j, A.testBit j = if j < n1 then W1.testBit (kb + 1 + j)
      else (decide (j - n1 < rem) && (T ((j - n1) / 63)).testBit ((j - n1) % 63)))
    (hX : ∀ i, i < 63 → X.testBit i = (T 0).testBit i)
    (hge : n1 ≤ rl) (hrem : 63 ≤ rem) (i : Nat) :
    (set_bits key ls (63 - (rl - n1)) (X >>> (rl - n1))).testBit i
      = if ls ≤ i ∧ i < ls + (63 - (rl - n1)) then A.testBit (rl + (i - ls))
        else key.testBit i := by
  simp only [testBit_set_bits, Nat.testBit_shiftRight, hA]
  by_cases h1 : i < ls
  · have h2 : ¬ (ls ≤ i ∧ i < ls + (63 - (rl - n1))) := by omega
    simp [h1, h2]
  · by_cases h2 : i < ls + (63 - (rl - n1))
    · have h3 : ¬ rl + (i - ls) < n1 := by omega
      have h5 : ls ≤ i ∧ i < ls + (63 - (rl - n1)) := by omega
      have h6 : rl + (i - ls) - n1 < 63 := by omega
      have h6b : rl + (i - ls) - n1 < rem := by omega
      have h7 : rl - n1 + (i - ls) = rl + (i - ls) - n1 := by omega
      have h8 : (rl + (i - ls) - n1) / 63 = 0 := by omega
      have h9 : (rl + (i - ls) - n1) % 63 = rl + (i - ls) - n1 := by omega
      simp [h1, h2, h3, h5, h6b, h7, h8, h9, hX _ h6]
    · have h5 : ¬ (ls ≤ i ∧ i < ls + (63 - (rl - n1))) := by omega
      simp [h1, h2, h5]

/-- Bits of a long key after the loop over its full words. -/
theorem key_full_loop {A W1 n1 kb rl rem key key2 key3 ls bc2 raw : Nat} (T : Nat → Nat)
    (hA : ∀ j, A.testBit j = if j < n1 then W1.testBit (kb + 1 + j)
      else (decide (j - n1 < rem) && (T ((j - n1) / 63)).testBit ((j - n1) % 63)))
    (h2 : ∀ i, key2.testBit i = if ls ≤ i ∧ i < bc2 then A.testBit (rl + (i - ls))
      else key.testBit i)
    (h3 : ∀ i, key3.testBit i = if bc2 ≤ i ∧ i < bc2 + 63 * ((rem - 63) / 63) then
      (T (1 + (i - bc2) / 63)).testBit ((i - bc2) % 63) else key2.testBit i)
    (hbc : bc2 + rl = ls + n1 + 63) (hrem : 63 ≤ rem) (hraw : raw + rl = n1 + rem)
    (hrl : rl ≤ 63) (i : Nat) :
    key3.testBit i = if ls ≤ i ∧ i < ls + raw - rem % 63 then A.testBit (rl + (i - ls))
      else key.testBit i := by
  rw [h3, h2, hA]
  by_cases c1 : bc2 ≤ i ∧ i < bc2 + 63 * ((rem - 63) / 63)
  · have c2 : ls ≤ i ∧ i < ls + raw - rem % 63 := by omega
    have c3 : ¬ rl + (i - ls) < n1 := by omega
    have c4 : rl + (i - ls) - n1 < rem := by omega
    have c5 : (rl + (i - ls) - n1) / 63 = 1 + (i - bc2) / 63 := by omega
    have c6 : (rl + (i - ls) - n1) % 63 = (i - bc2) % 63 := by omega
    simp [c1, c2, c3, c4, c5, c6]
  · rw [if_neg c1]
    by_cases c2 : ls ≤ i ∧ i < bc2
    · have c3 : ls ≤ i ∧ i < ls + raw - rem % 63 := by omega
      rw [if_pos c2, if_pos c3]
    · have c3 : ¬ (ls ≤ i ∧ i < ls + raw - rem % 63) := by omega
      rw [if_neg c2, if_neg c3]

theorem key_full_done {A rl rem key key3 ls raw : Nat}
    (h3 : ∀ i, key3.testBit i = if ls ≤ i ∧ i < ls + raw - rem % 63 then A.testBit (rl + (i - ls))
      else key.testBit i) (h0 : rem % 63 = 0) :
    key3 = set_bits key ls raw (A >>> rl) := by
  apply Nat.eq_of_testBit_eq
  intro i
  rw [h3, testBit_set_bits, Nat.testBit_shiftRight, h0]
  by_cases h1 : i < ls
  · rw [if_neg (by omega), if_pos h1]
  · by_cases h2 : i < ls + raw
    · rw [if_pos (by omega), if_neg h1, if_pos h2]
    · rw [if_neg (by omega), if_neg h1, if_neg h2]

theorem key_full_last {A W1 n1 kb rl rem key key3 ls raw bcE XL : Nat} (T : Nat → Nat)
    (hA : ∀ j, A.testBit j = if j < n1 then W1.testBit (kb + 1 + j)
      else (decide (j - n1 < rem) && (T ((j - n1) / 63)).testBit ((j - n1) % 63)))
    (h3 : ∀ i, key3.testBit i = if ls ≤ i ∧ i < ls + raw - rem % 63 then A.testBit (rl + (i - ls))
      else key.testBit i)
    (hXL : ∀ i, i < rem % 63 → XL.testBit i = (T (rem / 63)).testBit i)
    (hbc : bcE + rem % 63 = ls + raw) (hrem : 63 ≤ rem) (hraw : raw + rl = n1 + rem)
    (hrl : rl ≤ 63) :
    set_bits key3 bcE (rem % 63) XL = set_bits key ls raw (A >>> rl) := by
  apply Nat.eq_of_testBit_eq
  intro i
  rw [testBit_set_bits, testBit_set_bits, h3, Nat.testBit_shiftRight]
  by_cases h1 : i < ls
  · rw [if_pos (by omega), if_neg (by omega), if_pos h1]
  · by_cases h2 : i < bcE
    · rw [if_pos h2, if_pos (by omega), if_neg h1, if_pos (by omega)]
    · rw [if_neg h2, if_neg h1]
      by_cases h4 : i < ls + raw
      · rw [if_pos (by omega), if_pos h4, hA, if_neg (by omega), hXL _ (by omega)]
        have c4 : rl + (i - ls) - n1 < rem := by omega
        have c5 : (rl + (i - ls) - n1) / 63 = rem / 63 := by omega
        have c6 : (rl + (i - ls) - n1) % 63 = i - bcE := by omega
        simp [c4, c5, c6]
      · rw [if_neg (by omega), if_neg h4, if_neg (by omega)]

/-- Bits of the key field above the large bit: the first `key_n1` in the first
word, the others 63 to a word. -/
theorem testBit_key_at_half (a : Ary) (m : Mem) (id j : Nat) :
    (key_at a m id / 2).testBit j =
      if j < key_n1 a id then (m (cell_kw a id)).testBit (cell_kb a id + 1 + j)
      else (decide (j - key_n1 a id < key_rem a id) &&
        ((fun x => m (cell_kw a id + 1 + x)) ((j - key_n1 a id) / 63)).testBit
          ((j - key_n1 a id) % 63)) := by
  rw [← Nat.testBit_succ, testBit_key_at]
  by_cases hj : j < key_n1 a id
  · rw [if_pos (by omega), if_pos hj]
    congr 1; omega
  · rw [if_neg (by omega), if_neg hj]
    have : j + 1 - (key_n1 a id + 1) = j - key_n1 a id := by omega
    rw [this]

/-- The end of the full-word branch of `get_key_at_id`: the loop over the full
words and the copy of the last, partial word complete the key. -/
theorem get_key_full_tail {a : Ary} (hv : a.Valid) {id : Nat} (hid : id < a.size) (m : Mem)
    (h0 : (a.offsets.word_offset id).2.1.key.sb_mask1 ≠ 0)
    (hf : (a.offsets.word_offset id).2.1.key.full_words = true) {key key2 bc2 : Nat}
    (hbc : bc2 + a.offsets.reprobe_len = a.lsize + key_n1 a id + 63)
    (hk2 : ∀ i, key2.testBit i = if a.lsize ≤ i ∧ i < bc2 then
      (key_at a m id / 2).testBit (a.offsets.reprobe_len + (i - a.lsize)) else key.testBit i) :
    (if ¬ (a.offsets.word_offset id).2.1.key.sb_mask2 = 0 then
        set_bits (get_key_full_words a m (cell_kw a id) a.key_len bc2 2 key2).2.2
          (get_key_full_words a m (cell_kw a id) a.key_len bc2 2 key2).1
          (a.key_len - (get_key_full_words a m (cell_kw a id) a.key_len bc2 2 key2).1)
          (m (cell_kw a id + (get_key_full_words a m (cell_kw a id) a.key_len bc2 2 key2).2.1) &&&
            (a.offsets.word_offset id).2.1.key.mask2 &&&
            wnot (a.offsets.word_offset id).2.1.key.sb_mask2)
      else (get_key_full_words a m (cell_kw a id) a.key_len bc2 2 key2).2.2)
      = set_bits key a.lsize a.raw_key_len ((key_at a m id / 2) >>> a.offsets.reprobe_len) := by
  have hs := hv.shape hid
  have hrl : a.offsets.reprobe_len ≤ 63 := hv.2.2.1
  have hls : a.lsize ≤ a.key_len := hv.2.1
  obtain ⟨hsb1, hkb, hn1k, hm1, hsh, hrem, hsum⟩ := hs.split h0
  obtain ⟨hn11, hrem3, hsbz, hsbn⟩ := hs.split3 h0 hf
  have hraw : a.raw_key_len + a.offsets.reprobe_len = key_n1 a id + key_rem a id := by
    rw [hsum]; unfold Ary.klen; omega
  have hrawk : a.key_len - a.lsize = a.raw_key_len := rfl
  have et : a.key_len - bc2 = key_rem a id - 63 := by omega
  obtain ⟨e1, e2, e3⟩ := get_key_full_words_spec a m (cell_kw a id) a.key_len bc2 2 key2
    (by omega) (Nat.le_trans (Nat.div_le_self _ _) (Nat.sub_le _ _))
  rw [et] at e1 e2 e3
  have h3 : ∀ i, (get_key_full_words a m (cell_kw a id) a.key_len bc2 2 key2).2.2.testBit i =
      if bc2 ≤ i ∧ i < bc2 + 63 * ((key_rem a id - 63) / 63) then
        ((fun x => m (cell_kw a id + 1 + x)) (1 + (i - bc2) / 63)).testBit ((i - bc2) % 63)
      else key2.testBit i := by
    intro i
    rw [e3]
    have : cell_kw a id + 2 + (i - bc2) / 63 = cell_kw a id + 1 + (1 + (i - bc2) / 63) := by
      omega
    rw [this]
  have hk3 := key_full_loop (fun x => m (cell_kw a id + 1 + x)) (testBit_key_at_half a m id)
    hk2 h3 hbc hrem3 hraw hrl
  by_cases hz : key_rem a id % 63 = 0
  · rw [hsbz hz, if_neg (by simp)]
    exact key_full_done hk3 hz
  · obtain ⟨hsb2, hm2⟩ := hsbn hz
    have hne : ¬ (2:Nat) ^ (key_rem a id % 63) = 0 := by positivity
    rw [hsb2, hm2, if_pos hne, e1, e2]
    have e4 : a.key_len - (bc2 + 63 * ((key_rem a id - 63) / 63)) = key_rem a id % 63 := by
      omega
    have e5 : cell_kw a id + (2 + (key_rem a id - 63) / 63)
        = cell_kw a id + 1 + key_rem a id / 63 := by omega
    rw [e4, e5]
    have hXL : ∀ i, i < key_rem a id % 63 →
        (m (cell_kw a id + 1 + key_rem a id / 63) &&& field_mask (key_rem a id % 63 + 1) 0 &&&
          wnot (2 ^ (key_rem a id % 63))).testBit i
          = ((fun x => m (cell_kw a id + 1 + x)) (key_rem a id / 63)).testBit i := by
      intro i hi
      simp only [Nat.testBit_and, testBit_field_mask, testBit_wnot, Nat.testBit_two_pow,
        Nat.add_zero]
      have c1 : 0 ≤ i ∧ i < 0 + (key_rem a id % 63 + 1) := by omega
      have c2 : i < 64 := by omega
      have c3 : ¬ key_rem a id % 63 = i := by omega
      simp [c1, c2, c3]
      intro; omega
    exact key_full_last (fun x => m (cell_kw a id + 1 + x)) (testBit_key_at_half a m id)
      hk3 hXL (by omega) hrem3 hraw hrl

theorem get_key_at_id_eq {a : Ary} (hv : a.Valid) {id : Nat} (hid : id < a.size) {m : Mem}
    (hc : Coh a m id) (key : Nat) :
    get_key_at_id a m id key =
      if key_at a m id % 2 = 1 then
        (key_status.LBSET, key, (a.offsets.word_offset id).1, (a.offsets.word_offset id).2.1)
      else if key_at a m id = 0 then
        (key_status.EMPTY, key, (a.offsets.word_offset id).1, (a.offsets.word_offset id).2.1)
      else
        (key_status.FILLED,
          set_bits (set_bits key a.lsize a.raw_key_len
            ((key_at a m id / 2) >>> a.offsets.reprobe_len)) 0 a.lsize
            ((if (key_at a m id / 2) % 2 ^ a.offsets.reprobe_len > 1 then
                wsub id (a.reprobes ((key_at a m id / 2) % 2 ^ a.offsets.reprobe_len - 1))
              else id) &&& a.size_mask),
          (a.offsets.word_offset id).1, (a.offsets.word_offset id).2.1) := by
  have hs := hv.shape hid
  have hrm : a.offsets.reprobe_mask = 2 ^ a.offsets.reprobe_len - 1 := hv.2.2.2.1
  have hrl : a.offsets.reprobe_len ≤ 63 := hv.2.2.1
  have hls : a.lsize ≤ a.key_len := hv.2.1
  have hrk : a.offsets.reprobe_len ≤ a.klen := by unfold Ary.klen; omega
  have h63 : ¬ (2:Nat) ^ 63 = 0 := by decide
  have hlb := hs.lb
  have e1 : get_bits (m (cell_kw a id)) (cell_kb a id) 1 = key_at a m id % 2 :=
    (key_at_mod_two a m id).symm
  have hlt2 : key_at a m id % 2 < 2 := Nat.mod_lt _ (by decide)
  by_cases hodd : key_at a m id % 2 = 1
  · have : ¬ m ((a.offsets.word_offset id).1 + (a.offsets.word_offset id).2.1.key.woff) &&&
        field_mask 1 (cell_kb a id) = 0 := by
      have := e1; simp only [cell_kw] at this
      rw [and_field_mask_eq_zero, this, hodd]; decide
    unfold get_key_at_id
    simp only [hlb, ne_eq, this, not_false_eq_true, if_true, hodd]
  · have hlb0 : m ((a.offsets.word_offset id).1 + (a.offsets.word_offset id).2.1.key.woff) &&&
        field_mask 1 (cell_kb a id) = 0 := by
      have := e1; simp only [cell_kw] at this
      rw [and_field_mask_eq_zero, this]; omega
    rw [if_neg hodd]
    by_cases h0 : (a.offsets.word_offset id).2.1.key.sb_mask1 = 0
    · obtain ⟨hkb1, hm1, -, -⟩ := hs.one h0
      have e2 : (m (cell_kw a id) &&& field_mask (a.klen + 1) (cell_kb a id))
          >>> (cell_kb a id + 1) = key_at a m id / 2 := by
        rw [and_field_mask_shiftRight_add, Nat.shiftRight_eq_div_pow, pow_one, key_at_one hs h0]
      simp only [cell_kw] at e2
      unfold get_key_at_id
      simp only [h0, ne_eq, not_true_eq_false, if_false, hm1, hlb, hs.kb_add_one, hrm,
        and_two_pow_sub_one, hlb0, e2]
      by_cases hk : key_at a m id = 0
      · simp [hk]
      · have : ¬ key_at a m id / 2 = 0 := by omega
        simp only [this, if_false, hk, Ary.raw_key_len]
    · obtain ⟨hsb1, hkb, hn1k, hm1, hsh, hrem, hsum⟩ := hs.split h0
      have hw : wsize = 64 := rfl
      have ekw : (a.offsets.word_offset id).1 + (a.offsets.word_offset id).2.1.key.woff
          = cell_kw a id := rfl
      rw [ekw] at hlb0
      have hraw : a.raw_key_len + a.offsets.reprobe_len = key_n1 a id + key_rem a id := by
        rw [hsum]; unfold Ary.klen; omega
      have hrawk : a.key_len - a.lsize = a.raw_key_len := rfl
      have hA : ∀ j, (key_at a m id / 2).testBit j =
          if j < key_n1 a id then (m (cell_kw a id)).testBit (cell_kb a id + 1 + j)
          else (decide (j - key_n1 a id < key_rem a id) &&
            ((fun x => m (cell_kw a id + 1 + x)) ((j - key_n1 a id) / 63)).testBit
              ((j - key_n1 a id) % 63)) := by
        intro j
        rw [← Nat.testBit_succ, testBit_key_at]
        by_cases hj : j < key_n1 a id
        · rw [if_pos (by omega), if_pos hj]
          congr 1; omega
        · rw [if_neg (by omega), if_neg hj]
          have : j + 1 - (key_n1 a id + 1) = j - key_n1 a id := by omega
          rw [this]
      have hkr0 := testBit_kreprobe0 hkb (m (cell_kw a id))
      have hE : m (cell_kw a id) &&& 2 ^ 63 = 0 ↔ key_at a m id = 0 := by
        rw [and_two_pow_eq_zero]
        constructor
        · intro h
          by_contra hk
          have := (hc.2.1 hk (by omega) h0).1
          rw [h] at this
          exact Bool.noConfusion this
        · intro h
          have := hc.1 h _ (first_fld_mem h0)
          have h2 := testBit_get_bits (m (cell_kw a id)) (cell_kb a id) (64 - cell_kb a id)
            (63 - cell_kb a id)
          rw [this, Nat.zero_testBit] at h2
          have e : cell_kb a id + (63 - cell_kb a id) = 63 := by omega
          rw [e] at h2
          have : 63 - cell_kb a id < 64 - cell_kb a id := by omega
          simpa [this] using h2.symm
      by_cases hk : key_at a m id = 0
      · have hz := hE.2 hk
        unfold get_key_at_id
        simp only [h0, ne_eq, not_false_eq_true, if_true, hlb, hlb0, not_true_eq_false, if_false,
          hsb1, ekw, hz, hk, h63]
      have hz : ¬ m (cell_kw a id) &&& 2 ^ 63 = 0 := fun h => hk (hE.1 h)
      rw [if_neg hk]
      cases hf : (a.offsets.word_offset id).2.1.key.full_words with
      | false =>
        obtain ⟨hrem2, hsb2, hm2⟩ := hs.split2 h0 hf
        have hsb2n : ¬ (2:Nat) ^ key_rem a id = 0 := by positivity
        have hX : ∀ i, i < key_rem a id →
            (m (cell_kw a id + 1) &&& field_mask (key_rem a id + 1) 0 &&&
              wnot (2 ^ key_rem a id)).testBit i
              = ((fun x => m (cell_kw a id + 1 + x)) 0).testBit i := by
          intro i hi
          simp only [Nat.testBit_and, testBit_field_mask, testBit_wnot, Nat.testBit_two_pow,
            Nat.add_zero]
          have c1 : 0 ≤ i ∧ i < 0 + (key_rem a id + 1) := by omega
          have c2 : i < 64 := by omega
          have c3 : ¬ key_rem a id = i := by omega
          simp [c1, c2, c3]
          intro; omega
        by_cases hlt : a.offsets.reprobe_len < key_n1 a id
        · have e3 : a.key_len - (a.lsize + (key_n1 a id - a.offsets.reprobe_len))
              = key_rem a id := by
            have := hrawk; omega
          have e4 : a.raw_key_len = key_n1 a id - a.offsets.reprobe_len + key_rem a id := by
            omega
          unfold get_key_at_id
          simp only [h0, ne_eq, not_false_eq_true, if_true, hlb, hlb0, not_true_eq_false, if_false,
            hf, hsb1, hm1, hsh, hsb2, hm2, hlt, hs.kb_add_one, hrm, hsb2n, Bool.false_eq_true, h63,
            ekw, hz, and_two_pow_sub_one, e3]
          rw [kreprobe_low (fun x => m (cell_kw a id + 1 + x)) hA hkr0 hlt, key_two_low (fun x => m (cell_kw a id + 1 + x)) hA hkr0 hX hlt hrem2, ← e4]
        · have hge : key_n1 a id ≤ a.offsets.reprobe_len := by omega
          unfold get_key_at_id
          simp only [h0, ne_eq, not_false_eq_true, if_true, hlb, hlb0, not_true_eq_false, if_false,
            hf, hsb1, hm1, hsh, hsb2, hm2, hlt, hs.kb_add_one, hrm, hsb2n, Bool.false_eq_true, h63,
            ekw, hz, hrawk]
          rw [kreprobe_high (fun x => m (cell_kw a id + 1 + x)) hA hkr0 (fun i hi => hX i (by omega)) hge hrl (by omega),
            key_two_high (fun x => m (cell_kw a id + 1 + x)) hA hX hge hrem2 hraw]
      | true =>
        obtain ⟨hn11, hrem3, hsbz, hsbn⟩ := hs.split3 h0 hf
        have h641 : (64:Nat) - 1 = 63 := rfl
        have hX2 : ∀ i, i < 63 → (m (cell_kw a id + 1) &&& wnot (2 ^ 63)).testBit i
            = ((fun x => m (cell_kw a id + 1 + x)) 0).testBit i := by
          intro i hi
          simp only [Nat.testBit_and, testBit_wnot, Nat.testBit_two_pow, Nat.add_zero]
          have c2 : i < 64 := by omega
          have c3 : ¬ 63 = i := by omega
          simp [c2, c3]
        by_cases hlt : a.offsets.reprobe_len < key_n1 a id
        · have hbc : a.lsize + (key_n1 a id - a.offsets.reprobe_len) + 63 + a.offsets.reprobe_len
              = a.lsize + key_n1 a id + 63 := by omega
          have hk2 := key_full_low (fun x => m (cell_kw a id + 1 + x)) key a.lsize hA hkr0 hX2
            hlt hrem3
          unfold get_key_at_id
          simp only [h0, ne_eq, not_false_eq_true, if_true, hlb, hlb0, not_true_eq_false, if_false,
            hf, hsb1, hm1, hsh, hlt, hs.kb_add_one, hrm, h63,
            ekw, hz, and_two_pow_sub_one, hw, h641]
          rw [get_key_full_tail hv hid m h0 hf hbc hk2, kreprobe_low (fun x => m (cell_kw a id + 1 + x)) hA hkr0 hlt]
        · have hge : key_n1 a id ≤ a.offsets.reprobe_len := by omega
          have hbc : a.lsize + (63 - (a.offsets.reprobe_len - key_n1 a id)) + a.offsets.reprobe_len
              = a.lsize + key_n1 a id + 63 := by omega
          have hk2 := key_full_high (fun x => m (cell_kw a id + 1 + x)) key a.lsize hA hX2 hge
            hrem3
          unfold get_key_at_id
          simp only [h0, ne_eq, not_false_eq_true, if_true, hlb, hlb0, not_true_eq_false, if_false,
            hf, hsb1, hm1, hsh, hlt, hs.kb_add_one, hrm, h63,
            ekw, hz, hw, h641]
          rw [get_key_full_tail hv hid m h0 hf hbc hk2,
            kreprobe_high (fun x => m (cell_kw a id + 1 + x)) hA hkr0
              (fun i _ => rfl) hge hrl (by omega)]

/-- The content of the key field depends on its bit fields only. -/
theorem key_at_congr {a : Ary} {c : Nat} (hs : SlotShape a c) {m m2 : Mem}
    (h : ∀ f ∈ key_flds a c, get_bits (m2 f.1) f.2.1 f.2.2 = get_bits (m f.1) f.2.1 f.2.2) :
    key_at a m2 c = key_at a m c := by
  by_cases h0 : (a.offsets.word_offset c).2.1.key.sb_mask1 = 0
  · rw [key_at_one hs h0, key_at_one hs h0]
    have : (cell_kw a c, cell_kb a c, a.klen + 1) ∈ key_flds a c := by
      unfold key_flds; rw [if_pos h0]; exact List.mem_singleton.2 rfl
    exact h _ this
  · obtain ⟨-, hkb, -, -, -, hrem, hsum⟩ := hs.split h0
    apply Nat.eq_of_testBit_eq
    intro j
    rw [testBit_key_at, testBit_key_at]
    by_cases hj : j ≤ key_n1 a c
    · rw [if_pos hj, if_pos hj]
      have e := h _ (first_fld_mem h0)
      exact (testBit_of_get_bits_eq e (by omega : j < 64 - cell_kb a c)).trans
        (testBit_of_get_bits_eq rfl (by omega : j < 64 - cell_kb a c)).symm
    · rw [if_neg hj, if_neg hj]
      by_cases hj2 : j - (key_n1 a c + 1) < key_rem a c
      · have hw : (j - (key_n1 a c + 1)) / 63 < tail_words (key_rem a c) := by
          unfold tail_words; omega
        have e := h _ (tail_fld_mem h0 hw)
        have hl : (j - (key_n1 a c + 1)) % 63
            < tail_len (key_rem a c) ((j - (key_n1 a c + 1)) / 63) + 1 := by
          unfold tail_len; omega
        have t1 := testBit_of_get_bits_eq e hl
        have t2 := testBit_of_get_bits_eq
          (rfl : get_bits (m (cell_kw a c + 1 + (j - (key_n1 a c + 1)) / 63)) 0
            (tail_len (key_rem a c) ((j - (key_n1 a c + 1)) / 63) + 1) = _) hl
        simp only [Nat.zero_add] at t1 t2
        rw [t1, ← t2]
      · simp [hj2]

/-- The bit fields of the large layout lie inside those of the normal one. -/
theorem lkey_flds_sub {a : Ary} {c : Nat} (hs : SlotShape a c)
    (hrl : a.offsets.reprobe_len ≤ 63) {g : Field} (hg : g ∈ lkey_flds a c) :
    ∃ f ∈ key_flds a c, f.1 = g.1 ∧ f.2.1 = g.2.1 ∧ g.2.2 ≤ f.2.2 := by
  have hrk : a.offsets.reprobe_len ≤ a.klen := by unfold Ary.klen; omega
  by_cases hl0 : (a.offsets.word_offset c).2.2.key.sb_mask1 = 0
  · obtain ⟨hkb, -, hln1, hlrem⟩ := hs.lone hl0
    unfold lkey_flds at hg
    rw [if_pos hl0, List.mem_singleton] at hg
    subst hg
    by_cases h0 : (a.offsets.word_offset c).2.1.key.sb_mask1 = 0
    · refine ⟨(cell_kw a c, cell_kb a c, a.klen + 1), ?_, rfl, rfl, by dsimp only; omega⟩
      unfold key_flds; rw [if_pos h0]; exact List.mem_singleton.2 rfl
    · have := (hs.split h0).2.1
      exact ⟨_, first_fld_mem h0, rfl, rfl, by dsimp only; omega⟩
  · obtain ⟨h0, -, hn1, -, hlrem, hlsum, -, -, -⟩ := hs.lsplit hl0
    obtain ⟨-, hkb, -, -, -, hrem, hsum⟩ := hs.split h0
    unfold lkey_flds at hg
    rw [if_neg hl0] at hg
    simp only [List.mem_cons, List.mem_singleton, List.not_mem_nil, or_false] at hg
    rcases hg with hg | hg
    · subst hg
      exact ⟨_, first_fld_mem h0, rfl, rfl, le_refl _⟩
    · subst hg
      refine ⟨_, tail_fld_mem h0 (j := 0) (by unfold tail_words; omega), rfl, rfl, ?_⟩
      dsimp only
      unfold tail_len
      omega

theorem get_bits_sub {w w2 s L L2 : Nat} (h : get_bits w2 s L = get_bits w s L) (hL : L2 ≤ L) :
    get_bits w2 s L2 = get_bits w s L2 := by
  rw [← get_bits_mod w2 s L L2 hL, ← get_bits_mod w s L L2 hL, h]

/-- The content of the large key field depends on the bit fields of the large
layout only. -/
theorem lkey_at_congr {a : Ary} {c : Nat} (hs : SlotShape a c) {m m2 : Mem}
    (h : ∀ f ∈ lkey_flds a c, get_bits (m2 f.1) f.2.1 f.2.2 = get_bits (m f.1) f.2.1 f.2.2) :
    lkey_at a m2 c = lkey_at a m c := by
  by_cases hl0 : (a.offsets.word_offset c).2.2.key.sb_mask1 = 0
  · rw [lkey_at_one hs hl0, lkey_at_one hs hl0]
    have : (cell_kw a c, cell_kb a c, a.offsets.reprobe_len + 1) ∈ lkey_flds a c := by
      unfold lkey_flds; rw [if_pos hl0]; exact List.mem_singleton.2 rfl
    exact h _ this
  · obtain ⟨h0, -, hn1, -, hlrem, hlsum, -, -, -⟩ := hs.lsplit hl0
    obtain ⟨-, hkb, -, -, -, hrem, hsum⟩ := hs.split h0
    have m1 : (cell_kw a c, cell_kb a c, 64 - cell_kb a c) ∈ lkey_flds a c := by
      unfold lkey_flds; rw [if_neg hl0]; simp
    have m2' : (cell_kw a c + 1, 0, lkey_rem a c + 1) ∈ lkey_flds a c := by
      unfold lkey_flds; rw [if_neg hl0]; simp
    unfold lkey_at
    have e1 := get_bits_sub (h _ m1) (by omega : lkey_n1 a c + 1 ≤ 64 - cell_kb a c)
    have e2 := get_bits_sub (h _ m2') (by omega : lkey_rem a c ≤ lkey_rem a c + 1)
    dsimp only at e1 e2
    rw [e1, e2]

/-- The words of the memory after a store into a split key field. -/
theorem key_store_split {a : Ary} {c : Nat}
    (h0 : (a.offsets.word_offset c).2.1.key.sb_mask1 ≠ 0) (m : Mem) (v x : Nat) :
    key_store a m c v x =
      if x = cell_kw a c then
        set_bits (m x) (cell_kb a c) (64 - cell_kb a c)
          (v % 2 ^ (key_n1 a c + 1) ||| 2 ^ (key_n1 a c + 1))
      else if cell_kw a c < x ∧ x ≤ cell_kw a c + tail_words (key_rem a c) then
        set_bits (m x) 0 (tail_len (key_rem a c) (x - cell_kw a c - 1) + 1)
          (enc_tail v (key_n1 a c) (key_rem a c) (x - cell_kw a c - 1))
      else m x := by
  unfold key_store
  rw [if_neg h0]

theorem key_store_first {a : Ary} {c : Nat}
    (h0 : (a.offsets.word_offset c).2.1.key.sb_mask1 ≠ 0) (m : Mem) (v : Nat) :
    key_store a m c v (cell_kw a c) =
      set_bits (m (cell_kw a c)) (cell_kb a c) (64 - cell_kb a c)
        (v % 2 ^ (key_n1 a c + 1) ||| 2 ^ (key_n1 a c + 1)) := by
  rw [key_store_split h0, if_pos rfl]

theorem key_store_tail {a : Ary} {c : Nat}
    (h0 : (a.offsets.word_offset c).2.1.key.sb_mask1 ≠ 0) (m : Mem) (v : Nat) {j : Nat}
    (hj : j < tail_words (key_rem a c)) :
    key_store a m c v (cell_kw a c + 1 + j) =
      set_bits (m (cell_kw a c + 1 + j)) 0 (tail_len (key_rem a c) j + 1)
        (enc_tail v (key_n1 a c) (key_rem a c) j) := by
  rw [key_store_split h0, if_neg (by omega), if_pos (by omega)]
  have : cell_kw a c + 1 + j - cell_kw a c - 1 = j := by omega
  rw [this]

/-- A store into the key field of slot `c` leaves the bit fields apart from it
as they are. -/
theorem key_store_apart (a : Ary) (m : Mem) (c v : Nat) {g : Field}
    (h : ∀ f ∈ key_flds a c, Apart f g) :
    get_bits (key_store a m c v g.1) g.2.1 g.2.2 = get_bits (m g.1) g.2.1 g.2.2 := by
  by_cases h0 : (a.offsets.word_offset c).2.1.key.sb_mask1 = 0
  · have hf : (cell_kw a c, cell_kb a c, a.klen + 1) ∈ key_flds a c := by
      unfold key_flds; rw [if_pos h0]; exact List.mem_singleton.2 rfl
    unfold key_store
    rw [if_pos h0]
    exact get_bits_write_apart m (h _ hf) v
  · rw [key_store_split h0]
    by_cases hx : g.1 = cell_kw a c
    · rw [if_pos hx]
      rcases h _ (first_fld_mem h0) with h1 | h1
      · exact absurd hx.symm h1
      · exact get_bits_set_bits_apart _ _ _ _ _ _ h1
    · rw [if_neg hx]
      by_cases hx2 : cell_kw a c < g.1 ∧ g.1 ≤ cell_kw a c + tail_words (key_rem a c)
      · rw [if_pos hx2]
        rcases h _ (tail_fld_mem h0 (by omega : g.1 - cell_kw a c - 1 < tail_words (key_rem a c)))
          with h1 | h1
        · exact absurd (by dsimp only; omega) h1
        · exact get_bits_set_bits_apart _ _ _ _ _ _ h1
      · rw [if_neg hx2]

/-- The key field of slot `c` after a store of `v` into it. -/
theorem key_at_key_store {a : Ary} {c : Nat} (hs : SlotShape a c) (m : Mem) (v : Nat) :
    key_at a (key_store a m c v) c = v % 2 ^ (a.klen + 1) := by
  by_cases h0 : (a.offsets.word_offset c).2.1.key.sb_mask1 = 0
  · rw [key_at_one hs h0]
    unfold key_store
    rw [if_pos h0, Mem.write_same, get_bits_set_bits_same]
  · obtain ⟨-, hkb, -, -, -, hrem, hsum⟩ := hs.split h0
    apply Nat.eq_of_testBit_eq
    intro j
    rw [testBit_key_at, Nat.testBit_mod_two_pow]
    by_cases hj : j ≤ key_n1 a c
    · rw [if_pos hj, key_store_first h0, testBit_set_bits, if_neg (by omega), if_pos (by omega),
        Nat.testBit_or, Nat.testBit_mod_two_pow, Nat.testBit_two_pow]
      have c1 : cell_kb a c + j - cell_kb a c = j := by omega
      have c2 : j < key_n1 a c + 1 := by omega
      have c3 : ¬ key_n1 a c + 1 = j := by omega
      have c4 : j < a.klen + 1 := by omega
      simp [c1, c2, c3, c4]
    · rw [if_neg hj]
      by_cases hj2 : j - (key_n1 a c + 1) < key_rem a c
      · have hw : (j - (key_n1 a c + 1)) / 63 < tail_words (key_rem a c) := by
          unfold tail_words; omega
        have hl : (j - (key_n1 a c + 1)) % 63
            < tail_len (key_rem a c) ((j - (key_n1 a c + 1)) / 63) := by
          unfold tail_len; omega
        rw [key_store_tail h0 m v hw, testBit_set_bits, if_neg (by omega), if_pos (by omega),
          testBit_enc_tail, Nat.sub_zero, if_pos hl]
        have c1 : key_n1 a c + 1 + 63 * ((j - (key_n1 a c + 1)) / 63)
            + (j - (key_n1 a c + 1)) % 63 = j := by omega
        have c4 : j < a.klen + 1 := by omega
        simp [hj2, c1, c4]
      · have c4 : ¬ j < a.klen + 1 := by omega
        simp [hj2, c4]

/-- A store into a key field leaves 64-bit words. -/
theorem memOK_key_store {a : Ary} {c : Nat} (hs : SlotShape a c) {m : Mem} (hm : MemOK m)
    (v : Nat) : MemOK (key_store a m c v) := by
  intro x
  by_cases h0 : (a.offsets.word_offset c).2.1.key.sb_mask1 = 0
  · obtain ⟨hkb, -, -, -⟩ := hs.one h0
    unfold LargeHash.key_store
    rw [if_pos h0]
    exact MemOK.write_field hm _ (by omega) v x
  · obtain ⟨-, hkb, -, -, -, hrem, hsum⟩ := hs.split h0
    rw [key_store_split h0]
    split_ifs
    · exact set_bits_lt_word (hm x) (by omega) _
    · exact set_bits_lt_word (hm x) (by have := tail_len_le (key_rem a c) (x - cell_kw a c - 1); omega) _
    · exact hm x

/-- A store into a key field sets its set bits. -/
theorem sbits_key_store {a : Ary} {c : Nat} (hs : SlotShape a c) (m : Mem) (v : Nat) :
    sbits a (key_store a m c v) c := by
  intro h0
  obtain ⟨-, hkb, -, -, -, hrem, hsum⟩ := hs.split h0
  constructor
  · rw [key_store_first h0, testBit_set_bits, if_neg (by omega), if_pos (by omega),
      Nat.testBit_or, Nat.testBit_two_pow]
    have : key_n1 a c + 1 = 63 - cell_kb a c := by omega
    simp [this]
  · intro j hj
    rw [key_store_tail h0 m v hj, testBit_set_bits, if_neg (by omega), if_pos (by omega),
      testBit_enc_tail, Nat.sub_zero, if_neg (by omega)]
    simp

/-- A cell is whole after the store of a primary key field. -/
theorem coh_key_store {a : Ary} {c : Nat} (hs : SlotShape a c) (m : Mem) {v : Nat}
    (hv : v < 2 ^ (a.klen + 1)) (hv0 : v ≠ 0) (hev : v % 2 = 0) : Coh a (key_store a m c v) c := by
  have e : key_at a (LargeHash.key_store a m c v) c = v := by
    rw [key_at_key_store hs, Nat.mod_eq_of_lt hv]
  refine ⟨fun h => absurd (e ▸ h) hv0, fun _ _ => sbits_key_store hs m v, fun h => ?_⟩
  rw [e] at h; omega

/-- The words of the memory after a store into a split large key field. -/
theorem lkey_store_split {a : Ary} {c : Nat}
    (h0 : (a.offsets.word_offset c).2.2.key.sb_mask1 ≠ 0) (m : Mem) (v x : Nat) :
    lkey_store a m c v x =
      if x = cell_kw a c then
        set_bits (m x) (cell_kb a c) (64 - cell_kb a c)
          (v % 2 ^ (lkey_n1 a c + 1) ||| 2 ^ (lkey_n1 a c + 1))
      else if x = cell_kw a c + 1 then
        set_bits (m x) 0 (lkey_rem a c + 1)
          ((v >>> (lkey_n1 a c + 1)) % 2 ^ lkey_rem a c ||| 2 ^ lkey_rem a c)
      else m x := by
  unfold lkey_store
  rw [if_neg h0]

/-- A store into the large key field of slot `c` leaves the bit fields apart
from it as they are. -/
theorem lkey_store_apart (a : Ary) (m : Mem) (c v : Nat) {g : Field}
    (h : ∀ f ∈ lkey_flds a c, Apart f g) :
    get_bits (lkey_store a m c v g.1) g.2.1 g.2.2 = get_bits (m g.1) g.2.1 g.2.2 := by
  by_cases h0 : (a.offsets.word_offset c).2.2.key.sb_mask1 = 0
  · have hf : (cell_kw a c, cell_kb a c, a.offsets.reprobe_len + 1) ∈ lkey_flds a c := by
      unfold lkey_flds; rw [if_pos h0]; exact List.mem_singleton.2 rfl
    unfold lkey_store
    rw [if_pos h0]
    exact get_bits_write_apart m (h _ hf) v
  · have m1 : (cell_kw a c, cell_kb a c, 64 - cell_kb a c) ∈ lkey_flds a c := by
      unfold lkey_flds; rw [if_neg h0]; simp
    have m2 : (cell_kw a c + 1, 0, lkey_rem a c + 1) ∈ lkey_flds a c := by
      unfold lkey_flds; rw [if_neg h0]; simp
    rw [lkey_store_split h0]
    by_cases hx : g.1 = cell_kw a c
    · rw [if_pos hx]
      rcases h _ m1 with h1 | h1
      · exact absurd hx.symm h1
      · exact get_bits_set_bits_apart _ _ _ _ _ _ h1
    · rw [if_neg hx]
      by_cases hx2 : g.1 = cell_kw a c + 1
      · rw [if_pos hx2]
        rcases h _ m2 with h1 | h1
        · exact absurd hx2.symm h1
        · exact get_bits_set_bits_apart _ _ _ _ _ _ h1
      · rw [if_neg hx2]

/-- The large key field of slot `c` after a store of `v` into it. -/
theorem lkey_at_lkey_store {a : Ary} {c : Nat} (hs : SlotShape a c) (m : Mem) (v : Nat) :
    lkey_at a (lkey_store a m c v) c = v % 2 ^ (a.offsets.reprobe_len + 1) := by
  by_cases h0 : (a.offsets.word_offset c).2.2.key.sb_mask1 = 0
  · rw [lkey_at_one hs h0]
    unfold lkey_store
    rw [if_pos h0, Mem.write_same, get_bits_set_bits_same]
  · obtain ⟨hn0, -, hn1, -, hlrem, hlsum, -, -, -⟩ := hs.lsplit h0
    obtain ⟨-, hkb, -, -, -, hrem, hsum⟩ := hs.split hn0
    apply Nat.eq_of_testBit_eq
    intro j
    rw [testBit_lkey_at, Nat.testBit_mod_two_pow]
    by_cases hj : j ≤ lkey_n1 a c
    · rw [if_pos hj, lkey_store_split h0, if_pos rfl, testBit_set_bits, if_neg (by omega),
        if_pos (by omega), Nat.testBit_or, Nat.testBit_mod_two_pow, Nat.testBit_two_pow]
      have c1 : cell_kb a c + j - cell_kb a c = j := by omega
      have c2 : j < lkey_n1 a c + 1 := by omega
      have c3 : ¬ lkey_n1 a c + 1 = j := by omega
      have c4 : j < a.offsets.reprobe_len + 1 := by omega
      simp [c1, c2, c3, c4]
    · rw [if_neg hj]
      by_cases hj2 : j - (lkey_n1 a c + 1) < lkey_rem a c
      · rw [lkey_store_split h0, if_neg (by omega), if_pos rfl, testBit_set_bits,
          if_neg (by omega), if_pos (by omega), Nat.testBit_or, Nat.testBit_mod_two_pow,
          Nat.testBit_two_pow, Nat.testBit_shiftRight, Nat.sub_zero]
        have c1 : lkey_n1 a c + 1 + (j - (lkey_n1 a c + 1)) = j := by omega
        have c3 : ¬ lkey_rem a c = j - (lkey_n1 a c + 1) := by omega
        have c4 : j < a.offsets.reprobe_len + 1 := by omega
        simp [hj2, c1, c3, c4]
      · have c4 : ¬ j < a.offsets.reprobe_len + 1 := by omega
        simp [hj2, c4]

/-- A store into a large key field leaves 64-bit words. -/
theorem memOK_lkey_store {a : Ary} {c : Nat} (hs : SlotShape a c)
    (hrl : a.offsets.reprobe_len ≤ 63) {m : Mem} (hm : MemOK m) (v : Nat) :
    MemOK (lkey_store a m c v) := by
  intro x
  by_cases h0 : (a.offsets.word_offset c).2.2.key.sb_mask1 = 0
  · obtain ⟨hkb, -, -, -⟩ := hs.lone h0
    unfold LargeHash.lkey_store
    rw [if_pos h0]
    exact MemOK.write_field hm _ (by omega) v x
  · obtain ⟨hn0, -, hn1, -, hlrem, hlsum, -, -, -⟩ := hs.lsplit h0
    obtain ⟨-, hkb, -, -, -, hrem, hsum⟩ := hs.split hn0
    rw [lkey_store_split h0]
    split_ifs
    · exact set_bits_lt_word (hm x) (by omega) _
    · exact set_bits_lt_word (hm x) (by omega) _
    · exact hm x

/-- A store into a large key field sets its set bits. -/
theorem lsbits_lkey_store {a : Ary} {c : Nat} (hs : SlotShape a c) (m : Mem) (v : Nat) :
    lsbits a (lkey_store a m c v) c := by
  intro h0
  obtain ⟨hn0, -, hn1, -, hlrem, hlsum, -, -, -⟩ := hs.lsplit h0
  obtain ⟨-, hkb, -, -, -, hrem, hsum⟩ := hs.split hn0
  constructor
  · rw [lkey_store_split h0, if_pos rfl, testBit_set_bits, if_neg (by omega), if_pos (by omega),
      Nat.testBit_or, Nat.testBit_two_pow]
    have : lkey_n1 a c + 1 = 63 - cell_kb a c := by omega
    simp [this]
  · rw [lkey_store_split h0, if_neg (by omega), if_pos rfl, testBit_set_bits, if_neg (by omega),
      if_pos (by omega), Nat.testBit_or, Nat.testBit_two_pow]
    simp

/-- A cell is whole after the store of a continuation key field. -/
theorem coh_lkey_store {a : Ary} {c : Nat} (hs : SlotShape a c) (m : Mem) {v : Nat}
    (hodd : v % 2 = 1) : Coh a (lkey_store a m c v) c := by
  have e : key_at a (LargeHash.lkey_store a m c v) c % 2 = 1 := by
    rw [← lkey_at_mod_two, lkey_at_lkey_store hs, pow_succ, Nat.mod_mul_left_mod]
    exact hodd
  refine ⟨fun h => ?_, fun _ h => ?_, fun _ => lsbits_lkey_store hs m v⟩
  · rw [h] at e; omega
  · omega

theorem Ary.Valid.rlen_pos {a : Ary} (h : a.Valid) : 0 < a.offsets.reprobe_len := by
  have h1 := h.2.2.2.2.1
  rcases Nat.eq_zero_or_pos a.offsets.reprobe_len with h0 | h0
  · rw [h0] at h1; simp at h1
  · exact h0

theorem Ary.Valid.reprobe_fits {a : Ary} (h : a.Valid) {r : Nat} (hr : r ≤ a.reprobe_limit) :
    r + 1 < 2 ^ a.offsets.reprobe_len := by
  have := h.2.2.2.2.1
  omega

theorem Ary.Valid.val_shape {a : Ary} (h : a.Valid) {c : Nat} (hc : c < a.size) :
    ValShape (a.offsets.word_offset c).2.1.val a.offsets.val_len :=
  (h.shape hc).2.2.2.2.2.2.2.1

theorem Ary.Valid.lval_shape {a : Ary} (h : a.Valid) {c : Nat} (hc : c < a.size) :
    ValShape (a.offsets.word_offset c).2.2.val a.offsets.lval_len :=
  (h.shape hc).2.2.2.2.2.2.2.2.1

/-- The initial `akey` of `claim_key`: the low word of the key field content. -/
theorem akey_init {a : Ary} (h : a.Valid) (key : Nat) :
    1 ||| wshl (get_bits key a.lsize
      (min (wsize - a.offsets.reprobe_len) (a.key_len - a.lsize))) a.offsets.reprobe_len
      = akey_of a key 0 % 2 ^ 64 := by
  have hpos := h.rlen_pos
  have hr : 0 + 1 < 2 ^ a.offsets.reprobe_len := h.reprobe_fits (Nat.zero_le _)
  have hw : wsize = 64 := rfl
  apply Nat.eq_of_testBit_eq
  intro i
  rw [Nat.testBit_or, testBit_wshl, testBit_get_bits, Nat.testBit_mod_two_pow,
    testBit_akey_of a key 0 i hr, hw]
  by_cases h1 : i < a.offsets.reprobe_len
  · have h2 : ¬ a.offsets.reprobe_len ≤ i := by omega
    have h3 : i < 64 := by have := h.2.2.1; omega
    simp [h1, h2, h3]
  · have h2 : a.offsets.reprobe_len ≤ i := by omega
    have h4 : Nat.testBit 1 i = false :=
      testBit_small (by decide : 1 < 2 ^ 1) (by omega)
    rw [h4, if_neg h1]
    by_cases h3 : i < 64
    · have h5 : (i - a.offsets.reprobe_len
          < min (64 - a.offsets.reprobe_len) (a.key_len - a.lsize))
          ↔ i - a.offsets.reprobe_len < a.raw_key_len := by
        unfold Ary.raw_key_len; omega
      simp [h2, h3, h5]
    · simp [h3]

/-- The update of `akey` in `claim_key` after a failed round. -/
theorem akey_step {a : Ary} (h : a.Valid) (key : Nat) {r : Nat}
    (hr : r + 1 + 1 < 2 ^ a.offsets.reprobe_len) :
    ((akey_of a key r % 2 ^ 64) &&& wnot a.offsets.reprobe_mask) ||| (r + 1 + 1)
      = akey_of a key (r + 1) % 2 ^ 64 := by
  have hr0 : r + 1 < 2 ^ a.offsets.reprobe_len := by omega
  have hrl := h.2.2.1
  rw [h.2.2.2.1]
  apply Nat.eq_of_testBit_eq
  intro i
  simp only [Nat.testBit_or, Nat.testBit_and, testBit_wnot, Nat.testBit_two_pow_sub_one,
    Nat.testBit_mod_two_pow, testBit_akey_of a key _ i hr, testBit_akey_of a key _ i hr0]
  by_cases h1 : i < a.offsets.reprobe_len
  · have : i < 64 := by omega
    simp [h1, this]
  · have h2 := testBit_small hr (Nat.le_of_not_lt h1)
    by_cases h3 : i < 64
    · simp [h1, h2, h3]
    · simp [h1, h2, h3]

theorem fits_at_of_free {a : Ary} {m : Mem} {key id0 r : Nat}
    (h : key_at a m (cand a id0 r) = 0) : fits_at a m key id0 r = true := by
  simp [fits_at, h]

theorem fits_at_of_holds {a : Ary} {m : Mem} {key id0 r : Nat}
    (h : key_at a m (cand a id0 r) = 2 * akey_of a key r) : fits_at a m key id0 r = true := by
  simp [fits_at, holds, h]

theorem fits_at_false {a : Ary} {m : Mem} {key id0 r : Nat}
    (h0 : key_at a m (cand a id0 r) ≠ 0)
    (h1 : key_at a m (cand a id0 r) ≠ 2 * akey_of a key r) :
    fits_at a m key id0 r = false := by
  simp [fits_at, holds, h0, h1]

theorem claim_key_loop_eq {a : Ary} (hwf : a.Valid) {m : Mem} (hm : TableOK a m) (key : Nat)
    {id0 : Nat} (hid : id0 < a.size) : ∀ left reprobe, reprobe + left = a.reprobe_limit →
    claim_key_loop a key id0 left reprobe (cand a id0 reprobe)
        (akey_of a key reprobe % 2 ^ 64) m =
      claim_key_result a m key id0 (first_fit (fits_at a m key id0) left reprobe) := by
  intro left
  induction left with
  | zero =>
    intro reprobe hrl
    have hr : reprobe + 1 < 2 ^ a.offsets.reprobe_len := by have := hwf.2.2.2.2.1; omega
    have hat := claim_key_attempt_eq hwf (cand_lt a hid reprobe)
      (hm.2 _ (cand_lt a hid reprobe)) key hr
    unfold claim_key_loop first_fit
    by_cases h0 : key_at a m (cand a id0 reprobe) = 0
    · rw [if_pos h0] at hat
      rw [hat, fits_at_of_free h0]
      simp only [if_true, claim_key_result, h0, decide_True]
    · rw [if_neg h0] at hat
      by_cases h1 : key_at a m (cand a id0 reprobe) = 2 * akey_of a key reprobe
      · rw [decide_eq_true h1] at hat
        rw [hat, fits_at_of_holds h1]
        simp only [if_true, claim_key_result, h0, decide_False, if_false]
      · rw [decide_eq_false h1] at hat
        rw [hat, fits_at_false h0 h1]
        simp only [Bool.false_eq_true, if_false, claim_key_result]
  | succ n ih =>
    intro reprobe hrl
    have hr : reprobe + 1 < 2 ^ a.offsets.reprobe_len := by have := hwf.2.2.2.2.1; omega
    have hr1 : reprobe + 1 + 1 < 2 ^ a.offsets.reprobe_len := by
      have := hwf.2.2.2.2.1; omega
    have hat := claim_key_attempt_eq hwf (cand_lt a hid reprobe)
      (hm.2 _ (cand_lt a hid reprobe)) key hr
    unfold claim_key_loop first_fit
    by_cases h0 : key_at a m (cand a id0 reprobe) = 0
    · rw [if_pos h0] at hat
      rw [hat, fits_at_of_free h0]
      simp only [if_true, claim_key_result, h0, decide_True]
    · rw [if_neg h0] at hat
      by_cases h1 : key_at a m (cand a id0 reprobe) = 2 * akey_of a key reprobe
      · rw [decide_eq_true h1] at hat
        rw [hat, fits_at_of_holds h1]
        simp only [if_true, claim_key_result, h0, decide_False, if_false]
      · rw [decide_eq_false h1] at hat
        have hih := ih (reprobe + 1) (by omega)
        rw [cand_succ, ← akey_step hwf key hr1] at hih
        rw [hat, fits_at_false h0 h1]
        simp only [Bool.false_eq_true, if_false]
        exact hih

/-- Method `claim_key` on a sound table: the first round that finds its
candidate free or holding this key at this reprobe index decides. -/
theorem claim_key_eq {a : Ary} (hwf : a.Valid) {m : Mem} (hm : TableOK a m) (key : Nat)
    {id0 : Nat} (hid : id0 < a.size) :
    claim_key a m key id0 =
      claim_key_result a m key id0 (first_fit (fits_at a m key id0) a.reprobe_limit 0) := by
  have := claim_key_loop_eq hwf hm key hid a.reprobe_limit 0 (by omega)
  rw [cand_zero] at this
  unfold claim_key
  simp only []
  rw [akey_init hwf key]
  exact this

theorem status_eq {a : Ary} (hwf : a.Valid) {m : Mem} (hm : TableOK a m) {c : Nat}
    (hc : c < a.size) (key : Nat) :
    (get_key_at_id a m c key).1 =
      if key_at a m c % 2 = 1 then key_status.LBSET
      else if key_at a m c = 0 then key_status.EMPTY else key_status.FILLED := by
  rw [get_key_at_id_eq hwf hc (hm.2 c hc)]
  by_cases h1 : key_at a m c % 2 = 1
  · simp only [if_pos h1]
  · by_cases h2 : key_at a m c = 0
    · simp only [if_neg h1, if_pos h2]
    · simp only [if_neg h1, if_neg h2]

theorem status_lbset_iff {a : Ary} (hwf : a.Valid) {m : Mem} (hm : TableOK a m) {c : Nat}
    (hc : c < a.size) (key : Nat) :
    (get_key_at_id a m c key).1 = key_status.LBSET ↔ key_at a m c % 2 = 1 := by
  rw [status_eq hwf hm hc]
  by_cases h1 : key_at a m c % 2 = 1
  · simp [h1]
  · by_cases h2 : key_at a m c = 0 <;> simp [h1, h2]

theorem status_empty_iff {a : Ary} (hwf : a.Valid) {m : Mem} (hm : TableOK a m) {c : Nat}
    (hc : c < a.size) (key : Nat) :
    (get_key_at_id a m c key).1 = key_status.EMPTY ↔ key_at a m c = 0 := by
  rw [status_eq hwf hm hc]
  by_cases h1 : key_at a m c % 2 = 1
  · have : key_at a m c ≠ 0 := by omega
    simp [h1, this]
  · by_cases h2 : key_at a m c = 0 <;> simp [h1, h2]

theorem status_filled_iff {a : Ary} (hwf : a.Valid) {m : Mem} (hm : TableOK a m) {c : Nat}
    (hc : c < a.size) (key : Nat) :
    (get_key_at_id a m c key).1 = key_status.FILLED ↔
      key_at a m c % 2 = 0 ∧ key_at a m c ≠ 0 := by
  rw [status_eq hwf hm hc]
  by_cases h1 : key_at a m c % 2 = 1
  · simp [h1]
  · by_cases h2 : key_at a m c = 0
    · simp [h1, h2]
    · have : key_at a m c % 2 = 0 := by omega
      simp [h1, h2, this]

/-- A round of `claim_key` fails exactly on a continuation cell or on a primary
cell with another key field. -/
theorem fits_at_false_iff {a : Ary} (hwf : a.Valid) {m : Mem} (hm : TableOK a m) (key : Nat)
    {id0 : Nat} (hid : id0 < a.size) {r : Nat} (hr : r ≤ a.reprobe_limit) :
    fits_at a m key id0 r = false ↔
      ((get_key_at_id a m (cand a id0 r) 0).1 = key_status.LBSET ∨
        ((get_key_at_id a m (cand a id0 r) 0).1 = key_status.FILLED ∧
          ¬ holds a m (cand a id0 r) key r)) := by
  have hc := cand_lt a hid r
  rw [status_lbset_iff hwf hm hc, status_filled_iff hwf hm hc]
  have hpos := akey_of_pos (a := a) key (hwf.reprobe_fits hr)
  unfold fits_at holds
  rw [decide_eq_false_iff_not]
  constructor
  · intro h
    have h0 : key_at a m (cand a id0 r) ≠ 0 := fun e => h (Or.inl e)
    have h1 : key_at a m (cand a id0 r) ≠ 2 * akey_of a key r := fun e => h (Or.inr e)
    rcases Nat.mod_two_eq_zero_or_one (key_at a m (cand a id0 r)) with he | ho
    · exact Or.inr ⟨⟨he, h0⟩, h1⟩
    · exact Or.inl ho
  · rintro (ho | ⟨⟨he, h0⟩, h1⟩) h
    · rcases h with h | h
      · rw [h] at ho; simp at ho
      · rw [h] at ho; omega
    · rcases h with h | h
      · exact h0 h
      · exact h1 h

/-! ## Frames of the stores -/

theorem testBit_eq_of_get_bits_eq {w w2 s L i : Nat} (h : get_bits w2 s L = get_bits w s L)
    (hi : i < L) : w2.testBit (s + i) = w.testBit (s + i) :=
  (testBit_of_get_bits_eq h hi).trans (testBit_of_get_bits_eq rfl hi).symm

theorem key_flds_mem {a : Ary} {c : Nat} {f : Field} (h : f ∈ key_flds a c) :
    f ∈ slot_flds a c := by
  unfold slot_flds
  simp only [List.mem_append]
  exact Or.inl (Or.inl h)

theorem lkey_flds_mem {a : Ary} {c : Nat} {f : Field} (h : f ∈ lkey_flds a c) :
    f ∈ slot_flds a c := by
  unfold slot_flds
  simp only [List.mem_append]
  exact Or.inl (Or.inr h)

/-- A field apart from a bit field is apart from the fields inside it. -/
theorem Apart.sub {f g h : Field} (hfg : Apart f g) (h1 : h.1 = g.1) (h2 : h.2.1 = g.2.1)
    (h3 : h.2.2 ≤ g.2.2) : Apart f h := by
  unfold Apart at *
  rw [h1, h2]
  omega

/-- The fields equal on the key fields of the normal layout: then also on those of the
large layout. -/
theorem lkey_flds_eq {a : Ary} {c : Nat} (hs : SlotShape a c) (hrl : a.offsets.reprobe_len ≤ 63)
    {m m2 : Mem}
    (h : ∀ f ∈ key_flds a c, get_bits (m2 f.1) f.2.1 f.2.2 = get_bits (m f.1) f.2.1 f.2.2) :
    ∀ g ∈ lkey_flds a c, get_bits (m2 g.1) g.2.1 g.2.2 = get_bits (m g.1) g.2.1 g.2.2 := by
  intro g hg
  obtain ⟨f, hf, e1, e2, e3⟩ := lkey_flds_sub hs hrl hg
  have := get_bits_sub (h f hf) e3
  rw [e1, e2] at this
  exact this

theorem sbits_congr {a : Ary} {c : Nat} (hs : SlotShape a c) {m m2 : Mem}
    (h : ∀ f ∈ key_flds a c, get_bits (m2 f.1) f.2.1 f.2.2 = get_bits (m f.1) f.2.1 f.2.2)
    (hsb : sbits a m c) : sbits a m2 c := by
  intro h0
  obtain ⟨-, hkb, -, -, -, hrem, hsum⟩ := hs.split h0
  obtain ⟨s1, s2⟩ := hsb h0
  constructor
  · have := testBit_eq_of_get_bits_eq (h _ (first_fld_mem h0))
      (by omega : 63 - cell_kb a c < 64 - cell_kb a c)
    have e : cell_kb a c + (63 - cell_kb a c) = 63 := by omega
    dsimp only at this
    rw [e] at this
    rw [this]; exact s1
  · intro j hj
    have := testBit_eq_of_get_bits_eq (h _ (tail_fld_mem h0 hj))
      (by omega : tail_len (key_rem a c) j < tail_len (key_rem a c) j + 1)
    dsimp only at this
    rw [Nat.zero_add] at this
    rw [this]; exact s2 j hj

theorem lsbits_congr {a : Ary} {c : Nat} (hs : SlotShape a c) {m m2 : Mem}
    (h : ∀ f ∈ lkey_flds a c, get_bits (m2 f.1) f.2.1 f.2.2 = get_bits (m f.1) f.2.1 f.2.2)
    (hsb : lsbits a m c) : lsbits a m2 c := by
  intro h0
  obtain ⟨hn0, -, hn1, -, hlrem, hlsum, -, -, -⟩ := hs.lsplit h0
  obtain ⟨-, hkb, -, -, -, hrem, hsum⟩ := hs.split hn0
  obtain ⟨s1, s2⟩ := hsb h0
  have m1 : (cell_kw a c, cell_kb a c, 64 - cell_kb a c) ∈ lkey_flds a c := by
    unfold lkey_flds; rw [if_neg h0]; simp
  have m2' : (cell_kw a c + 1, 0, lkey_rem a c + 1) ∈ lkey_flds a c := by
    unfold lkey_flds; rw [if_neg h0]; simp
  constructor
  · have := testBit_eq_of_get_bits_eq (h _ m1)
      (by omega : 63 - cell_kb a c < 64 - cell_kb a c)
    have e : cell_kb a c + (63 - cell_kb a c) = 63 := by omega
    dsimp only at this
    rw [e] at this
    rw [this]; exact s1
  · have := testBit_eq_of_get_bits_eq (h _ m2')
      (by omega : lkey_rem a c < lkey_rem a c + 1)
    dsimp only at this
    rw [Nat.zero_add] at this
    rw [this]; exact s2

/-- A whole cell stays whole when the bit fields of its key stay as they are. -/
theorem Coh.congr {a : Ary} {c : Nat} (hs : SlotShape a c) (hrl : a.offsets.reprobe_len ≤ 63)
    {m m2 : Mem}
    (h : ∀ f ∈ key_flds a c, get_bits (m2 f.1) f.2.1 f.2.2 = get_bits (m f.1) f.2.1 f.2.2)
    (hc : Coh a m c) : Coh a m2 c := by
  have e := key_at_congr hs h
  refine ⟨fun h0 f hf => ?_, fun h0 he => ?_, fun ho => ?_⟩
  · rw [h f hf]; exact hc.1 (e ▸ h0) f hf
  · exact sbits_congr hs h (hc.2.1 (e ▸ h0) (e ▸ he))
  · exact lsbits_congr hs (lkey_flds_eq hs hrl h) (hc.2.2 (e ▸ ho))

/-- A continuation cell stays whole when the bit fields of its large key stay as
they are. -/
theorem Coh.congr_odd {a : Ary} {c : Nat} (hs : SlotShape a c) {m m2 : Mem}
    (h : ∀ f ∈ lkey_flds a c, get_bits (m2 f.1) f.2.1 f.2.2 = get_bits (m f.1) f.2.1 f.2.2)
    (hodd : key_at a m c % 2 = 1) (hc : Coh a m c) : Coh a m2 c := by
  have e : key_at a m2 c % 2 = 1 := by
    rw [← lkey_at_mod_two, lkey_at_congr hs h, lkey_at_mod_two, hodd]
  refine ⟨fun h0 => ?_, fun _ he => ?_, fun _ => lsbits_congr hs h (hc.2.2 hodd)⟩
  · rw [h0] at e; omega
  · omega

theorem SameCell.key_at {a : Ary} {m m2 : Mem} {y : Nat} (hs : SlotShape a y)
    (h : SameCell a m m2 y) : key_at a m2 y = key_at a m y :=
  key_at_congr hs (fun f hf => h f (key_flds_mem hf))

theorem SameCell.lkey_at {a : Ary} {m m2 : Mem} {y : Nat} (hs : SlotShape a y)
    (h : SameCell a m m2 y) : lkey_at a m2 y = lkey_at a m y :=
  lkey_at_congr hs (fun f hf => h f (lkey_flds_mem hf))

theorem SameCell.coh {a : Ary} {m m2 : Mem} {y : Nat} (hs : SlotShape a y)
    (hrl : a.offsets.reprobe_len ≤ 63) (h : SameCell a m m2 y) (hc : Coh a m y) :
    Coh a m2 y :=
  hc.congr hs hrl (fun f hf => h f (key_flds_mem hf))


theorem Keeps.refl (a : Ary) (m : Mem) : Keeps a m m := fun _ _ => ⟨fun _ _ => rfl, fun _ => rfl⟩

theorem Keeps.odd {a : Ary} {m m2 : Mem} (h : Keeps a m m2) {c : Nat} (hc : c < a.size)
    (ho : key_at a m c % 2 = 1) : key_at a m2 c % 2 = 1 := by
  rw [← lkey_at_mod_two, (h c hc).2 ho, lkey_at_mod_two, ho]

theorem Keeps.trans {a : Ary} {m m2 m3 : Mem} (h1 : Keeps a m m2) (h2 : Keeps a m2 m3) :
    Keeps a m m3 := by
  intro c hc
  refine ⟨fun h0 he => ?_, fun ho => ?_⟩
  · have e := (h1 c hc).1 h0 he
    rw [← e]
    exact (h2 c hc).1 (by rw [e]; exact h0) (by rw [e]; exact he)
  · rw [(h2 c hc).2 (h1.odd hc ho), (h1 c hc).2 ho]

theorem Keeps.ne_zero {a : Ary} {m m2 : Mem} (h : Keeps a m m2) {c : Nat} (hc : c < a.size)
    (h0 : key_at a m c ≠ 0) : key_at a m2 c ≠ 0 := by
  rcases Nat.mod_two_eq_zero_or_one (key_at a m c) with he | ho
  · rw [(h c hc).1 h0 he]; exact h0
  · have := h.odd hc ho
    omega

/-- Bits of a field apart from both parts of a value field survive a store into
the value field. -/
theorem get_bits_write2_apart (m : Mem) (w : Nat) (v : ValOffsets) (x1 x2 : Nat) {g : Field}
    (h1 : Apart (val_fld1 w v) g) (h2 : Apart (val_fld2 w v) g) :
    get_bits (write2 m w v x1 x2 g.1) g.2.1 g.2.2 = get_bits (m g.1) g.2.1 g.2.2 := by
  unfold write2
  have hne : w + v.woff + 1 ≠ w + v.woff := by omega
  have e : m (w + v.woff + 1) =
      (m.write (w + v.woff) (set_bits (m (w + v.woff)) v.boff v.shift x1)) (w + v.woff + 1) := by
    rw [Mem.write_other _ _ hne]
  rw [e]
  have a2 := get_bits_write_apart
    (m.write (w + v.woff) (set_bits (m (w + v.woff)) v.boff v.shift x1)) h2 x2
  have a1 := get_bits_write_apart m h1 x1
  simp only [val_fld1, val_fld2] at a1 a2
  rw [a2, a1]

theorem MemOK.write2 {m : Mem} (hm : MemOK m) (w : Nat) {v : ValOffsets} {n : Nat}
    (hv : ValShape v n) (x1 x2 : Nat) : MemOK (write2 m w v x1 x2) := by
  unfold LargeHash.write2
  have hl : 0 + v.len2 ≤ 64 := by have := hv.2.2.2.2.1; have := hv.2.2.2.2.2; omega
  exact (hm.write_field _ hv.2.1 _).write _ (set_bits_lt_word (hm _) hl _)

theorem add_val_field_write2 {m : Mem} (hm : MemOK m) (w d : Nat) {v : ValOffsets} {n : Nat}
    (hv : ValShape v n) : ∃ x1 x2, (add_val_field m (w + v.woff) d v).2 = write2 m w v x1 x2 :=
  ⟨_, _, add_val_field_mem m (w + v.woff) d hv (hm _) (hm _)⟩

theorem sub_val_field_write2 (a : Ary) {m : Mem} (hm : MemOK m) (w d : Nat) {v : ValOffsets}
    {n : Nat} (hv : ValShape v n) :
    ∃ x1 x2, sub_val_field a m (w + v.woff) d v = write2 m w v x1 x2 :=
  ⟨_, _, sub_val_field_mem a m (w + v.woff) d hv (hm _) (hm _)⟩

theorem val_fld1_mem (a : Ary) (c : Nat) :
    val_fld1 (a.offsets.word_offset c).1 (a.offsets.word_offset c).2.1.val ∈ slot_flds a c := by
  simp [slot_flds]

theorem val_fld2_mem (a : Ary) (c : Nat) :
    val_fld2 (a.offsets.word_offset c).1 (a.offsets.word_offset c).2.1.val ∈ slot_flds a c := by
  simp [slot_flds]

theorem lval_fld1_mem (a : Ary) (c : Nat) :
    val_fld1 (a.offsets.word_offset c).1 (a.offsets.word_offset c).2.2.val ∈ slot_flds a c := by
  simp [slot_flds]

theorem lval_fld2_mem (a : Ary) (c : Nat) :
    val_fld2 (a.offsets.word_offset c).1 (a.offsets.word_offset c).2.2.val ∈ slot_flds a c := by
  simp [slot_flds]

theorem lfits_at_of_free {a : Ary} {m : Mem} {id0 r : Nat}
    (h : key_at a m (cand a id0 r) = 0) : lfits_at a m id0 r = true := by
  simp [lfits_at, h]

theorem lfits_at_of_holds {a : Ary} {m : Mem} {id0 r : Nat}
    (h : lkey_at a m (cand a id0 r) = 1 + 2 * r) : lfits_at a m id0 r = true := by
  simp [lfits_at, h]

theorem lfits_at_false {a : Ary} {m : Mem} {id0 r : Nat}
    (h0 : key_at a m (cand a id0 r) ≠ 0)
    (h1 : lkey_at a m (cand a id0 r) ≠ 1 + 2 * r) :
    lfits_at a m id0 r = false := by
  simp [lfits_at, h0, h1]

/-- A store into the normal value field of slot `c` leaves the other slots as
they are. -/
theorem sameCell_write2_val {a : Ary} (hwf : a.Valid) (m : Mem) {c : Nat} (hc : c < a.size)
    (x1 x2 : Nat) {d : Nat} (hd : d < a.size) (hcd : c ≠ d) :
    SameCell a m
      (write2 m (a.offsets.word_offset c).1 (a.offsets.word_offset c).2.1.val x1 x2) d :=
  fun _ hg => get_bits_write2_apart m _ _ x1 x2
    (hwf.apart hc hd hcd (val_fld1_mem a c) hg) (hwf.apart hc hd hcd (val_fld2_mem a c) hg)

/-- A store into the large value field of slot `p` leaves the other slots as
they are. -/
theorem sameCell_write2_lval {a : Ary} (hwf : a.Valid) (m : Mem) {p : Nat} (hp : p < a.size)
    (x1 x2 : Nat) {d : Nat} (hd : d < a.size) (hpd : p ≠ d) :
    SameCell a m
      (write2 m (a.offsets.word_offset p).1 (a.offsets.word_offset p).2.2.val x1 x2) d :=
  fun _ hg => get_bits_write2_apart m _ _ x1 x2
    (hwf.apart hp hd hpd (lval_fld1_mem a p) hg) (hwf.apart hp hd hpd (lval_fld2_mem a p) hg)

/-- A store into the normal value field of slot `c` leaves the bit fields of its
key as they are. -/
theorem key_flds_write2_val {a : Ary} {c : Nat} (hs : SlotShape a c) (m : Mem) (x1 x2 : Nat) :
    ∀ f ∈ key_flds a c,
      get_bits (write2 m (a.offsets.word_offset c).1 (a.offsets.word_offset c).2.1.val x1 x2 f.1)
        f.2.1 f.2.2 = get_bits (m f.1) f.2.1 f.2.2 :=
  fun f hf => get_bits_write2_apart m _ _ x1 x2
    (hs.2.2.2.2.2.2.2.2.2.1 f hf).1.symm (hs.2.2.2.2.2.2.2.2.2.1 f hf).2.symm

/-- A store into the large value field of slot `p` leaves the bit fields of its
large key as they are. -/
theorem lkey_flds_write2_lval {a : Ary} {p : Nat} (hs : SlotShape a p) (m : Mem) (x1 x2 : Nat) :
    ∀ f ∈ lkey_flds a p,
      get_bits (write2 m (a.offsets.word_offset p).1 (a.offsets.word_offset p).2.2.val x1 x2 f.1)
        f.2.1 f.2.2 = get_bits (m f.1) f.2.1 f.2.2 :=
  fun f hf => get_bits_write2_apart m _ _ x1 x2
    (hs.2.2.2.2.2.2.2.2.2.2 f hf).1.symm (hs.2.2.2.2.2.2.2.2.2.2 f hf).2.symm

/-- A store into the normal value field of slot `c` changes no key field. -/
theorem key_at_write2_val {a : Ary} (hwf : a.Valid) (m : Mem) {c : Nat} (hc : c < a.size)
    (x1 x2 : Nat) {d : Nat} (hd : d < a.size) :
    key_at a (write2 m (a.offsets.word_offset c).1 (a.offsets.word_offset c).2.1.val x1 x2) d
      = key_at a m d := by
  by_cases hcd : c = d
  · subst hcd
    exact key_at_congr (hwf.shape hc) (key_flds_write2_val (hwf.shape hc) m x1 x2)
  · exact (sameCell_write2_val hwf m hc x1 x2 hd hcd).key_at (hwf.shape hd)

/-- A store into the normal value field of slot `c` changes no large key
field. -/
theorem lkey_at_write2_val {a : Ary} (hwf : a.Valid) (m : Mem) {c : Nat} (hc : c < a.size)
    (x1 x2 : Nat) {d : Nat} (hd : d < a.size) :
    lkey_at a (write2 m (a.offsets.word_offset c).1 (a.offsets.word_offset c).2.1.val x1 x2) d
      = lkey_at a m d := by
  by_cases hcd : c = d
  · subst hcd
    exact lkey_at_congr (hwf.shape hc)
      (lkey_flds_eq (hwf.shape hc) hwf.2.2.1 (key_flds_write2_val (hwf.shape hc) m x1 x2))
  · exact (sameCell_write2_val hwf m hc x1 x2 hd hcd).lkey_at (hwf.shape hd)

/-- A store into the large value field of slot `p` changes the key field of no
other slot. -/
theorem key_at_write2_lval {a : Ary} (hwf : a.Valid) (m : Mem) {p : Nat} (hp : p < a.size)
    (x1 x2 : Nat) {d : Nat} (hd : d < a.size) (hpd : p ≠ d) :
    key_at a (write2 m (a.offsets.word_offset p).1 (a.offsets.word_offset p).2.2.val x1 x2) d
      = key_at a m d :=
  (sameCell_write2_lval hwf m hp x1 x2 hd hpd).key_at (hwf.shape hd)

/-- A store into the large value field of slot `p` keeps its large bit and
reprobe distance. -/
theorem lkey_at_write2_lval {a : Ary} (hwf : a.Valid) (m : Mem) {p : Nat} (hp : p < a.size)
    (x1 x2 : Nat) :
    lkey_at a (write2 m (a.offsets.word_offset p).1 (a.offsets.word_offset p).2.2.val x1 x2) p
      = lkey_at a m p :=
  lkey_at_congr (hwf.shape hp) (lkey_flds_write2_lval (hwf.shape hp) m x1 x2)

theorem keeps_write2_val {a : Ary} (hwf : a.Valid) (m : Mem) {c : Nat} (hc : c < a.size)
    (x1 x2 : Nat) :
    Keeps a m (write2 m (a.offsets.word_offset c).1 (a.offsets.word_offset c).2.1.val x1 x2) :=
  fun _ hd => ⟨fun _ _ => key_at_write2_val hwf m hc x1 x2 hd,
    fun _ => lkey_at_write2_val hwf m hc x1 x2 hd⟩

theorem keeps_write2_lval {a : Ary} (hwf : a.Valid) (m : Mem) {p : Nat} (hp : p < a.size)
    (hodd : key_at a m p % 2 = 1) (x1 x2 : Nat) :
    Keeps a m (write2 m (a.offsets.word_offset p).1 (a.offsets.word_offset p).2.2.val x1 x2) := by
  intro d hd
  by_cases hpd : p = d
  · subst hpd
    refine ⟨fun _ he => ?_, fun _ => lkey_at_write2_lval hwf m hp x1 x2⟩
    omega
  · exact ⟨fun _ _ => key_at_write2_lval hwf m hp x1 x2 hd hpd,
      fun _ => (sameCell_write2_lval hwf m hp x1 x2 hd hpd).lkey_at (hwf.shape hd)⟩

/-- A store into the normal value field of a slot leaves a sound table. -/
theorem tableOK_write2_val {a : Ary} (hwf : a.Valid) {m : Mem} (hm : TableOK a m) {c : Nat}
    (hc : c < a.size) (x1 x2 : Nat) :
    TableOK a
      (write2 m (a.offsets.word_offset c).1 (a.offsets.word_offset c).2.1.val x1 x2) := by
  refine ⟨hm.1.write2 _ (hwf.val_shape hc) x1 x2, fun d hd => ?_⟩
  by_cases hcd : c = d
  · subst hcd
    exact (hm.2 c hc).congr (hwf.shape hc) hwf.2.2.1 (key_flds_write2_val (hwf.shape hc) m x1 x2)
  · exact (sameCell_write2_val hwf m hc x1 x2 hd hcd).coh (hwf.shape hd) hwf.2.2.1 (hm.2 d hd)

/-- A store into the large value field of a continuation cell leaves a sound
table. -/
theorem tableOK_write2_lval {a : Ary} (hwf : a.Valid) {m : Mem} (hm : TableOK a m) {p : Nat}
    (hp : p < a.size) (hodd : key_at a m p % 2 = 1) (x1 x2 : Nat) :
    TableOK a
      (write2 m (a.offsets.word_offset p).1 (a.offsets.word_offset p).2.2.val x1 x2) := by
  refine ⟨hm.1.write2 _ (hwf.lval_shape hp) x1 x2, fun d hd => ?_⟩
  by_cases hpd : p = d
  · subst hpd
    exact (hm.2 p hp).congr_odd (hwf.shape hp) (lkey_flds_write2_lval (hwf.shape hp) m x1 x2)
      hodd
  · exact (sameCell_write2_lval hwf m hp x1 x2 hd hpd).coh (hwf.shape hd) hwf.2.2.1 (hm.2 d hd)

/-- A store into the key field of slot `c` leaves the other slots as they
are. -/
theorem sameCell_key_store {a : Ary} (hwf : a.Valid) (m : Mem) {c : Nat} (hc : c < a.size)
    (v : Nat) {d : Nat} (hd : d < a.size) (hcd : c ≠ d) : SameCell a m (key_store a m c v) d :=
  fun _ hg => key_store_apart a m c v
    (fun _ hf => hwf.apart hc hd hcd (key_flds_mem hf) hg)

/-- A store into the large key field of slot `c` leaves the other slots as they
are. -/
theorem sameCell_lkey_store {a : Ary} (hwf : a.Valid) (m : Mem) {c : Nat} (hc : c < a.size)
    (v : Nat) {d : Nat} (hd : d < a.size) (hcd : c ≠ d) : SameCell a m (lkey_store a m c v) d :=
  fun _ hg => lkey_store_apart a m c v
    (fun _ hf => hwf.apart hc hd hcd (lkey_flds_mem hf) hg)

/-- A store into the key field of a free slot keeps every occupied cell. -/
theorem keeps_key_store {a : Ary} (hwf : a.Valid) (m : Mem) {c : Nat} (hc : c < a.size)
    (h0 : key_at a m c = 0) (v : Nat) : Keeps a m (key_store a m c v) := by
  intro d hd
  by_cases hcd : c = d
  · subst hcd
    refine ⟨fun h _ => absurd h0 h, fun ho => ?_⟩
    rw [h0] at ho; simp at ho
  · have h := sameCell_key_store hwf m hc v hd hcd
    exact ⟨fun _ _ => h.key_at (hwf.shape hd), fun _ => h.lkey_at (hwf.shape hd)⟩

/-- A store into the large key field of a free slot keeps every occupied
cell. -/
theorem keeps_lkey_store {a : Ary} (hwf : a.Valid) (m : Mem) {c : Nat} (hc : c < a.size)
    (h0 : key_at a m c = 0) (v : Nat) : Keeps a m (lkey_store a m c v) := by
  intro d hd
  by_cases hcd : c = d
  · subst hcd
    refine ⟨fun h _ => absurd h0 h, fun ho => ?_⟩
    rw [h0] at ho; simp at ho
  · have h := sameCell_lkey_store hwf m hc v hd hcd
    exact ⟨fun _ _ => h.key_at (hwf.shape hd), fun _ => h.lkey_at (hwf.shape hd)⟩

/-- The store of a primary key field leaves a sound table. -/
theorem tableOK_key_store {a : Ary} (hwf : a.Valid) {m : Mem} (hm : TableOK a m) {c : Nat}
    (hc : c < a.size) {v : Nat} (hv : v < 2 ^ (a.klen + 1)) (hv0 : v ≠ 0) (hev : v % 2 = 0) :
    TableOK a (key_store a m c v) := by
  refine ⟨memOK_key_store (hwf.shape hc) hm.1 v, fun d hd => ?_⟩
  by_cases hcd : c = d
  · subst hcd
    exact coh_key_store (hwf.shape hc) m hv hv0 hev
  · exact (sameCell_key_store hwf m hc v hd hcd).coh (hwf.shape hd) hwf.2.2.1 (hm.2 d hd)

/-- The store of a continuation key field leaves a sound table. -/
theorem tableOK_lkey_store {a : Ary} (hwf : a.Valid) {m : Mem} (hm : TableOK a m) {c : Nat}
    (hc : c < a.size) {v : Nat} (hodd : v % 2 = 1) : TableOK a (lkey_store a m c v) := by
  refine ⟨memOK_lkey_store (hwf.shape hc) hwf.2.2.1 hm.1 v, fun d hd => ?_⟩
  by_cases hcd : c = d
  · subst hcd
    exact coh_lkey_store (hwf.shape hc) m hodd
  · exact (sameCell_lkey_store hwf m hc v hd hcd).coh (hwf.shape hd) hwf.2.2.1 (hm.2 d hd)

theorem claim_large_key_loop_eq {a : Ary} (hwf : a.Valid) {m : Mem} (hm : TableOK a m)
    {id0 : Nat} (hid : id0 < a.size) : ∀ left reprobe, reprobe + left = a.reprobe_limit →
    claim_large_key_loop a id0 left reprobe (cand a id0 reprobe) m =
      claim_large_key_result a m id0 (first_fit (lfits_at a m id0) left reprobe) := by
  intro left
  induction left with
  | zero =>
    intro reprobe hrl
    have hr : reprobe < 2 ^ a.offsets.reprobe_len := by have := hwf.2.2.2.2.1; omega
    have hat := claim_large_key_attempt_eq hwf (cand_lt a hid reprobe)
      (hm.2 _ (cand_lt a hid reprobe)) hr
    unfold claim_large_key_loop first_fit
    by_cases h0 : key_at a m (cand a id0 reprobe) = 0
    · rw [if_pos h0] at hat
      rw [hat, lfits_at_of_free h0]
      simp only [if_true, claim_large_key_result, h0]
    · rw [if_neg h0] at hat
      by_cases h1 : lkey_at a m (cand a id0 reprobe) = 1 + 2 * reprobe
      · rw [decide_eq_true (by exact h1)] at hat
        rw [hat, lfits_at_of_holds h1]
        simp only [if_true, claim_large_key_result, h0, if_false]
      · rw [decide_eq_false (by exact h1)] at hat
        rw [hat, lfits_at_false h0 h1]
        simp only [Bool.false_eq_true, if_false, claim_large_key_result]
  | succ n ih =>
    intro reprobe hrl
    have hr : reprobe < 2 ^ a.offsets.reprobe_len := by have := hwf.2.2.2.2.1; omega
    have hat := claim_large_key_attempt_eq hwf (cand_lt a hid reprobe)
      (hm.2 _ (cand_lt a hid reprobe)) hr
    unfold claim_large_key_loop first_fit
    by_cases h0 : key_at a m (cand a id0 reprobe) = 0
    · rw [if_pos h0] at hat
      rw [hat, lfits_at_of_free h0]
      simp only [if_true, claim_large_key_result, h0]
    · rw [if_neg h0] at hat
      by_cases h1 : lkey_at a m (cand a id0 reprobe) = 1 + 2 * reprobe
      · rw [decide_eq_true (by exact h1)] at hat
        rw [hat, lfits_at_of_holds h1]
        simp only [if_true, claim_large_key_result, h0, if_false]
      · rw [decide_eq_false (by exact h1)] at hat
        have hih := ih (reprobe + 1) (by omega)
        rw [cand_succ] at hih
        rw [hat, lfits_at_false h0 h1]
        simp only [Bool.false_eq_true, if_false]
        exact hih

/-- Method `claim_large_key` on a sound table: the first round that finds its
candidate free or already holding this reprobe distance decides. -/
theorem claim_large_key_eq {a : Ary} (hwf : a.Valid) {m : Mem} (hm : TableOK a m) {id0 : Nat}
    (hid : id0 < a.size) :
    claim_large_key a m id0 =
      claim_large_key_result a m id0 (first_fit (lfits_at a m id0) a.reprobe_limit 0) := by
  have := claim_large_key_loop_eq hwf hm hid a.reprobe_limit 0 (by omega)
  rw [cand_zero] at this
  exact this

/-! ## Runs of add -/

theorem holds_even {a : Ary} {m : Mem} {c key r : Nat} (h : holds a m c key r) :
    key_at a m c % 2 = 0 := by
  unfold holds at h
  omega

theorem holds_ne_zero {a : Ary} (hwf : a.Valid) {m : Mem} {c key r : Nat}
    (hr : r ≤ a.reprobe_limit) (h : holds a m c key r) : key_at a m c ≠ 0 := by
  unfold holds at h
  have := akey_of_pos (a := a) key (hwf.reprobe_fits hr)
  omega

theorem lcell_odd {a : Ary} {m : Mem} {p r : Nat} (h : lkey_at a m p = 1 + 2 * r) :
    key_at a m p % 2 = 1 := by
  rw [← lkey_at_mod_two, h]; omega

/-- After a successful round `r` of `claim_large_key` from `nxt q`. -/
theorem lclaim_mem_facts {a : Ary} (hwf : a.Valid) {m : Mem} (hm : TableOK a m) {q r : Nat}
    (hff : first_fit (lfits_at a m (nxt a q)) a.reprobe_limit 0 = some r) :
    r ≤ a.reprobe_limit ∧ TableOK a (lclaim_mem a m q r) ∧ Keeps a m (lclaim_mem a m q r) ∧
      lkey_at a (lclaim_mem a m q r) (cand a (nxt a q) r) = 1 + 2 * r ∧
      (∀ j, j < r → lfits_at a m (nxt a q) j = false) := by
  obtain ⟨-, hr, hp, hbefore⟩ := first_fit_some hff
  have hr' : r ≤ a.reprobe_limit := by omega
  have hc := cand_lt a (nxt_lt a q) r
  have hrl : r < 2 ^ a.offsets.reprobe_len := by have := hwf.2.2.2.2.1; omega
  have hodd : (1 + 2 * r) % 2 = 1 := by omega
  refine ⟨hr', ?_, ?_, ?_, fun j hj => hbefore j (Nat.zero_le _) hj⟩
  · unfold lclaim_mem claim_large_key_result
    simp only []
    split_ifs
    · exact tableOK_lkey_store hwf hm hc hodd
    · exact hm
  · unfold lclaim_mem claim_large_key_result
    simp only []
    split_ifs with h0
    · exact keeps_lkey_store hwf m hc h0 _
    · exact Keeps.refl a m
  · unfold lclaim_mem claim_large_key_result
    simp only []
    split_ifs with h0
    · rw [lkey_at_lkey_store (hwf.shape hc), Nat.mod_eq_of_lt (one_add_two_mul_lt hrl)]
    · have : lfits_at a m (nxt a q) r = true := hp
      simp only [lfits_at, decide_eq_true_eq] at this
      rcases this with h | h
      · exact absurd h h0
      · exact h

/-- After a successful round `r` of `claim_key`. -/
theorem claim_mem_facts {a : Ary} (hwf : a.Valid) {m : Mem} (hm : TableOK a m) {key r : Nat}
    (hff : first_fit (fits_at a m key (slot_of a key)) a.reprobe_limit 0 = some r) :
    r ≤ a.reprobe_limit ∧ TableOK a (claim_mem a m key r) ∧ Keeps a m (claim_mem a m key r) ∧
      holds a (claim_mem a m key r) (cand a (slot_of a key) r) key r ∧
      (∀ j, j < r → fits_at a m key (slot_of a key) j = false) := by
  obtain ⟨-, hr, hp, hbefore⟩ := first_fit_some hff
  have hr' : r ≤ a.reprobe_limit := by omega
  have hc := cand_lt a (slot_of_lt a key) r
  have hlt := two_mul_akey_lt (a := a) key (hwf.reprobe_fits hr')
  have hpos := akey_of_pos (a := a) key (hwf.reprobe_fits hr')
  refine ⟨hr', ?_, ?_, ?_, fun j hj => hbefore j (Nat.zero_le _) hj⟩
  · unfold claim_mem claim_key_result
    simp only []
    split_ifs
    · exact tableOK_key_store hwf hm hc hlt (by omega) (by omega)
    · exact hm
  · unfold claim_mem claim_key_result
    simp only []
    split_ifs with h0
    · exact keeps_key_store hwf m hc h0 _
    · exact Keeps.refl a m
  · unfold claim_mem claim_key_result holds
    simp only []
    split_ifs with h0
    · rw [key_at_key_store (hwf.shape hc), Nat.mod_eq_of_lt hlt]
    · have : fits_at a m key (slot_of a key) r = true := hp
      simp only [fits_at, decide_eq_true_eq, holds] at this
      rcases this with h | h
      · exact absurd h h0
      · exact h

/-- The increment of the large value field of a continuation cell keeps every
occupied cell. -/
theorem keeps_add_val_lval {a : Ary} (hwf : a.Valid) {m : Mem} (hm : TableOK a m) {p : Nat}
    (hp : p < a.size) (hodd : key_at a m p % 2 = 1) (val : Nat) :
    TableOK a (add_val_field m (lval_w a p) val (a.offsets.word_offset p).2.2.val).2 ∧
      Keeps a m (add_val_field m (lval_w a p) val (a.offsets.word_offset p).2.2.val).2 := by
  obtain ⟨x1, x2, e⟩ := add_val_field_write2 hm.1 (a.offsets.word_offset p).1 val
    (hwf.lval_shape hp)
  unfold lval_w
  rw [e]
  exact ⟨tableOK_write2_lval hwf hm hp hodd _ _, keeps_write2_lval hwf m hp hodd _ _⟩

theorem keeps_sub_val_lval {a : Ary} (hwf : a.Valid) {m : Mem} (hm : TableOK a m) {p : Nat}
    (hp : p < a.size) (hodd : key_at a m p % 2 = 1) (val : Nat) :
    TableOK a (sub_val_field a m (lval_w a p) val (a.offsets.word_offset p).2.2.val) ∧
      Keeps a m (sub_val_field a m (lval_w a p) val (a.offsets.word_offset p).2.2.val) := by
  obtain ⟨x1, x2, e⟩ := sub_val_field_write2 a hm.1 (a.offsets.word_offset p).1 val
    (hwf.lval_shape hp)
  unfold lval_w
  rw [e]
  exact ⟨tableOK_write2_lval hwf hm hp hodd _ _, keeps_write2_lval hwf m hp hodd _ _⟩

theorem keeps_add_val_val {a : Ary} (hwf : a.Valid) {m : Mem} (hm : TableOK a m) {c : Nat}
    (hc : c < a.size) (val : Nat) :
    TableOK a (add_val_field m (val_w a c) val (a.offsets.word_offset c).2.1.val).2 ∧
      Keeps a m (add_val_field m (val_w a c) val (a.offsets.word_offset c).2.1.val).2 := by
  obtain ⟨x1, x2, e⟩ := add_val_field_write2 hm.1 (a.offsets.word_offset c).1 val
    (hwf.val_shape hc)
  unfold val_w
  rw [e]
  exact ⟨tableOK_write2_val hwf hm hc _ _, keeps_write2_val hwf m hc _ _⟩

theorem keeps_sub_val_val {a : Ary} (hwf : a.Valid) {m : Mem} (hm : TableOK a m) {c : Nat}
    (hc : c < a.size) (val : Nat) :
    TableOK a (sub_val_field a m (val_w a c) val (a.offsets.word_offset c).2.1.val) ∧
      Keeps a m (sub_val_field a m (val_w a c) val (a.offsets.word_offset c).2.1.val) := by
  obtain ⟨x1, x2, e⟩ := sub_val_field_write2 a hm.1 (a.offsets.word_offset c).1 val
    (hwf.val_shape hc)
  unfold val_w
  rw [e]
  exact ⟨tableOK_write2_val hwf hm hc _ _, keeps_write2_val hwf m hc _ _⟩

/-- Every returning call of `add_rec` with `large = true` is a run `LRun`. -/
theorem add_rec_large_run {a : Ary} (hwf : a.Valid) (key : Nat) :
    ∀ fuel (m : Mem) (q val : Nat) (res : AddResult), TableOK a m → q < a.size →
      add_rec a fuel m (nxt a q) key val true = some res →
      LRun a q val m res.mem res.ok := by
  intro fuel
  induction fuel with
  | zero => intro m q val res _ _ h; simp [add_rec] at h
  | succ n ih =>
    intro m q val res hm0 hq h
    unfold add_rec at h
    simp only [if_true] at h
    rw [claim_large_key_eq hwf hm0 (nxt_lt a q)] at h
    cases hff : first_fit (lfits_at a m (nxt a q)) a.reprobe_limit 0 with
    | none =>
      rw [hff] at h
      simp only [claim_large_key_result, Option.some.injEq] at h
      subst h
      exact LRun.full hq hff
    | some r =>
      rw [hff] at h
      simp only [claim_large_key_result] at h
      by_cases hc : (add_val_field (lclaim_mem a m q r) (lval_w a (cand a (nxt a q) r)) val
          (a.offsets.word_offset (cand a (nxt a q) r)).2.2.val).1 = 0
      · simp only [lclaim_mem, claim_large_key_result, lval_w] at hc
        simp only [hc, ne_eq, not_true_eq_false, if_false, Option.some.injEq] at h
        subst h
        have := @LRun.done a q val r m hq hff
          (by simp only [lclaim_mem, claim_large_key_result, lval_w]; exact hc)
        simpa only [lclaim_mem, claim_large_key_result, lval_w] using this
      · have hc2 := hc
        simp only [lclaim_mem, claim_large_key_result, lval_w] at hc2
        simp only [hc2, ne_eq, not_false_eq_true, if_true] at h
        cases hsub : add_rec a n
            (add_val_field (lclaim_mem a m q r) (lval_w a (cand a (nxt a q) r)) val
              (a.offsets.word_offset (cand a (nxt a q) r)).2.2.val).2
            (wtrunc (cand a (nxt a q) r + a.reprobes 0) &&& a.size_mask) key
            (add_val_field (lclaim_mem a m q r) (lval_w a (cand a (nxt a q) r)) val
              (a.offsets.word_offset (cand a (nxt a q) r)).2.2.val).1 true with
        | none =>
          simp only [lclaim_mem, claim_large_key_result, lval_w] at hsub
          simp only [hsub] at h
          exact absurd h (by simp)
        | some sub =>
          obtain ⟨-, hm1, -, hl, -⟩ := lclaim_mem_facts hwf hm0 hff
          have hrun := ih _ _ _ sub
            (keeps_add_val_lval hwf hm1 (cand_lt a (nxt_lt a q) r) (lcell_odd hl) val).1
            (cand_lt a (nxt_lt a q) r) hsub
          have hm := LRun.more hq hff hc hrun
          simp only [lclaim_mem, claim_large_key_result, lval_w] at hsub
          simp only [hsub] at h
          by_cases hok : sub.ok = true
          · simp only [hok, if_true, Option.some.injEq] at h
            subst h
            simpa only [hok, if_true] using hm
          · simp only [hok, Bool.false_eq_true, if_false, Option.some.injEq] at h
            subst h
            have hok' : sub.ok = false := by simpa using hok
            simpa only [hok', Bool.false_eq_true, if_false, lclaim_mem, claim_large_key_result,
              lval_w] using hm

/-- Every returning call of `add` is a run `Run`. -/
theorem add_run {a : Ary} (hwf : a.Valid) {fuel : Nat} {m : Mem} (hm0 : TableOK a m)
    {key val : Nat} {res : AddResult} (h : add a fuel m key val = some res) :
    Run a key val m res := by
  cases fuel with
  | zero => simp [add, add_rec] at h
  | succ n =>
    unfold add add_rec at h
    simp only [Bool.false_eq_true, if_false] at h
    rw [show a.hash_times key &&& a.size_mask = slot_of a key from rfl] at h
    rw [claim_key_eq hwf hm0 key (slot_of_lt a key)] at h
    cases hff : first_fit (fits_at a m key (slot_of a key)) a.reprobe_limit 0 with
    | none =>
      rw [hff] at h
      simp only [claim_key_result, Option.some.injEq] at h
      subst h
      exact Run.full hff
    | some r =>
      rw [hff] at h
      simp only [claim_key_result] at h
      by_cases hc : (add_val_field (claim_mem a m key r) (val_w a (cand a (slot_of a key) r)) val
          (a.offsets.word_offset (cand a (slot_of a key) r)).2.1.val).1 = 0
      · have hc2 := hc
        simp only [claim_mem, claim_key_result, val_w] at hc2
        simp only [hc2, ne_eq, not_true_eq_false, if_false, Option.some.injEq] at h
        subst h
        have := @Run.done a key val m r hff hc
        simpa only [claim_mem, claim_key_result, val_w] using this
      · have hc2 := hc
        simp only [claim_mem, claim_key_result, val_w] at hc2
        simp only [hc2, ne_eq, not_false_eq_true, if_true] at h
        cases hsub : add_rec a n
            (add_val_field (claim_mem a m key r) (val_w a (cand a (slot_of a key) r)) val
              (a.offsets.word_offset (cand a (slot_of a key) r)).2.1.val).2
            (wtrunc (cand a (slot_of a key) r + a.reprobes 0) &&& a.size_mask) key
            (add_val_field (claim_mem a m key r) (val_w a (cand a (slot_of a key) r)) val
              (a.offsets.word_offset (cand a (slot_of a key) r)).2.1.val).1 true with
        | none =>
          simp only [claim_mem, claim_key_result, val_w] at hsub
          simp only [hsub] at h
          exact absurd h (by simp)
        | some sub =>
          obtain ⟨-, hm1, -, -, -⟩ := claim_mem_facts hwf hm0 hff
          have hrun := add_rec_large_run hwf key n _ _ _ sub
            (keeps_add_val_val hwf hm1 (cand_lt a (slot_of_lt a key) r) val).1
            (cand_lt a (slot_of_lt a key) r) hsub
          have hm := Run.more hff hc hrun
          simp only [claim_mem, claim_key_result, val_w] at hsub
          simp only [hsub] at h
          by_cases hok : sub.ok = true
          · simp only [hok, if_true, Option.some.injEq] at h
            subst h
            simpa only [hok, if_true] using hm
          · simp only [hok, Bool.false_eq_true, if_false, Option.some.injEq] at h
            subst h
            have hok' : sub.ok = false := by simpa using hok
            simpa only [hok', Bool.false_eq_true, if_false, claim_mem, claim_key_result,
              val_w] using hm

/-- A run of `add_rec` on the overflow chain keeps every occupied cell. -/
theorem LRun.lkeeps {a : Ary} (hwf : a.Valid) {q val : Nat} {m m2 : Mem} {ok : Bool}
    (h : LRun a q val m m2 ok) : TableOK a m → TableOK a m2 ∧ Keeps a m m2 := by
  induction h with
  | full hq hff => exact fun hm => ⟨hm, Keeps.refl a _⟩
  | @done q val r m hq hff hc =>
    intro hm
    obtain ⟨hr, hm1, hk1, hl, -⟩ := lclaim_mem_facts hwf hm hff
    have hp := cand_lt a (nxt_lt a q) r
    obtain ⟨hm2, hk2⟩ := keeps_add_val_lval hwf hm1 hp (lcell_odd hl) val
    exact ⟨hm2, hk1.trans hk2⟩
  | @more q val r m m3 ok hq hff hc hsub ih =>
    intro hm
    obtain ⟨hr, hm1, hk1, hl, -⟩ := lclaim_mem_facts hwf hm hff
    have hp := cand_lt a (nxt_lt a q) r
    obtain ⟨hm2, hk2⟩ := keeps_add_val_lval hwf hm1 hp (lcell_odd hl) val
    obtain ⟨hm3, hk3⟩ := ih hm2
    have hodd3 := (hk2.trans hk3).odd hp (lcell_odd hl)
    by_cases hok : ok = true
    · simp only [hok, if_true]
      exact ⟨hm3, (hk1.trans hk2).trans hk3⟩
    · simp only [hok, if_false]
      obtain ⟨hm4, hk4⟩ := keeps_sub_val_lval hwf hm3 hp hodd3 val
      exact ⟨hm4, ((hk1.trans hk2).trans hk3).trans hk4⟩

/-- A run of `add` keeps every occupied cell. -/
theorem Run.keeps {a : Ary} (hwf : a.Valid) {key val : Nat} {m : Mem} {res : AddResult}
    (h : Run a key val m res) (hm : TableOK a m) : TableOK a res.mem ∧ Keeps a m res.mem := by
  cases h with
  | full hff => exact ⟨hm, Keeps.refl a _⟩
  | done hff hc =>
    rename_i r
    obtain ⟨hr, hm1, hk1, hl, -⟩ := claim_mem_facts hwf hm hff
    have hp := cand_lt a (slot_of_lt a key) r
    obtain ⟨hm2, hk2⟩ := keeps_add_val_val hwf hm1 hp val
    exact ⟨hm2, hk1.trans hk2⟩
  | more hff hc hsub =>
    rename_i m3 r ok
    obtain ⟨hr, hm1, hk1, hl, -⟩ := claim_mem_facts hwf hm hff
    have hp := cand_lt a (slot_of_lt a key) r
    obtain ⟨hm2, hk2⟩ := keeps_add_val_val hwf hm1 hp val
    obtain ⟨hm3, hk3⟩ := hsub.lkeeps hwf hm2
    by_cases hok : ok = true
    · simp only [hok, if_true]
      exact ⟨hm3, (hk1.trans hk2).trans hk3⟩
    · simp only [hok, if_false]
      obtain ⟨hm4, hk4⟩ := keeps_sub_val_val hwf hm3 hp val
      exact ⟨hm4, ((hk1.trans hk2).trans hk3).trans hk4⟩

/-- Decoding by `get_key_at_id` of a primary cell that holds `key` at reprobe
index `r` from the start slot `id0`. -/
theorem get_key_at_id_holds {a : Ary} (hwf : a.Valid) {m : Mem} (hm : TableOK a m)
    {key id0 r : Nat} (hid : id0 < a.size) (hr : r ≤ a.reprobe_limit) (h : holds a m (cand a id0 r) key r)
    (tmp : Nat) :
    get_key_at_id a m (cand a id0 r) tmp =
      (key_status.FILLED,
        set_bits (set_bits tmp a.lsize a.raw_key_len (get_bits key a.lsize a.raw_key_len))
          0 a.lsize id0,
        (a.offsets.word_offset (cand a id0 r)).1, (a.offsets.word_offset (cand a id0 r)).2.1) := by
  have hfit := hwf.reprobe_fits hr
  have hc := cand_lt a hid r
  have h0 := holds_ne_zero hwf hr h
  have he := holds_even h
  unfold holds at h
  have hdiv : key_at a m (cand a id0 r) / 2 = akey_of a key r := by omega
  rw [get_key_at_id_eq hwf hc (hm.2 _ hc)]
  have hne : ¬ key_at a m (cand a id0 r) % 2 = 1 := by omega
  simp only [if_neg hne, if_neg h0, hdiv, akey_of_mod key hfit, akey_of_shiftRight key hfit]
  rw [orig_slot hwf.1 hid r]

theorem holds_of_keeps {a : Ary} (hwf : a.Valid) {m m2 : Mem} (hk : Keeps a m m2) {c key r : Nat}
    (hc : c < a.size) (hr : r ≤ a.reprobe_limit) (h : holds a m c key r) :
    holds a m2 c key r := by
  have e := (hk c hc).1 (holds_ne_zero hwf hr h) (holds_even h)
  unfold holds at *
  rw [e, h]

/-- After a run of `add` whose primary claim succeeded at round `r`, the reported
slot is the candidate of round `r` and holds the key. -/
theorem Run.holds {a : Ary} (hwf : a.Valid) {key val : Nat} {m : Mem} {res : AddResult}
    (h : Run a key val m res) (hm : TableOK a m) {r : Nat}
    (hff : first_fit (fits_at a m key (slot_of a key)) a.reprobe_limit 0 = some r) :
    r ≤ a.reprobe_limit ∧ res.eid = cand a (slot_of a key) r ∧
      holds a res.mem (cand a (slot_of a key) r) key r ∧
      res.is_new = decide (key_at a m (cand a (slot_of a key) r) = 0) := by
  obtain ⟨hr, hm1, hk1, hl, -⟩ := claim_mem_facts hwf hm hff
  have hp := cand_lt a (slot_of_lt a key) r
  cases h with
  | full hff2 => rw [hff2] at hff; exact absurd hff (by simp)
  | done hff2 hc =>
    rename_i r2
    have hr2 : r2 = r := by rw [hff2] at hff; exact Option.some.inj hff
    subst hr2
    obtain ⟨hm2, hk2⟩ := keeps_add_val_val hwf hm1 hp val
    exact ⟨hr, rfl, holds_of_keeps hwf hk2 hp hr hl, rfl⟩
  | more hff2 hc hsub =>
    rename_i m3 r2 ok
    have hr2 : r2 = r := by rw [hff2] at hff; exact Option.some.inj hff
    subst hr2
    obtain ⟨hm2, hk2⟩ := keeps_add_val_val hwf hm1 hp val
    obtain ⟨hm3, hk3⟩ := hsub.lkeeps hwf hm2
    refine ⟨hr, rfl, ?_, rfl⟩
    by_cases hok : ok = true
    · simp only [hok, if_true]
      exact holds_of_keeps hwf (hk2.trans hk3) hp hr hl
    · simp only [hok, if_false]
      obtain ⟨hm4, hk4⟩ := keeps_sub_val_val hwf hm3 hp val
      exact holds_of_keeps hwf ((hk2.trans hk3).trans hk4) hp hr hl

theorem Run.ok_claimed {a : Ary} {key val : Nat} {m : Mem} {res : AddResult}
    (h : Run a key val m res) (hok : res.ok = true) :
    ∃ r, first_fit (fits_at a m key (slot_of a key)) a.reprobe_limit 0 = some r := by
  cases h with
  | full hff => exact absurd hok (by simp)
  | done hff hc => exact ⟨_, hff⟩
  | more hff hc hsub => exact ⟨_, hff⟩

/-- Increment and back-tracking of a value field cancel. -/
theorem sub_add_val_field_id (a : Ary) (v : ValOffsets) (m : Mem) (vw delta : Nat)
    (hv : ValShape v a.offsets.val_len) (h1 : m vw < 2 ^ 64) (h2 : m (vw + 1) < 2 ^ 64) :
    sub_val_field a (add_val_field m vw delta v).2 vw delta v = m := by
  obtain ⟨-, hb, -, -, hsum, hn⟩ := id hv
  have hl : 0 + v.len2 ≤ 64 := by omega
  have hne : vw + 1 ≠ vw := by omega
  have hne' : vw ≠ vw + 1 := by omega
  rw [add_val_field_mem m vw delta hv h1 h2]
  set f1 := get_bits (m vw) v.boff v.shift with hf1
  set f2 := get_bits (m (vw + 1)) 0 v.len2 with hf2
  set A := set_bits (m vw) v.boff v.shift (wtrunc (f1 + delta)) with hA
  set B := set_bits (m (vw + 1)) 0 v.len2 (wtrunc (f2 + wtrunc (f1 + delta) >>> v.shift)) with hB
  have hmA : ((m.write vw A).write (vw + 1) B) vw = A := by
    rw [Mem.write_other _ _ hne', Mem.write_same]
  have hmB : ((m.write vw A).write (vw + 1) B) (vw + 1) = B := Mem.write_same _ _ _
  have hA64 : A < 2 ^ 64 := set_bits_lt_word h1 hb _
  have hB64 : B < 2 ^ 64 := set_bits_lt_word h2 hl _
  rw [sub_val_field_mem a _ vw delta hv (by rw [hmA]; exact hA64) (by rw [hmB]; exact hB64),
    hmA, hmB]
  have hgA : get_bits A v.boff v.shift = wtrunc (f1 + delta) % 2 ^ v.shift :=
    get_bits_set_bits_same _ _ _ _
  have hgB : get_bits B 0 v.len2 = wtrunc (f2 + wtrunc (f1 + delta) >>> v.shift) % 2 ^ v.len2 :=
    get_bits_set_bits_same _ _ _ _
  rw [hgA, hgB]
  have hf1lt : f1 < 2 ^ v.shift := get_bits_lt _ _ _
  have hf2lt : f2 < 2 ^ v.len2 := get_bits_lt _ _ _
  -- first word
  have e1 : set_bits A v.boff v.shift
      (wtrunc (wtrunc (f1 + delta) % 2 ^ v.shift + wsub (wshl 1 a.offsets.val_len) delta))
      = m vw := by
    rw [hA, set_bits_set_bits]
    have hmod := rollback_low f1 delta (by omega : v.shift ≤ a.offsets.val_len) hn
    have : set_bits (m vw) v.boff v.shift
        (wtrunc (wtrunc (f1 + delta) % 2 ^ v.shift + wsub (wshl 1 a.offsets.val_len) delta))
        = set_bits (m vw) v.boff v.shift f1 := set_bits_congr _ _ _ hmod
    rw [this, hf1, set_bits_get_bits]
  -- second word
  have e2 : set_bits B 0 v.len2
      (wtrunc (wtrunc (f2 + wtrunc (f1 + delta) >>> v.shift) % 2 ^ v.len2 +
        wtrunc (wtrunc (f1 + delta) % 2 ^ v.shift + wsub (wshl 1 a.offsets.val_len) delta)
          >>> v.shift))
      = m (vw + 1) := by
    rw [hB, set_bits_set_bits]
    have hc := rollback_carries f1 delta hf1lt hsum hn
    have hl64 : v.len2 ≤ 64 := by omega
    have hmod : wtrunc (wtrunc (f2 + wtrunc (f1 + delta) >>> v.shift) % 2 ^ v.len2 +
        wtrunc (wtrunc (f1 + delta) % 2 ^ v.shift + wsub (wshl 1 a.offsets.val_len) delta)
          >>> v.shift) ≡ f2 [MOD 2 ^ v.len2] := by
      calc _ ≡ wtrunc (f2 + wtrunc (f1 + delta) >>> v.shift) % 2 ^ v.len2 +
            wtrunc (wtrunc (f1 + delta) % 2 ^ v.shift + wsub (wshl 1 a.offsets.val_len) delta)
              >>> v.shift [MOD 2 ^ v.len2] := wtrunc_modEq _ hl64
        _ ≡ (f2 + wtrunc (f1 + delta) >>> v.shift) +
            wtrunc (wtrunc (f1 + delta) % 2 ^ v.shift + wsub (wshl 1 a.offsets.val_len) delta)
              >>> v.shift [MOD 2 ^ v.len2] :=
          Nat.ModEq.add_right _ ((Nat.mod_modEq _ _).trans (wtrunc_modEq _ hl64))
        _ = f2 + (wtrunc (f1 + delta) >>> v.shift +
            wtrunc (wtrunc (f1 + delta) % 2 ^ v.shift + wsub (wshl 1 a.offsets.val_len) delta)
              >>> v.shift) := by omega
        _ ≡ f2 + 0 [MOD 2 ^ v.len2] := Nat.ModEq.add_left f2 hc
        _ = f2 := by simp
    have : set_bits (m (vw + 1)) 0 v.len2
        (wtrunc (wtrunc (f2 + wtrunc (f1 + delta) >>> v.shift) % 2 ^ v.len2 +
        wtrunc (wtrunc (f1 + delta) % 2 ^ v.shift + wsub (wshl 1 a.offsets.val_len) delta)
          >>> v.shift)) = set_bits (m (vw + 1)) 0 v.len2 f2 := set_bits_congr _ _ _ hmod
    rw [this, hf2, set_bits_get_bits]
  rw [e1, e2]
  funext j
  by_cases hj1 : j = vw + 1
  · rw [hj1, Mem.write_same]
  · rw [Mem.write_other _ _ hj1]
    by_cases hj0 : j = vw
    · rw [hj0, Mem.write_same]
    · rw [Mem.write_other _ _ hj0, Mem.write_other _ _ hj1, Mem.write_other _ _ hj0]

/-! ## Reachable states -/

theorem KeyEq.same (a : Ary) (m : Mem) : KeyEq a m m := fun _ _ => ⟨rfl, Iff.rfl, fun _ => rfl⟩

theorem KeyEq.parity {a : Ary} {m m2 : Mem} (h : KeyEq a m m2) {d : Nat} (hd : d < a.size) :
    key_at a m2 d % 2 = key_at a m d % 2 := by
  rw [← lkey_at_mod_two, ← lkey_at_mod_two, (h d hd).1]

theorem KeyEq.comp {a : Ary} {m m2 m3 : Mem} (h1 : KeyEq a m m2) (h2 : KeyEq a m2 m3) :
    KeyEq a m m3 := by
  intro d hd
  refine ⟨by rw [(h2 d hd).1, (h1 d hd).1], (h2 d hd).2.1.trans (h1 d hd).2.1, fun he => ?_⟩
  rw [(h2 d hd).2.2 (by rw [h1.parity hd]; exact he), (h1 d hd).2.2 he]

theorem KeyEq.to_keeps {a : Ary} {m m2 : Mem} (h : KeyEq a m m2) : Keeps a m m2 :=
  fun d hd => ⟨fun _ he => (h d hd).2.2 he, fun _ => (h d hd).1⟩

theorem keyeq_write2_val {a : Ary} (hwf : a.Valid) (m : Mem) {c : Nat} (hc : c < a.size)
    (x1 x2 : Nat) :
    KeyEq a m (write2 m (a.offsets.word_offset c).1 (a.offsets.word_offset c).2.1.val x1 x2) := by
  intro d hd
  have e := key_at_write2_val hwf m hc x1 x2 hd
  exact ⟨lkey_at_write2_val hwf m hc x1 x2 hd, by rw [e], fun _ => e⟩

theorem keyeq_write2_lval {a : Ary} (hwf : a.Valid) (m : Mem) {p : Nat} (hp : p < a.size)
    (hodd : key_at a m p % 2 = 1) (x1 x2 : Nat) :
    KeyEq a m (write2 m (a.offsets.word_offset p).1 (a.offsets.word_offset p).2.2.val x1 x2) := by
  intro d hd
  by_cases hpd : p = d
  · subst hpd
    have e := lkey_at_write2_lval hwf m hp x1 x2
    have hpar : key_at a (write2 m (a.offsets.word_offset p).1
        (a.offsets.word_offset p).2.2.val x1 x2) p % 2 = 1 := by
      rw [← lkey_at_mod_two, e, lkey_at_mod_two, hodd]
    refine ⟨e, ⟨fun h => ?_, fun h => ?_⟩, fun he => ?_⟩
    · rw [h] at hpar; simp at hpar
    · rw [h] at hodd; simp at hodd
    · omega
  · have e := key_at_write2_lval hwf m hp x1 x2 hd hpd
    exact ⟨(sameCell_write2_lval hwf m hp x1 x2 hd hpd).lkey_at (hwf.shape hd), by rw [e],
      fun _ => e⟩

theorem keyeq_add_val_val {a : Ary} (hwf : a.Valid) {m : Mem} (hm : TableOK a m) {c : Nat}
    (hc : c < a.size) (val : Nat) :
    KeyEq a m (add_val_field m (val_w a c) val (a.offsets.word_offset c).2.1.val).2 := by
  obtain ⟨x1, x2, e⟩ := add_val_field_write2 hm.1 (a.offsets.word_offset c).1 val
    (hwf.val_shape hc)
  unfold val_w
  rw [e]
  exact keyeq_write2_val hwf m hc _ _

theorem keyeq_sub_val_val {a : Ary} (hwf : a.Valid) {m : Mem} (hm : TableOK a m) {c : Nat}
    (hc : c < a.size) (val : Nat) :
    KeyEq a m (sub_val_field a m (val_w a c) val (a.offsets.word_offset c).2.1.val) := by
  obtain ⟨x1, x2, e⟩ := sub_val_field_write2 a hm.1 (a.offsets.word_offset c).1 val
    (hwf.val_shape hc)
  unfold val_w
  rw [e]
  exact keyeq_write2_val hwf m hc _ _

theorem keyeq_add_val_lval {a : Ary} (hwf : a.Valid) {m : Mem} (hm : TableOK a m) {p : Nat}
    (hp : p < a.size) (hodd : key_at a m p % 2 = 1) (val : Nat) :
    KeyEq a m (add_val_field m (lval_w a p) val (a.offsets.word_offset p).2.2.val).2 := by
  obtain ⟨x1, x2, e⟩ := add_val_field_write2 hm.1 (a.offsets.word_offset p).1 val
    (hwf.lval_shape hp)
  unfold lval_w
  rw [e]
  exact keyeq_write2_lval hwf m hp hodd _ _

theorem keyeq_sub_val_lval {a : Ary} (hwf : a.Valid) {m : Mem} (hm : TableOK a m) {p : Nat}
    (hp : p < a.size) (hodd : key_at a m p % 2 = 1) (val : Nat) :
    KeyEq a m (sub_val_field a m (lval_w a p) val (a.offsets.word_offset p).2.2.val) := by
  obtain ⟨x1, x2, e⟩ := sub_val_field_write2 a hm.1 (a.offsets.word_offset p).1 val
    (hwf.lval_shape hp)
  unfold lval_w
  rw [e]
  exact keyeq_write2_lval hwf m hp hodd _ _

theorem holds_congr {a : Ary} {m m2 : Mem} {c key r : Nat}
    (e : key_at a m2 c = key_at a m c) (h : holds a m c key r) :
    holds a m2 c key r := by
  unfold holds at *
  rw [e, h]

/-- The invariant survives stores into value fields. -/
theorem Inv.of_keyeq {a : Ary} {ks : List Nat} {m m2 : Mem} (hi : Inv a ks m)
    (he : KeyEq a m m2) (hm2 : TableOK a m2) : Inv a ks m2 := by
  obtain ⟨-, hp, hl⟩ := hi
  refine ⟨hm2, fun c hc h0 hev => ?_, fun s hs r hr hlc j hj => ?_⟩
  · have hev' : key_at a m c % 2 = 0 := by rw [← he.parity hc]; exact hev
    have h0' : key_at a m c ≠ 0 := fun h => h0 ((he c hc).2.1.2 h)
    have e := (he c hc).2.2 hev'
    obtain ⟨key, hk, r, hr, hcr, hh, hpre⟩ := hp c hc h0' hev'
    refine ⟨key, hk, r, hr, hcr, holds_congr e hh, fun j hj h => ?_⟩
    exact hpre j hj ((he _ (cand_lt a (slot_of_lt a key) j)).2.1.1 h)
  · intro h
    rw [(he _ (cand_lt a hs r)).1] at hlc
    exact hl s hs r hr hlc j hj ((he _ (cand_lt a hs j)).2.1.1 h)

theorem Inv.mono {a : Ary} {ks ks2 : List Nat} {m : Mem} (hi : Inv a ks m)
    (hsub : ∀ k, k ∈ ks → k ∈ ks2) : Inv a ks2 m := by
  obtain ⟨hm, hp, hl⟩ := hi
  refine ⟨hm, fun c hc h0 hev => ?_, hl⟩
  obtain ⟨key, hk, rest⟩ := hp c hc h0 hev
  exact ⟨key, hsub key hk, rest⟩

/-- Key fields after a store into the key field of the free slot `c0`. -/
theorem key_at_write_free {a : Ary} (hwf : a.Valid) (m : Mem) {c0 : Nat} (hc0 : c0 < a.size)
    {v : Nat} (hv : v < 2 ^ (a.klen + 1)) {d : Nat} (hd : d < a.size) :
    key_at a (key_store a m c0 v) d = if d = c0 then v else key_at a m d := by
  by_cases h : d = c0
  · subst h
    rw [if_pos rfl, key_at_key_store (hwf.shape hd), Nat.mod_eq_of_lt hv]
  · rw [if_neg h]
    exact (sameCell_key_store hwf m hc0 v hd (Ne.symm h)).key_at (hwf.shape hd)

/-- Large key fields of the other slots after a store into the key field of slot
`c0`. -/
theorem lkey_at_key_store_ne {a : Ary} (hwf : a.Valid) (m : Mem) {c0 : Nat} (hc0 : c0 < a.size)
    (v : Nat) {d : Nat} (hd : d < a.size) (h : d ≠ c0) :
    lkey_at a (key_store a m c0 v) d = lkey_at a m d :=
  (sameCell_key_store hwf m hc0 v hd (Ne.symm h)).lkey_at (hwf.shape hd)

/-- Key fields of the other slots after a store into the large key field of slot
`c0`. -/
theorem key_at_lkey_store_ne {a : Ary} (hwf : a.Valid) (m : Mem) {c0 : Nat} (hc0 : c0 < a.size)
    (v : Nat) {d : Nat} (hd : d < a.size) (h : d ≠ c0) :
    key_at a (lkey_store a m c0 v) d = key_at a m d :=
  (sameCell_lkey_store hwf m hc0 v hd (Ne.symm h)).key_at (hwf.shape hd)

theorem lkey_at_lkey_store_ne {a : Ary} (hwf : a.Valid) (m : Mem) {c0 : Nat}
    (hc0 : c0 < a.size) (v : Nat) {d : Nat} (hd : d < a.size) (h : d ≠ c0) :
    lkey_at a (lkey_store a m c0 v) d = lkey_at a m d :=
  (sameCell_lkey_store hwf m hc0 v hd (Ne.symm h)).lkey_at (hwf.shape hd)

theorem cand_inj {a : Ary} (hwf : a.Valid) {s s2 : Nat} (hs : s < a.size) (hs2 : s2 < a.size)
    {r : Nat} (h : cand a s r = cand a s2 r) : s = s2 := by
  unfold cand at h
  by_cases hr : r = 0
  · simpa [hr] using h
  · simp only [hr, if_false] at h
    have hL : a.lsize ≤ 64 := by have := hwf.1; omega
    rw [and_size_mask, and_size_mask] at h
    have h1 : s + a.reprobes r ≡ s2 + a.reprobes r [MOD 2 ^ a.lsize] := by
      have e1 : wtrunc (s + a.reprobes r) % 2 ^ a.lsize ≡ s + a.reprobes r [MOD 2 ^ a.lsize] :=
        (Nat.mod_modEq _ _).trans (wtrunc_modEq _ hL)
      have e2 : wtrunc (s2 + a.reprobes r) % 2 ^ a.lsize ≡ s2 + a.reprobes r [MOD 2 ^ a.lsize] :=
        (Nat.mod_modEq _ _).trans (wtrunc_modEq _ hL)
      exact (e1.symm.trans (by rw [h])).trans e2
    have h2 := Nat.ModEq.add_right_cancel' _ h1
    unfold Nat.ModEq at h2
    have e1 : s % 2 ^ a.lsize = s := Nat.mod_eq_of_lt hs
    have e2 : s2 % 2 ^ a.lsize = s2 := Nat.mod_eq_of_lt hs2
    rwa [e1, e2] at h2

theorem nxt_inj {a : Ary} (hwf : a.Valid) {q q2 : Nat} (hq : q < a.size) (hq2 : q2 < a.size)
    (h : nxt a q = nxt a q2) : q = q2 := by
  unfold nxt at h
  have hL : a.lsize ≤ 64 := by have := hwf.1; omega
  rw [and_size_mask, and_size_mask] at h
  have h1 : q + a.reprobes 0 ≡ q2 + a.reprobes 0 [MOD 2 ^ a.lsize] := by
    have e1 : wtrunc (q + a.reprobes 0) % 2 ^ a.lsize ≡ q + a.reprobes 0 [MOD 2 ^ a.lsize] :=
      (Nat.mod_modEq _ _).trans (wtrunc_modEq _ hL)
    have e2 : wtrunc (q2 + a.reprobes 0) % 2 ^ a.lsize ≡ q2 + a.reprobes 0 [MOD 2 ^ a.lsize] :=
      (Nat.mod_modEq _ _).trans (wtrunc_modEq _ hL)
    exact (e1.symm.trans (by rw [h])).trans e2
  have h2 := Nat.ModEq.add_right_cancel' _ h1
  unfold Nat.ModEq at h2
  have e1 : q % 2 ^ a.lsize = q := Nat.mod_eq_of_lt hq
  have e2 : q2 % 2 ^ a.lsize = q2 := Nat.mod_eq_of_lt hq2
  rwa [e1, e2] at h2

theorem fits_at_false_ne_zero {a : Ary} {m : Mem} {key id0 j : Nat}
    (h : fits_at a m key id0 j = false) : key_at a m (cand a id0 j) ≠ 0 := by
  intro h0
  rw [fits_at_of_free h0] at h
  exact absurd h (by decide)

theorem lfits_at_false_ne_zero {a : Ary} {m : Mem} {id0 j : Nat}
    (h : lfits_at a m id0 j = false) : key_at a m (cand a id0 j) ≠ 0 := by
  intro h0
  rw [lfits_at_of_free h0] at h
  exact absurd h (by decide)

/-- The invariant after a successful round `r` of `claim_key`. -/
theorem Inv.claim {a : Ary} (hwf : a.Valid) {ks : List Nat} {m : Mem} (hi : Inv a ks m)
    {key r : Nat}
    (hff : first_fit (fits_at a m key (slot_of a key)) a.reprobe_limit 0 = some r) :
    Inv a (key :: ks) (claim_mem a m key r) := by
  obtain ⟨hr, hm1, hk1, hh, hbefore⟩ := claim_mem_facts hwf hi.1 hff
  have hc0 := cand_lt a (slot_of_lt a key) r
  by_cases h0 : key_at a m (cand a (slot_of a key) r) = 0
  · have hv := two_mul_akey_lt (a := a) key (hwf.reprobe_fits hr)
    have hck : ∀ d, d < a.size → key_at a (claim_mem a m key r) d
        = if d = cand a (slot_of a key) r then 2 * akey_of a key r else key_at a m d := by
      intro d hd
      have := key_at_write_free hwf m hc0 hv hd
      simpa only [claim_mem, claim_key_result, if_pos h0] using this
    have hlk : ∀ d, d < a.size → d ≠ cand a (slot_of a key) r →
        lkey_at a (claim_mem a m key r) d = lkey_at a m d := by
      intro d hd hne
      have := lkey_at_key_store_ne hwf m hc0 (2 * akey_of a key r) hd hne
      simpa only [claim_mem, claim_key_result, if_pos h0] using this
    have hmono : ∀ d, d < a.size → key_at a m d ≠ 0 → key_at a (claim_mem a m key r) d ≠ 0 :=
      fun d hd => hk1.ne_zero hd
    obtain ⟨-, hp, hl⟩ := hi
    refine ⟨hm1, fun c hc hn hev => ?_, fun s hs r2 hr2 hlc j hj => ?_⟩
    · by_cases hcc : c = cand a (slot_of a key) r
      · refine ⟨key, List.mem_cons_self _ _, r, hr, hcc, by rw [hcc]; exact hh, fun j hj => ?_⟩
        exact hmono _ (cand_lt a (slot_of_lt a key) j) (fits_at_false_ne_zero (hbefore j hj))
      · rw [hck c hc, if_neg hcc] at hn hev
        obtain ⟨k0, hk0, r0, hr0, hcr0, hh0, hpre0⟩ := hp c hc hn hev
        refine ⟨k0, List.mem_cons_of_mem _ hk0, r0, hr0, hcr0,
          holds_congr (by rw [hck c hc, if_neg hcc]) hh0, fun j hj => ?_⟩
        exact hmono _ (cand_lt a (slot_of_lt a k0) j) (hpre0 j hj)
    · have hx := cand_lt a hs r2
      have hne : cand a s r2 ≠ cand a (slot_of a key) r := by
        intro e
        have hodd := lcell_odd hlc
        rw [hck _ hx, if_pos e] at hodd
        omega
      rw [hlk _ hx hne] at hlc
      exact hmono _ (cand_lt a hs j) (hl s hs r2 hr2 hlc j hj)
  · have e : claim_mem a m key r = m := by
      simp only [claim_mem, claim_key_result, if_neg h0]
    rw [e]
    exact hi.mono (fun k hk => List.mem_cons_of_mem _ hk)

/-- The invariant after a successful round `r` of `claim_large_key`. -/
theorem Inv.lclaim {a : Ary} (hwf : a.Valid) {ks : List Nat} {m : Mem} (hi : Inv a ks m)
    {q r : Nat}
    (hff : first_fit (lfits_at a m (nxt a q)) a.reprobe_limit 0 = some r) :
    Inv a ks (lclaim_mem a m q r) := by
  obtain ⟨hr, hm1, hk1, hh, hbefore⟩ := lclaim_mem_facts hwf hi.1 hff
  have hc0 := cand_lt a (nxt_lt a q) r
  by_cases h0 : key_at a m (cand a (nxt a q) r) = 0
  · have hck : ∀ d, d < a.size → d ≠ cand a (nxt a q) r →
        key_at a (lclaim_mem a m q r) d = key_at a m d := by
      intro d hd hne
      have := key_at_lkey_store_ne hwf m hc0 (1 + 2 * r) hd hne
      simpa only [lclaim_mem, claim_large_key_result, if_pos h0] using this
    have hlk : ∀ d, d < a.size → d ≠ cand a (nxt a q) r →
        lkey_at a (lclaim_mem a m q r) d = lkey_at a m d := by
      intro d hd hne
      have := lkey_at_lkey_store_ne hwf m hc0 (1 + 2 * r) hd hne
      simpa only [lclaim_mem, claim_large_key_result, if_pos h0] using this
    have hodd0 := lcell_odd hh
    have hmono : ∀ d, d < a.size → key_at a m d ≠ 0 → key_at a (lclaim_mem a m q r) d ≠ 0 :=
      fun d hd => hk1.ne_zero hd
    obtain ⟨-, hp, hl⟩ := hi
    refine ⟨hm1, fun c hc hn hev => ?_, fun s hs r2 hr2 hlc j hj => ?_⟩
    · have hcc : c ≠ cand a (nxt a q) r := by
        intro e
        rw [e] at hev
        omega
      rw [hck c hc hcc] at hn hev
      obtain ⟨k0, hk0, r0, hr0, hcr0, hh0, hpre0⟩ := hp c hc hn hev
      refine ⟨k0, hk0, r0, hr0, hcr0,
        holds_congr (hck c hc hcc) hh0, fun j hj => ?_⟩
      exact hmono _ (cand_lt a (slot_of_lt a k0) j) (hpre0 j hj)
    · have hx := cand_lt a hs r2
      by_cases hxe : cand a s r2 = cand a (nxt a q) r
      · rw [hxe, hh] at hlc
        have hrr : r2 = r := by omega
        subst hrr
        have hss : s = nxt a q := cand_inj hwf hs (nxt_lt a q) hxe
        subst hss
        exact hmono _ (cand_lt a hs j) (lfits_at_false_ne_zero (hbefore j hj))
      · rw [hlk _ hx hxe] at hlc
        exact hmono _ (cand_lt a hs j) (hl s hs r2 hr2 hlc j hj)
  · have e : lclaim_mem a m q r = m := by
      simp only [lclaim_mem, claim_large_key_result, if_neg h0]
    rw [e]
    exact hi

/-- The invariant survives every run of `add_rec` on the overflow chain. -/
theorem LRun.linv {a : Ary} (hwf : a.Valid) {ks : List Nat} {q val : Nat} {m m2 : Mem} {ok : Bool}
    (h : LRun a q val m m2 ok) : Inv a ks m → Inv a ks m2 := by
  induction h with
  | full hq hff => exact fun hi => hi
  | @done q val r m hq hff hc =>
    intro hi
    have hi1 := hi.lclaim hwf hff
    obtain ⟨hr, hm1, hk1, hl, -⟩ := lclaim_mem_facts hwf hi.1 hff
    have hp := cand_lt a (nxt_lt a q) r
    exact hi1.of_keyeq (keyeq_add_val_lval hwf hm1 hp (lcell_odd hl) val)
      (keeps_add_val_lval hwf hm1 hp (lcell_odd hl) val).1
  | @more q val r m m3 ok hq hff hc hsub ih =>
    intro hi
    have hi1 := hi.lclaim hwf hff
    obtain ⟨hr, hm1, hk1, hl, -⟩ := lclaim_mem_facts hwf hi.1 hff
    have hp := cand_lt a (nxt_lt a q) r
    obtain ⟨hm2, hk2⟩ := keeps_add_val_lval hwf hm1 hp (lcell_odd hl) val
    have hi2 := hi1.of_keyeq (keyeq_add_val_lval hwf hm1 hp (lcell_odd hl) val) hm2
    have hi3 := ih hi2
    obtain ⟨hm3, hk3⟩ := hsub.lkeeps hwf hm2
    have hodd3 := (hk2.trans hk3).odd hp (lcell_odd hl)
    by_cases hok : ok = true
    · simp only [hok, if_true]
      exact hi3
    · simp only [hok, if_false]
      exact hi3.of_keyeq (keyeq_sub_val_lval hwf hm3 hp hodd3 val)
        (keeps_sub_val_lval hwf hm3 hp hodd3 val).1

/-- The invariant survives every run of `add`; the key joins the claimed keys
when its primary claim succeeds. -/
theorem Run.inv {a : Ary} (hwf : a.Valid) {ks : List Nat} {key val : Nat} {m : Mem}
    {res : AddResult} (h : Run a key val m res) (hi : Inv a ks m) :
    Inv a (if (first_fit (fits_at a m key (slot_of a key)) a.reprobe_limit 0).isSome = true
      then key :: ks else ks) res.mem := by
  cases h with
  | full hff => simpa [hff] using hi
  | done hff hc =>
    rename_i r
    have hi1 := hi.claim hwf hff
    obtain ⟨hr, hm1, hk1, hl, -⟩ := claim_mem_facts hwf hi.1 hff
    have hp := cand_lt a (slot_of_lt a key) r
    simp only [hff, Option.isSome_some, if_true]
    exact hi1.of_keyeq (keyeq_add_val_val hwf hm1 hp val) (keeps_add_val_val hwf hm1 hp val).1
  | more hff hc hsub =>
    rename_i m3 r ok
    have hi1 := hi.claim hwf hff
    obtain ⟨hr, hm1, hk1, hl, -⟩ := claim_mem_facts hwf hi.1 hff
    have hp := cand_lt a (slot_of_lt a key) r
    obtain ⟨hm2, hk2⟩ := keeps_add_val_val hwf hm1 hp val
    have hi2 := hi1.of_keyeq (keyeq_add_val_val hwf hm1 hp val) hm2
    have hi3 := hsub.linv hwf hi2
    obtain ⟨hm3, hk3⟩ := hsub.lkeeps hwf hm2
    simp only [hff, Option.isSome_some, if_true]
    by_cases hok : ok = true
    · simp only [hok, if_true]
      exact hi3
    · simp only [hok, if_false]
      exact hi3.of_keyeq (keyeq_sub_val_val hwf hm3 hp val) (keeps_sub_val_val hwf hm3 hp val).1

/-- Method `set` on a sound table. -/
theorem set_eq {a : Ary} (hwf : a.Valid) {m : Mem} (hm : TableOK a m) (key : Nat) :
    set a m key =
      match first_fit (fits_at a m key (slot_of a key)) a.reprobe_limit 0 with
      | none => ⟨false, false, slot_of a key, m⟩
      | some r => ⟨true, decide (key_at a m (cand a (slot_of a key) r) = 0),
          cand a (slot_of a key) r, claim_mem a m key r⟩ := by
  unfold set
  simp only []
  rw [show a.hash_times key &&& a.size_mask = slot_of a key from rfl,
    claim_key_eq hwf hm key (slot_of_lt a key)]
  cases hff : first_fit (fits_at a m key (slot_of a key)) a.reprobe_limit 0 with
  | none => simp [claim_key_result]
  | some r => simp [claim_key_result, claim_mem]

theorem claim_key_isSome {a : Ary} (hwf : a.Valid) {m : Mem} (hm : TableOK a m) (key : Nat) :
    (claim_key a m key (slot_of a key)).1.isSome
      = (first_fit (fits_at a m key (slot_of a key)) a.reprobe_limit 0).isSome := by
  rw [claim_key_eq hwf hm key (slot_of_lt a key)]
  cases first_fit (fits_at a m key (slot_of a key)) a.reprobe_limit 0 <;> rfl

theorem clear_mem_key_at (a : Ary) (c : Nat) : key_at a clear_mem c = 0 := by
  apply Nat.eq_of_testBit_eq
  intro j
  rw [testBit_key_at]
  simp [clear_mem]

theorem clear_mem_lkey_at (a : Ary) (c : Nat) : lkey_at a clear_mem c = 0 := by
  apply Nat.eq_of_testBit_eq
  intro j
  rw [testBit_lkey_at]
  simp [clear_mem]

/-- The cleared table is sound. -/
theorem tableOK_clear (a : Ary) : TableOK a clear_mem := by
  refine ⟨clear_mem_ok, fun c _ => ⟨fun _ f _ => ?_, fun h => absurd (clear_mem_key_at a c) h,
    fun h => ?_⟩⟩
  · simp [clear_mem, get_bits]
  · rw [clear_mem_key_at] at h; simp at h

/-- Every reachable state satisfies the invariant. -/
theorem Reach.rinv {a : Ary} (hwf : a.Valid) {ks : List Nat} {m : Mem} (h : Reach a ks m) :
    Inv a ks m := by
  induction h with
  | clear =>
    refine ⟨tableOK_clear a, fun c _ h0 _ => absurd (clear_mem_key_at a c) h0,
      fun s _ r _ hl => ?_⟩
    rw [clear_mem_lkey_at] at hl
    omega
  | add hreach hkey hadd ih =>
    have := (add_run hwf ih.1 hadd).inv hwf ih
    rwa [← claim_key_isSome hwf ih.1] at this
  | set hreach hkey ih =>
    rename_i ks m key
    rw [claim_key_isSome hwf ih.1, set_eq hwf ih.1]
    cases hff : first_fit (fits_at a m key (slot_of a key)) a.reprobe_limit 0 with
    | none => simpa using ih
    | some r => simpa using ih.claim hwf hff

theorem akey_of_congr {a : Ary} {k1 k2 : Nat}
    (h : get_bits k1 a.lsize a.raw_key_len = get_bits k2 a.lsize a.raw_key_len) (r : Nat) :
    akey_of a k1 r = akey_of a k2 r := by
  unfold akey_of
  rw [h]

/-- What `get_key_at_id` decodes from a FILLED cell does not depend on the key
passed in, as far as the bits `[0, key_len)` go. -/
theorem get_key_at_id_filled {a : Ary} (hwf : a.Valid) {m : Mem} (hm : TableOK a m) {c : Nat}
    (hc : c < a.size) (tmp : Nat) (hf : (get_key_at_id a m c tmp).1 = key_status.FILLED) :
    get_bits (get_key_at_id a m c tmp).2.1 a.lsize a.raw_key_len
        = (key_at a m c / 2) >>> a.offsets.reprobe_len ∧
      get_bits (get_key_at_id a m c tmp).2.1 0 a.lsize
        = (if (key_at a m c / 2) % 2 ^ a.offsets.reprobe_len > 1 then
            wsub c (a.reprobes ((key_at a m c / 2) % 2 ^ a.offsets.reprobe_len - 1))
          else c) &&& a.size_mask := by
  obtain ⟨hev, h0⟩ := (status_filled_iff hwf hm hc tmp).1 hf
  have hne : ¬ key_at a m c % 2 = 1 := by omega
  rw [get_key_at_id_eq hwf hc (hm.2 c hc)]
  simp only [if_neg hne, if_neg h0]
  have hlt : (key_at a m c / 2) >>> a.offsets.reprobe_len < 2 ^ a.raw_key_len := by
    have h1 := key_at_lt (hwf.shape hc) m
    rw [Nat.shiftRight_eq_div_pow]
    apply Nat.div_lt_of_lt_mul
    have : (2:Nat) ^ (a.klen + 1) = 2 * (2 ^ a.offsets.reprobe_len * 2 ^ a.raw_key_len) := by
      unfold Ary.klen
      rw [pow_succ, pow_add]; ring
    omega
  refine ⟨get_bits_decoded_high _ _ _ _ _ hlt, ?_⟩
  rw [get_bits_set_bits_same, and_size_mask, Nat.mod_mod]

theorem Reach.keys_lt {a : Ary} {ks : List Nat} {m : Mem} (h : Reach a ks m) :
    ∀ k, k ∈ ks → k < 2 ^ a.key_len := by
  induction h with
  | clear => intro k hk; simp at hk
  | add _ hkey _ ih =>
    intro k hk
    split_ifs at hk
    · rcases List.mem_cons.1 hk with h | h
      · rw [h]; exact hkey
      · exact ih k h
    · exact ih k hk
  | set _ hkey ih =>
    intro k hk
    split_ifs at hk
    · rcases List.mem_cons.1 hk with h | h
      · rw [h]; exact hkey
      · exact ih k h
    · exact ih k hk

/-- Under the invariant a key held by some primary cell sits at one of its own
candidates, all earlier candidates being occupied, and some claimed key has the
same stored bits and hashed slot. -/
theorem HeldBy.at_cand {a : Ary} (hwf : a.Valid) {ks : List Nat} {m : Mem} (hi : Inv a ks m)
    {key : Nat} (h : HeldBy a m key) :
    ∃ r, r ≤ a.reprobe_limit ∧ holds a m (cand a (slot_of a key) r) key r ∧
      (∀ j, j < r → key_at a m (cand a (slot_of a key) j) ≠ 0) ∧
      ∃ k0, k0 ∈ ks ∧ get_bits k0 a.lsize a.raw_key_len = get_bits key a.lsize a.raw_key_len ∧
        slot_of a k0 = slot_of a key := by
  obtain ⟨c, hc, hf, hhi, hlo⟩ := h
  obtain ⟨hev, h0⟩ := (status_filled_iff hwf hi.1 hc 0).1 hf
  obtain ⟨k0, hk0, r, hr, hcr, hh, hpre⟩ := hi.2.1 c hc h0 hev
  have hdec := get_key_at_id_holds hwf hi.1 (slot_of_lt a k0) hr (by rw [← hcr]; exact hh) 0
  rw [← hcr] at hdec
  rw [hdec] at hhi hlo
  simp only [] at hhi hlo
  rw [get_bits_decoded_high _ _ _ _ _ (get_bits_lt _ _ _)] at hhi
  rw [get_bits_decoded_low _ _ _ (slot_of_lt a k0)] at hlo
  refine ⟨r, hr, ?_, ?_, k0, hk0, hhi, hlo⟩
  · rw [← hlo, ← hcr]
    unfold holds at *
    rw [hh, akey_of_congr hhi]
  · rw [← hlo]; exact hpre

/-- A primary cell at a candidate of the key that holds the key witnesses
`HeldBy`. -/
theorem HeldBy.of_holds {a : Ary} (hwf : a.Valid) {m : Mem} (hm : TableOK a m) {key r : Nat}
    (hr : r ≤ a.reprobe_limit) (h : holds a m (cand a (slot_of a key) r) key r) :
    HeldBy a m key := by
  refine ⟨cand a (slot_of a key) r, cand_lt a (slot_of_lt a key) r, ?_⟩
  rw [get_key_at_id_holds hwf hm (slot_of_lt a key) hr h 0]
  exact ⟨rfl, get_bits_decoded_high _ _ _ _ _ (get_bits_lt _ _ _),
    get_bits_decoded_low _ _ _ (slot_of_lt a key)⟩

/-- The first successful round of `claim_key` finds its candidate free exactly
when no primary cell holds the key. -/
theorem free_iff_not_held {a : Ary} (hwf : a.Valid) {ks : List Nat} {m : Mem} (hi : Inv a ks m)
    {key r : Nat}
    (hff : first_fit (fits_at a m key (slot_of a key)) a.reprobe_limit 0 = some r) :
    key_at a m (cand a (slot_of a key) r) = 0 ↔ ¬ HeldBy a m key := by
  obtain ⟨-, hr, hp, hbefore⟩ := first_fit_some hff
  have hr' : r ≤ a.reprobe_limit := by omega
  constructor
  · intro h0 hheld
    obtain ⟨r0, hr0, hh0, hpre0, -⟩ := hheld.at_cand hwf hi
    rcases Nat.lt_trichotomy r0 r with hlt | heq | hgt
    · have := hbefore r0 (Nat.zero_le _) hlt
      rw [fits_at_of_holds hh0] at this
      exact absurd this (by decide)
    · subst heq
      exact holds_ne_zero hwf hr0 hh0 h0
    · exact hpre0 r hgt h0
  · intro hnot
    by_contra h0
    have : fits_at a m key (slot_of a key) r = true := hp
    simp only [fits_at, decide_eq_true_eq] at this
    rcases this with h | h
    · exact h0 h
    · exact hnot (HeldBy.of_holds hwf hi.1 hr' h)

theorem HeldBy.persists {a : Ary} (hwf : a.Valid) {ks : List Nat} {m m2 : Mem} (hi : Inv a ks m)
    (hk : Keeps a m m2) (hm2 : TableOK a m2) {key : Nat} (h : HeldBy a m key) :
    HeldBy a m2 key := by
  obtain ⟨r, hr, hh, -, -⟩ := h.at_cand hwf hi
  exact HeldBy.of_holds hwf hm2 hr
    (holds_of_keeps hwf hk (cand_lt a (slot_of_lt a key) r) hr hh)

/-- When the loop of `get_key_id` returns true, some primary cell holds the
key. -/
theorem get_key_id_loop_some {a : Ary} (hwf : a.Valid) {m : Mem} (hm : TableOK a m) (key : Nat) :
    ∀ left reprobe cid tmp, cid < a.size →
      (get_key_id_loop a m key (slot_of a key) left reprobe cid tmp).1.isSome = true →
      HeldBy a m key := by
  intro left
  induction left with
  | zero => intro reprobe cid tmp _ h; simp [get_key_id_loop] at h
  | succ n ih =>
    intro reprobe cid tmp hcid h
    have hnext : ∀ t, (get_key_id_loop a m key (slot_of a key) n (reprobe + 1)
        (wtrunc (slot_of a key + a.reprobes (reprobe + 1)) &&& a.size_mask) t).1.isSome = true →
        HeldBy a m key := by
      intro t ht
      refine ih _ _ t ?_ ht
      have := cand_lt a (slot_of_lt a key) (reprobe + 1)
      rwa [cand_succ] at this
    unfold get_key_id_loop at h
    simp only [] at h
    cases hst : (get_key_at_id a m cid tmp).1 with
    | EMPTY => rw [hst] at h; simp at h
    | LBSET => rw [hst] at h; exact hnext _ h
    | FILLED =>
      rw [hst] at h
      simp only [] at h
      by_cases h1 : slot_of a key ≠ get_bits (get_key_at_id a m cid tmp).2.1 0 a.lsize
      · rw [if_pos h1] at h; exact hnext _ h
      · rw [if_neg h1] at h
        by_cases h2 : set_bits (get_key_at_id a m cid tmp).2.1 0 a.lsize
            (get_bits key 0 a.lsize) ≠ key
        · rw [if_pos h2] at h; exact hnext _ h
        · have h1' : slot_of a key = get_bits (get_key_at_id a m cid tmp).2.1 0 a.lsize := by
            by_contra hc; exact h1 hc
          have h2' : set_bits (get_key_at_id a m cid tmp).2.1 0 a.lsize
              (get_bits key 0 a.lsize) = key := by
            by_contra hc; exact h2 hc
          obtain ⟨e1, e2⟩ := get_key_at_id_filled hwf hm hcid tmp hst
          have hst0 : (get_key_at_id a m cid 0).1 = key_status.FILLED := by
            rw [status_eq hwf hm hcid] at hst ⊢; exact hst
          obtain ⟨f1, f2⟩ := get_key_at_id_filled hwf hm hcid 0 hst0
          refine ⟨cid, hcid, hst0, ?_, ?_⟩
          · rw [f1, ← e1]
            have := congrArg (fun k => get_bits k a.lsize a.raw_key_len) h2'
            simp only [] at this
            rw [get_bits_set_bits_apart _ _ _ _ _ _ (Or.inl (by omega))] at this
            exact this
          · rw [f2, ← e2, ← h1']

/-- A key that no call claimed a primary cell for is not found by the loop of
`get_key_id`. -/
theorem get_key_id_tmp_none {a : Ary} (hwf : a.Valid) (hinj : HashInj a) {ks : List Nat} {m : Mem}
    (hreach : Reach a ks m) {key : Nat} (hkey : key < 2 ^ a.key_len) (hnot : key ∉ ks) :
    (get_key_id_tmp a m key 0).1 = none := by
  cases h : (get_key_id_tmp a m key 0).1 with
  | none => rfl
  | some x =>
    exfalso
    have hsome : (get_key_id_loop a m key (slot_of a key) a.reprobe_limit 0 (slot_of a key)
        0).1.isSome = true := by
      have : (get_key_id_tmp a m key 0).1.isSome = true := by rw [h]; rfl
      exact this
    have hheld := get_key_id_loop_some hwf (hreach.rinv hwf).1 key _ _ _ _ (slot_of_lt a key)
      hsome
    obtain ⟨r, -, -, -, k0, hk0, hhi, hlo⟩ := hheld.at_cand hwf (hreach.rinv hwf)
    have := hinj k0 (hreach.keys_lt k0 hk0) key hkey hhi hlo
    exact hnot (this ▸ hk0)

theorem small_ary_hash_inj : HashInj small_ary := by
  decide

theorem LRun.of_full {a : Ary} {q val : Nat} {m m2 : Mem} {ok : Bool} (h : LRun a q val m m2 ok)
    (hff : first_fit (lfits_at a m (nxt a q)) a.reprobe_limit 0 = none) :
    m2 = m ∧ ok = false := by
  cases h with
  | full _ _ => exact ⟨rfl, rfl⟩
  | done _ hff2 _ => rw [hff] at hff2; exact absurd hff2 (by simp)
  | more _ hff2 _ _ => rw [hff] at hff2; exact absurd hff2 (by simp)

theorem claim_large_key_none_iff {a : Ary} (hwf : a.Valid) {m : Mem} (hm : TableOK a m)
    {id0 : Nat} (hid : id0 < a.size) :
    (claim_large_key a m id0).1 = none ↔
      first_fit (lfits_at a m id0) a.reprobe_limit 0 = none := by
  rw [claim_large_key_eq hwf hm hid]
  cases first_fit (lfits_at a m id0) a.reprobe_limit 0 <;> simp [claim_large_key_result]

/-- The reprobe distance that `resolve_val_rec` reads from a continuation
cell. -/
theorem lkey_read_eq {a : Ary} {cid : Nat} (hs : SlotShape a cid)
    (hrl : a.offsets.reprobe_len ≤ 63) (m : Mem) :
    (if (a.offsets.word_offset cid).2.2.key.sb_mask1 ≠ 0 then
        (((m (cell_kw a cid) &&& (a.offsets.word_offset cid).2.2.key.mask1) &&&
            wnot (a.offsets.word_offset cid).2.2.key.sb_mask1) >>>
          (a.offsets.word_offset cid).2.2.key.boff) |||
          wshl ((m (cell_kw a cid + 1) &&& (a.offsets.word_offset cid).2.2.key.mask2) &&&
            wnot (a.offsets.word_offset cid).2.2.key.sb_mask2)
            (a.offsets.word_offset cid).2.2.key.shift
      else
        (m (cell_kw a cid) &&& (a.offsets.word_offset cid).2.2.key.mask1) >>>
          (a.offsets.word_offset cid).2.2.key.boff) = lkey_at a m cid / 2 := by
  by_cases hl0 : (a.offsets.word_offset cid).2.2.key.sb_mask1 = 0
  · obtain ⟨hkb, hlm1, -, -⟩ := hs.lone hl0
    rw [if_neg (by simpa using hl0), hlm1, hs.lboff, and_field_mask_shiftRight_add,
      Nat.shiftRight_eq_div_pow, pow_one, lkey_at_one hs hl0]
  · obtain ⟨h0, hlsb1, hn1, hlsh, hlrem, hlsum, hlm1, hlsb2, hlm2⟩ := hs.lsplit hl0
    obtain ⟨-, hkb, -, -, -, hrem, hsum⟩ := hs.split h0
    rw [if_pos hl0, hlm1, hlsb1, hs.lboff, hlm2, hlsb2, hlsh]
    apply Nat.eq_of_testBit_eq
    intro i
    rw [Nat.testBit_or, testBit_kreprobe0 (by omega : cell_kb a cid + lkey_n1 a cid = 62),
      testBit_wshl, ← Nat.testBit_succ, testBit_lkey_at]
    simp only [Nat.testBit_and, testBit_field_mask, testBit_wnot, Nat.testBit_two_pow]
    by_cases hi : i < lkey_n1 a cid
    · have c1 : i + 1 ≤ lkey_n1 a cid := by omega
      have c2 : ¬ lkey_n1 a cid ≤ i := by omega
      have c3 : cell_kb a cid + 1 + i = cell_kb a cid + (i + 1) := by omega
      simp [hi, c1, c2, c3]
    · have c1 : ¬ i + 1 ≤ lkey_n1 a cid := by omega
      have c2 : lkey_n1 a cid ≤ i := by omega
      have c3 : i + 1 - (lkey_n1 a cid + 1) = i - lkey_n1 a cid := by omega
      rw [if_neg c1, c3]
      by_cases h2 : i - lkey_n1 a cid < lkey_rem a cid
      · have c4 : i < 64 := by omega
        have c5 : 0 ≤ i - lkey_n1 a cid ∧ i - lkey_n1 a cid < 0 + (lkey_rem a cid + 1) := by
          omega
        have c6 : i - lkey_n1 a cid < 64 := by omega
        have c7 : ¬ lkey_rem a cid = i - lkey_n1 a cid := by omega
        simp [hi, c2, h2, c4, c5, c6, c7]
        intros; omega
      · by_cases h3 : lkey_rem a cid = i - lkey_n1 a cid
        · have c6 : i - lkey_n1 a cid < 64 := by omega
          simp [hi, h2, ← h3, c6]
          intros; omega
        · have c5 : ¬ (0 ≤ i - lkey_n1 a cid ∧ i - lkey_n1 a cid < 0 + (lkey_rem a cid + 1)) := by
            omega
          simp [hi, h2, c5]
          intros; omega

/-- The test of `resolve_val_rec` for a free cell in a whole cell. -/
theorem key_mask1_eq_zero_iff {a : Ary} {cid : Nat} (hs : SlotShape a cid) {m : Mem}
    (hc : Coh a m cid) :
    m (cell_kw a cid) &&& (a.offsets.word_offset cid).2.1.key.mask1 = 0 ↔
      key_at a m cid = 0 := by
  by_cases h0 : (a.offsets.word_offset cid).2.1.key.sb_mask1 = 0
  · rw [(hs.one h0).2.1, and_field_mask_eq_zero, key_at_one hs h0]
  · rw [(hs.split h0).2.2.2.1, and_field_mask_eq_zero]
    exact first_eq_zero_iff hs h0 hc


/-! ## Frame of add on the other keys -/

theorem SameCell.srefl (a : Ary) (m : Mem) (y : Nat) : SameCell a m m y := fun _ _ => rfl

theorem SameCell.scomp {a : Ary} {m m2 m3 : Mem} {y : Nat} (h1 : SameCell a m m2 y)
    (h2 : SameCell a m2 m3 y) : SameCell a m m3 y := fun f hf => (h2 f hf).trans (h1 f hf)

theorem sameCell_add_val_lval {a : Ary} (hwf : a.Valid) {m : Mem} (hm : TableOK a m) {x y : Nat}
    (hx : x < a.size) (hy : y < a.size) (hne : x ≠ y) (val : Nat) :
    SameCell a m (add_val_field m (lval_w a x) val (a.offsets.word_offset x).2.2.val).2 y := by
  obtain ⟨x1, x2, e⟩ := add_val_field_write2 hm.1 (a.offsets.word_offset x).1 val
    (hwf.lval_shape hx)
  unfold lval_w
  rw [e]
  exact sameCell_write2_lval hwf m hx _ _ hy hne

theorem sameCell_sub_val_lval {a : Ary} (hwf : a.Valid) {m : Mem} (hm : TableOK a m) {x y : Nat}
    (hx : x < a.size) (hy : y < a.size) (hne : x ≠ y) (val : Nat) :
    SameCell a m (sub_val_field a m (lval_w a x) val (a.offsets.word_offset x).2.2.val) y := by
  obtain ⟨x1, x2, e⟩ := sub_val_field_write2 a hm.1 (a.offsets.word_offset x).1 val
    (hwf.lval_shape hx)
  unfold lval_w
  rw [e]
  exact sameCell_write2_lval hwf m hx _ _ hy hne

theorem sameCell_add_val_val {a : Ary} (hwf : a.Valid) {m : Mem} (hm : TableOK a m) {x y : Nat}
    (hx : x < a.size) (hy : y < a.size) (hne : x ≠ y) (val : Nat) :
    SameCell a m (add_val_field m (val_w a x) val (a.offsets.word_offset x).2.1.val).2 y := by
  obtain ⟨x1, x2, e⟩ := add_val_field_write2 hm.1 (a.offsets.word_offset x).1 val
    (hwf.val_shape hx)
  unfold val_w
  rw [e]
  exact sameCell_write2_val hwf m hx _ _ hy hne

theorem sameCell_sub_val_val {a : Ary} (hwf : a.Valid) {m : Mem} (hm : TableOK a m) {x y : Nat}
    (hx : x < a.size) (hy : y < a.size) (hne : x ≠ y) (val : Nat) :
    SameCell a m (sub_val_field a m (val_w a x) val (a.offsets.word_offset x).2.1.val) y := by
  obtain ⟨x1, x2, e⟩ := sub_val_field_write2 a hm.1 (a.offsets.word_offset x).1 val
    (hwf.val_shape hx)
  unfold val_w
  rw [e]
  exact sameCell_write2_val hwf m hx _ _ hy hne

theorem sameCell_lclaim_mem {a : Ary} (hwf : a.Valid) (m : Mem) {q r y : Nat}
    (hy : y < a.size) (hne : cand a (nxt a q) r ≠ y) :
    SameCell a m (lclaim_mem a m q r) y := by
  unfold lclaim_mem claim_large_key_result
  simp only []
  split_ifs
  · exact sameCell_lkey_store hwf m (cand_lt a (nxt_lt a q) r) _ hy hne
  · exact SameCell.srefl a m y

theorem sameCell_claim_mem {a : Ary} (hwf : a.Valid) (m : Mem) {key r y : Nat}
    (hy : y < a.size) (hne : cand a (slot_of a key) r ≠ y) :
    SameCell a m (claim_mem a m key r) y := by
  unfold claim_mem claim_key_result
  simp only []
  split_ifs
  · exact sameCell_key_store hwf m (cand_lt a (slot_of_lt a key) r) _ hy hne
  · exact SameCell.srefl a m y

/-- A run of `add_rec` on the overflow chain of slot `q` touches only slots that
any later memory counts as continuation cells below `q`. -/
theorem LRun.lframe {a : Ary} (hwf : a.Valid) {q val : Nat} {m m2 : Mem} {ok : Bool}
    (h : LRun a q val m m2 ok) : TableOK a m → ∀ (T : Nat → Prop) (ms : Mem), Keeps a m2 ms →
      (∀ p r, T p → r ≤ a.reprobe_limit → lkey_at a ms (cand a (nxt a p) r) = 1 + 2 * r →
        T (cand a (nxt a p) r)) →
      T q → ∀ y, y < a.size → ¬ T y → SameCell a m m2 y := by
  induction h with
  | full hq hff => exact fun _ _ _ _ _ _ y _ _ => SameCell.srefl a _ y
  | @done q val r m hq hff hc =>
    intro hm T ms hks hT hTq y hy hnT
    obtain ⟨hr, hm1, hk1, hl, -⟩ := lclaim_mem_facts hwf hm hff
    have hp := cand_lt a (nxt_lt a q) r
    obtain ⟨hm2, hk2⟩ := keeps_add_val_lval hwf hm1 hp (lcell_odd hl) val
    have hl2 : lkey_at a ms (cand a (nxt a q) r) = 1 + 2 * r := by
      rw [((hk2.trans hks) _ hp).2 (lcell_odd hl), hl]
    have hne : cand a (nxt a q) r ≠ y := fun e => hnT (e ▸ hT q r hTq hr hl2)
    exact (sameCell_lclaim_mem hwf m hy hne).scomp (sameCell_add_val_lval hwf hm1 hp hy hne val)
  | @more q val r m m3 ok hq hff hc hsub ih =>
    intro hm T ms hks hT hTq y hy hnT
    obtain ⟨hr, hm1, hk1, hl, -⟩ := lclaim_mem_facts hwf hm hff
    have hp := cand_lt a (nxt_lt a q) r
    obtain ⟨hm2, hk2⟩ := keeps_add_val_lval hwf hm1 hp (lcell_odd hl) val
    obtain ⟨hm3, hk3⟩ := hsub.lkeeps hwf hm2
    have hodd3 := (hk2.trans hk3).odd hp (lcell_odd hl)
    have hk4 : Keeps a m3 (if ok = true then m3
        else sub_val_field a m3 (lval_w a (cand a (nxt a q) r)) val
          (a.offsets.word_offset (cand a (nxt a q) r)).2.2.val) := by
      by_cases hok : ok = true
      · simp only [hok, if_true]; exact Keeps.refl a _
      · simp only [hok, if_false]; exact (keeps_sub_val_lval hwf hm3 hp hodd3 val).2
    have hl2 : lkey_at a ms (cand a (nxt a q) r) = 1 + 2 * r := by
      rw [((((hk2.trans hk3).trans hk4).trans hks) _ hp).2 (lcell_odd hl), hl]
    have hTx := hT q r hTq hr hl2
    have hne : cand a (nxt a q) r ≠ y := fun e => hnT (e ▸ hTx)
    have s1 := (sameCell_lclaim_mem hwf m hy hne).scomp
      (sameCell_add_val_lval hwf hm1 hp hy hne val)
    have s2 := ih hm2 T ms (hk4.trans hks) hT hTx y hy hnT
    by_cases hok : ok = true
    · simp only [hok, if_true]
      exact s1.scomp s2
    · simp only [hok, if_false]
      exact (s1.scomp s2).scomp (sameCell_sub_val_lval hwf hm3 hp hy hne val)

/-- A run of `add` touches only the slots of the overflow chain of the primary
cell, as the final memory shows it. -/
theorem Run.frame {a : Ary} (hwf : a.Valid) {key val : Nat} {m : Mem} {res : AddResult}
    (h : Run a key val m res) (hm : TableOK a m) {r : Nat}
    (hff : first_fit (fits_at a m key (slot_of a key)) a.reprobe_limit 0 = some r)
    {y : Nat} (hy : y < a.size) (hnT : ¬ Chain a res.mem (cand a (slot_of a key) r) y) :
    SameCell a m res.mem y := by
  have hne : cand a (slot_of a key) r ≠ y := fun e => hnT (e ▸ Chain.root)
  have hp := cand_lt a (slot_of_lt a key) r
  obtain ⟨hr, hm1, hk1, hl, -⟩ := claim_mem_facts hwf hm hff
  obtain ⟨hm2, hk2⟩ := keeps_add_val_val hwf hm1 hp val
  have s1 := (sameCell_claim_mem hwf m hy hne).scomp (sameCell_add_val_val hwf hm1 hp hy hne val)
  cases h with
  | full hff2 => rw [hff2] at hff; cases hff
  | done hff2 hc =>
    rw [hff2] at hff; cases hff
    exact s1
  | more hff2 hc hsub =>
    rename_i m3 r2 ok
    rw [hff2] at hff; cases hff
    obtain ⟨hm3, hk3⟩ := hsub.lkeeps hwf hm2
    by_cases hok : ok = true
    · simp only [hok, if_true] at hnT ⊢
      exact s1.scomp (hsub.lframe hwf hm2 _ m3 (Keeps.refl a _)
        (fun p r hp hr hl => Chain.child hp hr hl) Chain.root y hy hnT)
    · simp only [hok, if_false] at hnT ⊢
      have hk4 := (keeps_sub_val_val hwf hm3 hp val).2
      exact (s1.scomp (hsub.lframe hwf hm2 _ _ hk4
        (fun p r hp hr hl => Chain.child hp hr hl) Chain.root y hy hnT)).scomp
        (sameCell_sub_val_val hwf hm3 hp hy hne val)

theorem wshl_zero (s : Nat) : wshl 0 s = 0 := by simp [wshl]

/-- The value that the source reads from a value field is `val_read`. -/
theorem val_read_eq (m : Mem) (w : Nat) {v : ValOffsets} {n : Nat} (hv : ValShape v n) :
    (if v.mask2 ≠ 0 then
        ((m (w + v.woff) &&& v.mask1) >>> v.boff) |||
          wshl (m (w + v.woff + 1) &&& v.mask2) v.shift
      else (m (w + v.woff) &&& v.mask1) >>> v.boff) = val_read m w v := by
  unfold val_read
  rw [hv.1, and_field_mask_shiftRight]
  by_cases h2 : v.mask2 = 0
  · have hl : v.len2 = 0 := by simp [ValOffsets.len2, h2]
    have h0 : get_bits (m (w + v.woff + 1)) 0 0 = 0 := by simp [get_bits, Nat.mod_one]
    simp only [h2, ne_eq, not_true_eq_false, if_false, hl, h0, wshl_zero, Nat.or_zero]
  · rw [if_pos h2]
    have e : m (w + v.woff + 1) &&& v.mask2 = get_bits (m (w + v.woff + 1)) 0 v.len2 := by
      rw [hv.2.2.1, and_field_mask, Nat.shiftLeft_zero]
    rw [e]

theorem sameCell_key_at {a : Ary} (hwf : a.Valid) {m m2 : Mem} {y : Nat} (hy : y < a.size)
    (h : SameCell a m m2 y) : key_at a m2 y = key_at a m y := h.key_at (hwf.shape hy)

theorem sameCell_lkey_at {a : Ary} (hwf : a.Valid) {m m2 : Mem} {y : Nat} (hy : y < a.size)
    (h : SameCell a m m2 y) : lkey_at a m2 y = lkey_at a m y := h.lkey_at (hwf.shape hy)

theorem sameCell_val_read {a : Ary} {m m2 : Mem} {y : Nat} (h : SameCell a m m2 y) :
    val_read m2 (a.offsets.word_offset y).1 (a.offsets.word_offset y).2.1.val
      = val_read m (a.offsets.word_offset y).1 (a.offsets.word_offset y).2.1.val := by
  have h1 := h _ (val_fld1_mem a y)
  have h2 := h _ (val_fld2_mem a y)
  simp only [val_fld1, val_fld2] at h1 h2
  unfold val_read
  rw [h1, h2]

theorem sameCell_lval_read {a : Ary} {m m2 : Mem} {y : Nat} (h : SameCell a m m2 y) :
    val_read m2 (a.offsets.word_offset y).1 (a.offsets.word_offset y).2.2.val
      = val_read m (a.offsets.word_offset y).1 (a.offsets.word_offset y).2.2.val := by
  have h1 := h _ (lval_fld1_mem a y)
  have h2 := h _ (lval_fld2_mem a y)
  simp only [val_fld1, val_fld2] at h1 h2
  unfold val_read
  rw [h1, h2]

/-- One round of the loop of `resolve_val_rec` on a whole cell. -/
theorem resolve_val_loop_eq {a : Ary} (hwf : a.Valid) {m : Mem} (hm : TableOK a m)
    (carry_bit : Bool)
    (next : Nat → Nat → Nat → Option Nat) (id val overflows left reprobe : Nat) {cid : Nat}
    (hc : cid < a.size) :
    resolve_val_loop a m carry_bit next id val overflows (left + 1) reprobe cid =
      if key_at a m cid % 2 = 1 then
        if lkey_at a m cid = 1 + 2 * reprobe then
          resolve_hit a carry_bit next cid val overflows
            (val_read m (a.offsets.word_offset cid).1 (a.offsets.word_offset cid).2.2.val)
        else
          resolve_val_loop a m carry_bit next id val overflows left (reprobe + 1)
            (wtrunc (id + a.reprobes (reprobe + 1)) &&& a.size_mask)
      else if key_at a m cid = 0 then some val
      else
        resolve_val_loop a m carry_bit next id val overflows left (reprobe + 1)
          (wtrunc (id + a.reprobes (reprobe + 1)) &&& a.size_mask) := by
  have hs := hwf.shape hc
  have e1 : get_bits (m (cell_kw a cid)) (cell_kb a cid) 1 = key_at a m cid % 2 :=
    (key_at_mod_two a m cid).symm
  have e2 := lkey_read_eq hs hwf.2.2.1 m
  have e3 := key_mask1_eq_zero_iff hs (hm.2 cid hc)
  have hv := val_read_eq m (a.offsets.word_offset cid).1 (hwf.lval_shape hc)
  have hpar := lkey_at_mod_two a m cid
  simp only [cell_kw] at e1 e2 e3
  rw [resolve_val_loop]
  simp only [hs.llb, ne_eq, e2, e3, and_field_mask_eq_zero, e1, hv]
  by_cases hodd : key_at a m cid % 2 = 1
  · have hiff : (lkey_at a m cid / 2 = reprobe) = (lkey_at a m cid = 1 + 2 * reprobe) :=
      propext ⟨fun h => by omega, fun h => by omega⟩
    simp [hodd, hiff, resolve_hit]
  · have he : key_at a m cid % 2 = 0 := by omega
    simp [he]

theorem Chain.lt {a : Ary} {m : Mem} {c : Nat} (hc : c < a.size) {y : Nat}
    (h : Chain a m c y) : y < a.size := by
  cases h with
  | root => exact hc
  | child _ _ _ => exact cand_lt a (nxt_lt a _) _

/-- The continuation cell of a slot outside the overflow chain of a primary cell
lies outside the chain. -/
theorem Chain.not_child {a : Ary} (hwf : a.Valid) {m : Mem} {c : Nat} (hc : c < a.size)
    (hev : key_at a m c % 2 = 0) {q r : Nat} (hq : q < a.size) (hnq : ¬ Chain a m c q)
    (hl : lkey_at a m (cand a (nxt a q) r) = 1 + 2 * r) :
    ¬ Chain a m c (cand a (nxt a q) r) := by
  intro h
  generalize hy : cand a (nxt a q) r = y at h
  cases h with
  | root =>
    rw [hy] at hl
    have := lcell_odd hl
    omega
  | @child q2 r2 h2 hr2 hl2 =>
    rw [hy, hl2] at hl
    have hr : r2 = r := by omega
    subst hr
    have e1 := cand_inj hwf (nxt_lt a q) (nxt_lt a q2) hy
    have e2 := nxt_inj hwf hq (h2.lt hc) e1
    exact hnq (e2 ▸ h2)

/-- The loop of `resolve_val_rec` returns `val` when no candidate from round `r`
on matches. -/
theorem resolve_val_loop_miss {a : Ary} (hwf : a.Valid) {m : Mem} (hm : TableOK a m)
    (carry_bit : Bool)
    (next : Nat → Nat → Nat → Option Nat) {id : Nat} (hid : id < a.size) (val overflows : Nat) :
    ∀ left r, (∀ j, r ≤ j → j < r + left → lkey_at a m (cand a id j) ≠ 1 + 2 * j) →
      resolve_val_loop a m carry_bit next id val overflows left r (cand a id r) = some val := by
  intro left
  induction left with
  | zero => intro r _; rw [resolve_val_loop]
  | succ n ih =>
    intro r h
    rw [resolve_val_loop_eq hwf hm _ _ _ _ _ _ _ (cand_lt a hid r), ← cand_succ]
    have h1 := h r (Nat.le_refl _) (by omega)
    have h2 := ih (r + 1) (fun j hj1 hj2 => h j (by omega) (by omega))
    rw [if_neg h1, h2]
    split_ifs <;> rfl

theorem resolve_hit_congr (a : Ary) (carry_bit : Bool) {next next2 : Nat → Nat → Nat → Option Nat}
    {x : Nat} (h : ∀ v o, next2 (nxt a x) v o = next (nxt a x) v o) (val overflows nval : Nat) :
    resolve_hit a carry_bit next2 x val overflows nval
      = resolve_hit a carry_bit next x val overflows nval := by
  unfold resolve_hit
  simp only []
  split_ifs <;> first | rfl | exact h _ _

/-- The loop of `resolve_val_rec` started below a slot outside the overflow
chain of `c` gives the same result before and after the stores of a run that
touches only that chain. -/
theorem resolve_val_loop_frame {a : Ary} (hwf : a.Valid) {ks : List Nat} {m m2 : Mem}
    (hi : Inv a ks m) (hk : Keeps a m m2) (hm2 : TableOK a m2) {c : Nat} (hc : c < a.size)
    (hev : key_at a m2 c % 2 = 0)
    (hT : ∀ y, y < a.size → ¬ Chain a m2 c y → SameCell a m m2 y) (carry_bit : Bool)
    (next next2 : Nat → Nat → Nat → Option Nat) {q : Nat} (hq : q < a.size)
    (hnq : ¬ Chain a m2 c q)
    (hnext : ∀ x, x < a.size → ¬ Chain a m2 c x → ∀ v o, next2 (nxt a x) v o = next (nxt a x) v o)
    (val overflows : Nat) :
    ∀ left r, r + left = a.reprobe_limit + 1 →
      resolve_val_loop a m2 carry_bit next2 (nxt a q) val overflows left r (cand a (nxt a q) r)
        = resolve_val_loop a m carry_bit next (nxt a q) val overflows left r
            (cand a (nxt a q) r) := by
  intro left
  induction left with
  | zero => intro r _; rw [resolve_val_loop, resolve_val_loop]
  | succ n ih =>
    intro r hr
    have hx := cand_lt a (nxt_lt a q) r
    have ih2 := ih (r + 1) (by omega)
    by_cases hTx : Chain a m2 c (cand a (nxt a q) r)
    · have hl2 : lkey_at a m2 (cand a (nxt a q) r) ≠ 1 + 2 * r :=
        fun e => Chain.not_child hwf hc hev hq hnq e hTx
      by_cases h0 : key_at a m (cand a (nxt a q) r) = 0
      · rw [resolve_val_loop_miss hwf hm2 carry_bit next2 (nxt_lt a q) val overflows (n + 1) r]
        · rw [resolve_val_loop_eq hwf hi.1 _ _ _ _ _ _ _ hx]
          simp [h0]
        · intro j hj1 hj2 e
          have hny := Chain.not_child hwf hc hev hq hnq e
          have hy := cand_lt a (nxt_lt a q) j
          have e2 : lkey_at a m (cand a (nxt a q) j) = 1 + 2 * j := by
            rw [← sameCell_lkey_at hwf hy (hT _ hy hny), e]
          have hpre := hi.2.2 (nxt a q) (nxt_lt a q) j (by omega) e2
          rcases Nat.eq_or_lt_of_le hj1 with h | h
          · subst h; exact hny hTx
          · exact hpre r h h0
      · rw [resolve_val_loop_eq hwf hm2 _ _ _ _ _ _ _ hx,
          resolve_val_loop_eq hwf hi.1 _ _ _ _ _ _ _ hx, ← cand_succ, ih2]
        by_cases hodd : key_at a m (cand a (nxt a q) r) % 2 = 1
        · have e1 := (hk _ hx).2 hodd
          have e2 := hk.odd hx hodd
          rw [if_pos e2, if_neg hl2, if_pos hodd, if_neg (by rw [← e1]; exact hl2)]
        · have e1 := (hk _ hx).1 h0 (by omega)
          rw [e1, if_neg hodd, if_neg hodd]
    · have hs := hT _ hx hTx
      rw [resolve_val_loop_eq hwf hm2 _ _ _ _ _ _ _ hx,
        resolve_val_loop_eq hwf hi.1 _ _ _ _ _ _ _ hx, ← cand_succ, ih2,
        sameCell_key_at hwf hx hs, sameCell_lkey_at hwf hx hs, sameCell_lval_read hs,
        resolve_hit_congr a carry_bit (hnext _ hx hTx)]

theorem resolve_val_rec_frame {a : Ary} (hwf : a.Valid) {ks : List Nat} {m m2 : Mem}
    (hi : Inv a ks m) (hk : Keeps a m m2) (hm2 : TableOK a m2) {c : Nat} (hc : c < a.size)
    (hev : key_at a m2 c % 2 = 0)
    (hT : ∀ y, y < a.size → ¬ Chain a m2 c y → SameCell a m m2 y) (carry_bit : Bool) :
    ∀ fuel q, q < a.size → ¬ Chain a m2 c q → ∀ val overflows,
      resolve_val_rec a m2 carry_bit fuel (nxt a q) val overflows
        = resolve_val_rec a m carry_bit fuel (nxt a q) val overflows := by
  intro fuel
  induction fuel with
  | zero => intro q _ _ val ov; rw [resolve_val_rec, resolve_val_rec]
  | succ n ih =>
    intro q hq hnq val ov
    rw [resolve_val_rec, resolve_val_rec]
    have := resolve_val_loop_frame hwf hi hk hm2 hc hev hT carry_bit
      (fun i v f => resolve_val_rec a m carry_bit n i v f)
      (fun i v f => resolve_val_rec a m2 carry_bit n i v f) hq hnq
      (fun x hx hnx v o => ih x hx hnx v o) val ov (a.reprobe_limit + 1) 0 (by omega)
    rw [cand_zero] at this
    exact this

/-- The value read for a primary cell outside the overflow chain of `c` is the
same before and after the stores of a run that touches only that chain. -/
theorem get_val_at_id_frame {a : Ary} (hwf : a.Valid) {ks : List Nat} {m m2 : Mem}
    (hi : Inv a ks m) (hk : Keeps a m m2) (hm2 : TableOK a m2) {c : Nat} (hc : c < a.size)
    (hev : key_at a m2 c % 2 = 0)
    (hT : ∀ y, y < a.size → ¬ Chain a m2 c y → SameCell a m m2 y) (carry_bit reprobe : Bool)
    (fuel : Nat) {q : Nat} (hq : q < a.size) (hnq : ¬ Chain a m2 c q) :
    get_val_at_id a fuel m2 q (a.offsets.word_offset q).1 (a.offsets.word_offset q).2.1
        reprobe carry_bit
      = get_val_at_id a fuel m q (a.offsets.word_offset q).1 (a.offsets.word_offset q).2.1
          reprobe carry_bit := by
  have e := resolve_val_rec_frame hwf hi hk hm2 hc hev hT carry_bit fuel q hq hnq
  unfold nxt at e
  unfold get_val_at_id
  simp only [val_read_eq _ _ (hwf.val_shape hq), sameCell_val_read (hT _ hq hnq), e]

theorem set_bits_lt_pow {w n : Nat} (hw : w < 2 ^ n) {b len : Nat} (hb : b + len ≤ n) (x : Nat) :
    set_bits w b len x < 2 ^ n := by
  apply Nat.lt_pow_two_of_testBit
  intro i hi
  rw [testBit_set_bits, if_neg (by omega), if_neg (by omega)]
  exact testBit_small hw hi

/-- A key of `L + n` bits is rebuilt from its bits `[L, L + n)` and `[0, L)`. -/
theorem key_rebuild {L n key tmp : Nat} (hkey : key < 2 ^ (L + n)) (htmp : tmp < 2 ^ (L + n))
    (x : Nat) :
    set_bits (set_bits (set_bits tmp L n (get_bits key L n)) 0 L x) 0 L (get_bits key 0 L)
      = key := by
  apply Nat.eq_of_testBit_eq
  intro i
  simp only [testBit_set_bits, testBit_get_bits, Nat.zero_add, Nat.not_lt_zero, if_false,
    Nat.sub_zero]
  by_cases h1 : i < L
  · simp [h1]
  · by_cases h2 : i < L + n
    · have : i - L < n := by omega
      have e : L + (i - L) = i := by omega
      simp [h1, h2, this, e]
    · simp only [h1, h2, if_false]
      rw [testBit_small htmp (by omega), testBit_small hkey (by omega)]

theorem Ary.Valid.key_len_eq {a : Ary} (h : a.Valid) : a.lsize + a.raw_key_len = a.key_len := by
  have := h.2.1
  unfold Ary.raw_key_len
  omega

/-- The key that `get_key_at_id` hands back stays within `key_len` bits. -/
theorem get_key_at_id_lt {a : Ary} (hwf : a.Valid) {m : Mem} (hm : TableOK a m) {c : Nat}
    (hc : c < a.size) {tmp : Nat} (ht : tmp < 2 ^ a.key_len) :
    (get_key_at_id a m c tmp).2.1 < 2 ^ a.key_len := by
  rw [get_key_at_id_eq hwf hc (hm.2 c hc)]
  have hl := hwf.key_len_eq
  split_ifs <;>
    first
      | exact ht
      | exact set_bits_lt_pow (set_bits_lt_pow ht (by omega) _) (by omega) _

theorem get_key_at_id_wo {a : Ary} (hwf : a.Valid) {m : Mem} (hm : TableOK a m) {c : Nat}
    (hc : c < a.size) (tmp : Nat) :
    (get_key_at_id a m c tmp).2.2 = ((a.offsets.word_offset c).1, (a.offsets.word_offset c).2.1) := by
  rw [get_key_at_id_eq hwf hc (hm.2 c hc)]
  split_ifs <;> rfl

/-- What `get_key_at_id` returns for a slot depends on the memory through the key
field of the slot only. -/
theorem get_key_at_id_congr {a : Ary} (hwf : a.Valid) {m m2 : Mem} (hm : TableOK a m)
    (hm2 : TableOK a m2) {c : Nat} (hc : c < a.size)
    (h : key_at a m2 c = key_at a m c) (tmp : Nat) :
    get_key_at_id a m2 c tmp = get_key_at_id a m c tmp := by
  rw [get_key_at_id_eq hwf hc (hm2.2 c hc), get_key_at_id_eq hwf hc (hm.2 c hc), h]

/-- One round of the loop of `get_key_id`. -/
theorem get_key_id_loop_succ (a : Ary) (m : Mem) (key oid left r cid tmp : Nat) :
    get_key_id_loop a m key oid (left + 1) r cid tmp =
      match (get_key_at_id a m cid tmp).1 with
      | key_status.EMPTY => (none, (get_key_at_id a m cid tmp).2.1)
      | key_status.FILLED =>
        if oid ≠ get_bits (get_key_at_id a m cid tmp).2.1 0 a.lsize then
          get_key_id_loop a m key oid left (r + 1)
            (wtrunc (oid + a.reprobes (r + 1)) &&& a.size_mask) (get_key_at_id a m cid tmp).2.1
        else if set_bits (get_key_at_id a m cid tmp).2.1 0 a.lsize (get_bits key 0 a.lsize) ≠ key
        then
          get_key_id_loop a m key oid left (r + 1)
            (wtrunc (oid + a.reprobes (r + 1)) &&& a.size_mask)
            (set_bits (get_key_at_id a m cid tmp).2.1 0 a.lsize (get_bits key 0 a.lsize))
        else
          (some (cid, (get_key_at_id a m cid tmp).2.2.1, (get_key_at_id a m cid tmp).2.2.2),
            set_bits (get_key_at_id a m cid tmp).2.1 0 a.lsize (get_bits key 0 a.lsize))
      | key_status.LBSET =>
        get_key_id_loop a m key oid left (r + 1)
          (wtrunc (oid + a.reprobes (r + 1)) &&& a.size_mask) (get_key_at_id a m cid tmp).2.1 := by
  conv_lhs => rw [get_key_id_loop]

/-- On the primary cell that holds the key at its reprobe index both tests of
`get_key_id` pass. -/
theorem get_key_id_tests {a : Ary} (hwf : a.Valid) {m : Mem} (hm : TableOK a m) {key r : Nat}
    (hkey : key < 2 ^ a.key_len) (hr : r ≤ a.reprobe_limit)
    (h : holds a m (cand a (slot_of a key) r) key r) {tmp : Nat} (ht : tmp < 2 ^ a.key_len) :
    (get_key_at_id a m (cand a (slot_of a key) r) tmp).1 = key_status.FILLED ∧
      slot_of a key = get_bits (get_key_at_id a m (cand a (slot_of a key) r) tmp).2.1 0 a.lsize ∧
      set_bits (get_key_at_id a m (cand a (slot_of a key) r) tmp).2.1 0 a.lsize
        (get_bits key 0 a.lsize) = key := by
  rw [get_key_at_id_holds hwf hm (slot_of_lt a key) hr h tmp]
  refine ⟨rfl, (get_bits_decoded_low _ _ _ (slot_of_lt a key)).symm, ?_⟩
  have hl := hwf.key_len_eq
  exact key_rebuild (by rw [hl]; exact hkey) (by rw [hl]; exact ht) _

/-- When the loop of `get_key_id` returns true, the slot it reports is a primary
cell that decodes to the key, and the `w` and `o` it reports are those of the
slot. -/
theorem get_key_id_loop_found {a : Ary} (hwf : a.Valid) {m : Mem} (hm : TableOK a m)
    (key : Nat) :
    ∀ left reprobe cid tmp, cid < a.size → ∀ x,
      (get_key_id_loop a m key (slot_of a key) left reprobe cid tmp).1 = some x →
      x.1 < a.size ∧ x.2 = ((a.offsets.word_offset x.1).1, (a.offsets.word_offset x.1).2.1) ∧
        (get_key_at_id a m x.1 0).1 = key_status.FILLED ∧
        get_bits (get_key_at_id a m x.1 0).2.1 a.lsize a.raw_key_len
          = get_bits key a.lsize a.raw_key_len ∧
        get_bits (get_key_at_id a m x.1 0).2.1 0 a.lsize = slot_of a key := by
  intro left
  induction left with
  | zero => intro reprobe cid tmp _ x h; simp [get_key_id_loop] at h
  | succ n ih =>
    intro reprobe cid tmp hcid x h
    have hnext := fun t => ih (reprobe + 1)
      (wtrunc (slot_of a key + a.reprobes (reprobe + 1)) &&& a.size_mask) t
      (by have := cand_lt a (slot_of_lt a key) (reprobe + 1); rwa [cand_succ] at this) x
    rw [get_key_id_loop_succ] at h
    cases hst : (get_key_at_id a m cid tmp).1 with
    | EMPTY => rw [hst] at h; simp at h
    | LBSET => rw [hst] at h; exact hnext _ h
    | FILLED =>
      rw [hst] at h
      simp only [] at h
      by_cases h1 : slot_of a key ≠ get_bits (get_key_at_id a m cid tmp).2.1 0 a.lsize
      · rw [if_pos h1] at h; exact hnext _ h
      · rw [if_neg h1] at h
        by_cases h2 : set_bits (get_key_at_id a m cid tmp).2.1 0 a.lsize
            (get_bits key 0 a.lsize) ≠ key
        · rw [if_pos h2] at h; exact hnext _ h
        · rw [if_neg h2] at h
          have h1' : slot_of a key = get_bits (get_key_at_id a m cid tmp).2.1 0 a.lsize := by
            by_contra hc; exact h1 hc
          have h2' : set_bits (get_key_at_id a m cid tmp).2.1 0 a.lsize
              (get_bits key 0 a.lsize) = key := by
            by_contra hc; exact h2 hc
          obtain ⟨e1, e2⟩ := get_key_at_id_filled hwf hm hcid tmp hst
          have hst0 : (get_key_at_id a m cid 0).1 = key_status.FILLED := by
            rw [status_eq hwf hm hcid] at hst ⊢; exact hst
          obtain ⟨f1, f2⟩ := get_key_at_id_filled hwf hm hcid 0 hst0
          have hx : x = (cid, (get_key_at_id a m cid tmp).2.2.1,
              (get_key_at_id a m cid tmp).2.2.2) := by
            simp only [Option.some.injEq] at h
            exact h.symm
          have hwo := get_key_at_id_wo hwf hm hcid tmp
          subst hx
          refine ⟨hcid, hwo, hst0, ?_, ?_⟩
          · rw [f1, ← e1]
            have := congrArg (fun k => get_bits k a.lsize a.raw_key_len) h2'
            simp only [] at this
            rw [get_bits_set_bits_apart _ _ _ _ _ _ (Or.inl (by omega))] at this
            exact this
          · rw [f2, ← e2, ← h1']

/-- The loop of `get_key_id` gives the same answer before and after stores that
keep every occupied cell, when a key found afterwards was held before. -/
theorem get_key_id_loop_frame {a : Ary} (hwf : a.Valid) {m m2 : Mem} (hm : TableOK a m)
    (hm2 : TableOK a m2) (hk : Keeps a m m2) {key : Nat} (hkey : key < 2 ^ a.key_len)
    (hB : HeldBy a m2 key → ∃ r1, r1 ≤ a.reprobe_limit ∧
      holds a m (cand a (slot_of a key) r1) key r1 ∧
      ∀ j, j < r1 → key_at a m (cand a (slot_of a key) j) ≠ 0) :
    ∀ left r tmp, tmp < 2 ^ a.key_len → r + left ≤ a.reprobe_limit →
      (∀ j, j < r → ¬ holds a m (cand a (slot_of a key) j) key j) →
      (get_key_id_loop a m2 key (slot_of a key) left r (cand a (slot_of a key) r) tmp).1
        = (get_key_id_loop a m key (slot_of a key) left r (cand a (slot_of a key) r) tmp).1 := by
  intro left
  induction left with
  | zero => intro r tmp _ _ _; rw [get_key_id_loop, get_key_id_loop]
  | succ n ih =>
    intro r tmp ht hr hhist
    have hx := cand_lt a (slot_of_lt a key) r
    have hr' : r ≤ a.reprobe_limit := by omega
    have hstep : ∀ t, t < 2 ^ a.key_len → ¬ holds a m (cand a (slot_of a key) r) key r →
        (get_key_id_loop a m2 key (slot_of a key) n (r + 1)
          (wtrunc (slot_of a key + a.reprobes (r + 1)) &&& a.size_mask) t).1
        = (get_key_id_loop a m key (slot_of a key) n (r + 1)
          (wtrunc (slot_of a key + a.reprobes (r + 1)) &&& a.size_mask) t).1 := by
      intro t ht2 hnh
      have := ih (r + 1) t ht2 (by omega) (fun j hj => by
        rcases Nat.eq_or_lt_of_le (Nat.lt_succ_iff.1 hj) with h | h
        · rw [h]; exact hnh
        · exact hhist j h)
      rwa [cand_succ] at this
    by_cases h0 : key_at a m (cand a (slot_of a key) r) = 0
    · have hR : (get_key_id_loop a m key (slot_of a key) (n + 1) r
          (cand a (slot_of a key) r) tmp).1 = none := by
        rw [get_key_id_loop_succ, (status_empty_iff hwf hm hx tmp).2 h0]
      rw [hR]
      cases hL : (get_key_id_loop a m2 key (slot_of a key) (n + 1) r
          (cand a (slot_of a key) r) tmp).1 with
      | none => rfl
      | some x =>
        exfalso
        have hheld := get_key_id_loop_some hwf hm2 key _ _ _ _ hx (by rw [hL]; rfl)
        obtain ⟨r1, hr1, hh1, hpre⟩ := hB hheld
        rcases Nat.lt_trichotomy r1 r with h | h | h
        · exact hhist r1 h hh1
        · subst h; exact holds_ne_zero hwf hr1 hh1 h0
        · exact hpre r h h0
    · by_cases hodd : key_at a m (cand a (slot_of a key) r) % 2 = 1
      · have hodd2 := hk.odd hx hodd
        have hnh : ¬ holds a m (cand a (slot_of a key) r) key r := fun h => by
          have := holds_even h; omega
        have g1 : get_key_at_id a m (cand a (slot_of a key) r) tmp
            = (key_status.LBSET, tmp, (a.offsets.word_offset (cand a (slot_of a key) r)).1,
                (a.offsets.word_offset (cand a (slot_of a key) r)).2.1) := by
          rw [get_key_at_id_eq hwf hx (hm.2 _ hx), if_pos hodd]
        have g2 : get_key_at_id a m2 (cand a (slot_of a key) r) tmp
            = (key_status.LBSET, tmp, (a.offsets.word_offset (cand a (slot_of a key) r)).1,
                (a.offsets.word_offset (cand a (slot_of a key) r)).2.1) := by
          rw [get_key_at_id_eq hwf hx (hm2.2 _ hx), if_pos hodd2]
        rw [get_key_id_loop_succ, get_key_id_loop_succ, g1, g2]
        exact hstep tmp ht hnh
      · have e := (hk _ hx).1 h0 (by omega)
        have g := get_key_at_id_congr hwf hm hm2 hx e tmp
        have hst := (status_filled_iff hwf hm hx tmp).2 ⟨by omega, h0⟩
        have hlt := get_key_at_id_lt hwf hm hx ht
        rw [get_key_id_loop_succ, get_key_id_loop_succ, g, hst]
        simp only []
        by_cases h1 : slot_of a key
            ≠ get_bits (get_key_at_id a m (cand a (slot_of a key) r) tmp).2.1 0 a.lsize
        · rw [if_pos h1, if_pos h1]
          exact hstep _ hlt (fun h => h1 (get_key_id_tests hwf hm hkey hr' h ht).2.1)
        · rw [if_neg h1, if_neg h1]
          by_cases h2 : set_bits (get_key_at_id a m (cand a (slot_of a key) r) tmp).2.1 0
              a.lsize (get_bits key 0 a.lsize) ≠ key
          · rw [if_pos h2, if_pos h2]
            exact hstep _ (set_bits_lt_pow hlt (by have := hwf.2.1; omega) _)
              (fun h => h2 (get_key_id_tests hwf hm hkey hr' h ht).2.2)
          · rw [if_neg h2, if_neg h2]

/-- A primary cell that decodes to a key other than `k` lies outside the overflow
chain of the primary cell of `k`. -/
theorem not_chain_of_match {a : Ary} (hwf : a.Valid) (hinj : HashInj a) {m : Mem}
    (hm : TableOK a m) {k k2 r : Nat}
    (hk : k < 2 ^ a.key_len) (hk2 : k2 < 2 ^ a.key_len) (hne : k2 ≠ k)
    (hr : r ≤ a.reprobe_limit) (hh : holds a m (cand a (slot_of a k) r) k r) {y : Nat}
    (hf : (get_key_at_id a m y 0).1 = key_status.FILLED)
    (hhi : get_bits (get_key_at_id a m y 0).2.1 a.lsize a.raw_key_len
      = get_bits k2 a.lsize a.raw_key_len)
    (hlo : get_bits (get_key_at_id a m y 0).2.1 0 a.lsize = slot_of a k2) :
    ¬ Chain a m (cand a (slot_of a k) r) y := by
  intro hch
  generalize hc : cand a (slot_of a k) r = c at hch
  cases hch with
  | root =>
    subst hc
    rw [get_key_at_id_holds hwf hm (slot_of_lt a k) hr hh 0] at hhi hlo
    simp only [] at hhi hlo
    rw [get_bits_decoded_high _ _ _ _ _ (get_bits_lt _ _ _)] at hhi
    rw [get_bits_decoded_low _ _ _ (slot_of_lt a k)] at hlo
    exact hne (hinj k hk k2 hk2 hhi hlo).symm
  | @child q r2 h2 hr2 hl2 =>
    have hy := cand_lt a (nxt_lt a q) r2
    have := (status_filled_iff hwf hm hy 0).1 hf
    have := lcell_odd hl2
    omega

/-- A returning call of `add` for `k`, successful or not, leaves the lookup of
every other key as it was. -/
theorem add_frame {a : Ary} (hwf : a.Valid) (hinj : HashInj a) {ks : List Nat} {m : Mem}
    (hreach : Reach a ks m) {k k2 d fuel : Nat} {res : AddResult} (hk : k < 2 ^ a.key_len)
    (hk2 : k2 < 2 ^ a.key_len) (hne : k2 ≠ k) (hadd : add a fuel m k d = some res)
    (f : Nat) (carry_bit : Bool) :
    get_val_for_key a f res.mem k2 carry_bit = get_val_for_key a f m k2 carry_bit := by
  have hi := hreach.rinv hwf
  have hrun := add_run hwf hi.1 hadd
  obtain ⟨hm2, hkeeps⟩ := hrun.keeps hwf hi.1
  cases hff : first_fit (fits_at a m k (slot_of a k)) a.reprobe_limit 0 with
  | none =>
    have e : res.mem = m := by
      cases hrun with
      | full _ => rfl
      | done hff2 _ => rw [hff2] at hff; cases hff
      | more hff2 _ _ => rw [hff2] at hff; cases hff
    rw [e]
  | some r =>
    obtain ⟨hr, -, hh, -⟩ := hrun.holds hwf hi.1 hff
    have hc := cand_lt a (slot_of_lt a k) r
    have hev := holds_even hh
    have hT : ∀ y, y < a.size → ¬ Chain a res.mem (cand a (slot_of a k) r) y →
        SameCell a m res.mem y := fun y hy hny => hrun.frame hwf hi.1 hff hy hny
    have hB : HeldBy a res.mem k2 → ∃ r1, r1 ≤ a.reprobe_limit ∧
        holds a m (cand a (slot_of a k2) r1) k2 r1 ∧
        ∀ j, j < r1 → key_at a m (cand a (slot_of a k2) j) ≠ 0 := by
      rintro ⟨y, hy, hf, hhi, hlo⟩
      have hny := not_chain_of_match hwf hinj hm2 hk hk2 hne hr hh hf hhi hlo
      have g := get_key_at_id_congr hwf hi.1 hm2 hy (sameCell_key_at hwf hy (hT y hy hny)) 0
      rw [g] at hf hhi hlo
      have hheld : HeldBy a m k2 := ⟨y, hy, hf, hhi, hlo⟩
      obtain ⟨r1, hr1, hh1, hpre, -⟩ := hheld.at_cand hwf hi
      exact ⟨r1, hr1, hh1, hpre⟩
    have hloop : (get_key_id_tmp a res.mem k2 0).1 = (get_key_id_tmp a m k2 0).1 := by
      have := get_key_id_loop_frame hwf hi.1 hm2 hkeeps hk2 hB a.reprobe_limit 0 0
        (Nat.two_pow_pos _) (by omega) (fun j hj => absurd hj (Nat.not_lt_zero j))
      rw [cand_zero] at this
      exact this
    unfold get_val_for_key
    rw [hloop]
    cases hres : (get_key_id_tmp a m k2 0).1 with
    | none => rfl
    | some x =>
      simp only []
      rw [hres] at hloop
      obtain ⟨hx, hwo, hf, hhi, hlo⟩ := get_key_id_loop_found hwf hm2 k2 _ _ _ _
        (slot_of_lt a k2) x hloop
      have hny := not_chain_of_match hwf hinj hm2 hk hk2 hne hr hh hf hhi hlo
      have e1 : x.2.1 = (a.offsets.word_offset x.1).1 := by rw [hwo]
      have e2 : x.2.2 = (a.offsets.word_offset x.1).2.1 := by rw [hwo]
      rw [e1, e2, get_val_at_id_frame hwf hi hkeeps hm2 hc hev hT carry_bit true f hx hny]

/-! ## Clear, construction -/

theorem get_key_at_id_clear (a : Ary) (id key : Nat) :
    get_key_at_id a clear_mem id key
      = (key_status.EMPTY, key, (a.offsets.word_offset id).1, (a.offsets.word_offset id).2.1) := by
  unfold get_key_at_id
  simp [clear_mem]

theorem get_key_id_loop_clear (a : Ary) (key oid : Nat) :
    ∀ left reprobe cid tmp, (get_key_id_loop a clear_mem key oid left reprobe cid tmp).1 = none := by
  intro left
  cases left with
  | zero => intro _ _ _; rw [get_key_id_loop]
  | succ n =>
    intro reprobe cid tmp
    rw [get_key_id_loop]
    simp only [get_key_at_id_clear]

theorem next_loop_clear (a : Ary) (fuel : Nat) :
    ∀ left id key val, ∃ id2,
      iterator.next_loop a fuel clear_mem left key_status.EMPTY id key val
        = some (key_status.EMPTY, id2, key, val) := by
  intro left
  induction left with
  | zero => intro id key val; exact ⟨id, by rw [iterator.next_loop]⟩
  | succ n ih =>
    intro id key val
    obtain ⟨id2, h⟩ := ih (wtrunc (id + 1)) key val
    refine ⟨id2, ?_⟩
    rw [iterator.next_loop]
    simp only [get_key_val_at_id, get_key_at_id_clear]
    simpa using h

theorem ceilLog2_from_spec (n : Nat) : ∀ left l, (∀ j, j < l → ¬ n ≤ 2 ^ j) → n ≤ 2 ^ (l + left) →
    n ≤ 2 ^ ceilLog2_from n left l ∧ ∀ j, j < ceilLog2_from n left l → ¬ n ≤ 2 ^ j := by
  intro left
  induction left with
  | zero => intro l h1 h2; exact ⟨by simpa [ceilLog2_from] using h2, by simpa [ceilLog2_from] using h1⟩
  | succ k ih =>
    intro l h1 h2
    rw [ceilLog2_from]
    by_cases h : n ≤ 2 ^ l
    · rw [if_pos h]; exact ⟨h, h1⟩
    · rw [if_neg h]
      refine ih (l + 1) (fun j hj => ?_) (by rw [show l + 1 + k = l + (k + 1) by omega]; exact h2)
      rcases Nat.eq_or_lt_of_le (Nat.lt_succ_iff.1 hj) with e | e
      · rw [e]; exact h
      · exact h1 j e

theorem ceilLog2_spec {n : Nat} (hn : n ≤ 2 ^ 64) :
    n ≤ 2 ^ ceilLog2 n ∧ ∀ l, n ≤ 2 ^ l → ceilLog2 n ≤ l := by
  obtain ⟨h1, h2⟩ := ceilLog2_from_spec n 64 0 (fun j hj => absurd hj (Nat.not_lt_zero j))
    (by simpa using hn)
  refine ⟨h1, fun l hl => ?_⟩
  by_contra hc
  exact h2 l (by unfold ceilLog2 at hc; omega) hl

theorem reprobe_limit_t_le (R : Nat → Nat) (N : Nat) : ∀ limit, reprobe_limit_t R N limit ≤ limit := by
  intro limit
  induction limit with
  | zero => simp [reprobe_limit_t]
  | succ n ih =>
    rw [reprobe_limit_t]
    split_ifs
    · omega
    · exact Nat.le_refl _

theorem reprobe_limit_t_lt (R : Nat → Nat) (N : Nat) :
    ∀ limit, reprobe_limit_t R N limit = 0 ∨ R (reprobe_limit_t R N limit) < N := by
  intro limit
  induction limit with
  | zero => simp [reprobe_limit_t]
  | succ n ih =>
    rw [reprobe_limit_t]
    split_ifs with h
    · exact ih
    · right; omega

/-! ## add without carry, add of zero -/

theorem add_eq_of_full {a : Ary} (hwf : a.Valid) {m : Mem} (hm : TableOK a m)
    (key val fuel : Nat)
    (hff : first_fit (fits_at a m key (slot_of a key)) a.reprobe_limit 0 = none) :
    add a (fuel + 1) m key val = some ⟨false, false, slot_of a key, m⟩ := by
  unfold add add_rec
  simp only [Bool.false_eq_true, if_false]
  rw [show a.hash_times key &&& a.size_mask = slot_of a key from rfl,
    claim_key_eq hwf hm key (slot_of_lt a key), hff]
  simp only [claim_key_result]

theorem add_eq_of_no_carry {a : Ary} (hwf : a.Valid) {m : Mem} (hm : TableOK a m)
    (key val fuel : Nat) {r : Nat}
    (hff : first_fit (fits_at a m key (slot_of a key)) a.reprobe_limit 0 = some r)
    (hc : (add_val_field (claim_mem a m key r) (val_w a (cand a (slot_of a key) r)) val
      (a.offsets.word_offset (cand a (slot_of a key) r)).2.1.val).1 = 0) :
    add a (fuel + 1) m key val = some ⟨true, decide (key_at a m (cand a (slot_of a key) r) = 0),
      cand a (slot_of a key) r,
      (add_val_field (claim_mem a m key r) (val_w a (cand a (slot_of a key) r)) val
        (a.offsets.word_offset (cand a (slot_of a key) r)).2.1.val).2⟩ := by
  unfold add add_rec
  simp only [Bool.false_eq_true, if_false]
  rw [show a.hash_times key &&& a.size_mask = slot_of a key from rfl,
    claim_key_eq hwf hm key (slot_of_lt a key), hff]
  simp only [claim_key_result]
  simp only [claim_mem, claim_key_result, val_w] at hc ⊢
  simp only [hc, ne_eq, not_true_eq_false, if_false]

/-- The increment by `0` stores nothing and has no carry. -/
theorem add_val_field_zero (m : Mem) (vw : Nat) {v : ValOffsets} {n : Nat} (hv : ValShape v n)
    (h1 : m vw < 2 ^ 64) : add_val_field m vw 0 v = (0, m) := by
  have hlt := get_bits_lt (m vw) v.boff v.shift
  have hlt64 : get_bits (m vw) v.boff v.shift < 2 ^ 64 :=
    Nat.lt_of_lt_of_le hlt (Nat.pow_le_pow_right (by decide) (by have := hv.2.1; omega))
  have ht : wtrunc (get_bits (m vw) v.boff v.shift) = get_bits (m vw) v.boff v.shift :=
    Nat.mod_eq_of_lt hlt64
  have hc : (get_bits (m vw) v.boff v.shift &&& wnot (2 ^ v.shift - 1)) >>> v.shift = 0 := by
    rw [and_wnot_low_shiftRight hlt64, Nat.shiftRight_eq_div_pow]
    exact Nat.div_eq_of_lt hlt
  unfold add_val_field
  simp only []
  rw [hv.1, add_val_field_mask m vw 0 v.boff v.shift h1 hv.2.1]
  simp only [Nat.add_zero, ht, hc, ne_eq, not_true_eq_false, false_and, if_false,
    set_bits_get_bits, Mem.write_self]

theorem add_zero_eq_set {a : Ary} (hwf : a.Valid) {m : Mem} (hm : TableOK a m) (key fuel : Nat) :
    add a (fuel + 1) m key 0 = some (set a m key) := by
  rw [set_eq hwf hm]
  cases hff : first_fit (fits_at a m key (slot_of a key)) a.reprobe_limit 0 with
  | none => exact add_eq_of_full hwf hm key 0 fuel hff
  | some r =>
    obtain ⟨hr, hm1, -, -, -⟩ := claim_mem_facts hwf hm hff
    have hp := cand_lt a (slot_of_lt a key) r
    have hz := add_val_field_zero (claim_mem a m key r) (val_w a (cand a (slot_of a key) r))
      (hwf.val_shape hp) (hm1.1 _)
    rw [add_eq_of_no_carry hwf hm key 0 fuel hff (by rw [hz]), hz]

/-- The memory of `set` differs from the one before only in the cell it claims,
which was EMPTY and becomes FILLED. -/
theorem set_cells {a : Ary} (hwf : a.Valid) {m : Mem} (hm : TableOK a m) (key : Nat) :
    ((set a m key).is_new = false → (set a m key).mem = m) ∧
      ((set a m key).is_new = true →
        (get_key_at_id a m (set a m key).eid 0).1 = key_status.EMPTY ∧
        (get_key_at_id a (set a m key).mem (set a m key).eid 0).1 = key_status.FILLED) ∧
      ∀ c, c < a.size → c ≠ (set a m key).eid → SameCell a m (set a m key).mem c := by
  rw [set_eq hwf hm]
  cases hff : first_fit (fits_at a m key (slot_of a key)) a.reprobe_limit 0 with
  | none =>
    simp only []
    exact ⟨by simp, by simp, fun c _ _ => SameCell.srefl a m c⟩
  | some r =>
    simp only []
    obtain ⟨hr, hm1, -, hh, -⟩ := claim_mem_facts hwf hm hff
    have hp := cand_lt a (slot_of_lt a key) r
    refine ⟨fun hn => ?_, fun hn => ⟨?_, ?_⟩, fun c hc hne => ?_⟩
    · have h0 : key_at a m (cand a (slot_of a key) r) ≠ 0 := by
        intro h0
        simp [h0] at hn
      simp only [claim_mem, claim_key_result, if_neg h0]
    · have h0 : key_at a m (cand a (slot_of a key) r) = 0 := by simpa using hn
      exact (status_empty_iff hwf hm hp 0).2 h0
    · exact (status_filled_iff hwf hm1 hp 0).2 ⟨holds_even hh, holds_ne_zero hwf hr hh⟩
    · exact sameCell_claim_mem hwf m hc (Ne.symm hne)

/-! ## The increment of a value field -/

theorem or_wshl_eq_add {x y s l : Nat} (hx : x < 2 ^ s) (hy : y < 2 ^ l) (hn : s + l ≤ 64) :
    x ||| wshl y s = x + 2 ^ s * y := by
  have h64 : y <<< s < 2 ^ 64 := by
    rw [Nat.shiftLeft_eq]
    calc y * 2 ^ s < 2 ^ l * 2 ^ s := Nat.mul_lt_mul_of_pos_right hy (Nat.two_pow_pos s)
      _ = 2 ^ (l + s) := (pow_add 2 l s).symm
      _ ≤ 2 ^ 64 := Nat.pow_le_pow_right (by decide) (by omega)
  unfold wshl
  rw [Nat.mod_eq_of_lt h64, Nat.or_comm, Nat.add_comm x, Nat.shiftLeft_eq, Nat.mul_comm y,
    Nat.mul_add_lt_is_or hx]

/-- The content of a value field as a number: the bits of the first word plus
`2 ^ shift` times the bits of the second word. -/
theorem val_read_eq_add (m : Mem) (w : Nat) {v : ValOffsets} {n : Nat} (hv : ValShape v n) :
    val_read m w v = get_bits (m (w + v.woff)) v.boff v.shift
      + 2 ^ v.shift * get_bits (m (w + v.woff + 1)) 0 v.len2 := by
  unfold val_read
  exact or_wshl_eq_add (get_bits_lt _ _ _) (get_bits_lt _ _ _)
    (by have := hv.2.2.2.2.1; have := hv.2.2.2.2.2; omega)

theorem val_read_lt (m : Mem) (w : Nat) {v : ValOffsets} {n : Nat} (hv : ValShape v n) :
    val_read m w v < 2 ^ n := by
  rw [val_read_eq_add m w hv, ← hv.2.2.2.2.1, pow_add]
  have h1 := get_bits_lt (m (w + v.woff)) v.boff v.shift
  have h2 := get_bits_lt (m (w + v.woff + 1)) 0 v.len2
  have : 2 ^ v.shift * (get_bits (m (w + v.woff + 1)) 0 v.len2 + 1) ≤ 2 ^ v.shift * 2 ^ v.len2 :=
    Nat.mul_le_mul_left _ h2
  rw [Nat.mul_add, Nat.mul_one] at this
  omega

/-- The carry that `add_val_field` returns, in one formula for split and unsplit
fields. -/
theorem add_val_field_fst (m : Mem) (vw d : Nat) {v : ValOffsets} {n : Nat}
    (hv : ValShape v n) (h1 : m vw < 2 ^ 64) (h2 : m (vw + 1) < 2 ^ 64) :
    (add_val_field m vw d v).1 =
      wtrunc (get_bits (m (vw + 1)) 0 v.len2 + wtrunc (get_bits (m vw) v.boff v.shift + d)
        >>> v.shift) >>> v.len2 := by
  have hs1 : wtrunc (get_bits (m vw) v.boff v.shift + d) < 2 ^ 64 := wtrunc_lt _
  have hc1 : (wtrunc (get_bits (m vw) v.boff v.shift + d) &&& wnot (2 ^ v.shift - 1)) >>> v.shift
      = wtrunc (get_bits (m vw) v.boff v.shift + d) >>> v.shift :=
    and_wnot_low_shiftRight hs1 _
  have hc1lt : wtrunc (get_bits (m vw) v.boff v.shift + d) >>> v.shift < 2 ^ 64 :=
    Nat.lt_of_le_of_lt (by rw [Nat.shiftRight_eq_div_pow]; exact Nat.div_le_self _ _) hs1
  unfold add_val_field
  simp only []
  rw [hv.1, add_val_field_mask m vw d v.boff v.shift h1 hv.2.1]
  simp only [hc1]
  by_cases hm2 : v.mask2 = 0
  · have hl : v.len2 = 0 := by simp [ValOffsets.len2, hm2]
    have h0 : get_bits (m (vw + 1)) 0 0 = 0 := by simp [get_bits, Nat.mod_one]
    simp only [hm2, ne_eq, not_true_eq_false, and_false, if_false, hl, h0, Nat.zero_add,
      Nat.shiftRight_zero]
    exact (Nat.mod_eq_of_lt hc1lt).symm
  · have hl : v.len2 = v.cshift := by simp [ValOffsets.len2, hm2]
    by_cases hc : wtrunc (get_bits (m vw) v.boff v.shift + d) >>> v.shift = 0
    · simp only [hc, ne_eq, not_true_eq_false, false_and, if_false, Nat.add_zero]
      have hlt := get_bits_lt (m (vw + 1)) 0 v.len2
      have hlt64 : get_bits (m (vw + 1)) 0 v.len2 < 2 ^ 64 :=
        Nat.lt_of_lt_of_le hlt (Nat.pow_le_pow_right (by decide)
          (by have := hv.2.2.2.2.1; have := hv.2.2.2.2.2; omega))
      unfold wtrunc
      rw [Nat.mod_eq_of_lt hlt64, Nat.shiftRight_eq_div_pow, Nat.div_eq_of_lt hlt]
    · have hne : vw + 1 ≠ vw := by omega
      have hw2 : (m.write vw (set_bits (m vw) v.boff v.shift
          (wtrunc (get_bits (m vw) v.boff v.shift + d)))) (vw + 1) = m (vw + 1) :=
        Mem.write_other _ _ hne
      have hw2lt : (m.write vw (set_bits (m vw) v.boff v.shift
          (wtrunc (get_bits (m vw) v.boff v.shift + d)))) (vw + 1) < 2 ^ 64 := by
        rw [hw2]; exact h2
      have hl64 : 0 + v.len2 ≤ 64 := by have := hv.2.2.2.2.1; have := hv.2.2.2.2.2; omega
      simp only [hc, hm2, ne_eq, not_false_eq_true, and_self, if_true]
      rw [hv.2.2.1, add_val_field_mask _ (vw + 1) _ 0 v.len2 hw2lt hl64, hw2, ← hl]
      simp only []
      exact and_wnot_low_shiftRight (wtrunc_lt _) _

/-- The value field after `add_val_field` holds the sum modulo `2 ^ n`. -/
theorem add_val_field_val (m : Mem) (w d : Nat) {v : ValOffsets} {n : Nat}
    (hv : ValShape v n) (hm : MemOK m) :
    val_read (add_val_field m (w + v.woff) d v).2 w v = (val_read m w v + d) % 2 ^ n := by
  have hn := hv.2.2.2.2.1
  have hn64 := hv.2.2.2.2.2
  rw [val_read_eq_add _ _ hv, val_read_eq_add _ _ hv,
    add_val_field_mem m (w + v.woff) d hv (hm _) (hm _)]
  have hne : w + v.woff ≠ w + v.woff + 1 := by omega
  rw [Mem.write_same, Mem.write_other _ _ hne, Mem.write_same, get_bits_set_bits_same,
    get_bits_set_bits_same]
  generalize get_bits (m (w + v.woff)) v.boff v.shift = v1
  generalize get_bits (m (w + v.woff + 1)) 0 v.len2 = v2
  have e1 : wtrunc (v1 + d) % 2 ^ v.shift = (v1 + d) % 2 ^ v.shift := by
    unfold wtrunc
    exact Nat.mod_mod_of_dvd _ (pow_dvd_pow 2 (by omega))
  have e64 : (2:Nat) ^ 64 = 2 ^ v.shift * 2 ^ (64 - v.shift) := by
    rw [← pow_add]; congr 1; omega
  have e2 : wtrunc (v1 + d) >>> v.shift = (v1 + d) / 2 ^ v.shift % 2 ^ (64 - v.shift) := by
    unfold wtrunc
    rw [Nat.shiftRight_eq_div_pow, e64, Nat.mod_mul_right_div_self]
  have e3 : wtrunc (v2 + (v1 + d) / 2 ^ v.shift % 2 ^ (64 - v.shift)) % 2 ^ v.len2
      = (v2 + (v1 + d) / 2 ^ v.shift) % 2 ^ v.len2 := by
    unfold wtrunc
    rw [Nat.mod_mod_of_dvd _ (pow_dvd_pow 2 (by omega)), Nat.add_mod,
      Nat.mod_mod_of_dvd _ (pow_dvd_pow 2 (by omega)), ← Nat.add_mod]
  rw [e1, e2, e3, ← hn, pow_add, Nat.mod_mul]
  have e4 : (v1 + 2 ^ v.shift * v2 + d) = (v1 + d) + 2 ^ v.shift * v2 := by ring
  rw [e4, Nat.add_mul_mod_self_left, Nat.add_mul_div_left _ _ (Nat.two_pow_pos _),
    Nat.add_comm v2]

/-- The carry out of `add_val_field` is the quotient of the sum by `2 ^ n`, when the
sum fits a word. -/
theorem add_val_field_carry (m : Mem) (w d : Nat) {v : ValOffsets} {n : Nat}
    (hv : ValShape v n) (hm : MemOK m) (hsum : val_read m w v + d < 2 ^ 64) :
    (add_val_field m (w + v.woff) d v).1 = (val_read m w v + d) / 2 ^ n := by
  have hn := hv.2.2.2.2.1
  rw [val_read_eq_add _ _ hv] at hsum ⊢
  rw [add_val_field_fst m (w + v.woff) d hv (hm _) (hm _)]
  generalize get_bits (m (w + v.woff)) v.boff v.shift = v1 at hsum ⊢
  generalize get_bits (m (w + v.woff + 1)) 0 v.len2 = v2 at hsum ⊢
  have hle : v1 + d ≤ v1 + 2 ^ v.shift * v2 + d := by omega
  have e1 : wtrunc (v1 + d) = v1 + d := Nat.mod_eq_of_lt (by omega)
  have e4 : (v1 + 2 ^ v.shift * v2 + d) = (v1 + d) + 2 ^ v.shift * v2 := by ring
  have e5 : (v1 + 2 ^ v.shift * v2 + d) / 2 ^ v.shift = v2 + (v1 + d) / 2 ^ v.shift := by
    rw [e4, Nat.add_mul_div_left _ _ (Nat.two_pow_pos _), Nat.add_comm]
  have e6 : wtrunc (v2 + (v1 + d) / 2 ^ v.shift) = v2 + (v1 + d) / 2 ^ v.shift := by
    apply Nat.mod_eq_of_lt
    rw [← e5]
    exact Nat.lt_of_le_of_lt (Nat.div_le_self _ _) hsum
  simp only [e1, Nat.shiftRight_eq_div_pow]
  rw [e6, ← e5, Nat.div_div_eq_div_mul, ← pow_add, hn]

theorem set_bits_narrow {w b N n y : Nat} (h0 : get_bits w b N = 0) (hn : n ≤ N)
    (hy : y < 2 ^ n) : set_bits w b N y = set_bits w b n y := by
  apply Nat.eq_of_testBit_eq
  intro i
  rw [testBit_set_bits, testBit_set_bits]
  by_cases h1 : i < b
  · simp only [if_pos h1]
  · simp only [if_neg h1]
    by_cases h2 : i < b + n
    · rw [if_pos h2, if_pos (by omega)]
    · rw [if_neg h2]
      by_cases h3 : i < b + N
      · rw [if_pos h3, testBit_small hy (by omega)]
        have := congrArg (fun x => x.testBit (i - b)) h0
        simp only [testBit_get_bits, Nat.zero_testBit] at this
        have hlt : i - b < N := by omega
        have e : b + (i - b) = i := by omega
        simpa [hlt, e] using this.symm
      · rw [if_neg h3]

/-- A store into the key field of slot `c` leaves its normal value field as it
was. -/
theorem val_at_key_store {a : Ary} (hwf : a.Valid) (m : Mem) {c : Nat} (hc : c < a.size) (y : Nat) :
    val_at a (key_store a m c y) c = val_at a m c := by
  have hs := hwf.shape hc
  have h1 := key_store_apart a m c y (fun f hf => (hs.2.2.2.2.2.2.2.2.2.1 f hf).1)
  have h2 := key_store_apart a m c y (fun f hf => (hs.2.2.2.2.2.2.2.2.2.1 f hf).2)
  simp only [val_fld1, val_fld2] at h1 h2
  unfold val_at val_read
  rw [h1, h2]

theorem val_at_claim_mem {a : Ary} (hwf : a.Valid) (m : Mem) (key r : Nat) :
    val_at a (claim_mem a m key r) (cand a (slot_of a key) r)
      = val_at a m (cand a (slot_of a key) r) := by
  unfold claim_mem claim_key_result
  simp only []
  split_ifs
  · exact val_at_key_store hwf m (cand_lt a (slot_of_lt a key) r) _
  · rfl

/-- The claim of a continuation cell leaves its large value field as it was: on
a free cell only the large bit and the reprobe distance are stored. -/
theorem lval_at_lclaim_mem {a : Ary} (hwf : a.Valid) (m : Mem) (q : Nat) (r : Nat) :
    lval_at a (lclaim_mem a m q r) (cand a (nxt a q) r) = lval_at a m (cand a (nxt a q) r) := by
  have hx := cand_lt a (nxt_lt a q) r
  have hs := hwf.shape hx
  unfold lclaim_mem claim_large_key_result
  simp only []
  split_ifs with h0
  · have h1 := lkey_store_apart a m (cand a (nxt a q) r) (1 + 2 * r)
      (fun f hf => (hs.2.2.2.2.2.2.2.2.2.2 f hf).1)
    have h2 := lkey_store_apart a m (cand a (nxt a q) r) (1 + 2 * r)
      (fun f hf => (hs.2.2.2.2.2.2.2.2.2.2 f hf).2)
    simp only [val_fld1, val_fld2] at h1 h2
    unfold lval_at val_read
    rw [h1, h2]
  · rfl

theorem sameCell_val_at {a : Ary} {m m2 : Mem} {y : Nat} (h : SameCell a m m2 y) :
    val_at a m2 y = val_at a m y := sameCell_val_read h

theorem sameCell_lval_at {a : Ary} {m m2 : Mem} {y : Nat} (h : SameCell a m m2 y) :
    lval_at a m2 y = lval_at a m y := sameCell_lval_read h

/-- The cell found by a successful round of `claim_large_key` is free or a
continuation cell: it is no primary cell. -/
theorem lclaimed_not_primary {a : Ary} {m : Mem} {id0 r z : Nat}
    (hff : first_fit (lfits_at a m id0) a.reprobe_limit 0 = some r)
    (h0 : key_at a m z ≠ 0) (hev : key_at a m z % 2 = 0) : cand a id0 r ≠ z := by
  obtain ⟨-, -, hp, -⟩ := first_fit_some hff
  intro e
  have hp2 : lfits_at a m id0 r = true := hp
  simp only [lfits_at, decide_eq_true_eq, e] at hp2
  rcases hp2 with h | h
  · exact h0 h
  · have := lcell_odd h; omega

/-- A run of `add_rec` on an overflow chain touches no primary cell. -/
theorem LRun.keeps_even {a : Ary} (hwf : a.Valid) {q val : Nat} {m m2 : Mem} {ok : Bool}
    (h : LRun a q val m m2 ok) : TableOK a m → ∀ z, z < a.size → key_at a m z ≠ 0 →
      key_at a m z % 2 = 0 → SameCell a m m2 z := by
  induction h with
  | full hq hff => exact fun _ z _ _ _ => SameCell.srefl a _ z
  | @done q val r m hq hff hc =>
    intro hm z hz h0 hev
    obtain ⟨hr, hm1, hk1, hl, -⟩ := lclaim_mem_facts hwf hm hff
    have hp := cand_lt a (nxt_lt a q) r
    have hne := lclaimed_not_primary hff h0 hev
    exact (sameCell_lclaim_mem hwf m hz hne).scomp (sameCell_add_val_lval hwf hm1 hp hz hne val)
  | @more q val r m m3 ok hq hff hc hsub ih =>
    intro hm z hz h0 hev
    obtain ⟨hr, hm1, hk1, hl, -⟩ := lclaim_mem_facts hwf hm hff
    have hp := cand_lt a (nxt_lt a q) r
    obtain ⟨hm2, hk2⟩ := keeps_add_val_lval hwf hm1 hp (lcell_odd hl) val
    obtain ⟨hm3, hk3⟩ := hsub.lkeeps hwf hm2
    have hne := lclaimed_not_primary hff h0 hev
    have s1 := (sameCell_lclaim_mem hwf m hz hne).scomp
      (sameCell_add_val_lval hwf hm1 hp hz hne val)
    have ez := ((hk1.trans hk2) z hz).1 h0 hev
    have s2 := ih hm2 z hz (by rw [ez]; exact h0) (by rw [ez]; exact hev)
    by_cases hok : ok = true
    · simp only [hok, if_true]
      exact s1.scomp s2
    · simp only [hok, if_false]
      exact (s1.scomp s2).scomp (sameCell_sub_val_lval hwf hm3 hp hz hne val)

/-- A run of `add_rec` on the overflow chain of a slot other than the primary
cell `p` touches no continuation cell of `p`. -/
theorem LRun.keeps_child {a : Ary} (hwf : a.Valid) {q val : Nat} {m m2 : Mem} {ok : Bool}
    (h : LRun a q val m m2 ok) : TableOK a m → ∀ z p r0, z < a.size → p < a.size →
      z = cand a (nxt a p) r0 → lkey_at a m z = 1 + 2 * r0 → q ≠ p → key_at a m p ≠ 0 →
      key_at a m p % 2 = 0 → SameCell a m m2 z := by
  induction h with
  | full hq hff => exact fun _ z _ _ _ _ _ _ _ _ _ => SameCell.srefl a _ z
  | @done q val r m hq hff hc =>
    intro hm z p r0 hz hp0 hzc hlz hqp hp1 hp2
    obtain ⟨hr, hm1, hk1, hl, -⟩ := lclaim_mem_facts hwf hm hff
    have hp := cand_lt a (nxt_lt a q) r
    have hne : cand a (nxt a q) r ≠ z := by
      intro e
      obtain ⟨-, -, hpr, -⟩ := first_fit_some hff
      have hpr2 : lfits_at a m (nxt a q) r = true := hpr
      simp only [lfits_at, decide_eq_true_eq, e] at hpr2
      have hzodd := lcell_odd hlz
      rcases hpr2 with h | h
      · omega
      · rw [hlz] at h
        have hrr : r0 = r := by omega
        subst hrr
        rw [hzc] at e
        exact hqp (nxt_inj hwf hq hp0 (cand_inj hwf (nxt_lt a q) (nxt_lt a p) e))
    exact (sameCell_lclaim_mem hwf m hz hne).scomp (sameCell_add_val_lval hwf hm1 hp hz hne val)
  | @more q val r m m3 ok hq hff hc hsub ih =>
    intro hm z p r0 hz hp0 hzc hlz hqp hp1 hp2
    obtain ⟨hr, hm1, hk1, hl, -⟩ := lclaim_mem_facts hwf hm hff
    have hp := cand_lt a (nxt_lt a q) r
    obtain ⟨hm2, hk2⟩ := keeps_add_val_lval hwf hm1 hp (lcell_odd hl) val
    obtain ⟨hm3, hk3⟩ := hsub.lkeeps hwf hm2
    have hne : cand a (nxt a q) r ≠ z := by
      intro e
      obtain ⟨-, -, hpr, -⟩ := first_fit_some hff
      have hpr2 : lfits_at a m (nxt a q) r = true := hpr
      simp only [lfits_at, decide_eq_true_eq, e] at hpr2
      have hzodd := lcell_odd hlz
      rcases hpr2 with h | h
      · omega
      · rw [hlz] at h
        have hrr : r0 = r := by omega
        subst hrr
        rw [hzc] at e
        exact hqp (nxt_inj hwf hq hp0 (cand_inj hwf (nxt_lt a q) (nxt_lt a p) e))
    have s1 := (sameCell_lclaim_mem hwf m hz hne).scomp
      (sameCell_add_val_lval hwf hm1 hp hz hne val)
    have hk12 := hk1.trans hk2
    have ez := (hk12 z hz).2 (lcell_odd hlz)
    have ep := (hk12 p hp0).1 hp1 hp2
    have hyp : cand a (nxt a q) r ≠ p := lclaimed_not_primary hff hp1 hp2
    have s2 := ih hm2 z p r0 hz hp0 hzc (by rw [ez]; exact hlz) hyp (by rw [ep]; exact hp1)
      (by rw [ep]; exact hp2)
    by_cases hok : ok = true
    · simp only [hok, if_true]
      exact s1.scomp s2
    · simp only [hok, if_false]
      exact (s1.scomp s2).scomp (sameCell_sub_val_lval hwf hm3 hp hz hne val)

/-- The first level of a successful run of `add_rec` on the overflow chain of the
primary cell `q`: the continuation cell that `claim_large_key` finds takes the
carry `val`, the primary cell is not touched, and without a further carry no
other cell is touched. -/
theorem LRun.first_level {a : Ary} (hwf : a.Valid) {q val : Nat} {m m2 : Mem}
    (h : LRun a q val m m2 true) (hm : TableOK a m) (h0 : key_at a m q ≠ 0)
    (hev : key_at a m q % 2 = 0) :
    ∃ r2, r2 ≤ a.reprobe_limit ∧
      first_fit (lfits_at a m (nxt a q)) a.reprobe_limit 0 = some r2 ∧
      lkey_at a m2 (cand a (nxt a q) r2) = 1 + 2 * r2 ∧
      lval_at a m2 (cand a (nxt a q) r2)
        = (lval_at a m (cand a (nxt a q) r2) + val) % 2 ^ a.offsets.lval_len ∧
      SameCell a m m2 q ∧
      (lval_at a m (cand a (nxt a q) r2) + val < 2 ^ a.offsets.lval_len →
        ∀ y, y < a.size → y ≠ cand a (nxt a q) r2 → SameCell a m m2 y) := by
  have hq : q < a.size := by cases h <;> assumption
  have hsq := h.keeps_even hwf hm q hq h0 hev
  generalize hok : true = ok at h
  cases h with
  | full _ hff => cases hok
  | @done _ _ r _ _ hff hc =>
    obtain ⟨hr, hm1, hk1, hl, -⟩ := lclaim_mem_facts hwf hm hff
    have hp := cand_lt a (nxt_lt a q) r
    obtain ⟨hm2, hk2⟩ := keeps_add_val_lval hwf hm1 hp (lcell_odd hl) val
    refine ⟨r, hr, hff, ?_, ?_, hsq, fun _ y hy hne => ?_⟩
    · rw [(hk2 _ hp).2 (lcell_odd hl), hl]
    · unfold lval_at lval_w
      rw [add_val_field_val _ _ val (hwf.lval_shape hp) hm1.1]
      exact congrArg (fun x => (x + val) % 2 ^ a.offsets.lval_len) (lval_at_lclaim_mem hwf m q r)
    · exact (sameCell_lclaim_mem hwf m hy (Ne.symm hne)).scomp
        (sameCell_add_val_lval hwf hm1 hp hy (Ne.symm hne) val)
  | @more _ _ r _ m3 ok2 _ hff hc hsub =>
    subst hok
    simp only [if_true] at hsq ⊢
    obtain ⟨hr, hm1, hk1, hl, -⟩ := lclaim_mem_facts hwf hm hff
    have hp := cand_lt a (nxt_lt a q) r
    obtain ⟨hm2, hk2⟩ := keeps_add_val_lval hwf hm1 hp (lcell_odd hl) val
    obtain ⟨hm3, hk3⟩ := hsub.lkeeps hwf hm2
    have hl2 : lkey_at a (add_val_field (lclaim_mem a m q r) (lval_w a (cand a (nxt a q) r)) val
        (a.offsets.word_offset (cand a (nxt a q) r)).2.2.val).2 (cand a (nxt a q) r)
        = 1 + 2 * r := by
      rw [(hk2 _ hp).2 (lcell_odd hl), hl]
    have eq12 := ((hk1.trans hk2) q hq).1 h0 hev
    have hxq : cand a (nxt a q) r ≠ q := lclaimed_not_primary hff h0 hev
    have hval : lval_at a (add_val_field (lclaim_mem a m q r) (lval_w a (cand a (nxt a q) r)) val
        (a.offsets.word_offset (cand a (nxt a q) r)).2.2.val).2 (cand a (nxt a q) r)
        = (lval_at a m (cand a (nxt a q) r) + val) % 2 ^ a.offsets.lval_len := by
      unfold lval_at lval_w
      rw [add_val_field_val _ _ val (hwf.lval_shape hp) hm1.1]
      exact congrArg (fun x => (x + val) % 2 ^ a.offsets.lval_len) (lval_at_lclaim_mem hwf m q r)
    have hs3 := hsub.keeps_child hwf hm2 (cand a (nxt a q) r) q r hp hq rfl hl2 hxq
      (by rw [eq12]; exact h0) (by rw [eq12]; exact hev)
    refine ⟨r, hr, hff, ?_, ?_, hsq, fun hlt y hy hne => ?_⟩
    · rw [(hk3 _ hp).2 (lcell_odd hl2), hl2]
    · rw [sameCell_lval_at hs3, hval]
    · exfalso
      apply hc
      have hlv := val_read_lt (lclaim_mem a m q r) (a.offsets.word_offset (cand a (nxt a q) r)).1
        (hwf.lval_shape hp)
      have e := lval_at_lclaim_mem hwf m q r
      unfold lval_at at e hlt
      have h64 : (2:Nat) ^ a.offsets.lval_len ≤ 2 ^ 64 :=
        Nat.pow_le_pow_right (by decide) (hwf.lval_shape hp).2.2.2.2.2
      unfold lval_w
      rw [add_val_field_carry _ _ val (hwf.lval_shape hp) hm1.1 (by rw [e]; omega), e]
      exact Nat.div_eq_of_lt hlt

/-! ## The further invariant -/

theorem holds_inj {a : Ary} (hwf : a.Valid) {m : Mem} {c k1 k2 r1 r2 : Nat}
    (hr1 : r1 ≤ a.reprobe_limit) (hr2 : r2 ≤ a.reprobe_limit)
    (h1 : holds a m c k1 r1) (h2 : holds a m c k2 r2) :
    r1 = r2 ∧ get_bits k1 a.lsize a.raw_key_len = get_bits k2 a.lsize a.raw_key_len := by
  unfold holds at h1 h2
  have e : akey_of a k1 r1 = akey_of a k2 r2 := by omega
  have f1 := hwf.reprobe_fits hr1
  have f2 := hwf.reprobe_fits hr2
  have m1 := akey_of_mod k1 f1
  have m2 := akey_of_mod k2 f2
  have s1 := akey_of_shiftRight k1 f1
  have s2 := akey_of_shiftRight k2 f2
  rw [e] at m1 s1
  exact ⟨by omega, by rw [← s1, ← s2]⟩

theorem holds_of_bits {a : Ary} {m : Mem} {c k1 k2 r : Nat}
    (e : get_bits k1 a.lsize a.raw_key_len = get_bits k2 a.lsize a.raw_key_len)
    (h : holds a m c k1 r) : holds a m c k2 r := by
  unfold holds at *
  rw [h, akey_of_congr e]

theorem Child.in_table {a : Ary} {m : Mem} {q x : Nat} (h : Child a m q x) : x < a.size := by
  obtain ⟨r, -, e, -⟩ := h
  rw [e]; exact cand_lt a (nxt_lt a q) r

/-- The walk down the continuation cells still ends when no continuation cell
is added. -/
theorem acc_of_sub {a : Ary} {m m2 : Mem}
    (hchild : ∀ q x, q < a.size → Child a m2 q x → Child a m q x) :
    ∀ p, Acc (fun x y => Child a m y x) p → p < a.size → Acc (fun x y => Child a m2 y x) p := by
  intro p hacc
  induction hacc with
  | intro p _ ih =>
    intro hp
    exact Acc.intro p (fun y hy => ih y (hchild p y hp hy) hy.in_table)

theorem Inv2.of_rel {a : Ary} {m m2 : Mem} (hi : Inv2 a m)
    (hchild : ∀ q x, q < a.size → Child a m2 q x → Child a m q x)
    (hne : ∀ c, c < a.size → key_at a m c ≠ 0 → key_at a m2 c ≠ 0)
    (hholds : ∀ c key r, c < a.size → (holds a m2 c key r ↔ holds a m c key r)) :
    Inv2 a m2 := by
  obtain ⟨j1, j2, u⟩ := hi
  refine ⟨fun q hq x hx => hne q hq (j1 q hq x (hchild q x hq hx)),
    fun q hq => acc_of_sub hchild q (j2 q hq) hq, fun key r j hr hj h hn => ?_⟩
  exact u key r j hr hj ((hholds _ key r (cand_lt a (slot_of_lt a key) r)).1 h)
    ((hholds _ key j (cand_lt a (slot_of_lt a key) j)).1 hn)

/-- The further invariant survives stores into value fields. -/
theorem Inv2.keyeq_stable {a : Ary} {m m2 : Mem} (hi : Inv2 a m) (he : KeyEq a m m2) :
    Inv2 a m2 := by
  refine hi.of_rel (fun q x _ hx => ?_) (fun c hc h0 h => h0 ((he c hc).2.1.1 h))
    (fun c key r hc => ?_)
  · obtain ⟨r, hr, e, hl⟩ := hx
    exact ⟨r, hr, e, by rw [← (he x (by rw [e]; exact cand_lt a (nxt_lt a q) r)).1]; exact hl⟩
  · constructor
    · intro h
      have hev : key_at a m c % 2 = 0 := by rw [← he.parity hc]; exact holds_even h
      exact holds_congr ((he c hc).2.2 hev).symm h
    · intro h
      exact holds_congr ((he c hc).2.2 (holds_even h)) h

/-- The further invariant after a successful round `r` of `claim_key`. -/
theorem Inv2.primary_claim {a : Ary} (hwf : a.Valid) {ks : List Nat} {m : Mem} (hi : Inv a ks m)
    (hi2 : Inv2 a m) {key r : Nat}
    (hff : first_fit (fits_at a m key (slot_of a key)) a.reprobe_limit 0 = some r) :
    Inv2 a (claim_mem a m key r) := by
  obtain ⟨hr, hm1, hk1, hh, hbefore⟩ := claim_mem_facts hwf hi.1 hff
  have hc0 := cand_lt a (slot_of_lt a key) r
  by_cases h0 : key_at a m (cand a (slot_of a key) r) = 0
  · have hv := two_mul_akey_lt (a := a) key (hwf.reprobe_fits hr)
    have hck : ∀ d, d < a.size → key_at a (claim_mem a m key r) d
        = if d = cand a (slot_of a key) r then 2 * akey_of a key r else key_at a m d := by
      intro d hd
      have := key_at_write_free hwf m hc0 hv hd
      simpa only [claim_mem, claim_key_result, if_pos h0] using this
    have hchild : ∀ q x, q < a.size → Child a (claim_mem a m key r) q x → Child a m q x := by
      rintro q x - ⟨r2, hr2, e, hl⟩
      have hx : x < a.size := by rw [e]; exact cand_lt a (nxt_lt a q) r2
      have hne : x ≠ cand a (slot_of a key) r := by
        intro e2
        have hodd := lcell_odd hl
        rw [hck x hx, if_pos e2] at hodd
        omega
      have ek : key_at a (claim_mem a m key r) x = key_at a m x := by
        rw [hck x hx, if_neg hne]
      refine ⟨r2, hr2, e, ?_⟩
      rw [← sameCell_lkey_at hwf hx (sameCell_claim_mem hwf m hx (Ne.symm hne))]
      exact hl
    obtain ⟨j1, j2, u⟩ := hi2
    refine ⟨fun q hq x hx => hk1.ne_zero hq (j1 q hq x (hchild q x hq hx)),
      fun q hq => acc_of_sub hchild q (j2 q hq) hq, fun k2 r2 j hr2 hj h hn => ?_⟩
    have hz := cand_lt a (slot_of_lt a k2) r2
    have hy := cand_lt a (slot_of_lt a k2) j
    have hrj : j ≤ a.reprobe_limit := by omega
    by_cases hzc : cand a (slot_of a k2) r2 = cand a (slot_of a key) r
    · -- the cell claimed now is the later one
      rw [hzc] at h
      obtain ⟨err, ebits⟩ := holds_inj hwf hr hr2 hh h
      subst err
      have es : slot_of a k2 = slot_of a key :=
        cand_inj hwf (slot_of_lt a k2) (slot_of_lt a key) hzc
      rw [es] at hn hy
      have hb := hbefore j hj
      have hy0 := fits_at_false_ne_zero hb
      have hne : cand a (slot_of a key) j ≠ cand a (slot_of a key) r := by
        intro e; rw [e] at hy0; exact hy0 h0
      have hn2 : holds a m (cand a (slot_of a key) j) key j :=
        holds_of_bits ebits.symm (holds_congr (by rw [hck _ hy, if_neg hne]) hn)
      rw [fits_at_of_holds hn2] at hb
      exact absurd hb (by decide)
    · have hz2 : holds a m (cand a (slot_of a k2) r2) k2 r2 :=
        holds_congr (by rw [hck _ hz, if_neg hzc]) h
      by_cases hyc : cand a (slot_of a k2) j = cand a (slot_of a key) r
      · -- the cell claimed now is the earlier one: it was free, against the invariant
        obtain ⟨k0, -, r0, hr0, hcr0, hh0, hpre0⟩ := hi.2.1 _ hz
          (holds_ne_zero hwf hr2 hz2) (holds_even hz2)
        obtain ⟨err, -⟩ := holds_inj hwf hr2 hr0 hz2 hh0
        subst err
        have es : slot_of a k2 = slot_of a k0 :=
          cand_inj hwf (slot_of_lt a k2) (slot_of_lt a k0) hcr0
        have := hpre0 j hj
        rw [← es, hyc] at this
        exact this h0
      · exact u k2 r2 j hr2 hj hz2 (holds_congr (by rw [hck _ hy, if_neg hyc]) hn)
  · have e : claim_mem a m key r = m := by
      simp only [claim_mem, claim_key_result, if_neg h0]
    rw [e]
    exact hi2

/-- The further invariant after a successful round `r` of `claim_large_key` for
the overflow of the occupied slot `q`. -/
theorem Inv2.large_claim {a : Ary} (hwf : a.Valid) {m : Mem} (hm : TableOK a m) (hi2 : Inv2 a m)
    {q r : Nat} (hq : q < a.size) (hq0 : key_at a m q ≠ 0)
    (hff : first_fit (lfits_at a m (nxt a q)) a.reprobe_limit 0 = some r) :
    Inv2 a (lclaim_mem a m q r) := by
  obtain ⟨hr, hm1, hk1, hh, hbefore⟩ := lclaim_mem_facts hwf hm hff
  have hc0 := cand_lt a (nxt_lt a q) r
  by_cases h0 : key_at a m (cand a (nxt a q) r) = 0
  · have hrl : r < 2 ^ a.offsets.reprobe_len := by have := hwf.2.2.2.2.1; omega
    have hodd : key_at a (lclaim_mem a m q r) (cand a (nxt a q) r) % 2 = 1 := lcell_odd hh
    have hck : ∀ d, d < a.size → d ≠ cand a (nxt a q) r →
        key_at a (lclaim_mem a m q r) d = key_at a m d :=
      fun d hd hne => sameCell_key_at hwf hd (sameCell_lclaim_mem hwf m hd (Ne.symm hne))
    have hlk : ∀ d, d < a.size → d ≠ cand a (nxt a q) r →
        lkey_at a (lclaim_mem a m q r) d = lkey_at a m d :=
      fun d hd hne => sameCell_lkey_at hwf hd (sameCell_lclaim_mem hwf m hd (Ne.symm hne))
    have hchild : ∀ p x, p < a.size → Child a (lclaim_mem a m q r) p x →
        Child a m p x ∨ (x = cand a (nxt a q) r ∧ p = q) := by
      rintro p x hp ⟨r2, hr2, e, hl⟩
      have hx : x < a.size := by rw [e]; exact cand_lt a (nxt_lt a p) r2
      by_cases hxe : x = cand a (nxt a q) r
      · right
        refine ⟨hxe, ?_⟩
        rw [hxe, hh] at hl
        have hrr : r2 = r := by omega
        subst hrr
        rw [e] at hxe
        exact nxt_inj hwf hp hq (cand_inj hwf (nxt_lt a p) (nxt_lt a q) hxe)
      · left
        refine ⟨r2, hr2, e, ?_⟩
        rw [← hlk x hx hxe]
        exact hl
    obtain ⟨j1, j2, u⟩ := hi2
    have hqx : q ≠ cand a (nxt a q) r := fun e => hq0 (e ▸ h0)
    -- the cell claimed now has no continuation cell
    have hleaf : Acc (fun x y => Child a (lclaim_mem a m q r) y x) (cand a (nxt a q) r) := by
      refine Acc.intro _ (fun y hy => ?_)
      rcases hchild _ y hc0 hy with h | ⟨-, h⟩
      · exact absurd h0 (j1 _ hc0 y h)
      · exact absurd h.symm hqx
    have hacc : ∀ p, Acc (fun x y => Child a m y x) p → p < a.size →
        Acc (fun x y => Child a (lclaim_mem a m q r) y x) p := by
      intro p hp
      induction hp with
      | intro p _ ih =>
        intro hps
        refine Acc.intro p (fun y hy => ?_)
        rcases hchild p y hps hy with h | ⟨h, -⟩
        · exact ih y h h.in_table
        · rw [h]; exact hleaf
    refine ⟨fun p hp x hx => ?_, fun p hp => hacc p (j2 p hp) hp, fun k2 r2 j hr2 hj h hn => ?_⟩
    · rcases hchild p x hp hx with h | ⟨-, h⟩
      · exact hk1.ne_zero hp (j1 p hp x h)
      · rw [h]; exact hk1.ne_zero hq hq0
    · have hz := cand_lt a (slot_of_lt a k2) r2
      have hy := cand_lt a (slot_of_lt a k2) j
      have hzc : cand a (slot_of a k2) r2 ≠ cand a (nxt a q) r := by
        intro e
        have := holds_even h
        rw [e] at this
        omega
      have hyc : cand a (slot_of a k2) j ≠ cand a (nxt a q) r := by
        intro e
        have := holds_even hn
        rw [e] at this
        omega
      exact u k2 r2 j hr2 hj (holds_congr (by rw [hck _ hz hzc]) h)
        (holds_congr (by rw [hck _ hy hyc]) hn)
  · have e : lclaim_mem a m q r = m := by
      simp only [lclaim_mem, claim_large_key_result, if_neg h0]
    rw [e]
    exact hi2

/-- The further invariant survives every run of `add_rec` on the overflow chain
of an occupied slot. -/
theorem LRun.linv2 {a : Ary} (hwf : a.Valid) {q val : Nat} {m m2 : Mem} {ok : Bool}
    (h : LRun a q val m m2 ok) : TableOK a m → Inv2 a m → key_at a m q ≠ 0 → Inv2 a m2 := by
  induction h with
  | full hq hff => exact fun _ hi _ => hi
  | @done q val r m hq hff hc =>
    intro hm hi hq0
    have hi1 := hi.large_claim hwf hm hq hq0 hff
    obtain ⟨hr, hm1, hk1, hl, -⟩ := lclaim_mem_facts hwf hm hff
    have hp := cand_lt a (nxt_lt a q) r
    exact hi1.keyeq_stable (keyeq_add_val_lval hwf hm1 hp (lcell_odd hl) val)
  | @more q val r m m3 ok hq hff hc hsub ih =>
    intro hm hi hq0
    have hi1 := hi.large_claim hwf hm hq hq0 hff
    obtain ⟨hr, hm1, hk1, hl, -⟩ := lclaim_mem_facts hwf hm hff
    have hp := cand_lt a (nxt_lt a q) r
    obtain ⟨hm2, hk2⟩ := keeps_add_val_lval hwf hm1 hp (lcell_odd hl) val
    have hi2 := hi1.keyeq_stable (keyeq_add_val_lval hwf hm1 hp (lcell_odd hl) val)
    have hx0 : key_at a (add_val_field (lclaim_mem a m q r) (lval_w a (cand a (nxt a q) r)) val
        (a.offsets.word_offset (cand a (nxt a q) r)).2.2.val).2 (cand a (nxt a q) r) ≠ 0 := by
      have := hk2.odd hp (lcell_odd hl)
      omega
    have hi3 := ih hm2 hi2 hx0
    obtain ⟨hm3, hk3⟩ := hsub.lkeeps hwf hm2
    have hodd3 := (hk2.trans hk3).odd hp (lcell_odd hl)
    by_cases hok : ok = true
    · simp only [hok, if_true]
      exact hi3
    · simp only [hok, if_false]
      exact hi3.keyeq_stable (keyeq_sub_val_lval hwf hm3 hp hodd3 val)

/-- The further invariant survives every run of `add`. -/
theorem Run.inv2 {a : Ary} (hwf : a.Valid) {ks : List Nat} {key val : Nat} {m : Mem}
    {res : AddResult} (h : Run a key val m res) (hi : Inv a ks m) (hj : Inv2 a m) :
    Inv2 a res.mem := by
  cases h with
  | full hff => exact hj
  | done hff hc =>
    rename_i r
    have hj1 := hj.primary_claim hwf hi hff
    obtain ⟨hr, hm1, hk1, hl, -⟩ := claim_mem_facts hwf hi.1 hff
    have hp := cand_lt a (slot_of_lt a key) r
    exact hj1.keyeq_stable (keyeq_add_val_val hwf hm1 hp val)
  | more hff hc hsub =>
    rename_i m3 r ok
    have hj1 := hj.primary_claim hwf hi hff
    obtain ⟨hr, hm1, hk1, hl, -⟩ := claim_mem_facts hwf hi.1 hff
    have hp := cand_lt a (slot_of_lt a key) r
    obtain ⟨hm2, hk2⟩ := keeps_add_val_val hwf hm1 hp val
    have hj2 := hj1.keyeq_stable (keyeq_add_val_val hwf hm1 hp val)
    have hc0 : key_at a (add_val_field (claim_mem a m key r)
        (val_w a (cand a (slot_of a key) r)) val
        (a.offsets.word_offset (cand a (slot_of a key) r)).2.1.val).2
        (cand a (slot_of a key) r) ≠ 0 :=
      hk2.ne_zero hp (holds_ne_zero hwf hr hl)
    have hj3 := hsub.linv2 hwf hm2 hj2 hc0
    obtain ⟨hm3, hk3⟩ := hsub.lkeeps hwf hm2
    by_cases hok : ok = true
    · simp only [hok, if_true]
      exact hj3
    · simp only [hok, if_false]
      exact hj3.keyeq_stable (keyeq_sub_val_val hwf hm3 hp val)

/-- Every reachable state satisfies the further invariant. -/
theorem Reach.rinv2 {a : Ary} (hwf : a.Valid) {ks : List Nat} {m : Mem} (h : Reach a ks m) :
    Inv2 a m := by
  induction h with
  | clear =>
    have hnc : ∀ q x, ¬ Child a clear_mem q x := by
      rintro q x ⟨r, -, -, hl⟩
      rw [clear_mem_lkey_at] at hl
      omega
    refine ⟨fun q _ x hx => absurd hx (hnc q x),
      fun q _ => Acc.intro q (fun y hy => absurd hy (hnc q y)), fun key r j hr _ h => ?_⟩
    exact absurd (clear_mem_key_at a _) (holds_ne_zero hwf hr h)
  | add hreach hkey hadd ih =>
    exact (add_run hwf (hreach.rinv hwf).1 hadd).inv2 hwf (hreach.rinv hwf) ih
  | set hreach hkey ih =>
    rename_i ks m key
    rw [set_eq hwf (hreach.rinv hwf).1]
    cases hff : first_fit (fits_at a m key (slot_of a key)) a.reprobe_limit 0 with
    | none => simpa using ih
    | some r => simpa using ih.primary_claim hwf (hreach.rinv hwf) hff

/-! ### Termination of `resolve_val_rec` on reachable states -/

/-- One bound for finitely many indices, each of which has a bound, when the
property is kept by larger bounds. -/
theorem uniform_bound (P : Nat → Nat → Prop) (hmono : ∀ i n n2, n ≤ n2 → P i n → P i n2) :
    ∀ k, (∀ i, i < k → ∃ n, P i n) → ∃ N, ∀ i, i < k → P i N := by
  intro k
  induction k with
  | zero => intro _; exact ⟨0, fun i hi => absurd hi (Nat.not_lt_zero i)⟩
  | succ k ih =>
    intro h
    obtain ⟨N1, h1⟩ := ih (fun i hi => h i (by omega))
    obtain ⟨N2, h2⟩ := h k (by omega)
    refine ⟨max N1 N2, fun i hi => ?_⟩
    rcases Nat.lt_succ_iff_lt_or_eq.1 hi with h3 | h3
    · exact hmono i N1 _ (le_max_left _ _) (h1 i h3)
    · subst h3; exact hmono i N2 _ (le_max_right _ _) h2

/-- The loop of `resolve_val_rec` returns when the recursive call returns on
every continuation cell that the loop can match. -/
theorem resolve_val_loop_total {a : Ary} (hwf : a.Valid) {m : Mem} (hm : TableOK a m)
    (carry_bit : Bool)
    (next : Nat → Nat → Nat → Option Nat) {id : Nat} (hid : id < a.size) (val overflows : Nat)
    (hnext : ∀ j, j ≤ a.reprobe_limit → lkey_at a m (cand a id j) = 1 + 2 * j →
      ∀ v o, (next (nxt a (cand a id j)) v o).isSome = true) :
    ∀ left r, r + left = a.reprobe_limit + 1 →
      (resolve_val_loop a m carry_bit next id val overflows left r (cand a id r)).isSome
        = true := by
  intro left
  induction left with
  | zero => intro r _; rw [resolve_val_loop]; rfl
  | succ n ih =>
    intro r hr
    rw [resolve_val_loop_eq hwf hm _ _ _ _ _ _ _ (cand_lt a hid r), ← cand_succ]
    have ih2 := ih (r + 1) (by omega)
    split_ifs with h1 hl h0
    · have hn := hnext r (by omega) hl
      unfold resolve_hit
      simp only []
      split_ifs <;> first | rfl | exact hn _ _
    · exact ih2
    · rfl
    · exact ih2

/-- Method `resolve_val_rec` returns from the slot below `q` when the walk down
the continuation cells of `q` ends. -/
theorem resolve_val_rec_total {a : Ary} (hwf : a.Valid) {m : Mem} (hm : TableOK a m)
    (carry_bit : Bool) :
    ∀ q, Acc (fun x y => Child a m y x) q → q < a.size →
      ∃ n, ∀ fuel, n ≤ fuel → ∀ val ov,
        (resolve_val_rec a m carry_bit fuel (nxt a q) val ov).isSome = true := by
  intro q hacc
  induction hacc with
  | intro q _ ih =>
    intro hq
    obtain ⟨N, hN⟩ := uniform_bound
      (fun j n => lkey_at a m (cand a (nxt a q) j) = 1 + 2 * j → ∀ fuel, n ≤ fuel → ∀ val ov,
        (resolve_val_rec a m carry_bit fuel (nxt a (cand a (nxt a q) j)) val ov).isSome = true)
      (fun i n n2 hn h hl fuel hf => h hl fuel (by omega))
      (a.reprobe_limit + 1)
      (fun j hj => by
        by_cases hl : lkey_at a m (cand a (nxt a q) j) = 1 + 2 * j
        · have hch : Child a m q (cand a (nxt a q) j) := ⟨j, by omega, rfl, hl⟩
          obtain ⟨n, hn⟩ := ih _ hch (cand_lt a (nxt_lt a q) j)
          exact ⟨n, fun _ => hn⟩
        · exact ⟨0, fun h => absurd h hl⟩)
    refine ⟨N + 1, fun fuel hf val ov => ?_⟩
    obtain ⟨f, rfl⟩ : ∃ f, fuel = f + 1 := ⟨fuel - 1, by omega⟩
    rw [resolve_val_rec]
    have := resolve_val_loop_total hwf hm carry_bit
      (fun i v f2 => resolve_val_rec a m carry_bit f i v f2) (nxt_lt a q) val ov
      (fun j hj hl v o => hN j (by omega) hl f (by omega) v o) (a.reprobe_limit + 1) 0 (by omega)
    rwa [cand_zero] at this

/-- On a state with the further invariant one bound on the recursion of
`resolve_val_rec` is enough for every slot. -/
theorem resolve_val_rec_fuel {a : Ary} (hwf : a.Valid) {m : Mem} (hm : TableOK a m)
    (hj : Inv2 a m) :
    ∃ N, ∀ q, q < a.size → ∀ fuel, N ≤ fuel → ∀ carry_bit val ov,
      (resolve_val_rec a m carry_bit fuel (nxt a q) val ov).isSome = true := by
  refine uniform_bound
    (fun q n => ∀ fuel, n ≤ fuel → ∀ carry_bit val ov,
      (resolve_val_rec a m carry_bit fuel (nxt a q) val ov).isSome = true)
    (fun i n n2 hn h fuel hf => h fuel (by omega)) a.size (fun q hq => ?_)
  obtain ⟨n1, h1⟩ := resolve_val_rec_total hwf hm true q (hj.2.1 q hq) hq
  obtain ⟨n2, h2⟩ := resolve_val_rec_total hwf hm false q (hj.2.1 q hq) hq
  refine ⟨max n1 n2, fun fuel hf cb val ov => ?_⟩
  cases cb
  · exact h2 fuel (le_trans (le_max_right _ _) hf) val ov
  · exact h1 fuel (le_trans (le_max_left _ _) hf) val ov

/-- Method `get_val_at_id` returns when `resolve_val_rec` does. -/
theorem get_val_at_id_total {a : Ary} {m : Mem} {fuel : Nat}
    (hN : ∀ q, q < a.size → ∀ carry_bit val ov,
      (resolve_val_rec a m carry_bit fuel (nxt a q) val ov).isSome = true)
    {c : Nat} (hc : c < a.size) (w : Nat) (o : Offset) (reprobe carry_bit : Bool) :
    (get_val_at_id a fuel m c w o reprobe carry_bit).isSome = true := by
  unfold get_val_at_id
  simp only []
  split_ifs <;> first | rfl | exact hN c hc _ _ _

/-! ### The iterator -/

theorem filled_slots_norm (a : Ary) (m : Mem) (lo hi : Nat) :
    filled_slots a m lo hi = filled_slots a m lo (lo + (hi - lo)) := by
  unfold filled_slots
  rw [Nat.add_sub_cancel_left]

theorem filled_slots_zero (a : Ary) (m : Mem) (lo : Nat) : filled_slots a m lo (lo + 0) = [] := by
  simp [filled_slots]

theorem filled_slots_succ (a : Ary) (m : Mem) (lo left : Nat) :
    filled_slots a m lo (lo + (left + 1)) =
      if (get_key_at_id a m lo 0).1 = key_status.FILLED then
        lo :: filled_slots a m (lo + 1) (lo + 1 + left)
      else filled_slots a m (lo + 1) (lo + 1 + left) := by
  unfold filled_slots
  rw [Nat.add_sub_cancel_left, Nat.add_sub_cancel_left, List.range'_succ, List.filter_cons]
  simp

/-- The first FILLED slot of a range and the FILLED slots after it. -/
theorem filled_slots_cons (a : Ary) (m : Mem) {c : Nat} {rest : List Nat} :
    ∀ left lo, filled_slots a m lo (lo + left) = c :: rest →
      lo ≤ c ∧ c < lo + left ∧ (get_key_at_id a m c 0).1 = key_status.FILLED ∧
        rest = filled_slots a m (c + 1) (lo + left) := by
  intro left
  induction left with
  | zero => intro lo h; rw [filled_slots_zero] at h; exact absurd h (by simp)
  | succ n ih =>
    intro lo h
    rw [filled_slots_succ] at h
    by_cases hf : (get_key_at_id a m lo 0).1 = key_status.FILLED
    · rw [if_pos hf] at h
      injection h with h1 h2
      subst h1
      refine ⟨Nat.le_refl _, by omega, hf, ?_⟩
      rw [← h2]
      congr 1
      omega
    · rw [if_neg hf] at h
      obtain ⟨h1, h2, h3, h4⟩ := ih (lo + 1) h
      refine ⟨by omega, by omega, h3, ?_⟩
      rw [h4]
      congr 1
      omega

theorem filled_slots_mem (a : Ary) (m : Mem) (lo hi c : Nat) :
    c ∈ filled_slots a m lo hi ↔
      lo ≤ c ∧ c < hi ∧ (get_key_at_id a m c 0).1 = key_status.FILLED := by
  unfold filled_slots
  simp only [List.mem_filter, List.mem_range'_1, decide_eq_true_eq]
  constructor
  · rintro ⟨⟨h1, h2⟩, h3⟩; exact ⟨h1, by omega, h3⟩
  · rintro ⟨h1, h2, h3⟩; exact ⟨⟨h1, by omega⟩, h3⟩

theorem filled_slots_nodup (a : Ary) (m : Mem) (lo hi : Nat) :
    (filled_slots a m lo hi).Nodup :=
  (List.nodup_range' lo (hi - lo)).filter _

theorem filled_slots_length (a : Ary) (m : Mem) (lo hi : Nat) :
    (filled_slots a m lo hi).length ≤ hi - lo := by
  unfold filled_slots
  exact le_trans (List.length_filter_le _ _) (by simp)

theorem wsub_succ_one {c : Nat} (hc : c + 1 < 2 ^ 64) : wsub (c + 1) 1 = c := by
  unfold wsub
  norm_num at hc ⊢
  omega

theorem wtrunc_of_lt {x : Nat} (h : x < 2 ^ 64) : wtrunc x = x := Nat.mod_eq_of_lt h

theorem Ary.Valid.size_le {a : Ary} (h : a.Valid) : a.size ≤ 2 ^ 63 :=
  Nat.pow_le_pow_right (by decide) h.1

/-- The loop of `next()` stops at once when the status is FILLED. -/
theorem next_loop_filled (a : Ary) (fuel : Nat) (m : Mem) (left id key val : Nat) :
    iterator.next_loop a fuel m left key_status.FILLED id key val
      = some (key_status.FILLED, id, key, val) := by
  cases left with
  | zero => rw [iterator.next_loop]
  | succ n => rw [iterator.next_loop, if_pos rfl]

/-- Method `get_key_val_at_id` on a slot that is not FILLED: the key and the value
of the caller are left as they are. -/
theorem get_key_val_at_id_skip {a : Ary} (hwf : a.Valid) (fuel : Nat) {m : Mem}
    (hm : TableOK a m) {c : Nat}
    (hc : c < a.size) (hf : (get_key_at_id a m c 0).1 ≠ key_status.FILLED) (key : Nat)
    (carry_bit : Bool) :
    ∃ st, st ≠ key_status.FILLED ∧
      get_key_val_at_id a fuel m c key carry_bit = some (st, key, none) := by
  have hf2 : (get_key_at_id a m c key).1 ≠ key_status.FILLED := by
    rw [Ne, status_filled_iff hwf hm hc key, ← status_filled_iff hwf hm hc 0]; exact hf
  refine ⟨(get_key_at_id a m c key).1, hf2, ?_⟩
  unfold get_key_val_at_id
  simp only []
  rw [if_pos hf2]
  have hk : (get_key_at_id a m c key).2.1 = key := by
    have hf3 := hf2
    rw [Ne, status_filled_iff hwf hm hc key] at hf3
    rw [get_key_at_id_eq hwf hc (hm.2 c hc)]
    by_cases h1 : key_at a m c % 2 = 1
    · rw [if_pos h1]
    · rw [if_neg h1]
      have h0 : key_at a m c = 0 := by
        by_contra h0
        exact hf3 ⟨by omega, h0⟩
      rw [if_pos h0]
  rw [hk]

/-- The key that `get_key_at_id` decodes from a FILLED slot does not depend on
the former content of the key of the caller, a key of `key_len` bits. -/
theorem get_key_at_id_indep {a : Ary} (hwf : a.Valid) {m : Mem} (hm : TableOK a m) {c : Nat}
    (hc : c < a.size)
    {key : Nat} (hk : key < 2 ^ a.key_len) :
    (get_key_at_id a m c key).1 = (get_key_at_id a m c 0).1 ∧
      ((get_key_at_id a m c 0).1 = key_status.FILLED →
        (get_key_at_id a m c key).2.1 = (get_key_at_id a m c 0).2.1) := by
  refine ⟨by rw [status_eq hwf hm hc, status_eq hwf hm hc], fun hf => ?_⟩
  obtain ⟨hev, h0⟩ := (status_filled_iff hwf hm hc 0).1 hf
  have hodd : ¬ key_at a m c % 2 = 1 := by omega
  have e1 := get_key_at_id_eq hwf hc (hm.2 c hc) key
  have e2 := get_key_at_id_eq hwf hc (hm.2 c hc) 0
  rw [if_neg hodd, if_neg h0] at e1 e2
  rw [e1, e2]
  simp only []
  have hl := hwf.key_len_eq
  apply Nat.eq_of_testBit_eq
  intro i
  simp only [testBit_set_bits, Nat.zero_add, Nat.not_lt_zero, if_false, Nat.sub_zero,
    Nat.zero_testBit]
  by_cases h1 : i < a.lsize
  · simp [h1]
  · by_cases h2 : i < a.lsize + a.raw_key_len
    · simp [h1, h2]
    · simp only [h1, h2, if_false]
      exact testBit_small hk (by omega)

/-- Method `get_key_val_at_id` on a FILLED slot, the recursion bound being large
enough: the decoded key and the resolved value. -/
theorem get_key_val_at_id_filled {a : Ary} (hwf : a.Valid) {fuel : Nat} {m : Mem}
    (hm : TableOK a m)
    (htot : ∀ c, c < a.size → ∀ w o, (get_val_at_id a fuel m c w o true false).isSome = true)
    {c : Nat} (hc : c < a.size) (hf : (get_key_at_id a m c 0).1 = key_status.FILLED) {key : Nat}
    (hk : key < 2 ^ a.key_len) :
    get_key_val_at_id a fuel m c key false
      = some (key_status.FILLED, (get_key_at_id a m c 0).2.1, some (yield_at a fuel m c).2.2) := by
  obtain ⟨e1, e2⟩ := get_key_at_id_indep hwf hm hc hk
  unfold get_key_val_at_id yield_at
  simp only []
  rw [if_neg (by rw [e1, hf]; simp), e2 hf, get_key_at_id_wo hwf hm hc key,
    get_key_at_id_wo hwf hm hc 0]
  obtain ⟨v, hv⟩ := Option.isSome_iff_exists.1 (htot c hc (a.offsets.word_offset c).1
    (a.offsets.word_offset c).2.1)
  rw [hv]
  rfl

/-- The loop of `next()` over a range without FILLED slot runs to the end of the
range and leaves key and value as they are. -/
theorem next_loop_nil {a : Ary} (hwf : a.Valid) (fuel : Nat) {m : Mem} (hm : TableOK a m) :
    ∀ left id st key val, st ≠ key_status.FILLED → (left ≠ 0 → id + left ≤ a.size) →
      filled_slots a m id (id + left) = [] →
      ∃ st2, st2 ≠ key_status.FILLED ∧
        iterator.next_loop a fuel m left st id key val = some (st2, id + left, key, val) := by
  intro left
  induction left with
  | zero => intro id st key val hst _ _; exact ⟨st, hst, by rw [iterator.next_loop]; rfl⟩
  | succ n ih =>
    intro id st key val hst hle hnil
    have hle := hle (by omega)
    have hsz := hwf.size_le
    rw [filled_slots_succ] at hnil
    have hf : (get_key_at_id a m id 0).1 ≠ key_status.FILLED := by
      intro hf; rw [if_pos hf] at hnil; exact absurd hnil (by simp)
    rw [if_neg hf] at hnil
    obtain ⟨st1, hst1, e⟩ := get_key_val_at_id_skip hwf fuel hm (by omega : id < a.size) hf key false
    obtain ⟨st2, hst2, e2⟩ := ih (id + 1) st1 key val hst1 (fun _ => by omega) hnil
    refine ⟨st2, hst2, ?_⟩
    rw [iterator.next_loop, if_neg hst, e]
    simp only []
    rw [wtrunc_of_lt (by omega), e2]
    congr 3
    omega

/-- The loop of `next()` over a range with a FILLED slot stops after the first
one, with its decoded key and its resolved value. -/
theorem next_loop_cons {a : Ary} (hwf : a.Valid) {fuel : Nat} {m : Mem} (hm : TableOK a m)
    (htot : ∀ c, c < a.size → ∀ w o, (get_val_at_id a fuel m c w o true false).isSome = true)
    {c : Nat} {rest : List Nat} :
    ∀ left id st key val, st ≠ key_status.FILLED → (left ≠ 0 → id + left ≤ a.size) →
      key < 2 ^ a.key_len → filled_slots a m id (id + left) = c :: rest →
      iterator.next_loop a fuel m left st id key val
        = some (key_status.FILLED, c + 1, (get_key_at_id a m c 0).2.1,
            (yield_at a fuel m c).2.2) := by
  intro left
  induction left with
  | zero =>
    intro id st key val _ _ _ h
    rw [filled_slots_zero] at h
    exact absurd h (by simp)
  | succ n ih =>
    intro id st key val hst hle hk h
    have hle := hle (by omega)
    have hsz := hwf.size_le
    rw [filled_slots_succ] at h
    rw [iterator.next_loop, if_neg hst]
    by_cases hf : (get_key_at_id a m id 0).1 = key_status.FILLED
    · rw [if_pos hf] at h
      injection h with h1 h2
      subst h1
      rw [get_key_val_at_id_filled hwf hm htot (by omega : id < a.size) hf hk]
      simp only []
      rw [wtrunc_of_lt (by omega), next_loop_filled]
    · rw [if_neg hf] at h
      obtain ⟨st1, hst1, e⟩ :=
        get_key_val_at_id_skip hwf fuel hm (by omega : id < a.size) hf key false
      rw [e]
      simp only []
      rw [wtrunc_of_lt (by omega)]
      exact ih (id + 1) st1 key val hst1 (fun _ => by omega) hk h

theorem take_append_replicate {α : Type} (x : α) :
    ∀ (L : List α) (n k : Nat), n ≤ k →
      (L ++ List.replicate k x).take n = (L ++ List.replicate n x).take n := by
  intro L
  induction L with
  | nil => intro n k h; simp [List.take_replicate, Nat.min_eq_left h]
  | cons y L ih =>
    intro n k h
    cases n with
    | zero => simp
    | succ n =>
      simp only [List.cons_append, List.take_succ_cons]
      rw [ih n k (by omega), ih n (n + 1) (by omega)]

/-- Successive calls of `next()`: one true return for every FILLED slot of the
range left, in increasing order, with the triple `yield_at` of the slot, then
false returns. -/
theorem nexts_eq {a : Ary} (hwf : a.Valid) {fuel : Nat} {m : Mem} (hm : TableOK a m)
    (htot : ∀ c, c < a.size → ∀ w o, (get_val_at_id a fuel m c w o true false).isSome = true) :
    ∀ n (it : iterator), it.end_id_ ≤ a.size → it.key_ < 2 ^ a.key_len →
      nexts a fuel m n it
        = some ((((filled_slots a m it.id_ it.end_id_).map (fun c => some (yield_at a fuel m c)))
            ++ List.replicate n none).take n) := by
  intro n
  induction n with
  | zero => intro it _ _; simp [nexts]
  | succ n ih =>
    intro it hend hk
    have hsz := hwf.size_le
    have hle : it.end_id_ - it.id_ ≠ 0 → it.id_ + (it.end_id_ - it.id_) ≤ a.size := by
      intro h; omega
    rw [nexts, iterator.next]
    cases hfs : filled_slots a m it.id_ (it.id_ + (it.end_id_ - it.id_)) with
    | nil =>
      obtain ⟨st2, hst2, e⟩ := next_loop_nil hwf fuel hm (it.end_id_ - it.id_) it.id_
        key_status.EMPTY it.key_ it.val_ (by simp) hle hfs
      rw [e]
      simp only [if_neg hst2]
      have hnil2 : filled_slots a m (it.id_ + (it.end_id_ - it.id_)) it.end_id_ = [] := by
        unfold filled_slots
        rw [show it.end_id_ - (it.id_ + (it.end_id_ - it.id_)) = 0 by omega]
        rfl
      rw [ih ⟨it.start_id_, it.id_ + (it.end_id_ - it.id_), it.end_id_, it.key_, it.val_⟩ hend hk]
      simp only [hnil2, filled_slots_norm a m it.id_ it.end_id_, hfs]
      simp [List.replicate_succ]
    | cons c rest =>
      have e := next_loop_cons hwf hm htot (it.end_id_ - it.id_) it.id_ key_status.EMPTY it.key_
        it.val_ (by simp) hle hk hfs
      obtain ⟨h1, h2, h3, h4⟩ := filled_slots_cons a m _ _ hfs
      have hend2 : it.id_ + (it.end_id_ - it.id_) = it.end_id_ := by omega
      have hc : c < a.size := by omega
      rw [e]
      simp only [if_true]
      have hk2 : set_bits (get_key_at_id a m c 0).2.1 0 a.lsize
          (a.hash_inverse_times (get_key_at_id a m c 0).2.1) < 2 ^ a.key_len :=
        set_bits_lt_pow (get_key_at_id_lt hwf hm hc (by positivity))
          (by have := hwf.2.1; omega) _
      rw [ih ⟨it.start_id_, c + 1, it.end_id_, set_bits (get_key_at_id a m c 0).2.1 0 a.lsize
        (a.hash_inverse_times (get_key_at_id a m c 0).2.1), (yield_at a fuel m c).2.2⟩ hend hk2]
      rw [hend2] at h4
      simp only [filled_slots_norm a m it.id_ it.end_id_, hfs, ← h4, iterator.id,
        wsub_succ_one (by omega : c + 1 < 2 ^ 64), Option.map_some']
      simp only [List.map_cons, List.cons_append, List.take_succ_cons]
      rw [take_append_replicate none _ n (n + 1) (by omega)]
      rfl

/-! ### Stored keys and iterator yields -/

/-- Every key recorded for a reachable state is held by a primary cell, at a
candidate of its hashed slot. -/
theorem Reach.held {a : Ary} (hwf : a.Valid) {ks : List Nat} {m : Mem} (h : Reach a ks m) :
    ∀ K, K ∈ ks → ∃ r, r ≤ a.reprobe_limit ∧ holds a m (cand a (slot_of a K) r) K r := by
  induction h with
  | clear => intro K hK; simp at hK
  | add hreach hkey hadd ih =>
    rename_i ks m fuel key val res
    intro K hK
    have hm := (hreach.rinv hwf).1
    have hrun := add_run hwf hm hadd
    obtain ⟨-, hkeep⟩ := hrun.keeps hwf hm
    have old : K ∈ ks → ∃ r, r ≤ a.reprobe_limit ∧
        holds a res.mem (cand a (slot_of a K) r) K r := by
      intro h
      obtain ⟨r, hr, hh⟩ := ih K h
      exact ⟨r, hr, holds_of_keeps hwf hkeep (cand_lt a (slot_of_lt a K) r) hr hh⟩
    rw [claim_key_isSome hwf hm] at hK
    cases hff : first_fit (fits_at a m key (slot_of a key)) a.reprobe_limit 0 with
    | none =>
      rw [hff] at hK
      exact old (by simpa using hK)
    | some r =>
      rw [hff] at hK
      simp only [Option.isSome_some, if_true, List.mem_cons] at hK
      rcases hK with h | h
      · obtain ⟨hr, -, hh, -⟩ := hrun.holds hwf hm hff
        rw [h]
        exact ⟨r, hr, hh⟩
      · exact old h
  | set hreach hkey ih =>
    rename_i ks m key
    intro K hK
    have hm := (hreach.rinv hwf).1
    rw [claim_key_isSome hwf hm] at hK
    rw [set_eq hwf hm]
    cases hff : first_fit (fits_at a m key (slot_of a key)) a.reprobe_limit 0 with
    | none =>
      rw [hff] at hK
      exact ih K (by simpa using hK)
    | some r =>
      rw [hff] at hK
      simp only [Option.isSome_some, if_true, List.mem_cons] at hK
      obtain ⟨hr, -, hkeep, hh, -⟩ := claim_mem_facts hwf hm hff
      rcases hK with h | h
      · rw [h]
        exact ⟨r, hr, hh⟩
      · obtain ⟨r2, hr2, hh2⟩ := ih K h
        exact ⟨r2, hr2, holds_of_keeps hwf hkeep (cand_lt a (slot_of_lt a K) r2) hr2 hh2⟩

/-- On a reachable state no two FILLED cells decode to the same stored key bits
and the same original slot. -/
theorem filled_decode_inj {a : Ary} (hwf : a.Valid) {ks : List Nat} {m : Mem} (hi : Inv a ks m)
    (hj : Inv2 a m) {c1 c2 : Nat} (hc1 : c1 < a.size) (hc2 : c2 < a.size)
    (hf1 : (get_key_at_id a m c1 0).1 = key_status.FILLED)
    (hf2 : (get_key_at_id a m c2 0).1 = key_status.FILLED)
    (hhi : get_bits (get_key_at_id a m c1 0).2.1 a.lsize a.raw_key_len
      = get_bits (get_key_at_id a m c2 0).2.1 a.lsize a.raw_key_len)
    (hlo : get_bits (get_key_at_id a m c1 0).2.1 0 a.lsize
      = get_bits (get_key_at_id a m c2 0).2.1 0 a.lsize) : c1 = c2 := by
  have hm := hi.1
  obtain ⟨hev1, h01⟩ := (status_filled_iff hwf hm hc1 0).1 hf1
  obtain ⟨hev2, h02⟩ := (status_filled_iff hwf hm hc2 0).1 hf2
  obtain ⟨K1, -, r1, hr1, e1, hh1, -⟩ := hi.2.1 c1 hc1 h01 hev1
  obtain ⟨K2, -, r2, hr2, e2, hh2, -⟩ := hi.2.1 c2 hc2 h02 hev2
  rw [e1] at hh1 hhi hlo
  rw [e2] at hh2 hhi hlo
  rw [get_key_at_id_holds hwf hm (slot_of_lt a K1) hr1 hh1 0,
    get_key_at_id_holds hwf hm (slot_of_lt a K2) hr2 hh2 0] at hhi hlo
  simp only [get_bits_decoded_high _ _ _ _ _ (get_bits_lt _ _ _)] at hhi
  simp only [get_bits_decoded_low _ _ _ (slot_of_lt a _)] at hlo
  rw [e1, e2, hlo]
  rw [hlo] at hh1
  have hh1b := holds_of_bits hhi hh1
  rcases Nat.lt_trichotomy r1 r2 with h | h | h
  · exact absurd hh1b (hj.2.2 K2 r2 r1 hr2 h hh2)
  · rw [h]
  · exact absurd hh2 (hj.2.2 K2 r1 r2 hr1 h hh1b)

/-- A key of `L + n` bits with its low `L` bits replaced is what decoding its
stored bits into a zero key gives. -/
theorem decoded_eq {L n K : Nat} (hK : K < 2 ^ (L + n)) (x : Nat) :
    set_bits (set_bits 0 L n (get_bits K L n)) 0 L x = set_bits K 0 L x := by
  apply Nat.eq_of_testBit_eq
  intro i
  simp only [testBit_set_bits, testBit_get_bits, Nat.zero_add, Nat.not_lt_zero, if_false,
    Nat.sub_zero, Nat.zero_testBit]
  by_cases h1 : i < L
  · simp [h1]
  · by_cases h2 : i < L + n
    · have : i - L < n := by omega
      have e : L + (i - L) = i := by omega
      simp [h1, h2, this, e]
    · simp only [h1, h2, if_false]
      exact (testBit_small hK (by omega)).symm

/-- The key that the iterator reports for the primary cell of `K` is `K`, when
`hash_inverse_matrix_.times` gives back the low bits of `K`. -/
theorem yield_at_key {a : Ary} (hwf : a.Valid) (fuel : Nat) {m : Mem} (hm : TableOK a m)
    {K r : Nat}
    (hK : K < 2 ^ a.key_len) (hr : r ≤ a.reprobe_limit)
    (hh : holds a m (cand a (slot_of a K) r) K r)
    (hinv : get_bits (a.hash_inverse_times (set_bits K 0 a.lsize (slot_of a K))) 0 a.lsize
      = get_bits K 0 a.lsize) :
    (yield_at a fuel m (cand a (slot_of a K) r)).2.1 = K := by
  have hl := hwf.key_len_eq
  have hK2 : K < 2 ^ (a.lsize + a.raw_key_len) := by rw [hl]; exact hK
  unfold yield_at
  simp only []
  rw [get_key_at_id_holds hwf hm (slot_of_lt a K) hr hh 0, decoded_eq hK2]
  have e : a.hash_inverse_times (set_bits K 0 a.lsize (slot_of a K)) % 2 ^ a.lsize
      = get_bits K 0 a.lsize % 2 ^ a.lsize := by
    rw [← hinv]
    simp [get_bits]
  rw [set_bits_congr _ _ _ e, set_bits_set_bits, set_bits_get_bits]

/-- One bound on the recursion of `resolve_val_rec` lets `get_val_at_id` return
for every slot of a reachable state. -/
theorem Reach.fuel {a : Ary} (hwf : a.Valid) {ks : List Nat} {m : Mem} (h : Reach a ks m) :
    ∃ N, ∀ fuel, N ≤ fuel → ∀ c, c < a.size → ∀ w o,
      (get_val_at_id a fuel m c w o true false).isSome = true := by
  obtain ⟨N, hN⟩ := resolve_val_rec_fuel hwf (h.rinv hwf).1 (h.rinv2 hwf)
  exact ⟨N, fun fuel hf c hc w o =>
    get_val_at_id_total (fun q hq cb val ov => hN q hq fuel hf cb val ov) hc w o true false⟩

/-- Enough calls of `next()` on the iterator over all slots: the yields of the
FILLED slots, then false returns. -/
theorem nexts_all {a : Ary} (hwf : a.Valid) {fuel : Nat} {m : Mem} (hm : TableOK a m)
    (htot : ∀ c, c < a.size → ∀ w o, (get_val_at_id a fuel m c w o true false).isSome = true)
    {n : Nat} (hn : a.size ≤ n) :
    nexts a fuel m n (iterator_all a)
      = some ((filled_slots a m 0 a.size).map (fun c => some (yield_at a fuel m c))
          ++ List.replicate (n - (filled_slots a m 0 a.size).length) none) := by
  have hlen := filled_slots_length a m 0 a.size
  rw [nexts_eq hwf hm htot n (iterator_all a) (by simp [iterator_all, iterator_new])
    (by simp [iterator_all, iterator_new])]
  simp only [iterator_all, iterator_new, lt_irrefl, if_false]
  rw [List.take_append_eq_append_take, List.take_of_length_le (by simp; omega),
    List.take_replicate, List.length_map, Nat.min_eq_left (by omega)]

theorem mem_nexts_all {a : Ary} (fuel : Nat) (m : Mem) (k : Nat) (y : Nat × Nat × Nat) :
    some y ∈ (filled_slots a m 0 a.size).map (fun c => some (yield_at a fuel m c))
        ++ List.replicate k none ↔
      ∃ c, c < a.size ∧ (get_key_at_id a m c 0).1 = key_status.FILLED ∧
        y = yield_at a fuel m c := by
  simp only [List.mem_append, List.mem_map, filled_slots_mem, List.mem_replicate,
    Option.some.injEq]
  constructor
  · rintro (⟨c, ⟨-, h1, h2⟩, h3⟩ | ⟨-, h⟩)
    · exact ⟨c, h1, h2, h3.symm⟩
    · exact absurd h (by simp)
  · rintro ⟨c, h1, h2, h3⟩
    exact Or.inl ⟨c, ⟨Nat.zero_le _, h1, h2⟩, h3.symm⟩

theorem filterMap_nexts_all {α : Type} (L : List α) (k : Nat) :
    (L.map some ++ List.replicate k none).filterMap id = L := by
  rw [List.filterMap_append, List.filterMap_map]
  have : (List.replicate k (none : Option α)).filterMap id = [] := by
    induction k with
    | zero => rfl
    | succ k ih => rw [List.replicate_succ, List.filterMap_cons_none rfl, ih]
  rw [this, List.append_nil]
  induction L with
  | nil => rfl
  | cons x L ih => simp

/-- The memory `small_two_keys` is reachable, with the keys 8 and 4 recorded. -/
theorem small_two_keys_reach : Reach small_ary [8, 4] small_two_keys :=
  Reach.add
    (Reach.add Reach.clear (by decide : 4 < 2 ^ small_ary.key_len)
      (Option.some_get (rfl : (add small_ary 2 clear_mem 4 1).isSome = true)).symm)
    (by decide : 8 < 2 ^ small_ary.key_len)
    (Option.some_get (rfl : (add small_ary 2
      ((add small_ary 2 clear_mem 4 1).get rfl).mem 8 1).isSome = true)).symm

/-- A FILLED cell of a reachable state is a candidate of the hashed slot of a
recorded key, which it holds; the iterator reports that key for the cell when
`hash_inverse_matrix_.times` gives back the low bits of the recorded keys. -/
theorem filled_yield {a : Ary} (hwf : a.Valid) {ks : List Nat} {m : Mem} (hreach : Reach a ks m)
    (hinv : ∀ K, K ∈ ks →
      get_bits (a.hash_inverse_times (set_bits K 0 a.lsize (slot_of a K))) 0 a.lsize
        = get_bits K 0 a.lsize)
    (fuel : Nat) {c : Nat} (hc : c < a.size)
    (hf : (get_key_at_id a m c 0).1 = key_status.FILLED) :
    ∃ K, K ∈ ks ∧ ∃ r, r ≤ a.reprobe_limit ∧ c = cand a (slot_of a K) r ∧
      holds a m c K r ∧ (yield_at a fuel m c).2.1 = K := by
  have hm := (hreach.rinv hwf).1
  obtain ⟨hev, h0⟩ := (status_filled_iff hwf hm hc 0).1 hf
  obtain ⟨K, hK, r, hr, e, hh, -⟩ := (hreach.rinv hwf).2.1 c hc h0 hev
  refine ⟨K, hK, r, hr, e, hh, ?_⟩
  rw [e] at hh ⊢
  exact yield_at_key hwf fuel hm (hreach.keys_lt K hK) hr hh (hinv K hK)

/-- The cell that holds a recorded key is FILLED. -/
theorem holds_filled {a : Ary} (hwf : a.Valid) {m : Mem} (hm : TableOK a m) {K r : Nat}
    (hr : r ≤ a.reprobe_limit)
    (hh : holds a m (cand a (slot_of a K) r) K r) :
    (get_key_at_id a m (cand a (slot_of a K) r) 0).1 = key_status.FILLED :=
  (status_filled_iff hwf hm (cand_lt a (slot_of_lt a K) r) 0).2
    ⟨holds_even hh, holds_ne_zero hwf hr hh⟩

/-- The keys that the iterator reports for two different FILLED cells differ. -/
theorem yield_key_inj {a : Ary} (hwf : a.Valid) {ks : List Nat} {m : Mem} (hreach : Reach a ks m)
    (hinv : ∀ K, K ∈ ks →
      get_bits (a.hash_inverse_times (set_bits K 0 a.lsize (slot_of a K))) 0 a.lsize
        = get_bits K 0 a.lsize)
    (fuel : Nat) {c1 c2 : Nat} (hc1 : c1 < a.size) (hc2 : c2 < a.size)
    (hf1 : (get_key_at_id a m c1 0).1 = key_status.FILLED)
    (hf2 : (get_key_at_id a m c2 0).1 = key_status.FILLED)
    (e : (yield_at a fuel m c1).2.1 = (yield_at a fuel m c2).2.1) : c1 = c2 := by
  obtain ⟨K1, -, r1, hr1, e1, hh1, y1⟩ := filled_yield hwf hreach hinv fuel hc1 hf1
  obtain ⟨K2, -, r2, hr2, e2, hh2, y2⟩ := filled_yield hwf hreach hinv fuel hc2 hf2
  have hK : K1 = K2 := by rw [← y1, ← y2, e]
  subst hK
  have hj := hreach.rinv2 hwf
  rw [e1] at hh1
  rw [e2] at hh2
  rcases Nat.lt_trichotomy r1 r2 with h | h | h
  · exact absurd hh1 (hj.2.2 K1 r2 r1 hr2 h hh2)
  · rw [e1, e2, h]
  · exact absurd hh2 (hj.2.2 K1 r1 r2 hr1 h hh1)

/-! ### Number of probes of the claims -/

/-- The loop of `claim_key` inspects the candidates of the rounds it runs, at
most one for every reprobe still allowed and one more. -/
theorem claim_key_probes_loop_spec (a : Ary) (key id0 : Nat) :
    ∀ left reprobe cid akey m, cid = cand a id0 reprobe →
      ∃ k, 1 ≤ k ∧ k ≤ left + 1 ∧
        claim_key_probes_loop a key id0 left reprobe cid akey m
          = (List.range' reprobe k).map (cand a id0) ∧
        ((claim_key_loop a key id0 left reprobe cid akey m).1 = none → k = left + 1) ∧
        ∀ cl, (claim_key_loop a key id0 left reprobe cid akey m).1 = some cl →
          cl.id = cand a id0 (reprobe + k - 1) := by
  intro left
  induction left with
  | zero =>
    intro reprobe cid akey m hc
    refine ⟨1, le_refl _, le_refl _, ?_, fun _ => rfl, fun cl h => ?_⟩
    · rw [claim_key_probes_loop]
      split_ifs <;> simp [hc]
    · rw [claim_key_loop] at h
      split_ifs at h
      · simp only [Option.some.injEq] at h
        rw [← h, hc]
        simp
  | succ n ih =>
    intro reprobe cid akey m hc
    by_cases hk : (claim_key_attempt a m key akey cid).1 = true
    · refine ⟨1, le_refl _, by omega, ?_, fun h => ?_, fun cl h => ?_⟩
      · rw [claim_key_probes_loop]
        simp only [hk, if_true]
        simp [hc]
      · rw [claim_key_loop] at h
        simp only [hk, if_true] at h
        simp at h
      · rw [claim_key_loop] at h
        simp only [hk, if_true, Option.some.injEq] at h
        rw [← h, hc]
        simp
    · obtain ⟨k, h1, h2, h3, h4, h5⟩ := ih (reprobe + 1)
        (wtrunc (id0 + a.reprobes (reprobe + 1)) &&& a.size_mask)
        ((akey &&& wnot a.offsets.reprobe_mask) ||| (reprobe + 1 + 1))
        (claim_key_attempt a m key akey cid).2.2.1 (cand_succ a id0 reprobe).symm
      refine ⟨k + 1, by omega, by omega, ?_, fun h => ?_, fun cl h => ?_⟩
      · rw [claim_key_probes_loop]
        simp only [hk, if_false]
        rw [h3, List.range'_succ, List.map_cons, hc]
        rfl
      · rw [claim_key_loop] at h
        simp only [hk, if_false] at h
        rw [h4 h]
      · rw [claim_key_loop] at h
        simp only [hk, if_false] at h
        rw [h5 cl h]
        congr 1
        omega

/-- The loop of `claim_large_key` inspects the candidates of the rounds it runs,
at most one for every reprobe still allowed and one more. -/
theorem claim_large_key_probes_loop_spec (a : Ary) (id0 : Nat) :
    ∀ left reprobe cid m, cid = cand a id0 reprobe →
      ∃ k, 1 ≤ k ∧ k ≤ left + 1 ∧
        claim_large_key_probes_loop a id0 left reprobe cid m
          = (List.range' reprobe k).map (cand a id0) ∧
        ((claim_large_key_loop a id0 left reprobe cid m).1 = none → k = left + 1) ∧
        ∀ cl, (claim_large_key_loop a id0 left reprobe cid m).1 = some cl →
          cl.id = cand a id0 (reprobe + k - 1) := by
  intro left
  induction left with
  | zero =>
    intro reprobe cid m hc
    refine ⟨1, le_refl _, le_refl _, ?_, fun _ => rfl, fun cl h => ?_⟩
    · rw [claim_large_key_probes_loop]
      split_ifs <;> simp [hc]
    · rw [claim_large_key_loop] at h
      split_ifs at h
      · simp only [Option.some.injEq] at h
        rw [← h, hc]
        simp
  | succ n ih =>
    intro reprobe cid m hc
    by_cases hk : (claim_large_key_attempt a m reprobe cid).1 = true
    · refine ⟨1, le_refl _, by omega, ?_, fun h => ?_, fun cl h => ?_⟩
      · rw [claim_large_key_probes_loop]
        simp only [hk, if_true]
        simp [hc]
      · rw [claim_large_key_loop] at h
        simp only [hk, if_true] at h
        simp at h
      · rw [claim_large_key_loop] at h
        simp only [hk, if_true, Option.some.injEq] at h
        rw [← h, hc]
        simp
    · obtain ⟨k, h1, h2, h3, h4, h5⟩ := ih (reprobe + 1)
        (wtrunc (id0 + a.reprobes (reprobe + 1)) &&& a.size_mask)
        (claim_large_key_attempt a m reprobe cid).2.1 (cand_succ a id0 reprobe).symm
      refine ⟨k + 1, by omega, by omega, ?_, fun h => ?_, fun cl h => ?_⟩
      · rw [claim_large_key_probes_loop]
        simp only [hk, if_false]
        rw [h3, List.range'_succ, List.map_cons, hc]
        rfl
      · rw [claim_large_key_loop] at h
        simp only [hk, if_false] at h
        rw [h4 h]
      · rw [claim_large_key_loop] at h
        simp only [hk, if_false] at h
        rw [h5 cl h]
        congr 1
        omega

/-! ### Key fields written by the claims -/

/-- A successful `claim_key`: the round `r` of its first
success, the slot reported and the key field of that slot afterwards. -/
theorem claim_key_some {a : Ary} (hwf : a.Valid) {m : Mem} (hm : TableOK a m) {key id0 : Nat}
    (hid : id0 < a.size)
    {cl : Claimed} {is_new : Bool} {m2 : Mem}
    (h : claim_key a m key id0 = (some cl, is_new, m2)) :
    ∃ r, r ≤ a.reprobe_limit ∧ first_fit (fits_at a m key id0) a.reprobe_limit 0 = some r ∧
      cl = ⟨cand a id0 r, (a.offsets.word_offset (cand a id0 r)).1,
        (a.offsets.word_offset (cand a id0 r)).2.1⟩ ∧
      holds a m2 (cand a id0 r) key r := by
  rw [claim_key_eq hwf hm key hid] at h
  cases hff : first_fit (fits_at a m key id0) a.reprobe_limit 0 with
  | none => rw [hff] at h; simp [claim_key_result] at h
  | some r =>
    rw [hff] at h
    obtain ⟨-, hr, hp, -⟩ := first_fit_some hff
    have hr2 : r ≤ a.reprobe_limit := by omega
    have hc := cand_lt a hid r
    simp only [claim_key_result, Prod.mk.injEq, Option.some.injEq] at h
    obtain ⟨h1, -, h3⟩ := h
    refine ⟨r, hr2, rfl, h1.symm, ?_⟩
    rw [← h3]
    unfold holds
    split_ifs with h0
    · rw [key_at_key_store (hwf.shape hc), Nat.mod_eq_of_lt (two_mul_akey_lt key (hwf.reprobe_fits hr2))]
    · have : fits_at a m key id0 r = true := hp
      simp only [fits_at, decide_eq_true_eq, holds] at this
      rcases this with h | h
      · exact absurd h h0
      · exact h

/-- What `get_key_at_id` reports for a slot across a step that keeps the keys of
the occupied cells. -/
theorem Keeps.status {a : Ary} (hwf : a.Valid) {m m2 : Mem} (hm : TableOK a m)
    (hm2 : TableOK a m2) (hk : Keeps a m m2) {c : Nat} (hc : c < a.size) (tmp : Nat) :
    ((get_key_at_id a m c tmp).1 = key_status.FILLED →
      get_key_at_id a m2 c tmp = get_key_at_id a m c tmp ∧ key_at a m2 c = key_at a m c) ∧
    ((get_key_at_id a m c tmp).1 = key_status.LBSET →
      (get_key_at_id a m2 c tmp).1 = key_status.LBSET ∧ lkey_at a m2 c = lkey_at a m c) ∧
    ((get_key_at_id a m2 c tmp).1 = key_status.EMPTY →
      (get_key_at_id a m c tmp).1 = key_status.EMPTY) := by
  refine ⟨fun hf => ?_, fun hl => ?_, fun he => ?_⟩
  · obtain ⟨hev, h0⟩ := (status_filled_iff hwf hm hc tmp).1 hf
    have e := (hk c hc).1 h0 hev
    exact ⟨get_key_at_id_congr hwf hm hm2 hc e tmp, e⟩
  · have ho := (status_lbset_iff hwf hm hc tmp).1 hl
    exact ⟨(status_lbset_iff hwf hm2 hc tmp).2 (hk.odd hc ho), (hk c hc).2 ho⟩
  · rw [status_empty_iff hwf hm2 hc tmp] at he
    rw [status_empty_iff hwf hm hc tmp]
    by_contra h0
    exact hk.ne_zero hc h0 he

/-- Method `set` keeps the keys of the occupied cells. -/
theorem set_keeps {a : Ary} (hwf : a.Valid) {m : Mem} (hm : TableOK a m) (key : Nat) :
    Keeps a m (set a m key).mem := by
  rw [set_eq hwf hm]
  cases hff : first_fit (fits_at a m key (slot_of a key)) a.reprobe_limit 0 with
  | none => exact Keeps.refl a m
  | some r => exact (claim_mem_facts hwf hm hff).2.2.1

/-! ### Continuation cells -/

/-- A successful `claim_large_key`: the round `r` of its first success, the slot
reported and the memory afterwards. -/
theorem claim_large_key_some {a : Ary} (hwf : a.Valid) {m : Mem} (hm : TableOK a m) {s : Nat}
    (hs : s < a.size) {cl : Claimed} {m2 : Mem} (h : claim_large_key a m s = (some cl, m2)) :
    ∃ r, r ≤ a.reprobe_limit ∧ first_fit (lfits_at a m s) a.reprobe_limit 0 = some r ∧
      cl = ⟨cand a s r, (a.offsets.word_offset (cand a s r)).1,
        (a.offsets.word_offset (cand a s r)).2.2⟩ ∧
      (key_at a m (cand a s r) ≠ 0 → m2 = m) ∧
      (key_at a m (cand a s r) = 0 → m2 = lkey_store a m (cand a s r) (1 + 2 * r)) := by
  rw [claim_large_key_eq hwf hm hs] at h
  cases hff : first_fit (lfits_at a m s) a.reprobe_limit 0 with
  | none => rw [hff] at h; simp [claim_large_key_result] at h
  | some r =>
    rw [hff] at h
    obtain ⟨-, hr, -, -⟩ := first_fit_some hff
    have hr2 : r ≤ a.reprobe_limit := by omega
    simp only [claim_large_key_result, Prod.mk.injEq, Option.some.injEq] at h
    obtain ⟨h1, h3⟩ := h
    refine ⟨r, hr2, rfl, h1.symm, fun h0 => ?_, fun h0 => ?_⟩
    · rw [← h3, if_neg h0]
    · rw [← h3, if_pos h0]

/-- The loop of `resolve_val_rec` accepts the candidate of round `r` when it
holds the reprobe distance `r` and the earlier candidates are occupied and do
not hold theirs. -/
theorem resolve_val_loop_hit {a : Ary} (hwf : a.Valid) {m : Mem} (hm : TableOK a m)
    (carry_bit : Bool)
    (next : Nat → Nat → Nat → Option Nat) {id : Nat} (hid : id < a.size) (val overflows : Nat)
    {r : Nat}
    (hbefore : ∀ j, j < r →
      key_at a m (cand a id j) ≠ 0 ∧ lkey_at a m (cand a id j) ≠ 1 + 2 * j)
    (hl : lkey_at a m (cand a id r) = 1 + 2 * r) :
    ∀ left r0, r0 ≤ r → r < r0 + left →
      resolve_val_loop a m carry_bit next id val overflows left r0 (cand a id r0)
        = resolve_hit a carry_bit next (cand a id r) val overflows
            (lval_at a m (cand a id r)) := by
  intro left
  induction left with
  | zero => intro r0 h1 h2; omega
  | succ n ih =>
    intro r0 h1 h2
    rw [resolve_val_loop_eq hwf hm _ _ _ _ _ _ _ (cand_lt a hid r0), ← cand_succ]
    rcases Nat.eq_or_lt_of_le h1 with h | h
    · subst h
      rw [if_pos (lcell_odd hl), if_pos hl]
      rfl
    · obtain ⟨hb0, hb1⟩ := hbefore r0 h
      have ih2 := ih (r0 + 1) (by omega) (by omega)
      rw [if_neg hb1, if_neg hb0, ih2]
      split_ifs <;> rfl

/-! ### The walk of `get_key_id` -/

/-- The second test of `get_key_id` on a decoded key: writing the low bits of the
searched key into it gives the searched key exactly when the bits
`[L, L + n)` agree. -/
theorem set_low_eq_iff {L n D key : Nat} (hD : D < 2 ^ (L + n)) (hkey : key < 2 ^ (L + n)) :
    set_bits D 0 L (get_bits key 0 L) = key ↔ get_bits D L n = get_bits key L n := by
  constructor
  · intro h
    rw [← h, get_bits_set_bits_apart _ _ _ _ _ _ (Or.inl (by omega))]
  · intro h
    apply Nat.eq_of_testBit_eq
    intro i
    simp only [testBit_set_bits, testBit_get_bits, Nat.zero_add, Nat.not_lt_zero, if_false,
      Nat.sub_zero]
    by_cases h1 : i < L
    · simp [h1]
    · rw [if_neg h1]
      by_cases h2 : i < L + n
      · have h3 := congrArg (fun x => x.testBit (i - L)) h
        simp only [testBit_get_bits] at h3
        have e : L + (i - L) = i := by omega
        have h4 : i - L < n := by omega
        simpa [h4, e] using h3
      · rw [testBit_small hD (by omega), testBit_small hkey (by omega)]

/-- The loop of `get_key_id` over candidates that are skipped: it stops with
false on the first EMPTY candidate and with true on the first FILLED candidate
that decodes the hashed slot and the key bits of the searched key. -/
theorem get_key_id_loop_walk {a : Ary} (hwf : a.Valid) {m : Mem} (hm : TableOK a m) {key : Nat}
    (hkey : key < 2 ^ a.key_len) {j : Nat}
    (hskip : ∀ i, i < j →
      (get_key_at_id a m (cand a (slot_of a key) i) 0).1 = key_status.LBSET ∨
      ((get_key_at_id a m (cand a (slot_of a key) i) 0).1 = key_status.FILLED ∧
        (get_bits (get_key_at_id a m (cand a (slot_of a key) i) 0).2.1 0 a.lsize
            ≠ slot_of a key ∨
          get_bits (get_key_at_id a m (cand a (slot_of a key) i) 0).2.1 a.lsize a.raw_key_len
            ≠ get_bits key a.lsize a.raw_key_len))) :
    ∀ left r0 tmp, tmp < 2 ^ a.key_len → r0 ≤ j → j < r0 + left →
      ((get_key_at_id a m (cand a (slot_of a key) j) 0).1 = key_status.EMPTY →
        (get_key_id_loop a m key (slot_of a key) left r0 (cand a (slot_of a key) r0) tmp).1
          = none) ∧
      ((get_key_at_id a m (cand a (slot_of a key) j) 0).1 = key_status.FILLED →
        get_bits (get_key_at_id a m (cand a (slot_of a key) j) 0).2.1 0 a.lsize
          = slot_of a key →
        get_bits (get_key_at_id a m (cand a (slot_of a key) j) 0).2.1 a.lsize a.raw_key_len
          = get_bits key a.lsize a.raw_key_len →
        (get_key_id_loop a m key (slot_of a key) left r0 (cand a (slot_of a key) r0) tmp).1
          = some (cand a (slot_of a key) j,
              (a.offsets.word_offset (cand a (slot_of a key) j)).1,
              (a.offsets.word_offset (cand a (slot_of a key) j)).2.1)) := by
  have hl := hwf.key_len_eq
  intro left
  induction left with
  | zero => intro r0 tmp _ h1 h2; omega
  | succ n ih =>
    intro r0 tmp ht h1 h2
    have hc := cand_lt a (slot_of_lt a key) r0
    obtain ⟨est, ekey⟩ := get_key_at_id_indep hwf hm hc ht
    have hlt := get_key_at_id_lt hwf hm hc ht
    have hwo := get_key_at_id_wo hwf hm hc tmp
    rw [get_key_id_loop_succ, ← cand_succ, est]
    rcases Nat.eq_or_lt_of_le h1 with h | h
    · subst h
      constructor
      · intro he
        rw [he]
      · intro hf hlo hhi
        have ek := ekey hf
        rw [hf]
        simp only []
        rw [ek, if_neg (by rw [hlo]; simp),
          if_neg (by
            rw [not_not, set_low_eq_iff (by rw [hl, ← ek]; exact hlt) (by rw [hl]; exact hkey)]
            exact hhi)]
        simp only []
        rw [hwo]
    · have ih2 := fun t ht => ih (r0 + 1) t ht (by omega) (by omega)
      rcases hskip r0 h with hs | ⟨hs, hne⟩
      · rw [hs]
        exact ih2 _ hlt
      · have ek := ekey hs
        rw [hs]
        simp only []
        rw [ek]
        rw [ek] at hlt
        by_cases hlo : slot_of a key ≠ get_bits (get_key_at_id a m (cand a (slot_of a key) r0)
            0).2.1 0 a.lsize
        · rw [if_pos hlo]
          exact ih2 _ hlt
        · rw [if_neg hlo]
          rw [not_not] at hlo
          have hhi : get_bits (get_key_at_id a m (cand a (slot_of a key) r0) 0).2.1 a.lsize
              a.raw_key_len ≠ get_bits key a.lsize a.raw_key_len := by
            rcases hne with h3 | h3
            · exact absurd hlo.symm h3
            · exact h3
          rw [if_pos (by
            rw [Ne, set_low_eq_iff (by rw [hl]; exact hlt) (by rw [hl]; exact hkey)]
            exact hhi)]
          exact ih2 _ (set_bits_lt_pow hlt (by have := hwf.2.1; omega) _)

/-! ### The lookup sum -/

/-- A word with its low `n` bits cleared. -/
theorem and_wnot_low {x : Nat} (hx : x < 2 ^ 64) (n : Nat) :
    x &&& wnot (2 ^ n - 1) = x / 2 ^ n * 2 ^ n := by
  apply Nat.eq_of_testBit_eq
  intro i
  rw [← Nat.shiftRight_eq_div_pow, ← Nat.shiftLeft_eq]
  simp only [Nat.testBit_and, testBit_wnot, Nat.testBit_two_pow_sub_one,
    Nat.testBit_shiftLeft, Nat.testBit_shiftRight]
  by_cases h64 : i < 64
  · by_cases h1 : i < n
    · have : ¬ i ≥ n := by omega
      simp [h1, this, h64]
    · have h2 : i ≥ n := by omega
      have e : n + (i - n) = i := by omega
      simp [h1, h2, h64, e]
  · simp only [h64, decide_False, Bool.false_xor, testBit_of_lt_word hx (Nat.le_of_not_lt h64),
      Bool.false_and]
    by_cases h2 : i ≥ n
    · have e : n + (i - n) = i := by omega
      simp [h2, e, testBit_of_lt_word hx (Nat.le_of_not_lt h64)]
    · simp [h2]

/-- The carry and the new field of `add_val` on the field `[shift, shift + n)`. -/
theorem add_val_parts (m : Mem) (w val shift n : Nat) (h : shift + n ≤ 64) :
    (add_val m w val shift (field_mask n shift)).1
        = wtrunc (get_bits (m w) shift n + val) / 2 ^ n * 2 ^ n ∧
      get_bits ((add_val m w val shift (field_mask n shift)).2 w) shift n
        = wtrunc (get_bits (m w) shift n + val) % 2 ^ n := by
  constructor
  · simp only [add_val, and_field_mask_shiftRight, field_mask_shiftRight]
    exact and_wnot_low (wtrunc_lt _) n
  · simp only [add_val, and_field_mask_shiftRight, Mem.write_same]
    apply Nat.eq_of_testBit_eq
    intro i
    simp only [testBit_get_bits, Nat.testBit_or, Nat.testBit_and, testBit_wnot,
      testBit_field_mask, testBit_wshl, Nat.testBit_mod_two_pow]
    by_cases hi : i < n
    · have h1 : shift + i < 64 := by omega
      have h2 : shift ≤ shift + i := by omega
      have h3 : shift + i < shift + n := by omega
      simp [hi, h1, h2, h3]
    · simp [hi]

/-- The loop of `get_key_id` examines the candidates of the rounds it runs, at most
one for every round left. -/
theorem get_key_id_probes_loop_spec (a : Ary) (m : Mem) (key oid : Nat) :
    ∀ left reprobe cid tmp, cid = cand a oid reprobe →
      ∃ k, k ≤ left ∧
        get_key_id_probes_loop a m key oid left reprobe cid tmp
          = (List.range' reprobe k).map (cand a oid) := by
  intro left
  induction left with
  | zero => intro reprobe cid tmp _; exact ⟨0, Nat.le_refl _, by rw [get_key_id_probes_loop]; rfl⟩
  | succ n ih =>
    intro reprobe cid tmp hc
    have hnext : ∀ t, ∃ k, k ≤ n + 1 ∧
        cid :: get_key_id_probes_loop a m key oid n (reprobe + 1)
          (wtrunc (oid + a.reprobes (reprobe + 1)) &&& a.size_mask) t
          = (List.range' reprobe k).map (cand a oid) := by
      intro t
      obtain ⟨k, h1, h2⟩ := ih (reprobe + 1)
        (wtrunc (oid + a.reprobes (reprobe + 1)) &&& a.size_mask) t (cand_succ a oid reprobe).symm
      exact ⟨k + 1, by omega, by rw [h2, List.range'_succ, List.map_cons, hc]⟩
    have hone : ∃ k, k ≤ n + 1 ∧ [cid] = (List.range' reprobe k).map (cand a oid) :=
      ⟨1, by omega, by simp [hc]⟩
    rw [get_key_id_probes_loop]
    simp only []
    cases (get_key_at_id a m cid tmp).1 with
    | EMPTY => exact hone
    | LBSET => exact hnext _
    | FILLED =>
      simp only []
      split_ifs
      · exact hnext _
      · exact hnext _
      · exact hone

/-! ### Reuse of continuation cells -/

/-- Across a step that keeps the keys of the occupied cells, an occupied cell
that does not hold the reprobe distance `j` with the large bit still does not
hold it. -/
theorem Keeps.lcell_ne {a : Ary} {m m2 : Mem} (hk : Keeps a m m2) {c : Nat} (hc : c < a.size)
    (h0 : key_at a m c ≠ 0) {j : Nat} (hne : lkey_at a m c ≠ 1 + 2 * j) :
    lkey_at a m2 c ≠ 1 + 2 * j := by
  by_cases hodd : key_at a m c % 2 = 1
  · rw [(hk c hc).2 hodd]; exact hne
  · intro e
    have h1 := lcell_odd e
    rw [(hk c hc).1 h0 (by omega)] at h1
    exact hodd h1

/-- The continuation cell that the walk accepts: its round, and the rounds before
it, in which `claim_large_key` fails. -/
theorem cont_cell_some (a : Ary) (m : Mem) (s : Nat) :
    ∀ left r0 x, cont_cell a m s left r0 = some x →
      ∃ r, r0 ≤ r ∧ r < r0 + left ∧ x = cand a s r ∧ lkey_at a m x = 1 + 2 * r ∧
        ∀ j, r0 ≤ j → j < r → lfits_at a m s j = false := by
  intro left
  induction left with
  | zero => intro r0 x h; simp [cont_cell] at h
  | succ n ih =>
    intro r0 x h
    rw [cont_cell] at h
    have hstep : key_at a m (cand a s r0) ≠ 0 → lkey_at a m (cand a s r0) ≠ 1 + 2 * r0 →
        cont_cell a m s n (r0 + 1) = some x →
        ∃ r, r0 ≤ r ∧ r < r0 + (n + 1) ∧ x = cand a s r ∧ lkey_at a m x = 1 + 2 * r ∧
          ∀ j, r0 ≤ j → j < r → lfits_at a m s j = false := by
      intro h0 h1 h2
      obtain ⟨r, hr1, hr2, hx, hl, hb⟩ := ih (r0 + 1) x h2
      refine ⟨r, by omega, by omega, hx, hl, fun j hj1 hj2 => ?_⟩
      rcases Nat.eq_or_lt_of_le hj1 with e | e
      · subst e; exact lfits_at_false h0 h1
      · exact hb j (by omega) hj2
    split_ifs at h with h1 h2 h3
    · simp only [Option.some.injEq] at h
      exact ⟨r0, Nat.le_refl _, by omega, h.symm, by rw [← h]; exact h2,
        fun j hj1 hj2 => by omega⟩
    · exact hstep (by omega) h2 h
    · refine hstep h3 (fun e => ?_) h
      have := lkey_at_mod_two a m (cand a s r0)
      omega

/-- The walk accepts the candidate of the first round in which `claim_large_key`
succeeds, when that cell holds the reprobe distance of the round. -/
theorem cont_cell_hit (a : Ary) (m : Mem) (s : Nat) {r : Nat}
    (hbefore : ∀ j, j < r → lfits_at a m s j = false)
    (hl : lkey_at a m (cand a s r) = 1 + 2 * r) :
    ∀ left r0, r0 ≤ r → r < r0 + left → cont_cell a m s left r0 = some (cand a s r) := by
  intro left
  induction left with
  | zero => intro r0 h1 h2; omega
  | succ n ih =>
    intro r0 h1 h2
    rw [cont_cell]
    rcases Nat.eq_or_lt_of_le h1 with h | h
    · subst h
      rw [if_pos (lcell_odd hl), if_pos hl]
    · have hf := hbefore r0 h
      simp only [lfits_at, decide_eq_false_iff_not, not_or] at hf
      rw [if_neg hf.2, if_neg hf.1, ih (r0 + 1) (by omega) (by omega)]
      split_ifs <;> rfl

/-- The continuation cell of a slot stays its continuation cell across a step
that keeps the keys of the occupied cells, and `claim_large_key` finds it. -/
theorem cont_cell_keeps {a : Ary} {m m2 : Mem} (hk : Keeps a m m2) {s : Nat} (hs : s < a.size)
    {x : Nat} (hx : cont_cell a m s (a.reprobe_limit + 1) 0 = some x) :
    ∃ r, r ≤ a.reprobe_limit ∧ x = cand a s r ∧ lkey_at a m x = 1 + 2 * r ∧
      lkey_at a m2 x = 1 + 2 * r ∧
      first_fit (lfits_at a m2 s) a.reprobe_limit 0 = some r ∧
      cont_cell a m2 s (a.reprobe_limit + 1) 0 = some x := by
  obtain ⟨r, -, hr, hxr, hl, hb⟩ := cont_cell_some a m s _ _ _ hx
  have hxs : x < a.size := by rw [hxr]; exact cand_lt a hs r
  have hl2 : lkey_at a m2 x = 1 + 2 * r := by
    rw [(hk x hxs).2 (lcell_odd hl), hl]
  have hb2 : ∀ j, j < r → lfits_at a m2 s j = false := by
    intro j hj
    have hf := hb j (Nat.zero_le _) hj
    simp only [lfits_at, decide_eq_false_iff_not, not_or] at hf
    have hc := cand_lt a hs j
    exact lfits_at_false (hk.ne_zero hc hf.1) (hk.lcell_ne hc hf.1 hf.2)
  refine ⟨r, by omega, hxr, hl, hl2, ?_, ?_⟩
  · refine first_fit_of_first (Nat.zero_le _) (by omega) ?_ (fun j _ hj => hb2 j hj)
    simp only [lfits_at, decide_eq_true_eq]
    right
    rw [← hxr]
    exact hl2
  · rw [hxr] at hl2 ⊢
    exact cont_cell_hit a m2 s hb2 hl2 _ 0 (Nat.zero_le _) (by omega)

/-- A run of `add_rec` on the overflow chain of `q` returns true when the
continuation cell of `q` exists and takes the value without a carry. -/
theorem LRun.ok_of_fit {a : Ary} (hwf : a.Valid) {q val : Nat} {m m2 : Mem} {ok : Bool}
    (h : LRun a q val m m2 ok) (hm : TableOK a m) {r : Nat}
    (hff : first_fit (lfits_at a m (nxt a q)) a.reprobe_limit 0 = some r)
    (h0 : key_at a m (cand a (nxt a q) r) ≠ 0)
    (hfit : lval_at a m (cand a (nxt a q) r) + val < 2 ^ a.offsets.lval_len) : ok = true := by
  have hx := cand_lt a (nxt_lt a q) r
  have hsh := hwf.lval_shape hx
  have hmem : lclaim_mem a m q r = m := by
    simp only [lclaim_mem, claim_large_key_result, if_neg h0]
  have hcarry : (add_val_field m (lval_w a (cand a (nxt a q) r)) val
      (a.offsets.word_offset (cand a (nxt a q) r)).2.2.val).1 = 0 := by
    have h64 : lval_at a m (cand a (nxt a q) r) + val < 2 ^ 64 :=
      lt_of_lt_of_le hfit (Nat.pow_le_pow_right (by decide) hsh.2.2.2.2.2)
    unfold lval_w
    rw [add_val_field_carry _ _ val hsh hm.1 h64]
    exact Nat.div_eq_of_lt hfit
  cases h with
  | full _ hff2 => rw [hff2] at hff; cases hff
  | done _ _ _ => rfl
  | more _ hff2 hc _ =>
    rw [hff2] at hff
    cases hff
    rw [hmem] at hc
    exact absurd hcarry hc

/-! ### Facts about the split instance -/

set_option maxRecDepth 100000 in
theorem split_ary_hash_inj : HashInj split_ary := by
  decide

theorem split_ary_valid : split_ary.Valid := by
  decide

theorem long_ary_valid : long_ary.Valid := by
  decide

/-- The memory `split_two_keys` is reachable, with the keys 9 and 5 recorded. -/
theorem split_two_keys_reach : Reach split_ary [9, 5] split_two_keys :=
  Reach.add
    (Reach.add Reach.clear (by decide : 5 < 2 ^ split_ary.key_len)
      (Option.some_get (rfl : (add split_ary 2 clear_mem 5 1).isSome = true)).symm)
    (by decide : 9 < 2 ^ split_ary.key_len)
    (Option.some_get (rfl : (add split_ary 2
      ((add split_ary 2 clear_mem 5 1).get rfl).mem 9 1).isSome = true)).symm

/-! ### Further facts on sound tables -/

/-- Method `set` keeps the table sound. -/
theorem set_tableOK {a : Ary} (hwf : a.Valid) {m : Mem} (hm : TableOK a m) (key : Nat) :
    TableOK a (set a m key).mem := by
  rw [set_eq hwf hm]
  cases hff : first_fit (fits_at a m key (slot_of a key)) a.reprobe_limit 0 with
  | none => exact hm
  | some r => exact (claim_mem_facts hwf hm hff).2.1

/-- Every returning call of `add` keeps the table sound. -/
theorem add_tableOK {a : Ary} (hwf : a.Valid) {m : Mem} (hm : TableOK a m) {fuel key val : Nat}
    {res : AddResult} (h : add a fuel m key val = some res) : TableOK a res.mem :=
  ((add_run hwf hm h).keeps hwf hm).1

/-- The first fit is at or before every index that fits. -/
theorem first_fit_le {p : Nat → Bool} {left j : Nat} (hj : j ≤ left) (hp : p j = true) :
    ∃ r, r ≤ j ∧ first_fit p left 0 = some r := by
  cases hff : first_fit p left 0 with
  | none =>
    have := first_fit_none hff j (Nat.zero_le _) (by omega)
    rw [hp] at this
    exact absurd this (by decide)
  | some r =>
    refine ⟨r, ?_, rfl⟩
    obtain ⟨-, -, -, hb⟩ := first_fit_some hff
    by_contra hlt
    have := hb j (Nat.zero_le _) (by omega)
    rw [hp] at this
    exact absurd this (by decide)

/-- The loop of `get_key_id` returns true when a primary cell holds the key at a
reprobe index that the loop reaches and every earlier candidate is occupied. -/
theorem get_key_id_loop_finds {a : Ary} (hwf : a.Valid) {m : Mem} (hm : TableOK a m)
    {key r : Nat} (hkey : key < 2 ^ a.key_len) (hr : r ≤ a.reprobe_limit)
    (hh : holds a m (cand a (slot_of a key) r) key r)
    (hocc : ∀ j, j < r → key_at a m (cand a (slot_of a key) j) ≠ 0) :
    ∀ left r0 tmp, tmp < 2 ^ a.key_len → r0 ≤ r → r < r0 + left →
      (get_key_id_loop a m key (slot_of a key) left r0 (cand a (slot_of a key) r0) tmp).1.isSome
        = true := by
  intro left
  induction left with
  | zero => intro r0 tmp _ h1 h2; omega
  | succ n ih =>
    intro r0 tmp ht h1 h2
    have hx := cand_lt a (slot_of_lt a key) r0
    have hlt := get_key_at_id_lt hwf hm hx ht
    rw [get_key_id_loop_succ, ← cand_succ]
    rcases Nat.eq_or_lt_of_le h1 with h | h
    · subst h
      obtain ⟨t1, t2, t3⟩ := get_key_id_tests hwf hm hkey hr hh ht
      rw [t1]
      simp only []
      rw [if_neg (by rw [← t2]; simp), if_neg (by rw [t3]; simp)]
      rfl
    · have h0 := hocc r0 h
      have ih1 := fun t ht2 => ih (r0 + 1) t ht2 (by omega) (by omega)
      cases hst : (get_key_at_id a m (cand a (slot_of a key) r0) tmp).1 with
      | EMPTY => exact absurd ((status_empty_iff hwf hm hx tmp).1 hst) h0
      | LBSET => exact ih1 _ hlt
      | FILLED =>
        simp only []
        split_ifs
        · exact ih1 _ hlt
        · exact ih1 _ (set_bits_lt_pow hlt (by have := hwf.2.1; omega) _)
        · rfl

/-- One bound on the recursion of `resolve_val_rec` lets `get_val_for_key` return
for every key on a reachable state. -/
theorem Reach.lookup_returns {a : Ary} (hwf : a.Valid) {ks : List Nat} {m : Mem}
    (h : Reach a ks m) :
    ∃ N, ∀ fuel, N ≤ fuel → ∀ key cb, (get_val_for_key a fuel m key cb).isSome = true := by
  have hm := (h.rinv hwf).1
  obtain ⟨N, hN⟩ := resolve_val_rec_fuel hwf hm (h.rinv2 hwf)
  refine ⟨N, fun fuel hf key cb => ?_⟩
  unfold get_val_for_key
  cases hx : (get_key_id_tmp a m key 0).1 with
  | none => rfl
  | some x =>
    obtain ⟨hlt, -⟩ := get_key_id_loop_found hwf hm key a.reprobe_limit 0 (slot_of a key) 0
      (slot_of_lt a key) x hx
    simp only [Option.isSome_map']
    exact get_val_at_id_total (fun q hq cb val ov => hN q hq fuel hf cb val ov) hlt _ _ true cb

/-- After `set(key)` on a reachable state on which a candidate of the key at a
reprobe index below `reprobe_limit` is EMPTY, `get_key_id` finds the key. -/
theorem set_then_found {a : Ary} (hwf : a.Valid) {ks : List Nat} {m : Mem}
    (hreach : Reach a ks m) {key : Nat} (hkey : key < 2 ^ a.key_len) {j : Nat}
    (hj : j < a.reprobe_limit)
    (he : (get_key_at_id a m (cand a (slot_of a key) j) 0).1 = key_status.EMPTY) :
    (set a m key).ok = true ∧ ((get_key_id_tmp a (set a m key).mem key 0).1).isSome = true := by
  have hm := (hreach.rinv hwf).1
  have hfit : fits_at a m key (slot_of a key) j = true :=
    fits_at_of_free ((status_empty_iff hwf hm (cand_lt a (slot_of_lt a key) j) 0).1 he)
  obtain ⟨r, hrj, hff⟩ := first_fit_le (by omega : j ≤ a.reprobe_limit) hfit
  obtain ⟨hr, hm1, hk1, hh, hbefore⟩ := claim_mem_facts hwf hm hff
  rw [set_eq hwf hm, hff]
  refine ⟨rfl, ?_⟩
  have := get_key_id_loop_finds hwf hm1 hkey hr hh
    (fun i hi => hk1.ne_zero (cand_lt a (slot_of_lt a key) i)
      (fits_at_false_ne_zero (hbefore i hi)))
    a.reprobe_limit 0 0 (by positivity) (Nat.zero_le _) (by omega)
  rw [cand_zero] at this
  exact this

/-! ## The claims -/

/-- C1 (fails on the code): in the small instance, from the cleared table,
`add(4, 1)` and `add(8, 1)` both return true (key 8 is stored in slot 2, at
reprobe index 1 = reprobe limit), and afterwards `get_val_for_key(8)` returns
false, although the claim asks for the count 1. -/
theorem add_then_get_val_for_key_absent :
    ∃ r1 r2, add small_ary 1 clear_mem 4 1 = some r1 ∧ r1.ok = true ∧
      add small_ary 1 r1.mem 8 1 = some r2 ∧ r2.ok = true ∧ r2.eid = 2 ∧
      get_val_for_key small_ary 1 r2.mem 8 false = some none :=
  ⟨_, _, rfl, rfl, rfl, rfl, rfl, by decide⟩

/-- C3 (fails on the code): in the small instance, with key 4 stored in slot 0,
`claim_key` claims the primary cell of key 8 in slot 2 at reprobe index
1 = reprobe limit, and `get_key_id(8)` on the resulting table returns false:
its loop runs for `reprobe < reprobe_limit` only. -/
theorem get_key_id_misses_last_reprobe :
    ((claim_key small_ary (set small_ary clear_mem 4).mem 8 0).1.map fun c => c.id) = some 2 ∧
      get_key_id small_ary (claim_key small_ary (set small_ary clear_mem 4).mem 8 0).2.2 8
        = none := by
  decide

/-- C10: rollback arithmetic.  For a value field of `val_len` bits described by
`v` (in one word, or split over two words), every content of the two words and
every `delta`: the increment by `delta` followed by the back-tracking
`add_val` of `(1 << val_len) - delta` (carry forwarded to the second word)
gives back the memory block word for word: the value field has its old content
and no bit outside it has changed.  `1 << val_len` is taken modulo `2 ^ 64`. -/
theorem rollback_restores_value_field (a : Ary) (v : ValOffsets) (m : Mem) (vw delta : Nat)
    (hv : ValShape v a.offsets.val_len) (h1 : m vw < 2 ^ 64) (h2 : m (vw + 1) < 2 ^ 64) :
    sub_val_field a (add_val_field m vw delta v).2 vw delta v = m :=
  sub_add_val_field_id a v m vw delta hv h1 h2

/-- C10, witness: in the small instance, value field of slot 1 holding 3,
`delta = 6`. -/
theorem rollback_restores_value_field_witness :
    sub_val_field small_ary
      (add_val_field (fun _ => 3 * 2 ^ 14) 0 6 (small_offsets.normal 1).val).2 0 6
      (small_offsets.normal 1).val = (fun _ => 3 * 2 ^ 14) :=
  rollback_restores_value_field small_ary (small_offsets.normal 1).val (fun _ => 3 * 2 ^ 14) 0 6
    (by decide) (by decide) (by decide)

/-- C14: after `clear()`, in whatever layout, `get_key_at_id` classifies every
slot as EMPTY, `get_key_id` and `get_val_for_key` return false for every key,
and the first `next()` of `iterator_all()` returns false. -/
theorem clear_is_empty (a : Ary) :
    (∀ id key, (get_key_at_id a clear_mem id key).1 = key_status.EMPTY) ∧
      (∀ key, get_key_id a clear_mem key = none) ∧
      (∀ fuel key carry_bit, get_val_for_key a fuel clear_mem key carry_bit = some none) ∧
      (∀ fuel, ∃ it, iterator.next a fuel clear_mem (iterator_all a) = some (false, it)) := by
  refine ⟨fun id key => by rw [get_key_at_id_clear], fun key => ?_, fun fuel key cb => ?_,
    fun fuel => ?_⟩
  · unfold get_key_id get_key_id_tmp
    simp only [get_key_id_loop_clear, Option.map_none']
  · unfold get_val_for_key get_key_id_tmp
    simp only [get_key_id_loop_clear]
  · unfold iterator.next
    obtain ⟨id2, h⟩ := next_loop_clear a fuel ((iterator_all a).end_id_ - (iterator_all a).id_)
      (iterator_all a).id_ (iterator_all a).key_ (iterator_all a).val_
    rw [h]
    exact ⟨_, rfl⟩

/-- C12: in the small instance, after `add(4, 1)`, key 8 is absent and `set(8)`
returns true with `is_new` true (it claims slot 2 at reprobe index 1, the
reprobe limit); afterwards `get_val_for_key(8)` still returns false. -/
theorem set_then_get_val_for_key_absent :
    ∃ r1, add small_ary 2 clear_mem 4 1 = some r1 ∧
      get_val_for_key small_ary 2 r1.mem 8 false = some none ∧
      (set small_ary r1.mem 8).ok = true ∧ (set small_ary r1.mem 8).is_new = true ∧
      (set small_ary r1.mem 8).eid = 2 ∧
      get_val_for_key small_ary 2 (set small_ary r1.mem 8).mem 8 false = some none :=
  ⟨_, rfl, by decide, by decide, by decide, by decide, by decide⟩

/-- C20: in the small instance, after `add(4, 1)` and `add(8, 1)`, the iterator
over all slots yields `(4, 1)` in slot 0 and `(8, 1)` in slot 2 and then returns
false, but `get_val_for_key(8)` returns false. -/
theorem iterator_yield_not_found :
    ∃ r1 r2, add small_ary 2 clear_mem 4 1 = some r1 ∧ add small_ary 2 r1.mem 8 1 = some r2 ∧
      nexts small_ary 2 r2.mem 3 (iterator_all small_ary)
        = some [some (0, 4, 1), some (2, 8, 1), none] ∧
      get_val_for_key small_ary 2 r2.mem 8 false = some none :=
  ⟨_, _, rfl, rfl, by decide, by decide⟩

/-- C30: `set_key` of a single thread.  If `(w & free_mask) = 0` the call returns
true with `is_new` true and the word becomes `w | nkey`; otherwise the memory
is left as it is, `is_new` is false and the result is true exactly when
`(w & equal_mask) = nkey`.  In both cases every bit of the word that was 1 is
still 1 and no other word changes. -/
theorem set_key_semantics (m : Mem) (w nkey free_mask equal_mask : Nat) :
    (m w &&& free_mask = 0 →
      set_key m w nkey free_mask equal_mask = (true, true, m.write w (m w ||| nkey))) ∧
    (m w &&& free_mask ≠ 0 →
      set_key m w nkey free_mask equal_mask
        = (decide (m w &&& equal_mask = nkey), false, m)) ∧
    (∀ i, (m w).testBit i = true →
      ((set_key m w nkey free_mask equal_mask).2.2 w).testBit i = true) ∧
    (∀ j, j ≠ w → (set_key m w nkey free_mask equal_mask).2.2 j = m j) := by
  unfold set_key
  simp only []
  refine ⟨fun h => by rw [if_pos h], fun h => by rw [if_neg h], fun i hi => ?_, fun j hj => ?_⟩
  · split_ifs
    · simp [Mem.write, Nat.testBit_or, hi]
    · exact hi
  · split_ifs
    · simp [Mem.write, hj]
    · rfl

/-- C25: reprobe bound.  For every memory, every layout and every key,
`claim_key` returns after it has inspected `k` candidate cells with
`1 <= k <= reprobe_limit + 1`: the candidates of the reprobe indices
`0, ..., k - 1` of the start slot, in this order; when it returns false
`k = reprobe_limit + 1`, and when it returns true the slot it reports is the
last one inspected.  The same holds for every call of `claim_large_key`, one
call being made per overflow level. -/
theorem claims_inspect_bounded (a : Ary) (m : Mem) (key id : Nat) :
    (∃ k, 1 ≤ k ∧ k ≤ a.reprobe_limit + 1 ∧
      claim_key_probes a m key id = (List.range k).map (cand a id) ∧
      ((claim_key a m key id).1 = none → k = a.reprobe_limit + 1) ∧
      ∀ cl, (claim_key a m key id).1 = some cl → cl.id = cand a id (k - 1)) ∧
    (∃ k, 1 ≤ k ∧ k ≤ a.reprobe_limit + 1 ∧
      claim_large_key_probes a m id = (List.range k).map (cand a id) ∧
      ((claim_large_key a m id).1 = none → k = a.reprobe_limit + 1) ∧
      ∀ cl, (claim_large_key a m id).1 = some cl → cl.id = cand a id (k - 1)) := by
  constructor
  · obtain ⟨k, h1, h2, h3, h4, h5⟩ := claim_key_probes_loop_spec a key id a.reprobe_limit 0 id
      (1 ||| wshl (get_bits key a.lsize (min (wsize - a.offsets.reprobe_len)
        (a.key_len - a.lsize))) a.offsets.reprobe_len) m (cand_zero a id).symm
    refine ⟨k, h1, h2, ?_, h4, fun cl h => ?_⟩
    · rw [List.range_eq_range']; exact h3
    · have := h5 cl h
      rwa [Nat.zero_add] at this
  · obtain ⟨k, h1, h2, h3, h4, h5⟩ := claim_large_key_probes_loop_spec a id a.reprobe_limit 0 id
      m (cand_zero a id).symm
    refine ⟨k, h1, h2, ?_, h4, fun cl h => ?_⟩
    · rw [List.range_eq_range']; exact h3
    · have := h5 cl h
      rwa [Nat.zero_add] at this

/-- C23: empty iff zero key field (key fields in one word).  For a slot whose
large bit is clear, `get_key_at_id` returns EMPTY exactly when the key field
`(word & mask1) >> boff` is zero.  After a successful `claim_key` at the round
`r` the key field of the reported slot is not zero: its low `reprobe_len` bits
hold `r + 1` with `1 <= r + 1 <= reprobe_limit + 1 < 2^reprobe_len`, and the
bits above them are the bits `[lsize, key_len)` of the key. -/
theorem empty_iff_zero_key_field {a : Ary} (hwf : a.WF) (m : Mem) {id : Nat} (hid : id < a.size) :
    (m ((a.offsets.word_offset id).1 + (a.offsets.word_offset id).2.1.key.woff) &&&
        (a.offsets.word_offset id).2.1.key.lb_mask = 0 →
      ∀ tmp, ((get_key_at_id a m id tmp).1 = key_status.EMPTY ↔
        (m ((a.offsets.word_offset id).1 + (a.offsets.word_offset id).2.1.key.woff) &&&
          (a.offsets.word_offset id).2.1.key.mask1) >>>
            (a.offsets.word_offset id).2.1.key.boff = 0)) ∧
    ∀ key cl is_new m2, claim_key a m key id = (some cl, is_new, m2) →
      ∃ r, r ≤ a.reprobe_limit ∧ cl.id = cand a id r ∧ 1 ≤ r + 1 ∧
        r + 1 ≤ a.reprobe_limit + 1 ∧ r + 1 < 2 ^ a.offsets.reprobe_len ∧
        (m2 (cl.w + cl.ao.key.woff) &&& cl.ao.key.mask1) >>> cl.ao.key.boff ≠ 0 ∧
        ((m2 (cl.w + cl.ao.key.woff) &&& cl.ao.key.mask1) >>> cl.ao.key.boff)
          % 2 ^ a.offsets.reprobe_len = r + 1 ∧
        ((m2 (cl.w + cl.ao.key.woff) &&& cl.ao.key.mask1) >>> cl.ao.key.boff)
          >>> a.offsets.reprobe_len = get_bits key a.lsize a.raw_key_len := by
  constructor
  · intro hlb tmp
    have hs := hwf.cell hid
    have hlbm : (a.offsets.word_offset id).2.1.key.lb_mask = field_mask 1 (cell_kb a id) :=
      hs.2.2.2.2.2.1
    have hev : cell_key a m id % 2 = 0 := by
      rw [hlbm, and_field_mask_eq_zero] at hlb
      have := get_bits_mod (m (cell_kw a id)) (cell_kb a id) (a.klen + 1) 1 (by omega)
      simp only [pow_one] at this
      have e : get_bits (m (cell_kw a id)) (cell_kb a id) 1 = 0 := hlb
      rw [e] at this
      exact this
    rw [key_field_eq_one hs, status_empty_iff_one hwf m hid tmp]
    omega
  · intro key cl is_new m2 h
    obtain ⟨r, hr, -, hcl, hh⟩ := claim_key_some_one hwf hid h
    have hfit := hwf.reprobe_fits_one hr
    have hs := hwf.cell (cand_lt a hid r)
    have hf := key_field_eq_one hs m2
    unfold holds_key at hh
    rw [hh, Nat.mul_div_cancel_left _ (by decide : 0 < 2)] at hf
    subst hcl
    simp only []
    rw [hf]
    exact ⟨r, hr, rfl, by omega, by omega, hfit,
      Nat.pos_iff_ne_zero.1 (akey_of_pos key hfit), akey_of_mod key hfit,
      akey_of_shiftRight key hfit⟩

/-- C23, witness: slot 0 of the cleared small instance, whose large bit is
clear. -/
theorem empty_iff_zero_key_field_witness :
    (get_key_at_id small_ary clear_mem 0 0).1 = key_status.EMPTY ↔
      (clear_mem ((small_ary.offsets.word_offset 0).1
          + (small_ary.offsets.word_offset 0).2.1.key.woff) &&&
        (small_ary.offsets.word_offset 0).2.1.key.mask1) >>>
          (small_ary.offsets.word_offset 0).2.1.key.boff = 0 :=
  (empty_iff_zero_key_field (by decide : small_ary.WF) clear_mem
    (by decide : 0 < small_ary.size)).1 (by decide) 0

/-- C28: key field round trip (key fields in one word).  If
`claim_key(key)`, started at the hashed slot of `key`, succeeds at the slot `c`
with reprobe index `r`, then `get_key_at_id(c)` returns FILLED, the reprobe
field it decodes is `r + 1`, the bits `[lsize, key_len)` of the key it hands
back are those of `key`, and its bits `[0, lsize)` are the original slot
`(c - R[r]) & size_mask` for `r >= 1` and `c` for `r = 0`, which is
`hash_matrix.times(key) & size_mask`. -/
theorem key_field_round_trip {a : Ary} (hwf : a.WF) {m : Mem} {key : Nat} {cl : Claimed}
    {is_new : Bool} {m2 : Mem}
    (h : claim_key a m key (slot_of a key) = (some cl, is_new, m2)) (tmp : Nat) :
    ∃ r, r ≤ a.reprobe_limit ∧ cl.id = cand a (slot_of a key) r ∧
      first_fit (claims_at a m key (slot_of a key)) a.reprobe_limit 0 = some r ∧
      (get_key_at_id a m2 cl.id tmp).1 = key_status.FILLED ∧
      ((m2 (cl.w + cl.ao.key.woff) &&& cl.ao.key.mask1) >>> cl.ao.key.boff)
        &&& a.offsets.reprobe_mask = r + 1 ∧
      get_bits (get_key_at_id a m2 cl.id tmp).2.1 a.lsize a.raw_key_len
        = get_bits key a.lsize a.raw_key_len ∧
      get_bits (get_key_at_id a m2 cl.id tmp).2.1 0 a.lsize
        = (if 1 ≤ r then wsub cl.id (a.reprobes r) else cl.id) &&& a.size_mask ∧
      (if 1 ≤ r then wsub cl.id (a.reprobes r) else cl.id) &&& a.size_mask
        = a.hash_times key &&& a.size_mask := by
  obtain ⟨r, hr, hff, hcl, hh⟩ := claim_key_some_one hwf (slot_of_lt a key) h
  have hfit := hwf.reprobe_fits_one hr
  have hs := hwf.cell (cand_lt a (slot_of_lt a key) r)
  have hf := key_field_eq_one hs m2
  have hh2 := hh
  unfold holds_key at hh2
  rw [hh2, Nat.mul_div_cancel_left _ (by decide : 0 < 2)] at hf
  have ho := orig_slot hwf.1 (slot_of_lt a key) r
  have hif : (if 1 ≤ r then wsub (cand a (slot_of a key) r) (a.reprobes r)
      else cand a (slot_of a key) r) &&& a.size_mask = slot_of a key := by
    by_cases h1 : 1 ≤ r
    · rw [if_pos (by omega), Nat.add_sub_cancel] at ho
      rw [if_pos h1]
      exact ho
    · rw [if_neg (by omega)] at ho
      rw [if_neg h1]
      exact ho
  subst hcl
  have hg := get_key_at_id_holds_one hwf (slot_of_lt a key) hr hh tmp
  refine ⟨r, hr, rfl, hff, ?_, ?_, ?_, ?_, ?_⟩
  · simp only []
    rw [hg]
  · simp only []
    rw [hf, hwf.2.2.1, and_two_pow_sub_one, akey_of_mod key hfit]
  · simp only []
    rw [hg]
    exact get_bits_decoded_high _ _ _ _ _ (get_bits_lt _ _ _)
  · simp only []
    rw [hg, hif]
    exact get_bits_decoded_low _ _ _ (slot_of_lt a key)
  · exact hif

/-- C28, witness: in the small instance with key 4 in slot 0, `claim_key(8)`
succeeds at slot 2 with reprobe index 1. -/
theorem key_field_round_trip_witness :
    ∃ r, r ≤ small_ary.reprobe_limit ∧ 2 = cand small_ary (slot_of small_ary 8) r ∧
      first_fit (claims_at small_ary ((add small_ary 2 clear_mem 4 1).get rfl).mem 8
        (slot_of small_ary 8)) small_ary.reprobe_limit 0 = some r ∧
      (get_key_at_id small_ary
        (claim_key small_ary ((add small_ary 2 clear_mem 4 1).get rfl).mem 8
          (slot_of small_ary 8)).2.2 2 0).1 = key_status.FILLED :=
  (key_field_round_trip (by decide : small_ary.WF)
    (rfl : claim_key small_ary ((add small_ary 2 clear_mem 4 1).get rfl).mem 8
        (slot_of small_ary 8)
      = (some ⟨2, 0, (small_ary.offsets.word_offset 2).2.1⟩, true,
        (claim_key small_ary ((add small_ary 2 clear_mem 4 1).get rfl).mem 8
          (slot_of small_ary 8)).2.2)) 0).imp
    (fun _ h => ⟨h.1, h.2.1, h.2.2.1, h.2.2.2.1⟩)

/-- C31: `add_val` arithmetic.  For the contiguous field
`mask = (2^n - 1) << shift` with `shift + n <= 64`, every memory word and every
`val`, with `f` the content of the field before the call: after
`add_val(w, val, shift, mask)` the field holds `(f + val) mod 2^n`; the carry
returned has its low `n` bits zero; the new field plus the carry is
`(f + val) mod 2^64`; the carry shifted right by `n` is that sum divided by
`2^n`; and with `val = 0` the carry is 0. -/
theorem add_val_arithmetic (m : Mem) (w val shift n : Nat) (h : shift + n ≤ 64) :
    get_bits ((add_val m w val shift (field_mask n shift)).2 w) shift n
        = (get_bits (m w) shift n + val) % 2 ^ n ∧
      (add_val m w val shift (field_mask n shift)).1 % 2 ^ n = 0 ∧
      get_bits ((add_val m w val shift (field_mask n shift)).2 w) shift n
          + (add_val m w val shift (field_mask n shift)).1
        = (get_bits (m w) shift n + val) % 2 ^ 64 ∧
      (add_val m w val shift (field_mask n shift)).1 >>> n
        = (get_bits (m w) shift n + val) % 2 ^ 64 / 2 ^ n ∧
      (val = 0 → (add_val m w val shift (field_mask n shift)).1 = 0) := by
  have hn : n ≤ 64 := by omega
  obtain ⟨e1, e2⟩ := add_val_parts m w val shift n h
  rw [e1, e2]
  refine ⟨?_, Nat.mul_mod_left _ _, Nat.mod_add_div' _ _, ?_, fun hv => ?_⟩
  · exact Nat.mod_mod_of_dvd _ (pow_dvd_pow 2 hn)
  · rw [Nat.shiftRight_eq_div_pow, Nat.mul_div_cancel _ (Nat.two_pow_pos n)]
    rfl
  · subst hv
    have hf := get_bits_lt (m w) shift n
    have h64 : (2:Nat) ^ n ≤ 2 ^ 64 := Nat.pow_le_pow_right (by decide) hn
    rw [Nat.add_zero, wtrunc, Nat.mod_eq_of_lt (by omega), Nat.div_eq_of_lt hf, Nat.zero_mul]

/-- C31, witness: the field of 2 bits at bit 1 of a word holding 13 (`f = 2`) and
`val = 3`: the field becomes 1 and the carry is 4. -/
theorem add_val_arithmetic_witness :
    get_bits ((add_val (fun _ => 13) 0 3 1 (field_mask 2 1)).2 0) 1 2
        = (get_bits ((fun _ => 13 : Mem) 0) 1 2 + 3) % 2 ^ 2 ∧
      (add_val (fun _ => 13) 0 3 1 (field_mask 2 1)).1 = 4 :=
  ⟨(add_val_arithmetic (fun _ => 13) 0 3 1 2 (by decide)).1, by decide⟩

/-- C32: `add_val` frame.  For every memory word, `val`, `shift` and `mask`, a
bit of the word that `mask` does not select is the same before and after
`add_val(w, val, shift, mask)`, and no other word changes. -/
theorem add_val_frame (m : Mem) (w val shift mask : Nat) :
    (∀ i, i < 64 → mask.testBit i = false →
      ((add_val m w val shift mask).2 w).testBit i = (m w).testBit i) ∧
    (∀ j, j ≠ w → (add_val m w val shift mask).2 j = m j) := by
  constructor
  · intro i hi hmask
    simp only [add_val, Mem.write_same, Nat.testBit_or, Nat.testBit_and, testBit_wnot, hmask]
    simp [hi]
  · intro j hj
    simp only [add_val]
    exact Mem.write_other _ _ hj

/-- C36: `reprobe_limit_t` only lowers the limit.  For every requested limit `l`,
schedule `R` and size `N`: `val() <= l`; `val() = l` when `R[l] < N`;
otherwise, when some index `i < l` has `R[i] < N`, `val()` is the largest such
index, and when there is none `val()` is 0. -/
theorem reprobe_limit_only_lowers (R : Nat → Nat) (N l : Nat) :
    reprobe_limit_t R N l ≤ l ∧
      (R l < N → reprobe_limit_t R N l = l) ∧
      (N ≤ R l → (∃ i, i < l ∧ R i < N) →
        reprobe_limit_t R N l < l ∧ R (reprobe_limit_t R N l) < N ∧
          ∀ j, reprobe_limit_t R N l < j → j < l → N ≤ R j) ∧
      (N ≤ R l → (∀ i, i < l → N ≤ R i) → reprobe_limit_t R N l = 0) := by
  induction l with
  | zero =>
    refine ⟨Nat.le_refl _, fun _ => rfl, fun _ h => ?_, fun _ _ => rfl⟩
    obtain ⟨i, hi, -⟩ := h
    omega
  | succ l ih =>
    obtain ⟨ih1, ih2, ih3, ih4⟩ := ih
    refine ⟨?_, fun h => ?_, fun h hex => ?_, fun h hall => ?_⟩
    · rw [reprobe_limit_t]
      split_ifs <;> omega
    · rw [reprobe_limit_t, if_neg (by omega)]
    · rw [reprobe_limit_t, if_pos h]
      by_cases hl : R l < N
      · rw [ih2 hl]
        exact ⟨by omega, hl, fun j h1 h2 => by omega⟩
      · have hl2 : N ≤ R l := by omega
        obtain ⟨i, hi, hRi⟩ := hex
        have hil : i < l := by
          rcases Nat.lt_succ_iff_lt_or_eq.1 hi with h1 | h1
          · exact h1
          · subst h1; omega
        obtain ⟨h1, h2, h3⟩ := ih3 hl2 ⟨i, hil, hRi⟩
        refine ⟨by omega, h2, fun j hj1 hj2 => ?_⟩
        rcases Nat.lt_succ_iff_lt_or_eq.1 hj2 with h4 | h4
        · exact h3 j hj1 h4
        · subst h4; exact hl2
    · rw [reprobe_limit_t, if_pos h]
      exact ih4 (hall l (by omega)) (fun i hi => hall i (by omega))

/-- C35: candidate sequence of the lookup.  For every array, layout, memory and
key, `get_key_id` examines `k <= reprobe_limit` cells: the candidates of the
reprobe indices `0, ..., k - 1` of `oid = hash & size_mask`, in this order,
that is `oid` first and then `(oid + R[r]) & size_mask` for
`r = 1, ..., k - 1`; with `reprobe_limit = 0` it examines no cell and returns
false. -/
theorem lookup_candidate_sequence (a : Ary) (m : Mem) (key : Nat) :
    (∃ k, k ≤ a.reprobe_limit ∧
      get_key_id_probes a m key = (List.range k).map
        (fun r => if r = 0 then a.hash_times key &&& a.size_mask
          else wtrunc ((a.hash_times key &&& a.size_mask) + a.reprobes r) &&& a.size_mask)) ∧
    (a.reprobe_limit = 0 → get_key_id_probes a m key = [] ∧ get_key_id a m key = none) := by
  constructor
  · obtain ⟨k, h1, h2⟩ := get_key_id_probes_loop_spec a m key (a.hash_times key &&& a.size_mask)
      a.reprobe_limit 0 (a.hash_times key &&& a.size_mask) 0 (cand_zero a _).symm
    refine ⟨k, h1, ?_⟩
    rw [List.range_eq_range']
    exact h2
  · intro h0
    unfold get_key_id_probes get_key_id get_key_id_tmp
    simp only [h0]
    rw [get_key_id_probes_loop, get_key_id_loop]
    exact ⟨rfl, rfl⟩

/-- C33: in the small instance (`reprobe_limit = 1`, a schedule of
`reprobe_limit + 1 = 2` entries would be `R[0], R[1]`), with the keys 4, 8 and
1 stored in the slots 0, 2 and 1, the lookup of key 1 finds slot 1 and calls
`resolve_val_rec` from slot `(1 + R[0]) & 3 = 2`; both candidates of that walk,
the slots 2 and 0, are FILLED, and the loop reads the schedule at the indices 1
and 2: index 2 is greater than `reprobe_limit`. -/
theorem resolve_val_rec_reads_past_limit :
    small_ary.reprobe_limit = 1 ∧
      get_key_id small_ary small_three_keys 1 = some 1 ∧
      nxt small_ary 1 = 2 ∧
      resolve_val_reads small_ary small_three_keys 2 (small_ary.reprobe_limit + 1) 0 2 = [1, 2] ∧
      get_val_for_key small_ary 2 small_three_keys 1 false = some (some 1) :=
  ⟨rfl, by decide, by decide, by decide, by decide⟩

/-- C2: frame of `add` on other keys, in whatever key layout (key fields in one
word or split over words).  On every state reachable from the cleared table by
`add` and `set`, a successful `add(k, delta)` leaves the result of
`get_val_for_key(k2)`, presence and value, unchanged for every key `k2` of
`key_len` bits other than `k`, whatever the carry-bit mode, also when the
addition overflows the primary value field and continuation cells are claimed
or updated (invertible hash). -/
theorem add_keeps_other_keys {a : Ary} (hwf : a.Valid) (hinj : HashInj a) {ks : List Nat}
    {m : Mem} (hreach : Reach a ks m) {k k2 delta fuel : Nat} {res : AddResult}
    (hk : k < 2 ^ a.key_len) (hk2 : k2 < 2 ^ a.key_len) (hne : k2 ≠ k)
    (hadd : add a fuel m k delta = some res) (_hok : res.ok = true) (f : Nat)
    (carry_bit : Bool) :
    get_val_for_key a f res.mem k2 carry_bit = get_val_for_key a f m k2 carry_bit :=
  add_frame hwf hinj hreach hk hk2 hne hadd f carry_bit

/-- C2, witness: in the split instance, after `add(7, 1)` (slot 3, key field
split over two words), the call `add(5, 5)` overflows the 2-bit value field of
slot 1 and claims the continuation cell in slot 2; the lookup of key 7 is the
same before and after. -/
theorem add_keeps_other_keys_witness :
    get_val_for_key split_ary 3
        ((add split_ary 3 ((add split_ary 2 clear_mem 7 1).get rfl).mem 5 5).get rfl).mem 7 false
      = get_val_for_key split_ary 3 ((add split_ary 2 clear_mem 7 1).get rfl).mem 7 false :=
  add_keeps_other_keys (by decide : split_ary.Valid) split_ary_hash_inj
    (Reach.add Reach.clear (by decide : 7 < 2 ^ split_ary.key_len)
      (Option.some_get (rfl : (add split_ary 2 clear_mem 7 1).isSome = true)).symm)
    (by decide : 5 < 2 ^ split_ary.key_len) (by decide : 7 < 2 ^ split_ary.key_len)
    (by decide : 7 ≠ 5)
    (Option.some_get (rfl : (add split_ary 3
      ((add split_ary 2 clear_mem 7 1).get rfl).mem 5 5).isSome = true)).symm
    rfl 3 false

/-- C4 (counterexample): in the small instance, after the successful `add(1, 1)`
and `add(3, 1)`, the call `add(4, 4)` returns false (slots 1 and 3, the
candidates for the continuation cell, are taken), yet afterwards `get_key_id(4)`
returns true with slot 0 and `get_val_for_key(4)` returns true: key 4 was never
passed to a successful `add` or `set`. -/
theorem failed_add_leaves_key_visible :
    ∃ r1 r2 r3, add small_ary 2 clear_mem 1 1 = some r1 ∧ r1.ok = true ∧
      add small_ary 2 r1.mem 3 1 = some r2 ∧ r2.ok = true ∧
      add small_ary 2 r2.mem 4 4 = some r3 ∧ r3.ok = false ∧
      get_key_id small_ary r3.mem 4 = some 0 ∧
      (get_val_for_key small_ary 2 r3.mem 4 false).isSome = true ∧
      get_val_for_key small_ary 2 r3.mem 4 false ≠ some none :=
  ⟨_, _, _, rfl, rfl, rfl, rfl, rfl, rfl, by decide, by decide, by decide⟩

/-- C4 (amended): no false positives, in whatever key layout (key fields in one
word or split over words), the hash being invertible.  On every state reachable
from the cleared table by `add`/`set`, `get_key_id` and `get_val_for_key` return
false for every key of `key_len` bits for which no call of `add` or `set`
claimed a primary cell, that is, which was passed neither to a successful `add`
or `set` nor to an `add` that failed after its `claim_key` had succeeded. -/
theorem unclaimed_key_not_found {a : Ary} (hwf : a.Valid) (hinj : HashInj a) {ks : List Nat}
    {m : Mem} (hreach : Reach a ks m) {key : Nat} (hkey : key < 2 ^ a.key_len)
    (hnot : key ∉ ks) :
    get_key_id a m key = none ∧ ∀ f cb, get_val_for_key a f m key cb = some none := by
  have h := get_key_id_tmp_none hwf hinj hreach hkey hnot
  refine ⟨?_, fun f cb => ?_⟩
  · unfold get_key_id
    rw [h]; rfl
  · unfold get_val_for_key
    rw [h]

/-- C4 (amended), witness: key 9 on the table of the split instance after
`add(5, 1)`; both hash to slot 1, whose key field is split over two words. -/
theorem unclaimed_key_not_found_witness :
    get_key_id split_ary ((add split_ary 1 clear_mem 5 1).get rfl).mem 9 = none ∧
      ∀ f cb, get_val_for_key split_ary f ((add split_ary 1 clear_mem 5 1).get rfl).mem 9 cb
        = some none :=
  unclaimed_key_not_found (by decide : split_ary.Valid) split_ary_hash_inj
    (Reach.add Reach.clear (by decide : 5 < 2 ^ split_ary.key_len)
      (Option.some_get (rfl : (add split_ary 1 clear_mem 5 1).isSome = true)).symm)
    (by decide : 9 < 2 ^ split_ary.key_len) (by decide)

/-- C5: `is_new` reports creation, in whatever key layout (key fields in one
word or split over words).  On every state reachable from the cleared table by
`add`/`set`, for a key of `key_len` bits:
when `add` (resp. `set`) returns true, `*is_new` is true if and only if no
primary cell held the key before the call, and after the call a primary cell
holds it; a cell that holds a key keeps holding it over every later `add` or
`set`; hence a second successful `add` or `set` of the key reports
`is_new = false`. -/
theorem is_new_iff_not_held {a : Ary} (hwf : a.Valid) {ks : List Nat} {m : Mem}
    (hreach : Reach a ks m) {key : Nat} (hkey : key < 2 ^ a.key_len) :
    (∀ fuel val res, add a fuel m key val = some res → res.ok = true →
      (res.is_new = true ↔ ¬ HeldBy a m key) ∧ HeldBy a res.mem key ∧
      (∀ fuel2 val2 res2, add a fuel2 res.mem key val2 = some res2 → res2.ok = true →
        res2.is_new = false) ∧
      ((set a res.mem key).ok = true → (set a res.mem key).is_new = false)) ∧
    ((set a m key).ok = true →
      ((set a m key).is_new = true ↔ ¬ HeldBy a m key) ∧ HeldBy a (set a m key).mem key ∧
      (∀ fuel2 val2 res2, add a fuel2 (set a m key).mem key val2 = some res2 → res2.ok = true →
        res2.is_new = false) ∧
      ((set a (set a m key).mem key).ok = true → (set a (set a m key).mem key).is_new = false)) ∧
    (∀ k2, HeldBy a m k2 →
      (∀ fuel val res, add a fuel m key val = some res → HeldBy a res.mem k2) ∧
      HeldBy a (set a m key).mem k2) := by
  have hi := hreach.rinv hwf
  -- the two facts for one call of `add` and of `set` on any reachable state
  have hadd : ∀ {ks1 : List Nat} {m1 : Mem}, Reach a ks1 m1 → ∀ fuel val res,
      add a fuel m1 key val = some res → res.ok = true →
      (res.is_new = true ↔ ¬ HeldBy a m1 key) ∧ HeldBy a res.mem key := by
    intro ks1 m1 hr1 fuel val res h hok
    have hi1 := hr1.rinv hwf
    have hrun := add_run hwf hi1.1 h
    obtain ⟨r, hff⟩ := hrun.ok_claimed hok
    obtain ⟨hr, heid, hh, hnew⟩ := hrun.holds hwf hi1.1 hff
    refine ⟨?_, HeldBy.of_holds hwf (hrun.keeps hwf hi1.1).1 hr hh⟩
    rw [hnew, decide_eq_true_eq]
    exact free_iff_not_held hwf hi1 hff
  have hset : ∀ {ks1 : List Nat} {m1 : Mem}, Reach a ks1 m1 → (set a m1 key).ok = true →
      ((set a m1 key).is_new = true ↔ ¬ HeldBy a m1 key) ∧ HeldBy a (set a m1 key).mem key := by
    intro ks1 m1 hr1 hok
    have hi1 := hr1.rinv hwf
    rw [set_eq hwf hi1.1] at hok ⊢
    cases hff : first_fit (fits_at a m1 key (slot_of a key)) a.reprobe_limit 0 with
    | none => rw [hff] at hok; exact absurd hok (by simp)
    | some r =>
      obtain ⟨hr, hm1, -, hh, -⟩ := claim_mem_facts hwf hi1.1 hff
      simp only [decide_eq_true_eq]
      exact ⟨free_iff_not_held hwf hi1 hff, HeldBy.of_holds hwf hm1 hr hh⟩
  refine ⟨fun fuel val res h hok => ?_, fun hok => ?_, fun k2 hk2 => ⟨fun fuel val res h => ?_, ?_⟩⟩
  · obtain ⟨h1, h2⟩ := hadd hreach fuel val res h hok
    have hreach2 := Reach.add hreach hkey h
    refine ⟨h1, h2, fun fuel2 val2 res2 h' hok' => ?_, fun hok' => ?_⟩
    · have := (hadd hreach2 fuel2 val2 res2 h' hok').1
      cases hn : res2.is_new with
      | false => rfl
      | true => exact absurd h2 (this.1 hn)
    · have := (hset hreach2 hok').1
      cases hn : (set a res.mem key).is_new with
      | false => rfl
      | true => exact absurd h2 (this.1 hn)
  · obtain ⟨h1, h2⟩ := hset hreach hok
    have hreach2 := Reach.set hreach hkey
    refine ⟨h1, h2, fun fuel2 val2 res2 h' hok' => ?_, fun hok' => ?_⟩
    · have := (hadd hreach2 fuel2 val2 res2 h' hok').1
      cases hn : res2.is_new with
      | false => rfl
      | true => exact absurd h2 (this.1 hn)
    · have := (hset hreach2 hok').1
      cases hn : (set a (set a m key).mem key).is_new with
      | false => rfl
      | true => exact absurd h2 (this.1 hn)
  · exact hk2.persists hwf hi ((add_run hwf hi.1 h).keeps hwf hi.1).2
      ((add_run hwf hi.1 h).keeps hwf hi.1).1
  · rw [set_eq hwf hi.1]
    cases hff : first_fit (fits_at a m key (slot_of a key)) a.reprobe_limit 0 with
    | none => exact hk2
    | some r =>
      exact hk2.persists hwf hi (claim_mem_facts hwf hi.1 hff).2.2.1
        (claim_mem_facts hwf hi.1 hff).2.1

/-- C5, witness: the split instance with key 5 stored in slot 1; `set(9)` claims
slot 3 (key field split over two words) with `is_new` true, key 9 not being
held before. -/
theorem is_new_iff_not_held_witness :
    (set split_ary (set split_ary clear_mem 5).mem 9).is_new = true ↔
      ¬ HeldBy split_ary (set split_ary clear_mem 5).mem 9 :=
  ((is_new_iff_not_held (by decide : split_ary.Valid)
    (Reach.set Reach.clear (by decide : 5 < 2 ^ split_ary.key_len))
    (by decide : 9 < 2 ^ split_ary.key_len)).2.1 rfl).1

/-- C6: the slot returned by a successful `add` is the primary cell, in whatever
key layout (key fields in one word or split over words).  When
`add(key, val, is_new, id)` returns true on a sound table (`TableOK`: 64-bit
words and whole cells, as every state reachable from the cleared table is),
`*id` is the candidate `cand (slot_of key) r` of some reprobe index
`r ≤ reprobe_limit` of the key's probe sequence, `get_key_at_id` classifies it
as FILLED and decodes bits `[lsize, key_len)` equal to those of `key` and low
`lsize` bits equal to the key's hashed slot; this covers the runs in which
`add_rec` recursed to continuation cells. -/
theorem add_returns_primary_slot {a : Ary} (hwf : a.Valid) {m : Mem} (hm : TableOK a m)
    {fuel key val : Nat} {res : AddResult} (h : add a fuel m key val = some res)
    (hok : res.ok = true) (tmp : Nat) :
    ∃ r, r ≤ a.reprobe_limit ∧ res.eid = cand a (slot_of a key) r ∧
      (get_key_at_id a res.mem res.eid tmp).1 = key_status.FILLED ∧
      get_bits (get_key_at_id a res.mem res.eid tmp).2.1 a.lsize a.raw_key_len
        = get_bits key a.lsize a.raw_key_len ∧
      get_bits (get_key_at_id a res.mem res.eid tmp).2.1 0 a.lsize = slot_of a key := by
  have hrun := add_run hwf hm h
  obtain ⟨r, hff⟩ := hrun.ok_claimed hok
  obtain ⟨hr, heid, hh, -⟩ := hrun.holds hwf hm hff
  refine ⟨r, hr, heid, ?_⟩
  rw [heid, get_key_at_id_holds hwf (hrun.keeps hwf hm).1 (slot_of_lt a key) hr hh tmp]
  exact ⟨rfl, get_bits_decoded_high _ _ _ _ _ (get_bits_lt _ _ _),
    get_bits_decoded_low _ _ _ (slot_of_lt a key)⟩

/-- C6, witness: in the split instance, with key 5 stored in slot 1, `add(9, 7)`
claims slot 3 (key field split over two words), overflows its value field,
claims a continuation cell and returns slot 3. -/
theorem add_returns_primary_slot_witness :
    ∃ r, r ≤ split_ary.reprobe_limit ∧
      ((add split_ary 3 (set split_ary clear_mem 5).mem 9 7).get rfl).eid
        = cand split_ary (slot_of split_ary 9) r ∧
      (get_key_at_id split_ary ((add split_ary 3 (set split_ary clear_mem 5).mem 9 7).get rfl).mem
        ((add split_ary 3 (set split_ary clear_mem 5).mem 9 7).get rfl).eid 0).1
        = key_status.FILLED ∧
      get_bits (get_key_at_id split_ary
        ((add split_ary 3 (set split_ary clear_mem 5).mem 9 7).get rfl).mem
        ((add split_ary 3 (set split_ary clear_mem 5).mem 9 7).get rfl).eid 0).2.1
        split_ary.lsize split_ary.raw_key_len
        = get_bits 9 split_ary.lsize split_ary.raw_key_len ∧
      get_bits (get_key_at_id split_ary
        ((add split_ary 3 (set split_ary clear_mem 5).mem 9 7).get rfl).mem
        ((add split_ary 3 (set split_ary clear_mem 5).mem 9 7).get rfl).eid 0).2.1
        0 split_ary.lsize = slot_of split_ary 9 :=
  @add_returns_primary_slot split_ary (by decide : split_ary.Valid)
    (set split_ary clear_mem 5).mem
    ((Reach.set Reach.clear (by decide : 5 < 2 ^ split_ary.key_len)).rinv (by decide)).1
    3 9 7 ((add split_ary 3 (set split_ary clear_mem 5).mem 9 7).get rfl) (by simp) rfl 0

/-- C7 (counterexample): in the small instance, after `add(1, 1)` and `add(3, 1)`,
the candidate slot 0 of key 4 is EMPTY and `claim_key` for key 4 returns true
with slot 0, yet `add(4, 4)` returns false: the 2-bit value field overflows
and no continuation cell can be claimed.  So `add` returns false although not
every candidate slot of the key is taken. -/
theorem add_fails_with_free_candidate :
    ∃ r1 r2 r3 cl, add small_ary 2 clear_mem 1 1 = some r1 ∧
      add small_ary 2 r1.mem 3 1 = some r2 ∧
      (get_key_at_id small_ary r2.mem (cand small_ary (slot_of small_ary 4) 0) 0).1
        = key_status.EMPTY ∧
      (claim_key small_ary r2.mem 4 (slot_of small_ary 4)).1 = some cl ∧ cl.id = 0 ∧
      add small_ary 2 r2.mem 4 4 = some r3 ∧ r3.ok = false :=
  ⟨_, _, _, _, rfl, rfl, by decide, rfl, rfl, rfl, rfl⟩

/-- C7 (amended): table-full condition of `claim_key`, in whatever key layout (key
fields in one word or split over words), on a sound table (`TableOK`: 64-bit
words and whole cells, as every state reachable from the cleared table is).
`claim_key` returns false exactly when every candidate slot `cand id0 r`,
`r = 0 .. reprobe_limit`, is a continuation cell (LBSET) or a primary cell
(FILLED) whose key field is not the one of this key at reprobe index `r`; if
some candidate is EMPTY or already holds this key at its reprobe index,
`claim_key` returns true with the first such candidate in probe order as slot.
Method `set` returns false in exactly that case.  Method `add` returns false in
that case; a call of `add` that returns false although `claim_key` returned
true has a carry out of the value field of the claimed cell (it failed on a
continuation cell); so a call of `add` without such a carry returns false
exactly when `claim_key` does. -/
theorem claim_key_fails_iff_candidates_taken {a : Ary} (hwf : a.Valid) {m : Mem}
    (hm : TableOK a m) (key : Nat) :
    (∀ id0, id0 < a.size →
      ((claim_key a m key id0).1 = none ↔
        ∀ r, r ≤ a.reprobe_limit →
          ((get_key_at_id a m (cand a id0 r) 0).1 = key_status.LBSET ∨
            ((get_key_at_id a m (cand a id0 r) 0).1 = key_status.FILLED ∧
              ¬ holds a m (cand a id0 r) key r))) ∧
      (∀ r, r ≤ a.reprobe_limit →
        ((get_key_at_id a m (cand a id0 r) 0).1 = key_status.EMPTY ∨
          holds a m (cand a id0 r) key r) →
        (∀ j, j < r → ¬ ((get_key_at_id a m (cand a id0 j) 0).1 = key_status.EMPTY ∨
          holds a m (cand a id0 j) key j)) →
        ∃ cl, (claim_key a m key id0).1 = some cl ∧ cl.id = cand a id0 r)) ∧
    ((set a m key).ok = false ↔
      (claim_key a m key (a.hash_times key &&& a.size_mask)).1 = none) ∧
    ((claim_key a m key (a.hash_times key &&& a.size_mask)).1 = none →
      ∀ fuel val, ∃ res, add a (fuel + 1) m key val = some res ∧ res.ok = false) ∧
    (∀ fuel val res, add a fuel m key val = some res → res.ok = false →
      (claim_key a m key (a.hash_times key &&& a.size_mask)).1 = none ∨
      (add_val_field (set a m key).mem (val_w a (set a m key).eid) val
        (a.offsets.word_offset (set a m key).eid).2.1.val).1 ≠ 0) ∧
    (∀ fuel val res, add a fuel m key val = some res →
      (add_val_field (set a m key).mem (val_w a (set a m key).eid) val
        (a.offsets.word_offset (set a m key).eid).2.1.val).1 = 0 →
      (res.ok = false ↔ (claim_key a m key (a.hash_times key &&& a.size_mask)).1 = none)) := by
  have hfail : (claim_key a m key (a.hash_times key &&& a.size_mask)).1 = none →
      ∀ fuel val, ∃ res, add a (fuel + 1) m key val = some res ∧ res.ok = false := by
    intro h fuel val
    unfold add add_rec
    simp [h]
  have hcarry : ∀ fuel val res, add a fuel m key val = some res → res.ok = false →
      (claim_key a m key (a.hash_times key &&& a.size_mask)).1 = none ∨
      (add_val_field (set a m key).mem (val_w a (set a m key).eid) val
        (a.offsets.word_offset (set a m key).eid).2.1.val).1 ≠ 0 := by
    intro fuel val res hadd hok
    have hrun := add_run hwf hm hadd
    rw [show a.hash_times key &&& a.size_mask = slot_of a key from rfl,
      claim_key_eq hwf hm key (slot_of_lt a key), set_eq hwf hm]
    cases hrun with
    | full hff => left; rw [hff]; rfl
    | done hff hc => exact absurd hok (by simp)
    | more hff hc hsub =>
      right
      rw [hff]
      exact hc
  refine ⟨fun id0 hid => ⟨?_, ?_⟩, ?_, hfail, hcarry, fun fuel val res hadd h0 => ⟨fun hok => ?_,
    fun hnone => ?_⟩⟩
  · rw [claim_key_eq hwf hm key hid]
    constructor
    · intro h r hr
      cases hff : first_fit (fits_at a m key id0) a.reprobe_limit 0 with
      | none =>
        exact (fits_at_false_iff hwf hm key hid hr).1
          (first_fit_none hff r (Nat.zero_le _) (by omega))
      | some k => rw [hff] at h; simp [claim_key_result] at h
    · intro h
      cases hff : first_fit (fits_at a m key id0) a.reprobe_limit 0 with
      | none => rfl
      | some k =>
        obtain ⟨-, hk, hp, -⟩ := first_fit_some hff
        have := (fits_at_false_iff hwf hm key hid (by omega : k ≤ a.reprobe_limit)).2
          (h k (by omega))
        rw [hp] at this
        exact absurd this (by decide)
  · intro r hr hfit hfirst
    have hp : ∀ j, j ≤ a.reprobe_limit →
        (fits_at a m key id0 j = true ↔
          ((get_key_at_id a m (cand a id0 j) 0).1 = key_status.EMPTY ∨
            holds a m (cand a id0 j) key j)) := by
      intro j _
      rw [status_empty_iff hwf hm (cand_lt a hid j)]
      simp [fits_at]
    have hff : first_fit (fits_at a m key id0) a.reprobe_limit 0 = some r := by
      apply first_fit_of_first (Nat.zero_le _) (by omega) ((hp r hr).2 hfit)
      intro j _ hj
      have := hfirst j hj
      rw [← hp j (by omega)] at this
      simpa using this
    rw [claim_key_eq hwf hm key hid, hff]
    exact ⟨_, rfl, rfl⟩
  · unfold set
    cases h : (claim_key a m key (a.hash_times key &&& a.size_mask)).1 <;> simp [h]
  · rcases hcarry fuel val res hadd hok with h | h
    · exact h
    · exact absurd h0 h
  · cases fuel with
    | zero => simp [add, add_rec] at hadd
    | succ n =>
      obtain ⟨res2, h2, hok2⟩ := hfail hnone n val
      rw [hadd] at h2
      rw [Option.some.inj h2]
      exact hok2

/-- C7 (amended), witness: the split instance with the keys 5 and 9 stored in the
slots 1 and 3 (key fields split over two words), which are the two candidates
of key 13: both are FILLED and hold another key, and `claim_key` returns false
for key 13. -/
theorem claim_key_fails_iff_candidates_taken_witness :
    (∀ r, r ≤ split_ary.reprobe_limit →
      ((get_key_at_id split_ary split_two_keys (cand split_ary 1 r) 0).1 = key_status.LBSET ∨
        ((get_key_at_id split_ary split_two_keys (cand split_ary 1 r) 0).1
            = key_status.FILLED ∧
          ¬ holds split_ary split_two_keys (cand split_ary 1 r) 13 r))) ∧
      (claim_key split_ary split_two_keys 13 1).1 = none :=
  ⟨by decide,
    ((claim_key_fails_iff_candidates_taken (by decide : split_ary.Valid)
      (split_two_keys_reach.rinv (by decide : split_ary.Valid)).1 13).1 1
      (by decide)).1.2 (by decide)⟩

/-- C8: failure atomicity when the primary claim fails, in whatever key layout
(key fields in one word or split over words).  On a sound table (`TableOK`:
64-bit words and whole cells, as every state reachable from the cleared table
is), if `claim_key` returns false for the key, then `set` and `add` return false
and leave the memory block word for word as it was, so every `get_val_for_key`
returns what it returned before the call. -/
theorem claim_failure_keeps_memory {a : Ary} (hwf : a.Valid) {m : Mem} (hm : TableOK a m)
    (key : Nat) (hfail : (claim_key a m key (a.hash_times key &&& a.size_mask)).1 = none) :
    ((set a m key).ok = false ∧ (set a m key).mem = m) ∧
    (∀ fuel val, ∃ res, add a (fuel + 1) m key val = some res ∧ res.ok = false ∧ res.mem = m ∧
      ∀ f k cb, get_val_for_key a f res.mem k cb = get_val_for_key a f m k cb) ∧
    (∀ f k cb, get_val_for_key a f (set a m key).mem k cb = get_val_for_key a f m k cb) := by
  have hmem : (claim_key a m key (a.hash_times key &&& a.size_mask)).2.2 = m := by
    rw [claim_key_eq hwf hm key (hash_slot_lt a key)] at hfail ⊢
    cases hff : first_fit (fits_at a m key (a.hash_times key &&& a.size_mask))
        a.reprobe_limit 0 with
    | none => rfl
    | some k => rw [hff] at hfail; simp [claim_key_result] at hfail
  have hset : (set a m key).ok = false ∧ (set a m key).mem = m := by
    unfold set
    simp [hfail, hmem]
  refine ⟨hset, fun fuel val => ?_, fun f k cb => by rw [hset.2]⟩
  refine ⟨⟨false, (claim_key a m key (a.hash_times key &&& a.size_mask)).2.1,
    a.hash_times key &&& a.size_mask, m⟩, ?_, rfl, rfl, fun _ _ _ => rfl⟩
  unfold add add_rec
  simp [hfail, hmem]

/-- C8, witness: in the split instance (key fields of slots 1, 2 and 3 split over
two words) with keys 5 and 9 stored (slots 1 and 3), `claim_key` fails for key
13 and `set(13)` leaves the memory as it was. -/
theorem claim_failure_keeps_memory_witness :
    (set split_ary (set split_ary (set split_ary clear_mem 5).mem 9).mem 13).mem
      = (set split_ary (set split_ary clear_mem 5).mem 9).mem :=
  (claim_failure_keeps_memory (by decide : split_ary.Valid)
    ((Reach.set (Reach.set Reach.clear (by decide : 5 < 2 ^ split_ary.key_len))
      (by decide : 9 < 2 ^ split_ary.key_len)).rinv (by decide)).1 13 rfl).1.2

/-- A failing `add` in the small instance after which an absent key is
present. -/
theorem small_failed_add_presence :
    ∃ r1 r2 r3, add small_ary 2 clear_mem 1 1 = some r1 ∧
      add small_ary 2 r1.mem 3 1 = some r2 ∧
      get_val_for_key small_ary 2 r2.mem 4 false = some none ∧
      (claim_key small_ary r2.mem 4 0).1.isSome = true ∧
      add small_ary 2 r2.mem 4 4 = some r3 ∧ r3.ok = false ∧
      get_val_for_key small_ary 2 r3.mem 4 false = some (some 0) :=
  ⟨_, _, _, rfl, rfl, by decide, by decide, rfl, rfl, by decide⟩

/-- A failing `add` in the small instance after which the value of a present key
is another one. -/
theorem small_failed_add_value :
    ∃ r1 r2 r3, add small_ary 3 clear_mem 3 1 = some r1 ∧ r1.ok = true ∧
      add small_ary 3 r1.mem 1 127 = some r2 ∧ r2.ok = true ∧
      get_val_for_key small_ary 3 r2.mem 1 false = some (some 127) ∧
      add small_ary 3 r2.mem 1 1 = some r3 ∧ r3.ok = false ∧
      get_val_for_key small_ary 3 r3.mem 1 false = some (some 15) :=
  ⟨_, _, _, rfl, rfl, rfl, rfl, by decide, rfl, rfl, by decide⟩

/-- C9 (counterexample): two failing calls of `add` on the small instance that
change what `get_val_for_key` returns for the key of the call.  After
`add(1, 1)` and `add(3, 1)`, key 4 is absent; `add(4, 4)` claims slot 0,
overflows the 2-bit value field, finds no continuation cell and returns false;
afterwards `get_val_for_key(4)` returns true with value 0: the presence of the
key changed.  After `add(3, 1)` and `add(1, 127)`, key 1 is present with the
value 127 (3 in its primary cell, 31 in the 5-bit field of its continuation
cell); `add(1, 1)` carries out of both fields, finds no cell for the second
level and returns false; the back-tracking subtracts modulo `2 ^ val_len` also
in the field of the continuation cell, and afterwards `get_val_for_key(1)`
returns 15: the value of a key that was present changed. -/
theorem failed_overflow_add_changes_counters :
    (∃ r1 r2 r3, add small_ary 2 clear_mem 1 1 = some r1 ∧
      add small_ary 2 r1.mem 3 1 = some r2 ∧
      get_val_for_key small_ary 2 r2.mem 4 false = some none ∧
      (claim_key small_ary r2.mem 4 0).1.isSome = true ∧
      add small_ary 2 r2.mem 4 4 = some r3 ∧ r3.ok = false ∧
      get_val_for_key small_ary 2 r3.mem 4 false = some (some 0)) ∧
    (∃ r1 r2 r3, add small_ary 3 clear_mem 3 1 = some r1 ∧ r1.ok = true ∧
      add small_ary 3 r1.mem 1 127 = some r2 ∧ r2.ok = true ∧
      get_val_for_key small_ary 3 r2.mem 1 false = some (some 127) ∧
      add small_ary 3 r2.mem 1 1 = some r3 ∧ r3.ok = false ∧
      get_val_for_key small_ary 3 r3.mem 1 false = some (some 15)) :=
  ⟨small_failed_add_presence, small_failed_add_value⟩

/-- C9 (amended): failure atomicity when an overflow claim fails, in whatever key
layout (key fields in one word or split over words), the hash being
invertible.  If `add(key, val)` on a reachable state returns
false although its `claim_key` succeeded, then for every key `k2` of `key_len`
bits other than `key` the result of `get_val_for_key(k2)` is as before the call,
at whatever level of the overflow chain the claim failed.  If moreover it is
the claim of the first continuation cell that fails (`claim_large_key`, started
from the slot after the primary cell on the memory left by the increment,
returns false), the back-tracking restores the primary value field: the
memory block after the call is word for word the one `set(key)` produces from
the state before the call; and when the key was present before (`is_new`
false) the block and every `get_val_for_key` are as before the call. -/
theorem failed_overflow_claim_restores {a : Ary} (hwf : a.Valid) (hinj : HashInj a)
    {ks : List Nat} {m : Mem} (hreach : Reach a ks m)
    {fuel key val : Nat} {res : AddResult} (hkey : key < 2 ^ a.key_len)
    (h : add a fuel m key val = some res) (hfalse : res.ok = false)
    (hclaim : (claim_key a m key (slot_of a key)).1.isSome = true) :
    (∀ k2, k2 < 2 ^ a.key_len → k2 ≠ key → ∀ f cb,
        get_val_for_key a f res.mem k2 cb = get_val_for_key a f m k2 cb) ∧
      ((claim_large_key a
          (add_val_field (set a m key).mem (val_w a (set a m key).eid) val
            (a.offsets.word_offset (set a m key).eid).2.1.val).2
          (nxt a (set a m key).eid)).1 = none →
        res.mem = (set a m key).mem ∧
          (res.is_new = false → res.mem = m ∧
            ∀ f k cb, get_val_for_key a f res.mem k cb = get_val_for_key a f m k cb)) := by
  refine ⟨fun k2 hk2 hne f cb => add_frame hwf hinj hreach hkey hk2 hne h f cb, fun hlevel => ?_⟩
  have hm := (hreach.rinv hwf).1
  have hrun := add_run hwf hm h
  rw [claim_key_isSome hwf hm] at hclaim
  have hmem : res.mem = (set a m key).mem ∧ (res.is_new = false → (set a m key).mem = m) := by
    rw [set_eq hwf hm] at hlevel ⊢
    cases hrun with
    | full hff => rw [hff] at hclaim; exact absurd hclaim (by simp)
    | done hff hc => exact absurd hfalse (by simp)
    | more hff hc hsub =>
      rename_i m3 r ok
      rw [hff] at hlevel ⊢
      simp only [] at hlevel ⊢
      obtain ⟨hr, hm1, -, -, -⟩ := claim_mem_facts hwf hm hff
      have hp := cand_lt a (slot_of_lt a key) r
      have hfull := (claim_large_key_none_iff hwf (keeps_add_val_val hwf hm1 hp val).1
        (nxt_lt a _)).1 hlevel
      obtain ⟨e3, -⟩ := hsub.of_full hfull
      have hok : ok = false := hfalse
      subst hok
      simp only [Bool.false_eq_true, if_false]
      refine ⟨?_, fun hn => ?_⟩
      · rw [e3]
        exact sub_add_val_field_id a _ _ _ val (hwf.val_shape hp) (hm1.1 _) (hm1.1 _)
      · have h0 : key_at a m (cand a (slot_of a key) r) ≠ 0 := by
          intro h0
          simp [h0] at hn
        simp only [claim_mem, claim_key_result, if_neg h0]
  refine ⟨hmem.1, fun hn => ?_⟩
  have e : res.mem = m := hmem.1.trans (hmem.2 hn)
  exact ⟨e, fun f k cb => by rw [e]⟩

/-- C9 (amended), witness: in the split instance, after `add(5, 1)` and
`add(7, 1)` (slots 1 and 3, key fields split over two words), the call
`add(4, 4)` claims slot 0, overflows, finds both candidates for the
continuation cell taken and returns false; it leaves the lookup of key 7 as it
was and leaves the memory `set(4)` produces. -/
theorem failed_overflow_claim_restores_witness :
    ((add split_ary 2 ((add split_ary 2 ((add split_ary 2 clear_mem 5 1).get rfl).mem 7 1).get
        rfl).mem 4 4).get rfl).ok = false ∧
    get_val_for_key split_ary 2
        ((add split_ary 2 ((add split_ary 2 ((add split_ary 2 clear_mem 5 1).get rfl).mem 7 1).get
          rfl).mem 4 4).get rfl).mem 7 false
      = get_val_for_key split_ary 2
        ((add split_ary 2 ((add split_ary 2 clear_mem 5 1).get rfl).mem 7 1).get rfl).mem 7 false ∧
    ((add split_ary 2 ((add split_ary 2 ((add split_ary 2 clear_mem 5 1).get rfl).mem 7 1).get
        rfl).mem 4 4).get rfl).mem
      = (set split_ary ((add split_ary 2 ((add split_ary 2 clear_mem 5 1).get rfl).mem 7 1).get
        rfl).mem 4).mem :=
  (fun h => ⟨rfl, h.1 7 (by decide) (by decide) 2 false, (h.2 rfl).1⟩)
    (failed_overflow_claim_restores (by decide : split_ary.Valid) split_ary_hash_inj
      (Reach.add (Reach.add Reach.clear (by decide : 5 < 2 ^ split_ary.key_len)
        (Option.some_get (rfl : (add split_ary 2 clear_mem 5 1).isSome = true)).symm)
        (by decide : 7 < 2 ^ split_ary.key_len)
        (Option.some_get (rfl : (add split_ary 2
          ((add split_ary 2 clear_mem 5 1).get rfl).mem 7 1).isSome = true)).symm)
      (by decide : 4 < 2 ^ split_ary.key_len)
      (Option.some_get (rfl : (add split_ary 2 ((add split_ary 2
        ((add split_ary 2 clear_mem 5 1).get rfl).mem 7 1).get rfl).mem 4 4).isSome = true)).symm
      rfl rfl)

/-- C11 (counterexample): in the small instance (value fields of 2 bits), after
`add(1, 1)` the primary value field of key 1 holds `v = 1`; `add(1, 2^64 - 1)`
returns true and `v + delta = 2^64 >= 2^2`, but the sum wraps in the 64-bit
word: no continuation cell is claimed (slots 0, 2 and 3 stay EMPTY), the carry
`(v + delta) >> 2` is added nowhere, and `get_val_for_key(1)` returns 0. -/
theorem carry_lost_on_word_overflow :
    ∃ r1 r2, add small_ary 2 clear_mem 1 1 = some r1 ∧ val_at small_ary r1.mem 1 = 1 ∧
      add small_ary 2 r1.mem 1 (2 ^ 64 - 1) = some r2 ∧ r2.ok = true ∧
      val_at small_ary r2.mem 1 = 0 ∧
      (get_key_at_id small_ary r2.mem 0 0).1 = key_status.EMPTY ∧
      (get_key_at_id small_ary r2.mem 2 0).1 = key_status.EMPTY ∧
      (get_key_at_id small_ary r2.mem 3 0).1 = key_status.EMPTY ∧
      get_val_for_key small_ary 2 r2.mem 1 false = some (some 0) :=
  ⟨_, _, rfl, by decide, rfl, rfl, by decide, by decide, by decide, by decide, by decide⟩

/-- C11 (amended): overflow threshold of `add`, in whatever key layout (key
fields in one word or split over words), on a sound table (`TableOK`: 64-bit
words and whole cells, as every state reachable from the cleared table is).
Let the primary claim of `add(key, delta)` succeed at the cell `c` (round `r`), let `v`
be the content of its value field and let `v + delta` fit a 64-bit word.  When
the key was present the claim stores nothing.  If `v + delta < 2^val_len`, the
add returns true, the field holds `v + delta`, no word other than the one or
two words of that value field differs from the memory after the claim, and
every key field is as after the claim (no continuation cell is claimed).  If
`v + delta >= 2^val_len` and the add returns true, the field holds
`(v + delta) mod 2^val_len`, `claim_large_key` from `(c + R[0]) & (N-1)`
returns a continuation cell `x`, whose value field takes the carry
`(v + delta) >> val_len` (modulo `2^lval_len`); no cell outside the overflow
chain of `c` is touched, and when that second sum stays below `2^lval_len`
no cell other than `c` and `x` is touched. -/
theorem overflow_threshold {a : Ary} (hwf : a.Valid) {m : Mem} (hm : TableOK a m)
    {key delta fuel : Nat} {res : AddResult} (hadd : add a fuel m key delta = some res) {r : Nat}
    (hff : first_fit (fits_at a m key (slot_of a key)) a.reprobe_limit 0 = some r)
    (hsum : val_at a m (cand a (slot_of a key) r) + delta < 2 ^ 64) :
    (key_at a m (cand a (slot_of a key) r) ≠ 0 → claim_mem a m key r = m) ∧
    (val_at a m (cand a (slot_of a key) r) + delta < 2 ^ a.offsets.val_len →
      res.ok = true ∧
      val_at a res.mem (cand a (slot_of a key) r) = val_at a m (cand a (slot_of a key) r) + delta ∧
      (∀ i, i ≠ val_w a (cand a (slot_of a key) r) →
        ((a.offsets.word_offset (cand a (slot_of a key) r)).2.1.val.mask2 = 0 ∨
          i ≠ val_w a (cand a (slot_of a key) r) + 1) →
        res.mem i = claim_mem a m key r i) ∧
      ∀ y, y < a.size → key_at a res.mem y = key_at a (claim_mem a m key r) y ∧
        lkey_at a res.mem y = lkey_at a (claim_mem a m key r) y) ∧
    (2 ^ a.offsets.val_len ≤ val_at a m (cand a (slot_of a key) r) + delta → res.ok = true →
      val_at a res.mem (cand a (slot_of a key) r)
        = (val_at a m (cand a (slot_of a key) r) + delta) % 2 ^ a.offsets.val_len ∧
      (∀ y, y < a.size → ¬ Chain a res.mem (cand a (slot_of a key) r) y →
        SameCell a m res.mem y) ∧
      ∃ r2, r2 ≤ a.reprobe_limit ∧
        (claim_large_key a (incr_mem a m key r delta) (nxt a (cand a (slot_of a key) r))).1
          = some ⟨cand a (nxt a (cand a (slot_of a key) r)) r2,
              (a.offsets.word_offset (cand a (nxt a (cand a (slot_of a key) r)) r2)).1,
              (a.offsets.word_offset (cand a (nxt a (cand a (slot_of a key) r)) r2)).2.2⟩ ∧
        lkey_at a res.mem (cand a (nxt a (cand a (slot_of a key) r)) r2) = 1 + 2 * r2 ∧
        lval_at a res.mem (cand a (nxt a (cand a (slot_of a key) r)) r2)
          = (lval_at a m (cand a (nxt a (cand a (slot_of a key) r)) r2)
              + (val_at a m (cand a (slot_of a key) r) + delta) / 2 ^ a.offsets.val_len)
            % 2 ^ a.offsets.lval_len ∧
        (lval_at a m (cand a (nxt a (cand a (slot_of a key) r)) r2)
            + (val_at a m (cand a (slot_of a key) r) + delta) / 2 ^ a.offsets.val_len
            < 2 ^ a.offsets.lval_len →
          ∀ y, y < a.size → y ≠ cand a (slot_of a key) r →
            y ≠ cand a (nxt a (cand a (slot_of a key) r)) r2 → SameCell a m res.mem y)) := by
  have hrun := add_run hwf hm hadd
  have hp := cand_lt a (slot_of_lt a key) r
  obtain ⟨hr, hm1, hk1, hh, -⟩ := claim_mem_facts hwf hm hff
  obtain ⟨hm2, hk2⟩ := keeps_add_val_val hwf hm1 hp delta
  have hv1 := val_at_claim_mem hwf m key r
  have hcarry : (add_val_field (claim_mem a m key r) (val_w a (cand a (slot_of a key) r)) delta
      (a.offsets.word_offset (cand a (slot_of a key) r)).2.1.val).1
      = (val_at a m (cand a (slot_of a key) r) + delta) / 2 ^ a.offsets.val_len := by
    unfold val_w
    rw [add_val_field_carry _ _ delta (hwf.val_shape hp) hm1.1 (by
      rw [show val_read (claim_mem a m key r) _ _ = val_at a (claim_mem a m key r)
        (cand a (slot_of a key) r) from rfl, hv1]; exact hsum)]
    rw [show val_read (claim_mem a m key r) _ _ = val_at a (claim_mem a m key r)
      (cand a (slot_of a key) r) from rfl, hv1]
  have hval : val_at a (incr_mem a m key r delta) (cand a (slot_of a key) r)
      = (val_at a m (cand a (slot_of a key) r) + delta) % 2 ^ a.offsets.val_len := by
    unfold incr_mem val_at val_w
    rw [add_val_field_val _ _ delta (hwf.val_shape hp) hm1.1]
    exact congrArg (fun x => (x + delta) % 2 ^ a.offsets.val_len) hv1
  refine ⟨fun h0 => ?_, fun hlt => ?_, fun hge hok => ?_⟩
  · simp only [claim_mem, claim_key_result, if_neg h0]
  · have hc0 : (add_val_field (claim_mem a m key r) (val_w a (cand a (slot_of a key) r)) delta
        (a.offsets.word_offset (cand a (slot_of a key) r)).2.1.val).1 = 0 := by
      rw [hcarry]; exact Nat.div_eq_of_lt hlt
    have hres : res = ⟨true, decide (key_at a m (cand a (slot_of a key) r) = 0),
        cand a (slot_of a key) r, incr_mem a m key r delta⟩ := by
      cases fuel with
      | zero => simp [add, add_rec] at hadd
      | succ n =>
        rw [add_eq_of_no_carry hwf hm key delta n hff hc0] at hadd
        exact (Option.some.inj hadd).symm
    subst hres
    refine ⟨rfl, ?_, fun i hi1 hi2 => ?_, fun y hy => ?_⟩
    · simp only []
      rw [hval, Nat.mod_eq_of_lt hlt]
    · simp only [incr_mem, val_w] at hi1 hi2 ⊢
      rw [add_val_field_mem _ _ delta (hwf.val_shape hp) (hm1.1 _) (hm1.1 _)]
      rcases hi2 with h2 | h2
      · have hl : (a.offsets.word_offset (cand a (slot_of a key) r)).2.1.val.len2 = 0 := by
          simp [ValOffsets.len2, h2]
        rw [hl, set_bits_zero_len]
        by_cases h3 : i = (a.offsets.word_offset (cand a (slot_of a key) r)).1
            + (a.offsets.word_offset (cand a (slot_of a key) r)).2.1.val.woff + 1
        · subst h3
          rw [Mem.write_same]
        · rw [Mem.write_other _ _ h3, Mem.write_other _ _ hi1]
      · rw [Mem.write_other _ _ h2, Mem.write_other _ _ hi1]
    · obtain ⟨x1, x2, e⟩ := add_val_field_write2 hm1.1 (a.offsets.word_offset
        (cand a (slot_of a key) r)).1 delta (hwf.val_shape hp)
      simp only [incr_mem, val_w]
      rw [e]
      exact ⟨key_at_write2_val hwf _ hp x1 x2 hy, lkey_at_write2_val hwf _ hp x1 x2 hy⟩
  · have hcne : (add_val_field (claim_mem a m key r) (val_w a (cand a (slot_of a key) r)) delta
        (a.offsets.word_offset (cand a (slot_of a key) r)).2.1.val).1 ≠ 0 := by
      rw [hcarry]
      have := Nat.div_pos hge (Nat.two_pow_pos a.offsets.val_len)
      omega
    have hframe : ∀ y, y < a.size → ¬ Chain a res.mem (cand a (slot_of a key) r) y →
        SameCell a m res.mem y := fun y hy hny => hrun.frame hwf hm hff hy hny
    have hc2 : key_at a (incr_mem a m key r delta) (cand a (slot_of a key) r)
        = 2 * akey_of a key r := by
      have := (hk2 _ hp).1 (holds_ne_zero hwf hr hh) (holds_even hh)
      unfold incr_mem
      rw [this]; exact hh
    have hne0 : key_at a (incr_mem a m key r delta) (cand a (slot_of a key) r) ≠ 0 := by
      rw [hc2, ← hh]; exact holds_ne_zero hwf hr hh
    have hev : key_at a (incr_mem a m key r delta) (cand a (slot_of a key) r) % 2 = 0 := by
      rw [hc2]; omega
    -- the cells other than the primary one are as before the call when the increment is done
    have hsame2 : ∀ y, y < a.size → y ≠ cand a (slot_of a key) r →
        SameCell a m (incr_mem a m key r delta) y := fun y hy hne =>
      (sameCell_claim_mem hwf m hy (Ne.symm hne)).scomp
        (sameCell_add_val_val hwf hm1 hp hy (Ne.symm hne) delta)
    cases hrun with
    | full hff2 => rw [hff2] at hff; cases hff
    | done hff2 hc =>
      rw [hff2] at hff; cases hff
      exact absurd hc hcne
    | more hff2 hc hsub =>
      rename_i m3 r3 ok
      rw [hff2] at hff; cases hff
      have hok2 : ok = true := hok
      simp only [hok2, if_true] at hframe ⊢
      rw [hok2, hcarry] at hsub
      obtain ⟨r2, hr2, hff2, hl2, hlv, hsc, hone⟩ := hsub.first_level hwf hm2 hne0 hev
      have hx := cand_lt a (nxt_lt a (cand a (slot_of a key) r)) r2
      have hxc : cand a (nxt a (cand a (slot_of a key) r)) r2 ≠ cand a (slot_of a key) r :=
        lclaimed_not_primary hff2 hne0 hev
      have elv : lval_at a (incr_mem a m key r delta) (cand a (nxt a (cand a (slot_of a key) r)) r2)
          = lval_at a m (cand a (nxt a (cand a (slot_of a key) r)) r2) :=
        sameCell_lval_at (hsame2 _ hx hxc)
      have elv2 : lval_at a (add_val_field (claim_mem a m key r)
          (val_w a (cand a (slot_of a key) r)) delta
          (a.offsets.word_offset (cand a (slot_of a key) r)).2.1.val).2
          (cand a (nxt a (cand a (slot_of a key) r)) r2)
          = lval_at a m (cand a (nxt a (cand a (slot_of a key) r)) r2) := elv
      rw [elv2] at hlv hone
      refine ⟨?_, hframe, r2, hr2, ?_, hl2, hlv, fun hlt y hy hyc hyx =>
        (hsame2 y hy hyc).scomp (hone hlt y hy hyx)⟩
      · rw [sameCell_val_at hsc]; exact hval
      · have hm2b : TableOK a (incr_mem a m key r delta) := hm2
        rw [claim_large_key_eq hwf hm2b (nxt_lt a _)]
        unfold incr_mem
        rw [hff2]
        rfl

/-- C11 (amended), witness: in the split instance with key 5 stored in slot 1,
`add(9, 5)` claims slot 3 (key field split over two words), whose 2-bit value
field holds `v = 0`; as `0 + 5 >= 2^2` the field becomes `5 mod 4`. -/
theorem overflow_threshold_witness :
    val_at split_ary ((add split_ary 3 (set split_ary clear_mem 5).mem 9 5).get rfl).mem
        (cand split_ary (slot_of split_ary 9) 1)
      = (val_at split_ary (set split_ary clear_mem 5).mem (cand split_ary (slot_of split_ary 9) 1)
          + 5) % 2 ^ split_ary.offsets.val_len :=
  ((overflow_threshold (by decide : split_ary.Valid)
    ((Reach.set Reach.clear (by decide : 5 < 2 ^ split_ary.key_len)).rinv
      (by decide : split_ary.Valid)).1
    (Option.some_get (rfl : (add split_ary 3 (set split_ary clear_mem 5).mem 9 5).isSome
      = true)).symm
    (by decide : first_fit (fits_at split_ary (set split_ary clear_mem 5).mem 9
      (slot_of split_ary 9)) split_ary.reprobe_limit 0 = some 1)
    (by decide)).2.2 (by decide) rfl).1

/-- C13 (counterexample): in the cleared small instance key 1 is absent and slot
1 is EMPTY; `add(1, 0)` returns true, and afterwards `get_val_for_key(1)`
returns true with value 0 and slot 1 is FILLED. -/
theorem add_zero_inserts_key :
    ∃ r, get_val_for_key small_ary 2 clear_mem 1 false = some none ∧
      (get_key_at_id small_ary clear_mem 1 0).1 = key_status.EMPTY ∧
      add small_ary 2 clear_mem 1 0 = some r ∧ r.ok = true ∧
      get_val_for_key small_ary 2 r.mem 1 false = some (some 0) ∧
      (get_key_at_id small_ary r.mem 1 0).1 = key_status.FILLED :=
  ⟨_, by decide, by decide, rfl, rfl, by decide, by decide⟩

/-- C13 (amended): in whatever key layout (key fields in one word or split over
words), the hash being invertible, on every reachable state `add(k, 0)`
returns and does exactly what `set(k)` does (same flag, `is_new`, slot and
memory).  It leaves the result of `get_val_for_key` unchanged for every other
key of `key_len` bits, and the whole memory unchanged when `k` was present
(`is_new` false); it turns no cell into an LBSET cell and changes no cell but
the one it reports; when `k` was absent and the claim succeeds (`is_new` true),
the reported cell was EMPTY and is FILLED afterwards; and when a candidate slot
of `k` at a reprobe index below `reprobe_limit` is EMPTY, the call returns
true and afterwards `get_key_id(k)` and `get_val_for_key(k)` return true: an
absent `k` becomes present. -/
theorem add_zero_is_set {a : Ary} (hwf : a.Valid) (hinj : HashInj a) {ks : List Nat} {m : Mem}
    (hreach : Reach a ks m) {key : Nat} (hkey : key < 2 ^ a.key_len) (fuel : Nat) :
    add a (fuel + 1) m key 0 = some (set a m key) ∧
      (∀ k2, k2 < 2 ^ a.key_len → k2 ≠ key → ∀ f cb,
        get_val_for_key a f (set a m key).mem k2 cb = get_val_for_key a f m k2 cb) ∧
      ((set a m key).is_new = false → (set a m key).mem = m) ∧
      ((set a m key).is_new = true →
        (get_key_at_id a m (set a m key).eid 0).1 = key_status.EMPTY ∧
        (get_key_at_id a (set a m key).mem (set a m key).eid 0).1 = key_status.FILLED) ∧
      (∀ c, c < a.size → c ≠ (set a m key).eid → SameCell a m (set a m key).mem c) ∧
      (∀ c, c < a.size → ((get_key_at_id a (set a m key).mem c 0).1 = key_status.LBSET ↔
        (get_key_at_id a m c 0).1 = key_status.LBSET)) ∧
      (∀ j, j < a.reprobe_limit →
        (get_key_at_id a m (cand a (slot_of a key) j) 0).1 = key_status.EMPTY →
        (set a m key).ok = true ∧ (get_key_id a (set a m key).mem key).isSome = true ∧
        ∃ N, ∀ f, N ≤ f → ∀ cb, ∃ v,
          get_val_for_key a f (set a m key).mem key cb = some (some v)) := by
  have hm := (hreach.rinv hwf).1
  have hm2 := set_tableOK hwf hm key
  have hadd := add_zero_eq_set hwf hm key fuel
  obtain ⟨h1, h2, h3⟩ := set_cells hwf hm key
  refine ⟨hadd, fun k2 hk2 hne f cb => add_frame hwf hinj hreach hkey hk2 hne hadd f cb,
    h1, h2, h3, fun c hc => ?_, fun j hj he => ?_⟩
  · rw [status_lbset_iff hwf hm2 hc, status_lbset_iff hwf hm hc]
    by_cases hce : c = (set a m key).eid
    · by_cases hn : (set a m key).is_new = true
      · obtain ⟨he, hf⟩ := h2 hn
        rw [← hce] at he hf
        have e1 := (status_empty_iff hwf hm hc 0).1 he
        have e2 := (status_filled_iff hwf hm2 hc 0).1 hf
        omega
      · have hn' : (set a m key).is_new = false := by simpa using hn
        rw [h1 hn']
    · rw [sameCell_key_at hwf hc (h3 c hc hce)]
  · obtain ⟨hok, hfound⟩ := set_then_found hwf hreach hkey hj he
    obtain ⟨N, hN⟩ := (Reach.set hreach hkey).lookup_returns hwf
    refine ⟨hok, ?_, N, fun f hf cb => ?_⟩
    · unfold get_key_id
      rw [Option.isSome_map']
      exact hfound
    · have hret := hN f hf key cb
      obtain ⟨x, hx⟩ := Option.isSome_iff_exists.1 hfound
      unfold get_val_for_key at hret ⊢
      rw [hx] at hret ⊢
      simp only [Option.isSome_map'] at hret
      obtain ⟨v, hv⟩ := Option.isSome_iff_exists.1 hret
      refine ⟨v, ?_⟩
      show Option.map some (get_val_at_id a f (set a m key).mem x.1 x.2.1 x.2.2 true cb)
        = some (some v)
      rw [hv]
      rfl

/-- C13 (amended), witness: in the split instance, after `add(7, 1)`, key 5 is
absent and its candidate slot 1 (key field split over two words) is EMPTY; the
call `add(5, 0)` returns what `set(5)` returns, and afterwards `get_key_id`
finds key 5. -/
theorem add_zero_is_set_witness :
    get_key_id split_ary ((add split_ary 2 clear_mem 7 1).get rfl).mem 5 = none ∧
      add split_ary 1 ((add split_ary 2 clear_mem 7 1).get rfl).mem 5 0
        = some (set split_ary ((add split_ary 2 clear_mem 7 1).get rfl).mem 5) ∧
      (get_key_id split_ary
        (set split_ary ((add split_ary 2 clear_mem 7 1).get rfl).mem 5).mem 5).isSome = true :=
  (fun h => ⟨by decide, h.1, (h.2.2.2.2.2.2 0 (by decide) (by decide)).2.1⟩)
    (add_zero_is_set (by decide : split_ary.Valid) split_ary_hash_inj
      (Reach.add Reach.clear (by decide : 7 < 2 ^ split_ary.key_len)
        (Option.some_get (rfl : (add split_ary 2 clear_mem 7 1).isSome = true)).symm)
      (by decide : 5 < 2 ^ split_ary.key_len) 0)

/-- C15 (counterexample): a request for `2 ^ 63 + 1` slots.  The member `size_` is
a 64-bit word, and no 64-bit word is a power of two that reaches the request.
Here `lsize_` is 64, the shift `(size_t)1 << 64` is outside what C++ defines,
and with the shift count taken modulo 64 `size_` is `1` and `size_mask_` is
`0`: `size()` is below the request and is not `2 ^ lsize()`. -/
theorem size_of_huge_request_too_small :
    new_lsize (2 ^ 63 + 1) = 64 ∧ new_size (2 ^ 63 + 1) = 1 ∧
      new_size_mask (2 ^ 63 + 1) = 0 ∧
      ¬ 2 ^ 63 + 1 ≤ new_size (2 ^ 63 + 1) ∧
      new_size (2 ^ 63 + 1) ≠ 2 ^ new_lsize (2 ^ 63 + 1) ∧
      ∀ s, s < 2 ^ 64 → ¬ (2 ^ 63 + 1 ≤ s ∧ ∃ l, s = 2 ^ l) := by
  refine ⟨by decide, by decide, by decide, by decide, by decide, ?_⟩
  rintro s hs ⟨h1, l, rfl⟩
  have hl : l < 64 := (Nat.pow_lt_pow_iff_right (by decide : 1 < 2)).1 hs
  have : 2 ^ l ≤ 2 ^ 63 := Nat.pow_le_pow_right (by decide) (by omega)
  omega

/-- C15 (amended): for every requested size up to `2 ^ 63` the constructor
sets `size_` to `2 ^ lsize_`, the smallest power of two that is at least the
requested size, and `size_mask_` to `size_ - 1`, so that `x & size_mask_` is
`x mod size_`; when the memory block is allocated the constructor returns, and
these are the `lsize`, `size` and `size_mask` of the array built; when it is not
allocated the constructor throws `ErrorAllocation`. -/
theorem size_is_rounded_up_power_of_two (size key_len reprobe_limit : Nat)
    (reprobes : Nat → Nat) (offsets : Offsets) (hash_times hash_inverse_times : Nat → Nat)
    (h2 : size ≤ 2 ^ 63) :
    new_size size = 2 ^ new_lsize size ∧
      size ≤ new_size size ∧ (∀ l, size ≤ 2 ^ l → new_size size ≤ 2 ^ l) ∧
      new_size_mask size = new_size size - 1 ∧
      (∀ x, x &&& new_size_mask size = x % new_size size) ∧
      ∃ a, array_new size key_len reprobe_limit reprobes offsets hash_times
          hash_inverse_times true = Except.ok a ∧
        a.lsize = new_lsize size ∧ a.size = new_size size ∧
        a.size_mask = new_size_mask size ∧
        array_new size key_len reprobe_limit reprobes offsets hash_times
          hash_inverse_times false = Except.error ErrorAllocation.failed_to_allocate := by
  have h64 : size < 2 ^ 64 := lt_of_le_of_lt h2 (by decide)
  obtain ⟨hle, hmin⟩ := ceilLog2_spec (Nat.le_of_lt h64)
  have hl : ceilLog2 size ≤ 63 := hmin 63 h2
  have hls : new_lsize size = ceilLog2 size := by
    unfold new_lsize
    rw [Nat.mod_eq_of_lt h64]
    exact Nat.mod_eq_of_lt (by omega)
  have hs : new_size size = 2 ^ ceilLog2 size := by
    unfold new_size wshl
    rw [hls, Nat.mod_eq_of_lt (by omega : ceilLog2 size < 64), Nat.one_shiftLeft]
    exact Nat.mod_eq_of_lt (Nat.pow_lt_pow_right (by decide) (by omega))
  have hpos : 0 < 2 ^ ceilLog2 size := Nat.two_pow_pos _
  have hlt : 2 ^ ceilLog2 size < 2 ^ 64 := Nat.pow_lt_pow_right (by decide) (by omega)
  have hm : new_size_mask size = 2 ^ ceilLog2 size - 1 := by
    unfold new_size_mask wsub
    rw [hs]
    have e : 2 ^ ceilLog2 size + (2 ^ 64 - 1 % 2 ^ 64) = (2 ^ ceilLog2 size - 1) + 2 ^ 64 := by
      have : (1:Nat) % 2 ^ 64 = 1 := by decide
      rw [this]; omega
    rw [e, Nat.add_mod_right]
    exact Nat.mod_eq_of_lt (by omega)
  refine ⟨by rw [hs, hls], ?_, ?_, ?_, ?_, ?_⟩
  · rw [hs]; exact hle
  · intro l hl2
    rw [hs]
    exact Nat.pow_le_pow_right (by decide) (hmin l hl2)
  · rw [hm, hs]
  · intro x
    rw [hm, hs]
    exact Nat.and_pow_two_sub_one_eq_mod x _
  · refine ⟨⟨new_lsize size,
      reprobe_limit_t reprobes (new_size size) (reprobe_limit % 2 ^ 16), key_len % 2 ^ 16,
      offsets, reprobes, hash_times, hash_inverse_times⟩, ?_, rfl, ?_, ?_, ?_⟩
    · unfold array_new
      rw [if_neg (by decide)]
    · rw [hs, ← hls]; rfl
    · rw [hm, ← hls]; rfl
    · rfl

/-- C15 (amended), witness: a request for 8 slots gives `size() = 8`, and a
request for 5 slots too. -/
theorem size_is_rounded_up_power_of_two_witness :
    new_size 8 = 8 ∧ new_size 5 = 8 ∧ new_size_mask 8 = 7 :=
  ⟨(size_is_rounded_up_power_of_two 8 5 1 small_ary.reprobes small_offsets small_ary.hash_times
      small_ary.hash_inverse_times (by decide)).1.trans (by decide),
    by decide, by decide⟩

/-- C16 (counterexample): with the quadratic schedule and a table of one slot
(`L = 0`) the loop stops at limit `0` although `R[0] = 1` is not below `N = 1`;
with the constant schedule `R[i] = 1`, which is non-decreasing with
`R[0] >= 1`, and `N = 2` (`L = 1`) the limit 3 is kept although
`ceil(log2(3 + 1)) = 2` exceeds `L`. -/
theorem reprobe_limit_not_reduced :
    (reprobe_limit_t (fun i => i * (i + 1) / 2 + 1) (2 ^ 0) 3 = 0 ∧
      ¬ (fun i => i * (i + 1) / 2 + 1) (reprobe_limit_t (fun i => i * (i + 1) / 2 + 1) (2 ^ 0) 3)
        < 2 ^ 0) ∧
    (reprobe_limit_t (fun _ => 1) (2 ^ 1) 3 = 3 ∧
      ¬ Nat.clog 2 (reprobe_limit_t (fun _ => 1) (2 ^ 1) 3 + 1) ≤ 1) := by
  refine ⟨by decide, by decide, ?_⟩
  have e : reprobe_limit_t (fun _ => 1) (2 ^ 1) 3 = 3 := by decide
  rw [e, ← Nat.le_pow_iff_clog_le (by decide)]
  decide

/-- C16 (amended): for every requested limit, every table size `N = 2 ^ L` and
every schedule `R` with `R[0] < N` and `R[i] >= i` for all `i`, the limit
computed by `reprobe_limit_t` is at most the requested one and satisfies
`R[limit] < N` and `ceil(log2(limit + 1)) <= L`.  The constructor takes the
requested limit as a `uint16_t`: the `max_reprobe()` of the array built is the
limit computed from the request modulo `2 ^ 16`, and it satisfies the same. -/
theorem reprobe_limit_reduced (R : Nat → Nat) (L limit : Nat) (h0 : R 0 < 2 ^ L)
    (hR : ∀ i, i ≤ R i) :
    reprobe_limit_t R (2 ^ L) limit ≤ limit ∧
      R (reprobe_limit_t R (2 ^ L) limit) < 2 ^ L ∧
      Nat.clog 2 (reprobe_limit_t R (2 ^ L) limit + 1) ≤ L ∧
      ∀ size key_len offsets hash_times hash_inverse_times data_ok a, new_size size = 2 ^ L →
        array_new size key_len limit R offsets hash_times hash_inverse_times data_ok
          = Except.ok a →
        a.max_reprobe = reprobe_limit_t R (2 ^ L) (limit % 2 ^ 16) ∧
          a.max_reprobe ≤ limit ∧ R a.max_reprobe < 2 ^ L ∧
          Nat.clog 2 (a.max_reprobe + 1) ≤ L := by
  have hall : ∀ l, reprobe_limit_t R (2 ^ L) l ≤ l ∧ R (reprobe_limit_t R (2 ^ L) l) < 2 ^ L ∧
      Nat.clog 2 (reprobe_limit_t R (2 ^ L) l + 1) ≤ L := by
    intro l
    have hlt : R (reprobe_limit_t R (2 ^ L) l) < 2 ^ L := by
      rcases reprobe_limit_t_lt R (2 ^ L) l with h | h
      · rw [h]; exact h0
      · exact h
    refine ⟨reprobe_limit_t_le R _ l, hlt, ?_⟩
    rw [← Nat.le_pow_iff_clog_le (by decide)]
    have := hR (reprobe_limit_t R (2 ^ L) l)
    omega
  refine ⟨(hall limit).1, (hall limit).2.1, (hall limit).2.2, ?_⟩
  intro size key_len offsets H Hinv data_ok a hs ha
  have e : a.max_reprobe = reprobe_limit_t R (2 ^ L) (limit % 2 ^ 16) := by
    unfold array_new at ha
    split_ifs at ha
    injection ha with ha
    rw [← ha]
    unfold Ary.max_reprobe
    simp only [hs]
  rw [e]
  exact ⟨rfl, le_trans (hall _).1 (Nat.mod_le _ _), (hall _).2.1, (hall _).2.2⟩

/-- C16 (amended), witness: the quadratic schedule, `N = 8`, requested limit 10:
the limit becomes 3 and `R[3] = 7 < 8`. -/
theorem reprobe_limit_reduced_witness :
    reprobe_limit_t (fun i => i * (i + 1) / 2 + 1) (2 ^ 3) 10 = 3 ∧
    (fun i => i * (i + 1) / 2 + 1) (reprobe_limit_t (fun i => i * (i + 1) / 2 + 1) (2 ^ 3) 10)
      < 2 ^ 3 :=
  ⟨by decide, (reprobe_limit_reduced (fun i => i * (i + 1) / 2 + 1) 3 10 (by decide)
    (fun i => by
      have h := Nat.le_mul_self i
      have e : i * (i + 1) = i * i + i := by ring
      simp only []
      omega)).2.1⟩

/-- C17: iterator coverage, in whatever key layout (key fields in one word or
split over words).  On every state reachable
from the cleared table, with a bound on the recursion of `resolve_val_rec` that
is large enough, the first `n` calls of `next()` on `iterator(ary, start, end)`
all return, for every `n`: the calls return true once for each slot `i` with
`start <= i < min(end, size())` that `get_key_at_id` classifies as FILLED, in
increasing order of `i`, with `id()` equal to that slot after the call; the
EMPTY and LBSET slots give no return; and all later calls return false. -/
theorem iterator_covers_filled_slots {a : Ary} (hwf : a.Valid) {ks : List Nat} {m : Mem}
    (hreach : Reach a ks m) (start end_id : Nat) :
    ∃ fuel0, ∀ fuel, fuel0 ≤ fuel → ∀ n,
      (nexts a fuel m n (iterator_new a start end_id)).map (List.map (Option.map Prod.fst))
        = some ((((filled_slots a m start (min end_id a.size)).map some)
            ++ List.replicate n none).take n) := by
  have hm := (hreach.rinv hwf).1
  obtain ⟨N, hN⟩ := hreach.fuel hwf
  refine ⟨N, fun fuel hf n => ?_⟩
  have hend : (iterator_new a start end_id).end_id_ = min end_id a.size := by
    simp only [iterator_new]
    split_ifs <;> omega
  rw [nexts_eq hwf hm (hN fuel hf) n _ (by rw [hend]; exact min_le_right _ _)
    (by simp [iterator_new])]
  rw [hend]
  simp only [iterator_new, Option.map_some', List.map_take, List.map_append, List.map_map,
    List.map_replicate, Option.map_none']
  rfl

/-- C17, witness: in the split instance, after `add(5, 1)` and `add(9, 1)`, slots
1 and 3 (key fields split over two words) are the FILLED slots of `[0, 4)`. -/
theorem iterator_covers_filled_slots_witness :
    filled_slots split_ary split_two_keys 0 (min 4 split_ary.size) = [1, 3] ∧
      ∃ fuel0, ∀ fuel, fuel0 ≤ fuel → ∀ n,
        (nexts split_ary fuel split_two_keys n (iterator_new split_ary 0 4)).map
            (List.map (Option.map Prod.fst))
          = some ((((filled_slots split_ary split_two_keys 0 (min 4 split_ary.size)).map some)
              ++ List.replicate n none).take n) :=
  ⟨by decide,
    iterator_covers_filled_slots (by decide : split_ary.Valid) split_two_keys_reach 0 4⟩

/-- C18: uniqueness, in whatever key layout (key fields in one word or split over
words).  On every state reachable from the
cleared table by `add` and `set`, two FILLED cells from which `get_key_at_id`
decodes the same stored key bits `[lsize, key_len)` and the same original
hashed slot are the same cell.  When `hash_inverse_matrix_.times` gives back
the low `lsize` bits of every recorded key, `size()` or more calls of `next()`
on `iterator_all()` all return, no key is reported by two true returns, and
every recorded key is reported by exactly one. -/
theorem stored_keys_yielded_once {a : Ary} (hwf : a.Valid) {ks : List Nat} {m : Mem}
    (hreach : Reach a ks m) :
    (∀ c1 c2, c1 < a.size → c2 < a.size →
      (get_key_at_id a m c1 0).1 = key_status.FILLED →
      (get_key_at_id a m c2 0).1 = key_status.FILLED →
      get_bits (get_key_at_id a m c1 0).2.1 a.lsize a.raw_key_len
        = get_bits (get_key_at_id a m c2 0).2.1 a.lsize a.raw_key_len →
      get_bits (get_key_at_id a m c1 0).2.1 0 a.lsize
        = get_bits (get_key_at_id a m c2 0).2.1 0 a.lsize → c1 = c2) ∧
    ((∀ K, K ∈ ks →
        get_bits (a.hash_inverse_times (set_bits K 0 a.lsize (slot_of a K))) 0 a.lsize
          = get_bits K 0 a.lsize) →
      ∃ fuel0, ∀ fuel, fuel0 ≤ fuel → ∀ n, a.size ≤ n →
        ∃ l, nexts a fuel m n (iterator_all a) = some l ∧
          ((l.filterMap id).map (fun y => y.2.1)).Nodup ∧
          ∀ K, K ∈ ks → ((l.filterMap id).map (fun y => y.2.1)).count K = 1) := by
  refine ⟨fun c1 c2 hc1 hc2 hf1 hf2 hhi hlo =>
    filled_decode_inj hwf (hreach.rinv hwf) (hreach.rinv2 hwf) hc1 hc2 hf1 hf2 hhi hlo,
    fun hinv => ?_⟩
  have hm := (hreach.rinv hwf).1
  obtain ⟨N, hN⟩ := hreach.fuel hwf
  refine ⟨N, fun fuel hf n hn => ⟨_, nexts_all hwf hm (hN fuel hf) hn, ?_⟩⟩
  have e : ((filled_slots a m 0 a.size).map (fun c => some (yield_at a fuel m c))
      ++ List.replicate (n - (filled_slots a m 0 a.size).length) none).filterMap id
      = (filled_slots a m 0 a.size).map (yield_at a fuel m) := by
    rw [← filterMap_nexts_all ((filled_slots a m 0 a.size).map (yield_at a fuel m))
      (n - (filled_slots a m 0 a.size).length), List.map_map]
    rfl
  rw [e, List.map_map]
  have hnd : ((filled_slots a m 0 a.size).map ((fun y => y.2.1) ∘ yield_at a fuel m)).Nodup := by
    refine List.Nodup.map_on (fun c1 h1 c2 h2 he => ?_) (filled_slots_nodup a m 0 a.size)
    obtain ⟨-, hc1, hf1⟩ := (filled_slots_mem a m 0 a.size c1).1 h1
    obtain ⟨-, hc2, hf2⟩ := (filled_slots_mem a m 0 a.size c2).1 h2
    exact yield_key_inj hwf hreach hinv fuel hc1 hc2 hf1 hf2 he
  refine ⟨hnd, fun K hK => List.count_eq_one_of_mem hnd ?_⟩
  obtain ⟨r, hr, hh⟩ := hreach.held hwf K hK
  refine List.mem_map.2 ⟨cand a (slot_of a K) r, (filled_slots_mem a m 0 a.size _).2
    ⟨Nat.zero_le _, cand_lt a (slot_of_lt a K) r, holds_filled hwf hm hr hh⟩, ?_⟩
  exact yield_at_key hwf fuel hm (hreach.keys_lt K hK) hr hh (hinv K hK)

/-- C18, witness: the split instance after `add(5, 1)` and `add(9, 1)`, where the
inverse matrix gives back the low bits of the keys 9 and 5. -/
theorem stored_keys_yielded_once_witness :
    (∀ c1 c2, c1 < split_ary.size → c2 < split_ary.size →
      (get_key_at_id split_ary split_two_keys c1 0).1 = key_status.FILLED →
      (get_key_at_id split_ary split_two_keys c2 0).1 = key_status.FILLED →
      get_bits (get_key_at_id split_ary split_two_keys c1 0).2.1 split_ary.lsize
          split_ary.raw_key_len
        = get_bits (get_key_at_id split_ary split_two_keys c2 0).2.1 split_ary.lsize
          split_ary.raw_key_len →
      get_bits (get_key_at_id split_ary split_two_keys c1 0).2.1 0 split_ary.lsize
        = get_bits (get_key_at_id split_ary split_two_keys c2 0).2.1 0 split_ary.lsize →
      c1 = c2) ∧
    ∃ fuel0, ∀ fuel, fuel0 ≤ fuel → ∀ n, split_ary.size ≤ n →
      ∃ l, nexts split_ary fuel split_two_keys n (iterator_all split_ary) = some l ∧
        ((l.filterMap id).map (fun y => y.2.1)).Nodup ∧
        ∀ K, K ∈ [9, 5] → ((l.filterMap id).map (fun y => y.2.1)).count K = 1 :=
  ⟨(stored_keys_yielded_once (by decide : split_ary.Valid) split_two_keys_reach).1,
    (stored_keys_yielded_once (by decide : split_ary.Valid) split_two_keys_reach).2 (by decide)⟩

/-- C19: iterator key recovery, in whatever key layout (key fields in one word or
split over words).  Let
`hash_inverse_matrix_.times`, applied to a recorded key `K` with its bits
`[0, lsize)` replaced by the hashed slot `H K & size_mask`, give back the low
`lsize` bits of `K`, for every key `K` recorded on a reachable state.  Then
`size()` or more calls of `next()` on `iterator_all()` all return; for every
recorded key `K` one true return reports the primary cell of `K` with
`key() = K`; and every true return `(c, k, v)` reports a recorded key `k` that
the FILLED cell `c` holds at a candidate of the hashed slot of `k`, the hashed
slot `H k & size_mask` being the original slot that `get_key_at_id` rebuilds
from `c` and the stored reprobe index. -/
theorem iterator_recovers_keys {a : Ary} (hwf : a.Valid) {ks : List Nat} {m : Mem}
    (hreach : Reach a ks m)
    (hinv : ∀ K, K ∈ ks →
      get_bits (a.hash_inverse_times (set_bits K 0 a.lsize (slot_of a K))) 0 a.lsize
        = get_bits K 0 a.lsize) :
    ∃ fuel0, ∀ fuel, fuel0 ≤ fuel → ∀ n, a.size ≤ n →
      ∃ l, nexts a fuel m n (iterator_all a) = some l ∧
        (∀ K, K ∈ ks → ∃ r v, r ≤ a.reprobe_limit ∧
          holds a m (cand a (slot_of a K) r) K r ∧
          some (cand a (slot_of a K) r, K, v) ∈ l) ∧
        (∀ c k v, some (c, k, v) ∈ l →
          c < a.size ∧ (get_key_at_id a m c 0).1 = key_status.FILLED ∧ k ∈ ks ∧
          (∃ r, r ≤ a.reprobe_limit ∧ c = cand a (slot_of a k) r ∧ holds a m c k r) ∧
          slot_of a k = get_bits (get_key_at_id a m c 0).2.1 0 a.lsize) := by
  have hm := (hreach.rinv hwf).1
  obtain ⟨N, hN⟩ := hreach.fuel hwf
  refine ⟨N, fun fuel hf n hn => ⟨_, nexts_all hwf hm (hN fuel hf) hn, fun K hK => ?_,
    fun c k v hy => ?_⟩⟩
  · obtain ⟨r, hr, hh⟩ := hreach.held hwf K hK
    refine ⟨r, (yield_at a fuel m (cand a (slot_of a K) r)).2.2, hr, hh, ?_⟩
    rw [mem_nexts_all]
    refine ⟨_, cand_lt a (slot_of_lt a K) r, holds_filled hwf hm hr hh, ?_⟩
    have := yield_at_key hwf fuel hm (hreach.keys_lt K hK) hr hh (hinv K hK)
    exact Prod.ext rfl (Prod.ext this.symm rfl)
  · rw [mem_nexts_all] at hy
    obtain ⟨c2, hc, hf2, e⟩ := hy
    have ec : c = c2 := congrArg Prod.fst e
    subst ec
    have ek : k = (yield_at a fuel m c).2.1 := congrArg (fun y => y.2.1) e
    obtain ⟨K, hK, r, hr, e1, hh, y1⟩ := filled_yield hwf hreach hinv fuel hc hf2
    rw [y1] at ek
    subst ek
    refine ⟨hc, hf2, hK, ⟨r, hr, e1, hh⟩, ?_⟩
    rw [e1] at hh ⊢
    rw [get_key_at_id_holds hwf hm (slot_of_lt a k) hr hh 0,
      get_bits_decoded_low _ _ _ (slot_of_lt a k)]

/-- C19, witness: the split instance after `add(5, 1)` and `add(9, 1)`, where the
inverse matrix gives back the low bits of the keys 9 and 5. -/
theorem iterator_recovers_keys_witness :
    ∃ fuel0, ∀ fuel, fuel0 ≤ fuel → ∀ n, split_ary.size ≤ n →
      ∃ l, nexts split_ary fuel split_two_keys n (iterator_all split_ary) = some l ∧
        (∀ K, K ∈ [9, 5] → ∃ r v, r ≤ split_ary.reprobe_limit ∧
          holds split_ary split_two_keys (cand split_ary (slot_of split_ary K) r) K r ∧
          some (cand split_ary (slot_of split_ary K) r, K, v) ∈ l) ∧
        (∀ c k v, some (c, k, v) ∈ l →
          c < split_ary.size ∧
          (get_key_at_id split_ary split_two_keys c 0).1 = key_status.FILLED ∧ k ∈ [9, 5] ∧
          (∃ r, r ≤ split_ary.reprobe_limit ∧ c = cand split_ary (slot_of split_ary k) r ∧
            holds split_ary split_two_keys c k r) ∧
          slot_of split_ary k
            = get_bits (get_key_at_id split_ary split_two_keys c 0).2.1 0 split_ary.lsize) :=
  iterator_recovers_keys (by decide : split_ary.Valid) split_two_keys_reach (by decide)

/-- C21: slot state is monotonic, in whatever key layout (key fields in one word
or split over words).  On a sound table (`TableOK`: 64-bit words and whole
cells, as every state reachable from the cleared table is), across every call
of `add` that returns, with true or false, and every call of `set`, the table
stays sound; a slot that `get_key_at_id` classifies as FILLED before the call
is decoded to the same result after it (status, key bits, original slot) and
keeps its whole key field, reprobe index included; a slot that is LBSET before
is LBSET after it with the same large key field (large bit and reprobe
distance); and a slot that is EMPTY after the call was EMPTY before it. -/
theorem slot_state_monotonic {a : Ary} (hwf : a.Valid) {m : Mem} (hm : TableOK a m) (key : Nat)
    {m2 : Mem}
    (hcall : (∃ fuel val res, add a fuel m key val = some res ∧ res.mem = m2) ∨
      m2 = (set a m key).mem) :
    TableOK a m2 ∧
    ∀ c, c < a.size → ∀ tmp,
      ((get_key_at_id a m c tmp).1 = key_status.FILLED →
        get_key_at_id a m2 c tmp = get_key_at_id a m c tmp ∧
          key_at a m2 c = key_at a m c) ∧
      ((get_key_at_id a m c tmp).1 = key_status.LBSET →
        (get_key_at_id a m2 c tmp).1 = key_status.LBSET ∧
          lkey_at a m2 c = lkey_at a m c) ∧
      ((get_key_at_id a m2 c tmp).1 = key_status.EMPTY →
        (get_key_at_id a m c tmp).1 = key_status.EMPTY) := by
  have hk : TableOK a m2 ∧ Keeps a m m2 := by
    rcases hcall with ⟨fuel, val, res, hadd, rfl⟩ | rfl
    · exact (add_run hwf hm hadd).keeps hwf hm
    · exact ⟨set_tableOK hwf hm key, set_keeps hwf hm key⟩
  exact ⟨hk.1, fun c hc tmp => hk.2.status hwf hm hk.1 hc tmp⟩

/-- C21, witness: the split instance with key 5 stored in slot 1 (key field split
over two words), and the call `add(9, 5)`, which returns true: it claims slot
3 at reprobe index 1 and, the value field of 2 bits overflowing, the
continuation cell in slot 0.  Slot 1, FILLED before the call, is decoded to the
same result after it and keeps its key field. -/
theorem slot_state_monotonic_witness :
    ((add split_ary 3 (set split_ary clear_mem 5).mem 9 5).get rfl).ok = true ∧
      ((add split_ary 3 (set split_ary clear_mem 5).mem 9 5).get rfl).eid = 3 ∧
      (get_key_at_id split_ary ((add split_ary 3 (set split_ary clear_mem 5).mem 9 5).get rfl).mem
        0 0).1 = key_status.LBSET ∧
      (get_key_at_id split_ary (set split_ary clear_mem 5).mem 1 0).1 = key_status.FILLED ∧
      get_key_at_id split_ary ((add split_ary 3 (set split_ary clear_mem 5).mem 9 5).get rfl).mem
          1 0
        = get_key_at_id split_ary (set split_ary clear_mem 5).mem 1 0 ∧
      key_at split_ary ((add split_ary 3 (set split_ary clear_mem 5).mem 9 5).get rfl).mem 1
        = key_at split_ary (set split_ary clear_mem 5).mem 1 :=
  ⟨by decide, by decide, by decide, by decide,
    ((slot_state_monotonic (by decide : split_ary.Valid)
      ((Reach.set Reach.clear (by decide : 5 < 2 ^ split_ary.key_len)).rinv
        (by decide : split_ary.Valid)).1 9
      (Or.inl ⟨3, 5, _, (Option.some_get (rfl : (add split_ary 3
        (set split_ary clear_mem 5).mem 9 5).isSome = true)).symm, rfl⟩)).2 1
      (by decide : 1 < split_ary.size) 0).1 (by decide)⟩

/-- C22 (counterexample): in the small instance (`R[0] = 1`, 4 slots) key 4
hashes to slot 0; on the cleared table `claim_key` inspects slot 0 only, at
reprobe index 0, while `(0 + R[0]) & 3 = 1`; after `add(4, 1)` slot 0 is
FILLED, its reprobe field holds `0 + 1`, its original slot is 0, and
`0 ≠ (0 + R[0]) mod 4`. -/
theorem first_candidate_is_hashed_slot :
    slot_of small_ary 4 = 0 ∧
      claim_key_probes small_ary clear_mem 4 (slot_of small_ary 4) = [0] ∧
      wtrunc (slot_of small_ary 4 + small_ary.reprobes 0) &&& small_ary.size_mask = 1 ∧
      ∃ r1, add small_ary 2 clear_mem 4 1 = some r1 ∧
        (get_key_at_id small_ary r1.mem 0 0).1 = key_status.FILLED ∧
        ((r1.mem ((small_ary.offsets.word_offset 0).1
              + (small_ary.offsets.word_offset 0).2.1.key.woff) &&&
            (small_ary.offsets.word_offset 0).2.1.key.mask1) >>>
            (small_ary.offsets.word_offset 0).2.1.key.boff) &&&
          small_ary.offsets.reprobe_mask = 0 + 1 ∧
        get_bits (get_key_at_id small_ary r1.mem 0 0).2.1 0 small_ary.lsize = 0 ∧
        (0 + small_ary.reprobes 0) % small_ary.size ≠ 0 :=
  ⟨by decide, by decide, by decide, _, rfl, by decide, by decide, by decide, by decide⟩

/-- C22 (amended): probe positions, in whatever key layout (key fields in one
word or split over words).  For every memory, key and start slot, `claim_key`
inspects the candidates of the reprobe indices `0, ..., k - 1` with
`k <= reprobe_limit + 1`, the candidate of index 0 being the start slot itself
and the candidate of an index `r >= 1` being `(slot + R[r]) & (N-1)`.  On every
reachable state, a FILLED slot `c` stores `r + 1` in the reprobe bits of its
key field (the `reprobe_len` bits above the large bit, set bits left out) for
an `r <= reprobe_limit`, and with `o` the original slot that `get_key_at_id`
rebuilds, `c = o` when `r = 0` and `c = (o + R[r]) & (N-1)` when `r >= 1`; `o`
is the hashed slot of a recorded key whose bits `[lsize, key_len)` the cell
holds. -/
theorem probe_positions {a : Ary} (hwf : a.Valid) {ks : List Nat} {m : Mem}
    (hreach : Reach a ks m) :
    (∀ mem key id, ∃ k, 1 ≤ k ∧ k ≤ a.reprobe_limit + 1 ∧
      claim_key_probes a mem key id = (List.range k).map
        (fun r => if r = 0 then id else wtrunc (id + a.reprobes r) &&& a.size_mask)) ∧
    ∀ c, c < a.size → (get_key_at_id a m c 0).1 = key_status.FILLED →
      ∃ r, r ≤ a.reprobe_limit ∧
        (key_at a m c / 2) % 2 ^ a.offsets.reprobe_len = r + 1 ∧
        c = (if r = 0 then get_bits (get_key_at_id a m c 0).2.1 0 a.lsize
          else wtrunc (get_bits (get_key_at_id a m c 0).2.1 0 a.lsize + a.reprobes r)
            &&& a.size_mask) ∧
        ∃ K, K ∈ ks ∧
          get_bits (get_key_at_id a m c 0).2.1 0 a.lsize = a.hash_times K &&& a.size_mask ∧
          get_bits (get_key_at_id a m c 0).2.1 a.lsize a.raw_key_len
            = get_bits K a.lsize a.raw_key_len := by
  constructor
  · intro mem key id
    obtain ⟨k, h1, h2, h3, -, -⟩ := claim_key_probes_loop_spec a key id a.reprobe_limit 0 id
      (1 ||| wshl (get_bits key a.lsize (min (wsize - a.offsets.reprobe_len)
        (a.key_len - a.lsize))) a.offsets.reprobe_len) mem (cand_zero a id).symm
    refine ⟨k, h1, h2, ?_⟩
    rw [List.range_eq_range']
    exact h3
  · intro c hc hf
    have hm := (hreach.rinv hwf).1
    obtain ⟨hev, h0⟩ := (status_filled_iff hwf hm hc 0).1 hf
    obtain ⟨K, hK, r, hr, e, hh, -⟩ := (hreach.rinv hwf).2.1 c hc h0 hev
    have hfit := hwf.reprobe_fits hr
    have hh2 := hh
    unfold holds at hh2
    have hg : get_bits (get_key_at_id a m c 0).2.1 0 a.lsize = slot_of a K ∧
        get_bits (get_key_at_id a m c 0).2.1 a.lsize a.raw_key_len
          = get_bits K a.lsize a.raw_key_len := by
      rw [e] at hh ⊢
      rw [get_key_at_id_holds hwf hm (slot_of_lt a K) hr hh 0]
      exact ⟨get_bits_decoded_low _ _ _ (slot_of_lt a K),
        get_bits_decoded_high _ _ _ _ _ (get_bits_lt _ _ _)⟩
    refine ⟨r, hr, ?_, ?_, K, hK, hg.1, hg.2⟩
    · rw [hh2, Nat.mul_div_cancel_left _ (by decide : 0 < 2), akey_of_mod K hfit]
    · rw [hg.1]
      exact e

/-- C22 (amended), witness: the split instance with keys 5 and 9 stored: slot 3
(key field split over two words, no key bit in the first word) is FILLED and
holds key 9 at reprobe index 1 of its hashed slot 1. -/
theorem probe_positions_witness :
    ∃ r, r ≤ split_ary.reprobe_limit ∧
      (key_at split_ary split_two_keys 3 / 2) % 2 ^ split_ary.offsets.reprobe_len = r + 1 ∧
      3 = (if r = 0 then get_bits (get_key_at_id split_ary split_two_keys 3 0).2.1 0
          split_ary.lsize
        else wtrunc (get_bits (get_key_at_id split_ary split_two_keys 3 0).2.1 0
          split_ary.lsize + split_ary.reprobes r) &&& split_ary.size_mask) ∧
      ∃ K, K ∈ [9, 5] ∧
        get_bits (get_key_at_id split_ary split_two_keys 3 0).2.1 0 split_ary.lsize
          = split_ary.hash_times K &&& split_ary.size_mask ∧
        get_bits (get_key_at_id split_ary split_two_keys 3 0).2.1 split_ary.lsize
            split_ary.raw_key_len
          = get_bits K split_ary.lsize split_ary.raw_key_len :=
  (probe_positions (by decide : split_ary.Valid) split_two_keys_reach).2 3
    (by decide : 3 < split_ary.size) (by decide)

/-- C27: the walk of `get_key_id`, in whatever key layout (key fields in one word
or split over words), for a key of `key_len` bits on a sound table (`TableOK`:
64-bit words and whole cells, as every state reachable from the cleared table
is).  When `get_key_id` returns true with `*id = c`, slot `c` is FILLED, the
original slot it decodes is `hash_matrix.times(key) & size_mask` and the key
bits it stores are the bits `[lsize, key_len)` of `key`.  Let the candidates
before index `j` each be LBSET, or FILLED with another original slot or other
key bits: they are skipped, and for `j` below the number of rounds of the loop
the call returns false if candidate `j` is EMPTY, whatever the later
candidates hold, and returns true with `*id` that candidate if it is FILLED
with the original slot and the key bits of `key`. -/
theorem lookup_stops_and_skips {a : Ary} (hwf : a.Valid) {m : Mem} (hm : TableOK a m) {key : Nat}
    (hkey : key < 2 ^ a.key_len) :
    (∀ c, get_key_id a m key = some c →
      c < a.size ∧ (get_key_at_id a m c 0).1 = key_status.FILLED ∧
        get_bits (get_key_at_id a m c 0).2.1 0 a.lsize = a.hash_times key &&& a.size_mask ∧
        get_bits (get_key_at_id a m c 0).2.1 a.lsize a.raw_key_len
          = get_bits key a.lsize a.raw_key_len) ∧
    ∀ j, j < a.reprobe_limit →
      (∀ i, i < j →
        (get_key_at_id a m (cand a (slot_of a key) i) 0).1 = key_status.LBSET ∨
        ((get_key_at_id a m (cand a (slot_of a key) i) 0).1 = key_status.FILLED ∧
          (get_bits (get_key_at_id a m (cand a (slot_of a key) i) 0).2.1 0 a.lsize
              ≠ slot_of a key ∨
            get_bits (get_key_at_id a m (cand a (slot_of a key) i) 0).2.1 a.lsize
              a.raw_key_len ≠ get_bits key a.lsize a.raw_key_len))) →
      ((get_key_at_id a m (cand a (slot_of a key) j) 0).1 = key_status.EMPTY →
        get_key_id a m key = none) ∧
      ((get_key_at_id a m (cand a (slot_of a key) j) 0).1 = key_status.FILLED →
        get_bits (get_key_at_id a m (cand a (slot_of a key) j) 0).2.1 0 a.lsize
          = slot_of a key →
        get_bits (get_key_at_id a m (cand a (slot_of a key) j) 0).2.1 a.lsize a.raw_key_len
          = get_bits key a.lsize a.raw_key_len →
        get_key_id a m key = some (cand a (slot_of a key) j)) := by
  constructor
  · intro c h
    unfold get_key_id at h
    cases hx : (get_key_id_tmp a m key 0).1 with
    | none => rw [hx] at h; simp at h
    | some x =>
      rw [hx] at h
      simp only [Option.map_some', Option.some.injEq] at h
      obtain ⟨h1, -, h3, h4, h5⟩ := get_key_id_loop_found hwf hm key a.reprobe_limit 0
        (slot_of a key) 0 (slot_of_lt a key) x hx
      rw [h] at h1 h3 h4 h5
      exact ⟨h1, h3, h5, h4⟩
  · intro j hj hskip
    have hw := get_key_id_loop_walk hwf hm hkey hskip a.reprobe_limit 0 0 (by positivity)
      (Nat.zero_le _) (by omega)
    rw [cand_zero] at hw
    constructor
    · intro he
      unfold get_key_id get_key_id_tmp
      simp only []
      rw [show a.hash_times key &&& a.size_mask = slot_of a key from rfl, hw.1 he]
      rfl
    · intro hf hlo hhi
      unfold get_key_id get_key_id_tmp
      simp only []
      rw [show a.hash_times key &&& a.size_mask = slot_of a key from rfl, hw.2 hf hlo hhi]
      rfl

/-- C27, witness: in the split instance with keys 5 and 9 stored (limit 1), key 5
is found in slot 1 (key field split over two words), the candidate of index
0. -/
theorem lookup_stops_and_skips_witness :
    get_key_id split_ary split_two_keys 5 = some (cand split_ary (slot_of split_ary 5) 0) :=
  ((lookup_stops_and_skips (by decide : split_ary.Valid)
    (split_two_keys_reach.rinv (by decide : split_ary.Valid)).1
    (by decide : 5 < 2 ^ split_ary.key_len)).2 0 (by decide)
    (fun i hi => absurd hi (Nat.not_lt_zero i))).2 (by decide) (by decide) (by decide)

/-- C29: continuation cell encoding, in whatever key layout (key fields in one
word or split over words), on a sound table (`TableOK`: 64-bit words and whole
cells, as every state reachable from the cleared table is).  A successful
`claim_large_key` started at the slot `s` reports the candidate of the first
round `r` (`s` for `r = 0`, `(s + R[r]) & (N-1)` for `r >= 1`) whose cell is
free on the primary key mask or already holds the large bit with the reprobe
distance `r`, every earlier candidate being occupied without holding its
distance.  When the cell was free, the memory afterwards is the one with the
large bit and `r` stored into the large key field of the cell (`lkey_store`:
a split field gets its set bits, nothing else is written), and no other cell
changes; when it was not free no word changes.  The large value field of the
cell is as before, the table is sound, the large key field of the cell holds
the large bit with `r` above it, `get_key_at_id` classifies the cell as LBSET
and the loop of `resolve_val_rec` started at `s` accepts that cell, at round
`r`. -/
theorem continuation_cell_encoding {a : Ary} (hwf : a.Valid) {m : Mem} (hm : TableOK a m)
    {s : Nat} (hs : s < a.size) {cl : Claimed} {m2 : Mem}
    (h : claim_large_key a m s = (some cl, m2)) :
    ∃ r, r ≤ a.reprobe_limit ∧ cl.id = cand a s r ∧
      (∀ j, j < r →
        key_at a m (cand a s j) ≠ 0 ∧ lkey_at a m (cand a s j) ≠ 1 + 2 * j) ∧
      (key_at a m cl.id = 0 ∨ lkey_at a m cl.id = 1 + 2 * r) ∧
      (key_at a m cl.id = 0 → m2 = lkey_store a m cl.id (1 + 2 * r)) ∧
      (key_at a m cl.id ≠ 0 → m2 = m) ∧
      (∀ d, d < a.size → d ≠ cl.id → SameCell a m m2 d) ∧
      lval_at a m2 cl.id = lval_at a m cl.id ∧
      TableOK a m2 ∧
      lkey_at a m2 cl.id = 1 + 2 * r ∧
      (∀ tmp, (get_key_at_id a m2 cl.id tmp).1 = key_status.LBSET) ∧
      ∀ carry_bit next val overflows,
        resolve_val_loop a m2 carry_bit next s val overflows (a.reprobe_limit + 1) 0 s
          = resolve_hit a carry_bit next cl.id val overflows (lval_at a m2 cl.id) := by
  obtain ⟨r, hr, hff, hcl, hsame, hfree0⟩ := claim_large_key_some hwf hm hs h
  obtain ⟨-, -, hp, hbefore⟩ := first_fit_some hff
  have hc := cand_lt a hs r
  have hrl : r < 2 ^ a.offsets.reprobe_len := by have := hwf.2.2.2.2.1; omega
  have hfree : key_at a m (cand a s r) = 0 ∨ lkey_at a m (cand a s r) = 1 + 2 * r := by
    simpa [lfits_at] using hp
  have hb : ∀ j, j < r →
      key_at a m (cand a s j) ≠ 0 ∧ lkey_at a m (cand a s j) ≠ 1 + 2 * j := by
    intro j hj
    have := hbefore j (Nat.zero_le _) hj
    simp only [lfits_at, decide_eq_false_iff_not, not_or] at this
    exact this
  have hl2 : lkey_at a m2 (cand a s r) = 1 + 2 * r := by
    by_cases h0 : key_at a m (cand a s r) = 0
    · rw [hfree0 h0, lkey_at_lkey_store (hwf.shape hc)]
      exact Nat.mod_eq_of_lt (one_add_two_mul_lt hrl)
    · rw [hsame h0]
      rcases hfree with h | h
      · exact absurd h h0
      · exact h
  have hm2 : TableOK a m2 := by
    by_cases h0 : key_at a m (cand a s r) = 0
    · rw [hfree0 h0]
      exact tableOK_lkey_store hwf hm hc (by omega)
    · rw [hsame h0]; exact hm
  have hsc : ∀ d, d < a.size → d ≠ cand a s r → SameCell a m m2 d := by
    intro d hd hne
    by_cases h0 : key_at a m (cand a s r) = 0
    · rw [hfree0 h0]
      exact sameCell_lkey_store hwf m hc _ hd (Ne.symm hne)
    · rw [hsame h0]; exact SameCell.srefl a m d
  have hlv : lval_at a m2 (cand a s r) = lval_at a m (cand a s r) := by
    by_cases h0 : key_at a m (cand a s r) = 0
    · rw [hfree0 h0]
      have h1 := lkey_store_apart a m (cand a s r) (1 + 2 * r)
        (fun f hf => ((hwf.shape hc).2.2.2.2.2.2.2.2.2.2 f hf).1)
      have h2 := lkey_store_apart a m (cand a s r) (1 + 2 * r)
        (fun f hf => ((hwf.shape hc).2.2.2.2.2.2.2.2.2.2 f hf).2)
      simp only [val_fld1, val_fld2] at h1 h2
      unfold lval_at val_read
      rw [h1, h2]
    · rw [hsame h0]
  have hb2 : ∀ j, j < r →
      key_at a m2 (cand a s j) ≠ 0 ∧ lkey_at a m2 (cand a s j) ≠ 1 + 2 * j := by
    intro j hj
    obtain ⟨h1, h2⟩ := hb j hj
    by_cases h0 : key_at a m (cand a s r) = 0
    · have hne : cand a s j ≠ cand a s r := by
        intro e
        rw [e] at h1
        exact h1 h0
      have hcj := cand_lt a hs j
      have hsj := hsc _ hcj hne
      rw [sameCell_key_at hwf hcj hsj, sameCell_lkey_at hwf hcj hsj]
      exact ⟨h1, h2⟩
    · rw [hsame h0]
      exact ⟨h1, h2⟩
  subst hcl
  refine ⟨r, hr, rfl, hb, hfree, hfree0, hsame, hsc, hlv, hm2, hl2, fun tmp => ?_,
    fun cb next val ov => ?_⟩
  · exact (status_lbset_iff hwf hm2 hc tmp).2 (lcell_odd hl2)
  · have := resolve_val_loop_hit hwf hm2 cb next hs val ov hb2 hl2 (a.reprobe_limit + 1) 0
      (Nat.zero_le _) (by omega)
    rwa [cand_zero] at this

/-- C29, witness: in the split instance after `add(5, 1)` (slot 1), `claim_large_key`
started at slot 2, whose large key field is split over two words, claims slot
2 at round 0. -/
theorem continuation_cell_encoding_witness :
    ∃ r, r ≤ split_ary.reprobe_limit ∧ 2 = cand split_ary 2 r ∧
      lkey_at split_ary
        (claim_large_key split_ary ((add split_ary 2 clear_mem 5 1).get rfl).mem 2).2 2
        = 1 + 2 * r :=
  (continuation_cell_encoding (by decide : split_ary.Valid)
    ((Reach.add Reach.clear (by decide : 5 < 2 ^ split_ary.key_len)
      (Option.some_get (rfl : (add split_ary 2 clear_mem 5 1).isSome = true)).symm).rinv
      (by decide : split_ary.Valid)).1
    (by decide : 2 < split_ary.size)
    (rfl : claim_large_key split_ary ((add split_ary 2 clear_mem 5 1).get rfl).mem 2
      = (some ⟨2, (split_ary.offsets.word_offset 2).1, (split_ary.offsets.word_offset 2).2.2⟩,
        (claim_large_key split_ary ((add split_ary 2 clear_mem 5 1).get rfl).mem 2).2))).imp
    (fun _ h => ⟨h.1, h.2.1, h.2.2.2.2.2.2.2.2.2.1⟩)

/-- C34: continuation cells are reused, in whatever key layout (key fields in one
word or split over words), on a sound table (`TableOK`: 64-bit words and whole
cells, as every state reachable from the cleared table is).  Let the primary
cell `c` of `key` exist and have a level-0 continuation cell `x` (the cell that
the walk from `(c + R[0]) & (N-1)` accepts), and let `add(key, delta)` return
with a carry out of the primary value field.  Then `claim_large_key`, called
after the increment of the primary field, returns the slot `x` and stores
nothing; `x` is still the continuation cell of `c` after the call; when the add
returns true the value field of `x` holds its former value plus the carry,
modulo `2^lval_len`; when that sum stays below `2^lval_len` the add returns
true, no cell other than `c` and `x` is touched, and every slot that was EMPTY
is still EMPTY; and the carry is `(v + delta) >> val_len` when `v + delta`
fits a 64-bit word, `v` being the value of the primary field. -/
theorem continuation_cell_reused {a : Ary} (hwf : a.Valid) {m : Mem} (hm : TableOK a m)
    {key delta fuel : Nat} {res : AddResult} (hadd : add a fuel m key delta = some res) {r : Nat}
    (hff : first_fit (fits_at a m key (slot_of a key)) a.reprobe_limit 0 = some r)
    (hheld : key_at a m (cand a (slot_of a key) r) ≠ 0) {x : Nat}
    (hx : cont_cell a m (nxt a (cand a (slot_of a key) r)) (a.reprobe_limit + 1) 0 = some x)
    (hov : (add_val_field (claim_mem a m key r) (val_w a (cand a (slot_of a key) r)) delta
      (a.offsets.word_offset (cand a (slot_of a key) r)).2.1.val).1 ≠ 0) :
    claim_large_key a (incr_mem a m key r delta) (nxt a (cand a (slot_of a key) r))
        = (some ⟨x, (a.offsets.word_offset x).1, (a.offsets.word_offset x).2.2⟩,
            incr_mem a m key r delta) ∧
      cont_cell a res.mem (nxt a (cand a (slot_of a key) r)) (a.reprobe_limit + 1) 0 = some x ∧
      (res.ok = true →
        lval_at a res.mem x
          = (lval_at a m x
              + (add_val_field (claim_mem a m key r) (val_w a (cand a (slot_of a key) r)) delta
                  (a.offsets.word_offset (cand a (slot_of a key) r)).2.1.val).1)
            % 2 ^ a.offsets.lval_len) ∧
      (lval_at a m x
          + (add_val_field (claim_mem a m key r) (val_w a (cand a (slot_of a key) r)) delta
              (a.offsets.word_offset (cand a (slot_of a key) r)).2.1.val).1
          < 2 ^ a.offsets.lval_len →
        res.ok = true ∧
        (∀ y, y < a.size → y ≠ cand a (slot_of a key) r → y ≠ x → SameCell a m res.mem y) ∧
        ∀ y, y < a.size → (get_key_at_id a m y 0).1 = key_status.EMPTY →
          (get_key_at_id a res.mem y 0).1 = key_status.EMPTY) ∧
      (val_at a m (cand a (slot_of a key) r) + delta < 2 ^ 64 →
        (add_val_field (claim_mem a m key r) (val_w a (cand a (slot_of a key) r)) delta
            (a.offsets.word_offset (cand a (slot_of a key) r)).2.1.val).1
          = (val_at a m (cand a (slot_of a key) r) + delta) / 2 ^ a.offsets.val_len) := by
  have hrun := add_run hwf hm hadd
  have hp := cand_lt a (slot_of_lt a key) r
  have hs := nxt_lt a (cand a (slot_of a key) r)
  obtain ⟨hr, hm1, hk1, hh, -⟩ := claim_mem_facts hwf hm hff
  obtain ⟨hm2, hk2⟩ := keeps_add_val_val hwf hm1 hp delta
  have hkm : Keeps a m (incr_mem a m key r delta) := hk1.trans hk2
  have hv1 := val_at_claim_mem hwf m key r
  -- the continuation cell in the memory after the increment of the primary field
  obtain ⟨r2, hr2, hxr, hlm, hl1, hff1, -⟩ := cont_cell_keeps hkm hs hx
  have hxs : x < a.size := by rw [hxr]; exact cand_lt a hs r2
  have hx0 : key_at a m x ≠ 0 := by have := lcell_odd hlm; omega
  have hx1 : key_at a (incr_mem a m key r delta) x ≠ 0 := hkm.ne_zero hxs hx0
  have hc2 : key_at a (incr_mem a m key r delta) (cand a (slot_of a key) r)
      = 2 * akey_of a key r := by
    have := (hk2 _ hp).1 (holds_ne_zero hwf hr hh) (holds_even hh)
    unfold incr_mem
    rw [this]; exact hh
  have hne0 : key_at a (incr_mem a m key r delta) (cand a (slot_of a key) r) ≠ 0 := by
    rw [hc2, ← hh]; exact holds_ne_zero hwf hr hh
  have hev : key_at a (incr_mem a m key r delta) (cand a (slot_of a key) r) % 2 = 0 := by
    rw [hc2]; omega
  have hxc : x ≠ cand a (slot_of a key) r := by
    rw [hxr]
    exact lclaimed_not_primary hff1 hne0 hev
  have hsame2 : ∀ y, y < a.size → y ≠ cand a (slot_of a key) r →
      SameCell a m (incr_mem a m key r delta) y := fun y hy hne =>
    (sameCell_claim_mem hwf m hy (Ne.symm hne)).scomp
      (sameCell_add_val_val hwf hm1 hp hy (Ne.symm hne) delta)
  have elv : lval_at a (incr_mem a m key r delta) x = lval_at a m x :=
    sameCell_lval_at (hsame2 x hxs hxc)
  have hkres : Keeps a m res.mem := (hrun.keeps hwf hm).2
  obtain ⟨-, -, -, -, -, -, hxres⟩ := cont_cell_keeps hkres hs hx
  refine ⟨?_, hxres, fun hok => ?_, fun hfit => ?_, fun hsum => ?_⟩
  · have hm2b : TableOK a (incr_mem a m key r delta) := hm2
    rw [claim_large_key_eq hwf hm2b hs, hff1, hxr]
    simp only [claim_large_key_result]
    rw [if_neg (by rw [← hxr]; exact hx1)]
  · cases hrun with
    | full hff2 => rw [hff2] at hff; cases hff
    | done hff2 hc =>
      rw [hff2] at hff; cases hff
      exact absurd hc hov
    | more hff2 hc hsub =>
      rename_i m3 r3 ok
      rw [hff2] at hff; cases hff
      have hok2 : ok = true := hok
      simp only [hok2, if_true]
      rw [hok2] at hsub
      obtain ⟨r4, -, hff4, -, hlv, -, -⟩ := hsub.first_level hwf hm2 hne0 hev
      have e4 : r4 = r2 := by
        have : first_fit (lfits_at a (incr_mem a m key r delta)
            (nxt a (cand a (slot_of a key) r))) a.reprobe_limit 0 = some r4 := hff4
        rw [hff1] at this
        exact (Option.some.inj this).symm
      subst e4
      rw [← hxr] at hlv
      rw [hlv]
      exact congrArg (fun v => (v
        + (add_val_field (claim_mem a m key r) (val_w a (cand a (slot_of a key) r)) delta
            (a.offsets.word_offset (cand a (slot_of a key) r)).2.1.val).1)
        % 2 ^ a.offsets.lval_len) elv
  · cases hrun with
    | full hff2 => rw [hff2] at hff; cases hff
    | done hff2 hc =>
      rw [hff2] at hff; cases hff
      exact absurd hc hov
    | more hff2 hc hsub =>
      rename_i m3 r3 ok
      rw [hff2] at hff; cases hff
      have hfit2 : lval_at a (add_val_field (claim_mem a m key r)
          (val_w a (cand a (slot_of a key) r)) delta
          (a.offsets.word_offset (cand a (slot_of a key) r)).2.1.val).2 x
          + (add_val_field (claim_mem a m key r) (val_w a (cand a (slot_of a key) r)) delta
              (a.offsets.word_offset (cand a (slot_of a key) r)).2.1.val).1
          < 2 ^ a.offsets.lval_len := by
        have : lval_at a (add_val_field (claim_mem a m key r)
            (val_w a (cand a (slot_of a key) r)) delta
            (a.offsets.word_offset (cand a (slot_of a key) r)).2.1.val).2 x
            = lval_at a m x := elv
        rw [this]
        exact hfit
      have hok2 : ok = true := by
        refine hsub.ok_of_fit hwf hm2 hff1 (by rw [← hxr]; exact hx1) ?_
        rw [← hxr]
        exact hfit2
      subst hok2
      simp only [if_true]
      obtain ⟨r4, -, hff4, -, -, -, hone⟩ := hsub.first_level hwf hm2 hne0 hev
      have e4 : r4 = r2 := by
        have : first_fit (lfits_at a (incr_mem a m key r delta)
            (nxt a (cand a (slot_of a key) r))) a.reprobe_limit 0 = some r4 := hff4
        rw [hff1] at this
        exact (Option.some.inj this).symm
      subst e4
      rw [← hxr] at hone
      have hsame3 : ∀ y, y < a.size → y ≠ cand a (slot_of a key) r → y ≠ x →
          SameCell a m m3 y := fun y hy hyc hyx =>
        (hsame2 y hy hyc).scomp (hone hfit2 y hy hyx)
      refine ⟨trivial, hsame3, fun y hy he => ?_⟩
      rw [status_empty_iff hwf hm hy 0] at he
      rw [status_empty_iff hwf (hsub.lkeeps hwf hm2).1 hy 0]
      have hyc : y ≠ cand a (slot_of a key) r := fun e => hheld (e ▸ he)
      have hyx : y ≠ x := fun e => hx0 (e ▸ he)
      rw [sameCell_key_at hwf hy (hsame3 y hy hyc hyx)]
      exact he
  · unfold val_w
    rw [add_val_field_carry _ _ delta (hwf.val_shape hp) hm1.1 (by
      rw [show val_read (claim_mem a m key r) _ _ = val_at a (claim_mem a m key r)
        (cand a (slot_of a key) r) from rfl, hv1]; exact hsum)]
    rw [show val_read (claim_mem a m key r) _ _ = val_at a (claim_mem a m key r)
      (cand a (slot_of a key) r) from rfl, hv1]

/-- C34, witness: in the split instance (key field of slot 1 and large key field
of slot 2 split over two words) after `add(5, 5)` slot 1 holds `v = 1` and its
continuation cell in slot 2 holds 1; `add(5, 3)` overflows slot 1 again
with carry 1, which goes to slot 2: it then holds 2, and slot 3 is still
EMPTY. -/
theorem continuation_cell_reused_witness :
    cont_cell split_ary ((add split_ary 3 clear_mem 5 5).get rfl).mem
        (nxt split_ary (cand split_ary (slot_of split_ary 5) 0))
        (split_ary.reprobe_limit + 1) 0 = some 2 ∧
      lval_at split_ary ((add split_ary 3 clear_mem 5 5).get rfl).mem 2 = 1 ∧
      (add_val_field (claim_mem split_ary ((add split_ary 3 clear_mem 5 5).get rfl).mem 5 0)
          (val_w split_ary (cand split_ary (slot_of split_ary 5) 0)) 3
          (split_ary.offsets.word_offset (cand split_ary (slot_of split_ary 5) 0)).2.1.val).1
        = 1 ∧
      ((add split_ary 3 ((add split_ary 3 clear_mem 5 5).get rfl).mem 5 3).get rfl).ok = true ∧
      lval_at split_ary
          ((add split_ary 3 ((add split_ary 3 clear_mem 5 5).get rfl).mem 5 3).get rfl).mem 2
        = (lval_at split_ary ((add split_ary 3 clear_mem 5 5).get rfl).mem 2
            + (add_val_field
                (claim_mem split_ary ((add split_ary 3 clear_mem 5 5).get rfl).mem 5 0)
                (val_w split_ary (cand split_ary (slot_of split_ary 5) 0)) 3
                (split_ary.offsets.word_offset
                  (cand split_ary (slot_of split_ary 5) 0)).2.1.val).1)
          % 2 ^ split_ary.offsets.lval_len :=
  ⟨by decide, by decide, by decide, rfl,
    (continuation_cell_reused (by decide : split_ary.Valid)
      ((Reach.add Reach.clear (by decide : 5 < 2 ^ split_ary.key_len)
        (Option.some_get (rfl : (add split_ary 3 clear_mem 5 5).isSome = true)).symm).rinv
        (by decide : split_ary.Valid)).1
      (Option.some_get (rfl : (add split_ary 3
        ((add split_ary 3 clear_mem 5 5).get rfl).mem 5 3).isSome = true)).symm
      (by decide : first_fit (fits_at split_ary ((add split_ary 3 clear_mem 5 5).get rfl).mem 5
        (slot_of split_ary 5)) split_ary.reprobe_limit 0 = some 0)
      (by decide) (by decide : cont_cell split_ary ((add split_ary 3 clear_mem 5 5).get rfl).mem
        (nxt split_ary (cand split_ary (slot_of split_ary 5) 0))
        (split_ary.reprobe_limit + 1) 0 = some 2)
      (by decide)).2.2.1 rfl⟩

end LargeHash
